import Mathlib

/-!
# A two-pass assembler: symbol table, passes and encoders

Shallow embedding of the C sources (`Assembler.h`, `LabelFunctions.c`,
`LineProcessFunctions.c`, `ValidationFunctions.c`, `FirstPass.c`,
`SecondPass.c`, `InstructionsFunctions.c`, `DirectivesFunctions.c`).

Conventions of the embedding.

* A C string is the list of its characters, without the terminating NUL; a
  `char *` that may be `NULL` is an `Option`.
* `strtok` keeps its position in a static variable; here it returns the token
  together with the saved position, which the next `strtok(NULL, ..)` receives.
* `signed short` words of `Code` and `Data` are kept as their 16-bit
  two's-complement bit pattern (a natural number below `2^16`), `unsigned short`
  values are reduced modulo `2^16`, and the `short` returned by `findLabel` is
  the two's-complement reading of the low 16 bits of the bucket index.
* A function that dereferences `NULL`, reads a table bucket through a negative
  index or reads an uninitialised local returns `none`.
* `int` counters (`table_size`, `num_labels`, `IC`, `DC`) are natural numbers:
  they never decrease, and signed overflow is undefined behaviour in C.
* `atoi` is `(int) strtol(s, NULL, 10)` with `int` of 32 bits and `long` of 64
  bits; plain `char` is signed.
-/

namespace Assembler

/-! ## Constants of `Assembler.h` -/

def MAX_LABEL : Nat := 31
def TABLE_SIZE : Nat := 10
def SIZE_OF_BITS : Nat := 10
def IMMEDIATE : Int := 0
def LABEL : Int := 1
def MATRIX : Int := 2
def REGISTER : Int := 3

/-! ## The C library functions the sources use -/

abbrev CStr := List Char

def isspace (c : Char) : Bool := c.toNat = 32 || (9 ≤ c.toNat && c.toNat ≤ 13)

def isdigit (c : Char) : Bool := 48 ≤ c.toNat && c.toNat ≤ 57

def isalpha (c : Char) : Bool :=
  (65 ≤ c.toNat && c.toNat ≤ 90) || (97 ≤ c.toNat && c.toNat ≤ 122)

def isalnum (c : Char) : Bool := isalpha c || isdigit c

/-- The C call `strchr(s, c) != NULL`. -/
def hasChar (s : CStr) (c : Char) : Bool := s.any (fun d => d = c)

/-- The C call `strchr(s, c)`: the suffix of `s` that starts at the first `c`. -/
def strchr (s : CStr) (c : Char) : Option CStr :=
  match s.dropWhile (fun d => d ≠ c) with
  | [] => none
  | r => some r

/-- The C call `strncmp(line, word, strlen(word)) == 0`. -/
def startsWith (line : CStr) (word : CStr) : Bool := word.isPrefixOf line

/-- The C call `strtok(s, delims)`; `strtok(NULL, delims)` is `strtok saved delims`
for the saved position returned by the previous call. -/
def strtok (s : CStr) (delims : CStr) : Option CStr × CStr :=
  match s.dropWhile (fun c => delims.contains c) with
  | [] => (none, [])
  | r => (some (r.takeWhile (fun c => !delims.contains c)),
          (r.dropWhile (fun c => !delims.contains c)).drop 1)

def digitsValue (s : CStr) : Nat :=
  (s.takeWhile isdigit).foldl (fun a c => 10 * a + (c.toNat - 48)) 0

/-- The decimal number that `strtol(s, NULL, 10)` reads: white space, an optional
sign and the run of digits behind it (0 when there is no digit). -/
def decimalValue (s : CStr) : Int :=
  match s.dropWhile isspace with
  | [] => 0
  | c :: r =>
    if c = '-' then - (digitsValue r : Int)
    else if c = '+' then (digitsValue r : Int)
    else (digitsValue (c :: r) : Int)

/-- The value `strtol(s, NULL, 10)` returns, `long` being 64 bits wide: a number
outside the range of `long` gives `LONG_MAX` or `LONG_MIN`. -/
def strtol (s : CStr) : Int :=
  let v := decimalValue s
  if v > 9223372036854775807 then 9223372036854775807
  else if v < -9223372036854775808 then -9223372036854775808
  else v

/-- Conversion of a `long` to `int` (32 bits, two's complement). -/
def toInt32 (v : Int) : Int := (v + 2147483648) % 4294967296 - 2147483648

/-- The C call `atoi(s)` as the C library computes it, `(int) strtol(s, NULL, 10)`:
the decimal value when it is in the range of `int`, its low 32 bits when it is
in the range of `long`, and -1 or 0 beyond that range. -/
def atoi (s : CStr) : Int := toInt32 (strtol s)

/-- Conversion of an `int` to `signed short`. -/
def toInt16 (v : Int) : Int := (v + 32768) % 65536 - 32768

/-- Conversion of a `char` to `int`, plain `char` being signed and 8 bits wide. -/
def charValue (c : Char) : Int := ((c.toNat : Int) + 128) % 256 - 128

/-! ## `LineProcessFunctions.c`: classifiers and trimming -/

def deleteSpaces (str : CStr) : CStr :=
  ((str.dropWhile isspace).reverse.dropWhile (fun c => c = ' ' || c = '\t')).reverse

/-- The function `deleteSpaces` on a pointer that may be `NULL`. -/
def deleteSpacesP (str : Option CStr) : Option CStr := str.map deleteSpaces

def isEmptyOrComment (line : CStr) : Bool :=
  match line with
  | [] => true
  | c :: _ => c = ';' || c = '\n'

def IsLabelDefinition (line : CStr) : Bool := hasChar line ':'

def IsInstructionLine (line : CStr) : Bool :=
  match line with
  | [] => true
  | c :: _ => c ≠ '.'

def IsDataDirective (line : CStr) : Bool := startsWith line ".data".toList

def IsMatrixDirective (line : CStr) : Bool := startsWith line ".mat".toList

def IsStringDirective (line : CStr) : Bool := startsWith line ".string".toList

def isExtern (line : CStr) : Bool := startsWith line ".extern".toList

/-- The test of `IsEntryDirective`; its side effect (clearing `is_label`) is
applied by `ProcessDirectives`. -/
def IsEntryDirective (line : CStr) : Bool := startsWith line ".entry".toList

/-! ## `InstructionsFunctions.c`: opcode table -/

def getOpcode (inst : CStr) : Int :=
  if inst = "mov".toList then 0
  else if inst = "cmp".toList then 1
  else if inst = "add".toList then 2
  else if inst = "sub".toList then 3
  else if inst = "lea".toList then 4
  else if inst = "clr".toList then 5
  else if inst = "not".toList then 6
  else if inst = "inc".toList then 7
  else if inst = "dec".toList then 8
  else if inst = "jmp".toList then 9
  else if inst = "bne".toList then 10
  else if inst = "jsr".toList then 11
  else if inst = "red".toList then 12
  else if inst = "prn".toList then 13
  else if inst = "rts".toList then 14
  else if inst = "stop".toList then 15
  else -1

def getNumOperand (opcode : Int) : Nat :=
  if opcode = 14 ∨ opcode = 15 then 0
  else if opcode = 0 ∨ opcode = 1 ∨ opcode = 2 ∨ opcode = 3 ∨ opcode = 4 then 2
  else 1

/-! ## `ValidationFunctions.c`: label names -/

def reserved_word : List CStr :=
  ["string".toList, "data".toList, "entry".toList, "extern".toList]

def register_name : List CStr :=
  ["r0".toList, "r1".toList, "r2".toList, "r3".toList,
   "r4".toList, "r5".toList, "r6".toList, "r7".toList]

def validLabel (label_name : CStr) : Bool :=
  if hasChar label_name ' ' || hasChar label_name '\t' then false
  else if label_name.length > MAX_LABEL then false
  else if !(match label_name with | [] => false | c :: _ => isalpha c) then false
  else if !((label_name.drop 1).all isalnum) then false
  else if reserved_word.contains label_name then false
  else if register_name.contains label_name then false
  else if getOpcode label_name ≠ -1 then false
  else true

/-! ## `LabelFunctions.c`: the symbol table -/

structure Label where
  name : CStr
  ext : Bool
  ent : Bool
  mat : Bool
  address : Nat
  ref : List Nat
  dc : Nat
deriving DecidableEq, Repr

/-- The table: `Labels` holds `table_size` chains, each chain listed from the
head of the linked list. -/
structure LabelTable where
  table_size : Nat
  num_labels : Nat
  Labels : List (List Label)
deriving DecidableEq, Repr

def create_LabelTable (size : Nat) : LabelTable :=
  { table_size := size, num_labels := 0, Labels := List.replicate size [] }

def createLabel (name : CStr) (ext mat : Bool) : Label :=
  { name := name, ext := ext, ent := false, mat := mat, address := 0, ref := [], dc := 0 }

def hash (str : CStr) : Nat :=
  str.foldl (fun h c => ((h <<< 3) ^^^ c.toNat) % 2 ^ 32) 0

/-- Link `l` at the head of chain `index`. -/
def pushChain (buckets : List (List Label)) (index : Nat) (l : Label) : List (List Label) :=
  buckets.set index (l :: buckets.getD index [])

def resizeLabelTable (t : LabelTable) : LabelTable :=
  let new_size := t.table_size * 2
  { table_size := new_size
    num_labels := t.num_labels
    Labels := t.Labels.foldl
      (fun new_labels chain =>
        chain.foldl (fun acc l => pushChain acc (hash l.name % new_size) l) new_labels)
      (List.replicate new_size []) }

/-- The comparison `num_labels >= FACTOR * table_size` with `FACTOR = 0.75`: the
product is exact in `double`, so the test is `4 * num_labels >= 3 * table_size`. -/
def CheckAndResizeTable (t : LabelTable) : LabelTable :=
  if 4 * t.num_labels ≥ 3 * t.table_size then resizeLabelTable t else t

def addLabel (t : LabelTable) (name : CStr) (ext mat : Bool) : LabelTable :=
  let new_label := createLabel name ext mat
  let index := hash name % t.table_size
  let current_label := t.Labels.getD index []
  CheckAndResizeTable
    { table_size := t.table_size
      num_labels := if current_label = [] then t.num_labels + 1 else t.num_labels
      Labels := pushChain t.Labels index new_label }

/-- Conversion of an `unsigned int` to `short int`. -/
def toShort (n : Nat) : Int :=
  if n % 65536 < 32768 then ((n % 65536 : Nat) : Int) else ((n % 65536 : Nat) : Int) - 65536

def findLabel (t : LabelTable) (name : CStr) : Int :=
  let index := hash name % t.table_size
  if (t.Labels.getD index []).any (fun l => l.name = name) then toShort index else -1

/-- Apply `f` to the first label of the chain whose name is `name`. -/
def updateChain (chain : List Label) (name : CStr) (f : Label → Label) : List Label :=
  match chain with
  | [] => []
  | l :: r => if l.name = name then f l :: r else l :: updateChain r name f

/-- Write through the pointer found by walking chain `index` for `name`. -/
def updateLabel (t : LabelTable) (index : Nat) (name : CStr) (f : Label → Label) :
    LabelTable :=
  { t with Labels := t.Labels.set index (updateChain (t.Labels.getD index []) name f) }

/-- The chain walk `for (l = table->Labels[index]; l; l = l->next) if (strcmp ..)`:
the first label named `name` in chain `index`. -/
def chainLookup (t : LabelTable) (index : Nat) (name : CStr) : Option Label :=
  (t.Labels.getD index []).find? (fun l => l.name = name)

/-- A `Label *` obtained from a chain walk: the chain and the name searched. -/
abbrev LabelPtr := Nat × CStr

def UpdateAddressAndGetLabel (label_name : Option CStr) (t : LabelTable) (IC DC : Nat) :
    LabelTable × Option LabelPtr :=
  match label_name with
  | none => (t, none)
  | some name =>
    let index := findLabel t name
    if index < 0 ∨ index ≥ (t.table_size : Int) then (t, none)
    else
      match chainLookup t index.toNat name with
      | none => (t, none)
      | some _ =>
        (updateLabel t index.toNat name
            (fun l => { l with address := (IC + DC + 100) % 65536 }),
          some (index.toNat, name))

def ProcessLabelDefinition (line : CStr) (t : LabelTable) (errorFlag : Bool) :
    Option (LabelTable × Bool) :=
  let tok := strtok line ":\r\n".toList
  match deleteSpacesP tok.1 with
  | none => none
  | some label_name =>
    if !validLabel label_name then some (t, true)
    else if findLabel t label_name ≠ -1 then some (t, true)
    else
      match deleteSpacesP (strtok tok.2 "\r\n".toList).1 with
      | none => none
      | some line_rest =>
        some (addLabel t label_name false (IsMatrixDirective line_rest), errorFlag)

def ProcessExternDefinition (line : CStr) (t : LabelTable) (errorFlag : Bool) :
    LabelTable × Bool :=
  let label_name := deleteSpaces (line.drop ".extern".length)
  if isEmptyOrComment label_name then (t, true)
  else if hasChar label_name ' ' || hasChar label_name '\t' then (t, true)
  else
    let label_name := deleteSpaces label_name
    if !validLabel label_name then (t, true)
    else if findLabel t label_name ≠ -1 then (t, true)
    else (addLabel t label_name true false, errorFlag)

/-! ## The image: `Code`, `Data` and the counters -/

/-- A word array (`signed short Code[]`, `Data[]`), indexed by position. -/
abbrev Mem := Nat → Nat

def zeroMem : Mem := fun _ => 0

def setWord (m : Mem) (i v : Nat) : Mem := fun j => if j = i then v else m j

/-- The loop of `insertBin`: the low `SIZE_OF_BITS` bits of `x` are OR-ed, one
at a time, into word `count`. -/
def insertBin (x : Int) (Code : Mem) (count : Nat) : Mem :=
  let tmp := (x % 65536).toNat
  (List.range SIZE_OF_BITS).foldl
    (fun code i => setWord code count (code count ||| (((tmp >>> i) % 2) <<< i))) Code

def saveRef (label : Label) (address : Nat) : Label :=
  { label with ref := (address % 65536) :: label.ref }

/-- Everything `ProcessLine` reads and writes: the table, both word arrays,
`PC[0]`, `PC[1]` and the error flag. -/
structure AsmState where
  table : LabelTable
  Code : Mem
  Data : Mem
  IC : Nat
  DC : Nat
  Error : Bool

/-! ## `ValidationFunctions.c`: operands and directive parameters -/

/-- For an empty `line` the C code reads `line[-1]`, the blank that
`deleteSpaces` skipped in `EncodeInstruction`, which is not a comma. -/
def IsValidInstSyntax (line : Option CStr) (numOprnd : Nat) : Option Bool :=
  if numOprnd = 0 ∧ line.isSome then some false
  else
    match line with
    | none => none
    | some l =>
      if l.head? = some ',' || l.getLast? = some ',' then some false
      else if numOprnd = 1 && hasChar l ',' then some false
      else if numOprnd = 1 && (hasChar l ' ' || hasChar l '\t') then some false
      else if numOprnd = 2 && !hasChar l ',' then some false
      else some true

def IsValidImmUse (i : Nat) (opcode : Int) (numOprnd : Nat) : Bool :=
  if i = 1 ∧ ((numOprnd = 1 ∧ opcode ≠ 13) ∨ (numOprnd = 2 ∧ opcode = 4)) then false
  else if i = 2 ∧ opcode ≠ 1 then false
  else true

def isValidNum (num : CStr) : Bool :=
  match num with
  | [] => true
  | c :: r =>
    if c = '-' || c = '+' then
      (match r with
       | [] => false
       | _ => r.all isdigit)
    else (c :: r).all isdigit

def isValidImmediate (operand : CStr) : Bool :=
  if operand.head? ≠ some '#' then false
  else isValidNum (operand.drop 1)

def isValidReg (operand : CStr) : Bool :=
  if operand.head? ≠ some 'r' || !((operand.drop 1).head?.any isdigit) || operand.length ≠ 2
  then false
  else
    let reg := atoi (operand.drop 1)
    if reg < 0 ∨ reg > 7 then false else true

def IsValidRegUse (i numOprnd : Nat) (opcode : Int) : Bool :=
  if i = 1 ∧ numOprnd = 2 ∧ opcode = 4 then false else true

def isLegalBrackets (operand : Option CStr) : Bool :=
  match operand with
  | none => false
  | some op =>
    match strchr op '[' with
    | none => false
    | some b1 =>
      match strchr (b1.drop 1) ']' with
      | none => false
      | some e1 =>
        match strchr (e1.drop 1) '[' with
        | none => false
        | some b2 =>
          match strchr (b2.drop 1) ']' with
          | none => false
          | some e2 =>
            let p := (e2.drop 1).dropWhile isspace
            if hasChar p '[' || hasChar p ']' then false else true

/-- The result of `ValidateAndParseMatrixOperand`: `none` is a crash, `some none`
the return value 0, `some (some (regs0, regs1, mat_name))` the return value 1. -/
def ValidateAndParseMatrixOperand (operand : CStr) (t : LabelTable) :
    Option (Option (Nat × Nat × CStr)) :=
  if !isLegalBrackets (some operand) then some none
  else
    let tok1 := strtok operand "[".toList
    match deleteSpacesP tok1.1 with
    | none => some none
    | some tmp_name =>
      if tmp_name = [] then some none
      else
        let index := findLabel t tmp_name
        if index = -1 then some none
        else if index < 0 then none
        else if (t.Labels.getD index.toNat []).any
            (fun l => l.name = tmp_name && l.mat = false) then some none
        else
          let tok2 := strtok tok1.2 "]".toList
          match deleteSpacesP tok2.1 with
          | none => some none
          | some reg0 =>
            if reg0 = [] then some none
            else if !isValidReg reg0 then some none
            else
              let tok3 := strtok tok2.2 "]".toList
              match deleteSpacesP tok3.1 with
              | none => none
              | some r =>
                if r.head? ≠ some '[' then some none
                else
                  let reg1 := r.drop 1
                  if reg1 = [] then some none
                  else if !isValidReg reg1 then some none
                  else if (strtok tok3.2 "\r\n".toList).1.isSome then some none
                  else some (some ((atoi (reg0.drop 1) % 65536).toNat,
                                   (atoi (reg1.drop 1) % 65536).toNat, tmp_name))

/-- The scan of `hasDoubleCommas`; `afterComma` holds while the blanks that
follow a comma are being skipped. -/
def hasDoubleCommasFrom (afterComma : Bool) (line : CStr) : Bool :=
  match line with
  | [] => false
  | c :: r =>
    if afterComma then
      if isspace c then hasDoubleCommasFrom true r
      else if c = ',' then true
      else hasDoubleCommasFrom false r
    else if c = ',' then hasDoubleCommasFrom true r
    else hasDoubleCommasFrom false r

def hasDoubleCommas (line : CStr) : Bool := hasDoubleCommasFrom false line

/-- For an empty `dataLine` the C code reads `dataLine[-1]`, a blank or the last
letter of the directive, which is not a comma. -/
def IsValidDataSyntax (dataLine : CStr) : Bool :=
  if dataLine.head? = some ',' || dataLine.getLast? = some ',' then false
  else if !hasChar dataLine ',' && (hasChar dataLine ' ' || hasChar dataLine '\t') then false
  else if hasDoubleCommas dataLine then false
  else true

/-- The character loop of `IsValidDataParam`. -/
def dataParamChars (param : CStr) : Bool :=
  match param with
  | [] => true
  | c :: r =>
    if c = '-' || c = '+' then
      (match r with
       | [] => false
       | d :: r2 => isdigit d && dataParamChars r2)
    else isdigit c && dataParamChars r

def IsValidDataParam (param : CStr) : Bool :=
  if hasChar param ' ' || hasChar param '\t' then false
  else dataParamChars param

def IsValidString (string : Option CStr) : Bool :=
  match string with
  | none => false
  | some s =>
    if s.head? ≠ some '"' || s.getLast? ≠ some '"' then false else true

/-! ## `InstructionsFunctions.c`: operand encoders -/

def getAddressingMode (operand : CStr) (t : LabelTable) : Int :=
  if operand.head? = some '#' then 0
  else if findLabel t operand ≠ -1 then 1
  else
    match strchr operand '[', strchr operand ']' with
    | some first_bracket, some second_bracket =>
      if first_bracket.length > second_bracket.length then
        (if (strchr second_bracket '[').isSome && (strchr (second_bracket.drop 1) ']').isSome
         then 2 else -1)
      else if operand.head? = some 'r' then 3
      else -1
    | _, _ => if operand.head? = some 'r' then 3 else -1

/-- The locals of `EncodeOperands` that the operand encoders update, with the
table, the code array and the error flag. -/
structure OperandState where
  table : LabelTable
  Code : Mem
  word_count : Nat
  is_reg : Bool
  Error : Bool

def encodeImmediate (operand : CStr) (Code : Mem) (IC word_count : Nat) : Mem × Nat :=
  let imm := toInt16 (atoi operand)
  (insertBin (imm * 4) Code (IC + word_count), word_count + 1)

/-- Returns `none` for a crash, else the return value with the updated table,
code array and word count. -/
def encodeLabelOperand (operand : CStr) (t : LabelTable) (Code : Mem) (IC word_count : Nat) :
    Option (Bool × LabelTable × Mem × Nat) :=
  let index := findLabel t operand
  if index = -1 then some (false, t, Code, word_count)
  else if index < 0 then none
  else
    match chainLookup t index.toNat operand with
    | none => none
    | some current_label =>
      if current_label.mat then some (false, t, Code, word_count)
      else
        let A_R_E : Int := if current_label.ext then 1 else 2
        some (true,
          updateLabel t index.toNat operand (fun l => saveRef l (IC + word_count)),
          insertBin A_R_E Code (IC + word_count),
          word_count + 1)

def encodeMatrixOperand (matrix : CStr) (t : LabelTable) (Code : Mem) (IC word_count : Nat) :
    Option (Bool × LabelTable × Mem × Nat) :=
  match ValidateAndParseMatrixOperand matrix t with
  | none => none
  | some none => some (false, t, Code, word_count)
  | some (some (regs0, regs1, mat_name)) =>
    let index := findLabel t mat_name
    if index < 0 then none
    else
      match chainLookup t index.toNat mat_name with
      | none => none
      | some _ =>
        let A_R_E : Int := 2
        let t1 := updateLabel t index.toNat mat_name (fun l => saveRef l (IC + word_count))
        let Code1 := insertBin A_R_E Code (IC + word_count)
        let Code2 := insertBin ((regs0 : Int) * 64) Code1 (IC + (word_count + 1))
        let Code3 := insertBin ((regs1 : Int) * 4) Code2 (IC + (word_count + 1))
        some (true, t1, Code3, word_count + 2)

def encodeRegisterOperand (operand : CStr) (Code : Mem) (i numOprnd : Nat) (IC : Nat)
    (is_reg : Bool) (word_count : Nat) : Mem × Bool × Nat :=
  let reg := atoi (operand.drop 1)
  if numOprnd = 1 then (insertBin (reg * 4) Code (IC + word_count), is_reg, word_count + 1)
  else if i = 1 then (insertBin (reg * 64) Code (IC + word_count), true, word_count + 1)
  else if i = 2 then
    if is_reg then (insertBin (reg * 4) Code (IC + (word_count - 1)), false, word_count)
    else (insertBin (reg * 4) Code (IC + word_count), is_reg, word_count + 1)
  else (Code, is_reg, word_count)

/-- One turn of the operand loop of `EncodeOperands` on a non-`NULL` operand.
`none` is a crash; the flag is `true` when the loop goes on and `false` when
the function has returned. -/
def encodeOperand (operand : CStr) (i numOprnd : Nat) (opcode : Int) (IC : Nat)
    (s : OperandState) : Option (OperandState × Bool) :=
  let addressingMode := getAddressingMode operand s.table
  let modeBits : Int := if i = 1 ∧ numOprnd = 2 then addressingMode * 16 else addressingMode * 4
  if addressingMode = IMMEDIATE then
    if !isValidImmediate operand || !IsValidImmUse i opcode numOprnd then
      some ({ s with Error := true }, false)
    else
      let r := encodeImmediate (operand.drop 1) s.Code IC s.word_count
      some ({ s with Code := insertBin modeBits r.1 IC, word_count := r.2 }, true)
  else if addressingMode = LABEL then
    match encodeLabelOperand operand s.table s.Code IC s.word_count with
    | none => none
    | some (false, _, _, _) => some ({ s with Error := true }, false)
    | some (true, t, code, wc) =>
      some ({ s with table := t, Code := insertBin modeBits code IC, word_count := wc }, true)
  else if addressingMode = MATRIX then
    match encodeMatrixOperand operand s.table s.Code IC s.word_count with
    | none => none
    | some (false, _, _, _) => some ({ s with Error := true }, false)
    | some (true, t, code, wc) =>
      some ({ s with table := t, Code := insertBin modeBits code IC, word_count := wc }, true)
  else if addressingMode = REGISTER then
    if !isValidReg operand || !IsValidRegUse i numOprnd opcode then
      some ({ s with Error := true }, false)
    else
      let r := encodeRegisterOperand operand s.Code i numOprnd IC s.is_reg s.word_count
      some ({ s with Code := insertBin modeBits r.1 IC, is_reg := r.2.1, word_count := r.2.2 },
        true)
  else some ({ s with Error := true }, false)

/-- Write the locals back; `PC[0]` advances only when the loop ran to its end. -/
def closeOperands (st : AsmState) (s : OperandState) (advance : Bool) : AsmState :=
  { st with table := s.table, Code := s.Code, Error := s.Error,
            IC := if advance then st.IC + s.word_count else st.IC }

def EncodeOperands (numOprnd : Nat) (line : CStr) (opcode : Int) (st : AsmState) :
    Option AsmState :=
  let s0 : OperandState :=
    { table := st.table, Code := st.Code, word_count := 1, is_reg := false, Error := st.Error }
  if numOprnd = 1 then
    match deleteSpacesP (strtok line "\r\n".toList).1 with
    | none => some st
    | some operand1 =>
      match encodeOperand operand1 1 numOprnd opcode st.IC s0 with
      | none => none
      | some (s1, go) => some (closeOperands st s1 go)
  else if numOprnd = 2 then
    let tok1 := strtok line ",\r\n".toList
    let operand2 := deleteSpacesP (strtok tok1.2 "\r\n".toList).1
    match deleteSpacesP tok1.1 with
    | none => some st
    | some operand1 =>
      match encodeOperand operand1 1 numOprnd opcode st.IC s0 with
      | none => none
      | some (s1, false) => some (closeOperands st s1 false)
      | some (s1, true) =>
        match operand2 with
        | none => some (closeOperands st s1 false)
        | some op2 =>
          match encodeOperand op2 2 numOprnd opcode st.IC s1 with
          | none => none
          | some (s2, go) => some (closeOperands st s2 go)
  else some (closeOperands st s0 true)

def EncodeInstruction (line : CStr) (st : AsmState) : Option AsmState :=
  let tok := strtok line " \r\n".toList
  match deleteSpacesP tok.1 with
  | none => none
  | some inst =>
    let opcode := getOpcode inst
    if opcode = -1 then some { st with Error := true }
    else
      let st1 := { st with Code := insertBin (opcode * 64) st.Code st.IC }
      let numOprnd := getNumOperand opcode
      if numOprnd = 0 then some { st1 with IC := st1.IC + 1 }
      else
        let line_rest := deleteSpacesP (strtok tok.2 "\r\n".toList).1
        match IsValidInstSyntax line_rest numOprnd, line_rest with
        | some true, some rest => EncodeOperands numOprnd rest opcode st1
        | some _, _ => some { st1 with Error := true }
        | none, _ => none

/-! ## `DirectivesFunctions.c` -/

/-- The tokens that `strtok(s, delims)` and the following `strtok(NULL, delims)`
calls return until the first `NULL`; `cur` is the token being read, reversed. -/
def tokensFrom (delims : CStr) (s : CStr) (cur : CStr) : List CStr :=
  match s with
  | [] => if cur = [] then [] else [cur.reverse]
  | c :: r =>
    if delims.contains c then
      (if cur = [] then tokensFrom delims r [] else cur.reverse :: tokensFrom delims r [])
    else tokensFrom delims r (c :: cur)

def tokens (s : CStr) (delims : CStr) : List CStr := tokensFrom delims s []

/-- The `while(param)` loop of `EncodeDataLine` over the remaining tokens;
the result is `Data`, `PC[1]` and the error flag. -/
def encodeDataParams (params : List CStr) (Data : Mem) (DC word_count : Nat) (Error : Bool) :
    Mem × Nat × Bool :=
  match params with
  | [] => (Data, DC + word_count, Error)
  | p :: rest =>
    let param := deleteSpaces p
    if !IsValidDataParam param then (Data, DC, true)
    else encodeDataParams rest (insertBin (atoi param) Data (DC + word_count)) DC
          (word_count + 1) Error

def EncodeDataLine (line : CStr) (Data : Mem) (DC : Nat) (Error : Bool) : Mem × Nat × Bool :=
  let line := (line.drop ".data".length).dropWhile (fun c => c = ' ' || c = '\t')
  if !IsValidDataSyntax line then (Data, DC, true)
  else encodeDataParams (tokens line ",\r\n".toList) Data DC 0 Error

/-- The character loop of `EncodeStringLine`: one word per character. A character
is passed to `insertBin` as a signed `char`, so a byte from 128 on is passed as
a negative number. -/
def encodeChars (chars : CStr) (Data : Mem) (DC word_count : Nat) : Mem :=
  match chars with
  | [] => Data
  | c :: r => encodeChars r (insertBin (charValue c) Data (DC + word_count)) DC (word_count + 1)

/-- Returns `none` when the character loop runs past the end of the string
(no closing quote after the opening one). -/
def EncodeStringLine (line : CStr) (Data : Mem) (DC : Nat) (Error : Bool) :
    Option (Mem × Nat × Bool) :=
  let tok := strtok line " \r\n".toList
  let string := deleteSpacesP (strtok tok.2 "\r\n".toList).1
  if !IsValidString string then some (Data, DC, true)
  else
    match string with
    | none => none
    | some s =>
      let body := s.drop 1
      if !hasChar body '"' then none
      else
        let chars := body.takeWhile (fun c => c ≠ '"')
        let word_count := chars.length
        some (setWord (encodeChars chars Data DC 0) (DC + word_count) 0,
              DC + (word_count + 1), Error)

/-- The `while(param)` loop of `EncodeMatrixLine`; `L` counts the values stored.
The flag is `false` when a parameter was refused (the words stored before it
stay in `Data`). -/
def encodeMatrixParams (params : List CStr) (Data : Mem) (DC L : Nat) : Mem × Bool :=
  match params with
  | [] => (Data, true)
  | p :: rest =>
    let param := deleteSpaces p
    if !IsValidDataParam param then (Data, false)
    else
      let imm := (atoi param % 65536).toNat
      encodeMatrixParams rest (insertBin (imm : Int) Data (DC + L)) DC ((L + 1) % 65536)

/-- Returns `none` for a crash, else `Data`, `PC[1]` and the error flag.
`word_count` is the `unsigned short` that `row * col` is converted to: the low 16
bits of the product, which a product of `int` that wraps around has as well. -/
def EncodeMatrixLine (line : CStr) (Data : Mem) (DC : Nat) (Error : Bool) :
    Option (Mem × Nat × Bool) :=
  let line := (line.drop ".mat".length).dropWhile (fun c => c = ' ' || c = '\t')
  if !isLegalBrackets (some line) then some (Data, DC, true)
  else
    let tok1 := strtok (line.drop 1) "]".toList
    match deleteSpacesP tok1.1 with
    | none => none
    | some index =>
      if !isValidNum index then some (Data, DC, true)
      else
        let row := atoi index
        if row < 0 then some (Data, DC, true)
        else
          let tok2 := strtok tok1.2 "]".toList
          match deleteSpacesP tok2.1 with
          | none => none
          | some index2 =>
            if index2.head? ≠ some '[' then some (Data, DC, true)
            else if !isValidNum (index2.drop 1) then some (Data, DC, true)
            else
              let col := atoi (index2.drop 1)
              if col < 0 then some (Data, DC, true)
              else
                let word_count := ((row * col) % 65536).toNat
                match deleteSpacesP (strtok tok2.2 "\r\n".toList).1 with
                | none => some (Data, DC + word_count, Error)
                | some data =>
                  if data = [] then some (Data, DC + word_count, Error)
                  else if !IsValidDataSyntax data then some (Data, DC, true)
                  else
                    let r := encodeMatrixParams (tokens data ",\r\n".toList) Data DC 0
                    if !r.2 then some (r.1, DC, true)
                    else some (r.1, DC + word_count, Error)

/-- Returns `none` when the chain is read through a negative index. -/
def ProcessEntryLine (line : CStr) (t : LabelTable) (Error : Bool) :
    Option (LabelTable × Bool) :=
  let tok := strtok line " \r\n".toList
  match deleteSpacesP (strtok tok.2 "\r\n".toList).1 with
  | none => some (t, true)
  | some entry_label =>
    if entry_label = [] then some (t, true)
    else if hasChar entry_label ' ' || hasChar entry_label '\t' then some (t, true)
    else
      let index := findLabel t entry_label
      if index = -1 then some (t, true)
      else if index < 0 then none
      else some (updateLabel t index.toNat entry_label (fun l => { l with ent := true }), Error)

/-- The store `tmp_label->dc = DC`; `none` when `tmp_label` is `NULL`. -/
def setLabelDc (t : LabelTable) (tmp_label : Option LabelPtr) (DC : Nat) : Option LabelTable :=
  match tmp_label with
  | none => none
  | some p => some (updateLabel t p.1 p.2 (fun l => { l with dc := DC % 2 ^ 32 }))

def ProcessDirectives (line : CStr) (st : AsmState) (tmp_label : Option LabelPtr)
    (is_label : Bool) : Option AsmState :=
  let DC := st.DC
  if IsDataDirective line then
    match (if is_label then setLabelDc st.table tmp_label DC else some st.table) with
    | none => none
    | some t =>
      let r := EncodeDataLine line st.Data st.DC st.Error
      some { st with table := t, Data := r.1, DC := r.2.1, Error := r.2.2 }
  else if IsStringDirective line then
    match (if is_label then setLabelDc st.table tmp_label DC else some st.table) with
    | none => none
    | some t =>
      match EncodeStringLine line st.Data st.DC st.Error with
      | none => none
      | some r => some { st with table := t, Data := r.1, DC := r.2.1, Error := r.2.2 }
  else if IsMatrixDirective line then
    if !is_label then some { st with Error := true }
    else
      match setLabelDc st.table tmp_label DC with
      | none => none
      | some t =>
        match EncodeMatrixLine line st.Data st.DC st.Error with
        | none => none
        | some r => some { st with table := t, Data := r.1, DC := r.2.1, Error := r.2.2 }
  else if IsEntryDirective line then
    match ProcessEntryLine line st.table st.Error with
    | none => none
    | some r => some { st with table := r.1, Error := r.2 }
  else if !isExtern line then some { st with Error := true }
  else some st

/-! ## `LineProcessFunctions.c`, `FirstPass.c`, `SecondPass.c` -/

def ProcessLine (source_line : CStr) (st : AsmState) : Option AsmState :=
  let labelled :=
    if IsLabelDefinition source_line then
      let tok := strtok source_line ":\r\n".toList
      let r := UpdateAddressAndGetLabel (deleteSpacesP tok.1) st.table st.IC st.DC
      (r.1, r.2, deleteSpacesP (strtok tok.2 "\r\n".toList).1, true)
    else (st.table, none, some source_line, false)
  match labelled with
  | (_, _, none, _) => none
  | (t, tmp_label, some line, is_label) =>
    if IsInstructionLine line then EncodeInstruction line { st with table := t }
    else ProcessDirectives line { st with table := t } tmp_label is_label

/-- The loop that cuts the trailing line terminators in `FirstPass`. -/
def stripLineEnd (line : CStr) : CStr :=
  (line.reverse.dropWhile (fun c => c = '\r' || c = '\n')).reverse

/-- The body of the `while (fgets ..)` loop of `FirstPass` for one line. -/
def FirstPassLine (line : CStr) (t : LabelTable) (errorFlag : Bool) :
    Option (LabelTable × Bool) :=
  if isExtern line || IsLabelDefinition line then
    let line := stripLineEnd line
    if isExtern line then some (ProcessExternDefinition line t errorFlag)
    else ProcessLabelDefinition line t errorFlag
  else some (t, errorFlag)

def FirstPassLoop (lines : List CStr) (t : LabelTable) (errorFlag : Bool) :
    Option (LabelTable × Bool) :=
  match lines with
  | [] => some (t, errorFlag)
  | line :: rest =>
    match FirstPassLine line t errorFlag with
    | none => none
    | some r => FirstPassLoop rest r.1 r.2

/-- The lines are the buffers that `fgets` returns, in order. -/
def FirstPass (lines : List CStr) (errorFlag : Bool) : Option (LabelTable × Bool) :=
  FirstPassLoop lines (create_LabelTable TABLE_SIZE) errorFlag

def reallocateLabels (t : LabelTable) (Code : Mem) : Mem :=
  t.Labels.foldl
    (fun code chain =>
      chain.foldl
        (fun code current_label =>
          current_label.ref.foldl
            (fun code pos => setWord code pos (code pos ||| ((current_label.address * 4) % 65536)))
            code)
        code)
    Code

def SecondPassLoop (lines : List CStr) (st : AsmState) : Option AsmState :=
  match lines with
  | [] => some st
  | line :: rest =>
    match ProcessLine line st with
    | none => none
    | some st1 => SecondPassLoop rest st1

def SecondPass (lines : List CStr) (st : AsmState) : Option AsmState :=
  match SecondPassLoop lines st with
  | none => none
  | some st1 =>
    if !st1.Error then some { st1 with Code := reallocateLabels st1.table st1.Code }
    else some st1

/-- The two passes of `main` on one file, from a zeroed image. -/
def assembleFile (lines : List CStr) : Option AsmState :=
  match FirstPass lines false with
  | none => none
  | some r =>
    SecondPass lines
      { table := r.1, Code := zeroMem, Data := zeroMem, IC := 0, DC := 0, Error := r.2 }

/-! ## `FilesFunctions.c`: the first line of the object file -/

def SIZE_OF_ADDRESS : Nat := 4

/-- The table `encoding_table` of base-4 digits. -/
def encodingChar (d : Nat) : Char :=
  match d with
  | 0 => 'a' | 1 => 'b' | 2 => 'c' | _ => 'd'

/-- The `while (x > 0)` loop of `encodeCounter` into `temp[SIZE_OF_ADDRESS]`, least
significant digit first; `none` when the digits do not fit `temp`. -/
def counterDigits (room : Nat) (x : Nat) : Option (List Nat) :=
  match room with
  | 0 => if x = 0 then some [] else none
  | room + 1 =>
    if x = 0 then some []
    else (counterDigits room (x / 4)).map (fun ds => x % 4 :: ds)

def encodeCounter (x : Nat) : Option CStr :=
  if x % 2 ^ 32 = 0 then some [encodingChar 0]
  else (counterDigits SIZE_OF_ADDRESS (x % 2 ^ 32)).map (fun ds => ds.reverse.map encodingChar)

/-- The line `"\t%s %s\n"` with `ICF` and `DCF` that `Write_object_file` writes
first. -/
def objectHeader (IC DC : Nat) : Option CStr :=
  match encodeCounter IC, encodeCounter DC with
  | some ICF, some DCF => some ('\t' :: (ICF ++ ' ' :: (DCF ++ ['\n'])))
  | _, _ => none

/-! ## `Assembler.c`: the cleanup of `main` after a file -/

def MAX_LENGTH : Nat := 256

/-- Bytes of a `signed short`. -/
def SIZEOF_SHORT : Nat := 2

/-- Bytes of an `int`. -/
def SIZEOF_INT : Nat := 4

/-- The C call `memset(a, 0, n)` on an array whose elements take `size` bytes,
low byte first: an element within the first `n` bytes becomes 0, an element cut
by byte `n` keeps its high bytes, every later element stays. -/
def memsetZero (size : Nat) (a : Mem) (n : Nat) : Mem :=
  fun j =>
    if size * (j + 1) ≤ n then 0
    else if size * j < n then a j / 256 ^ (n - size * j) * 256 ^ (n - size * j)
    else a j

/-- The image after the cleanup that `main` runs after a file, on the error
path and on the success path alike: `memset(Code, 0, MAX_LENGTH)`,
`memset(Data, 0, MAX_LENGTH)`, `memset(PC, 0, 2)`. The result is `Code`, `Data`,
`PC[0]` and `PC[1]`. -/
def mainCleanup (Code Data : Mem) (IC DC : Nat) : Mem × Mem × Nat × Nat :=
  let PC : Mem := memsetZero SIZEOF_INT (fun j => if j = 0 then IC else DC) 2
  (memsetZero SIZEOF_SHORT Code MAX_LENGTH, memsetZero SIZEOF_SHORT Data MAX_LENGTH, PC 0, PC 1)
/-! ## Notions used to state the properties -/

/-- The load-factor invariant `num_labels < 0.75 * table_size`. -/
def LoadFactorInv (t : LabelTable) : Prop :=
  (t.num_labels : ℚ) < (3 / 4 : ℚ) * t.table_size

/-- All labels stored in the table, chain after chain. -/
def allLabels (t : LabelTable) : List Label := t.Labels.flatten

/-- Every chain of `b` holds only labels whose name hashes to its index modulo `n`. -/
def Homed (n : Nat) (b : List (List Label)) : Prop :=
  ∀ i, ∀ l ∈ b.getD i [], hash l.name % n = i

/-- Shape of a table built by `create_LabelTable` and `addLabel`: `table_size`
chains, each label in the chain of its hash. -/
structure WF (t : LabelTable) : Prop where
  pos : 0 < t.table_size
  len : t.Labels.length = t.table_size
  home : Homed t.table_size t.Labels

/-! ### A family of 30721 label names

The names are six letters out of `P`..`W`; name `j` has hash `2902015 + j`, so
that consecutive names fall into consecutive chains. -/

def digitChar (d : Nat) : Char :=
  match d with
  | 0 => 'P' | 1 => 'Q' | 2 => 'R' | 3 => 'S' | 4 => 'T' | 5 => 'U' | 6 => 'V' | _ => 'W'

def nameDigits (j : Nat) : List Nat :=
  let x := (18431 + j) ^^^ 112336
  [(x >>> 15) % 8, (x >>> 12) % 8, (x >>> 9) % 8, (x >>> 6) % 8, (x >>> 3) % 8, x % 8]

def nameOf (j : Nat) : CStr := (nameDigits j).map digitChar

/-- The first `n` names of the family. -/
def firstNames (n : Nat) : List CStr := (List.range n).map nameOf

/-- The table after `addLabel` of each name in turn, as `.extern` lines add them. -/
def insertAll (names : List CStr) (t : LabelTable) : LabelTable :=
  names.foldl (fun t n => addLabel t n true false) t

/-- The line `.extern NAME`. -/
def externLine (name : CStr) : CStr := ".extern ".toList ++ name

def allBelow (p : Nat → Bool) (n : Nat) : Bool :=
  Nat.rec true (fun k r => p k && r) n

def hstep (h d : Nat) : Nat := ((h <<< 3) ^^^ (80 + d)) % 2 ^ 32

/-- The hash of the six-letter name with octal digits `x`. -/
def hashOfIndex (x : Nat) : Nat :=
  hstep (hstep (hstep (hstep (hstep (hstep 0 ((x >>> 15) % 8)) ((x >>> 12) % 8)) ((x >>> 9) % 8))
    ((x >>> 6) % 8)) ((x >>> 3) % 8)) (x % 8)

/-- What holds of the table after the first `j` names of the family went in. -/
structure Grown (j : Nat) (t : LabelTable) : Prop where
  wf : WF t
  num : t.num_labels = j
  pow : ∃ k, t.table_size = 10 * 2 ^ k
  load : 4 * j < 3 * t.table_size
  tight : t.table_size = 10 ∨ 3 * t.table_size ≤ 8 * j
  names : ∀ l ∈ allLabels t, ∃ i, i < j ∧ l.name = nameOf i
  has : ∀ i, i < j → ∃ l ∈ allLabels t, l.name = nameOf i

/-- The register operand `rN`. -/
def regName (n : Nat) : CStr := ['r', Char.ofNat (48 + n)]

/-- The lookup every encoder performs: the chain that `findLabel` reports is
walked for the first label of that name. -/
def lookupLabel (t : LabelTable) (name : CStr) : Option Label :=
  if findLabel t name < 0 then none else chainLookup t (findLabel t name).toNat name

/-- The state of `main` before the first line: empty table, zeroed image. -/
def emptyState : AsmState :=
  { table := create_LabelTable TABLE_SIZE, Code := zeroMem, Data := zeroMem, IC := 0, DC := 0,
    Error := false }

/-- A zeroed image with the one local symbol `X` in the table. -/
def oneLabelState : AsmState :=
  { emptyState with table := addLabel (create_LabelTable TABLE_SIZE) "X".toList false false }

/-- The fields of a label that the second pass never changes. -/
def SameSkel (l l' : Label) : Prop := l'.name = l.name ∧ l'.ext = l.ext ∧ l'.mat = l.mat

/-- Same name, flags and address. -/
def SameAddr (l l' : Label) : Prop := SameSkel l l' ∧ l'.address = l.address

/-- Two tables of the same shape whose labels correspond slot by slot under `E`. -/
def TableRel (E : Label → Label → Prop) (t t' : LabelTable) : Prop :=
  t'.table_size = t.table_size ∧ t'.num_labels = t.num_labels ∧
  List.Forall₂ (List.Forall₂ E) t.Labels t'.Labels

/-- The label name that `ProcessLine` extracts from a line that holds a colon. -/
def labelNameOf (line : CStr) : Option CStr :=
  if IsLabelDefinition line then deleteSpacesP (strtok line ":\r\n".toList).1 else none

/-- The state `SecondPass` starts from after `FirstPass` returned table `t` and
error flag `e`. -/
def passTwoStart (t : LabelTable) (e : Bool) : AsmState :=
  { table := t, Code := zeroMem, Data := zeroMem, IC := 0, DC := 0, Error := e }

/-- Same name, flags, address and reference list. -/
def SameRefs (l l' : Label) : Prop := SameAddr l l' ∧ l'.ref = l.ref

/-- The second-pass state reached after the first line of the two-line source
`A: .mat [255][257]`, `X: stop`. -/
def afterBigMatrix : Option AsmState :=
  (FirstPass ["A: .mat [255][257]\n".toList, "X: stop\n".toList] false).bind
    (fun r => SecondPassLoop ["A: .mat [255][257]\n".toList] (passTwoStart r.1 r.2))

/-- Same name and flags, same reference list. -/
def KeepsRefs (l l' : Label) : Prop := SameSkel l l' ∧ l'.ref = l.ref

/-- The A/R/E field that `encodeLabelOperand` stores for a label: 1 (external) or
2 (relocatable). -/
def ARE (l : Label) : Nat := if l.ext then 1 else 2

/-- All recorded reference positions, label after label. -/
def allRefs (t : LabelTable) : List Nat := ((allLabels t).map (fun l => l.ref)).flatten

/-- The state of the reference lists while the word at `IC` is being encoded and
`top` is the first word not yet written: the words from `top` on are zero, every
recorded position lies below `top`, is not `IC` and holds the A/R/E field of its
label, no position is recorded twice, and a label with recorded positions shares
them with the label that the lookup of its name finds. -/
structure RefInv (t : LabelTable) (Code : Mem) (IC top : Nat) : Prop where
  zero : ∀ q, top ≤ q → Code q = 0
  refs : ∀ l ∈ allLabels t, ∀ p ∈ l.ref, p < top ∧ p ≠ IC ∧ Code p = ARE l
  nodup : (allRefs t).Nodup
  owner : ∀ l ∈ allLabels t, l.ref ≠ [] → ∃ l0, lookupLabel t l.name = some l0 ∧ l0.ref = l.ref
  matExt : ∀ l ∈ allLabels t, l.mat = true → l.ext = false

/-- What the second pass keeps about addresses on the lines of `lines`: the table
has chains, every external label has address 0, and the label that the lookup
finds for the name defined on a line is not external. -/
structure AddrInv (lines : List CStr) (t : LabelTable) : Prop where
  pos : 0 < t.table_size
  extAddr : ∀ l ∈ allLabels t, l.ext = true → l.address = 0
  targets : ∀ line ∈ lines, ∀ n l, labelNameOf line = some n → lookupLabel t n = some l →
    l.ext = false

/-- The address `(IC + DC + 100) mod 2^16` that `UpdateAddressAndGetLabel` stores
when the line is processed from state `st`. -/
def lineAddress (st : AsmState) : Nat := (st.IC + st.DC + 100) % 65536

/-- Every label that the lookup finds, and whose name is defined on one of the
lines `done` processed so far from `start`, carries the address computed from
the counters before one of these defining lines. -/
def DefAddr (done : List CStr) (start : AsmState) (t : LabelTable) : Prop :=
  ∀ n l, lookupLabel t n = some l → (∃ line ∈ done, labelNameOf line = some n) →
    ∃ k stk, k < done.length ∧ labelNameOf (done.getD k []) = some n ∧
      SecondPassLoop (done.take k) start = some stk ∧ l.address = lineAddress stk

/-- Shape of the table during the first pass: well formed, every label as
`createLabel` made it, and a name whose chain index fits a `short` stored once. -/
structure TableInv (t : LabelTable) : Prop where
  wf : WF t
  pristine : ∀ l ∈ allLabels t, l.address = 0 ∧ l.ref = [] ∧ (l.mat = true → l.ext = false)
  unique : ∀ n, hash n % t.table_size < 32768 → ∀ l1 ∈ allLabels t, ∀ l2 ∈ allLabels t,
    l1.name = n → l2.name = n → l1 = l2

/-- How the table relates to the lines `done` read so far by the first pass with
error flag `e`: while no error is flagged every name defined on a line with a
colon is stored as a label that is not external, and every label that is not
external was defined on such a line. -/
structure LinesInv (done : List CStr) (t : LabelTable) (e : Bool) : Prop where
  defined : e = false → ∀ line ∈ done, ∀ n, labelNameOf line = some n →
    ∃ l ∈ allLabels t, l.name = n ∧ l.ext = false
  origin : ∀ l ∈ allLabels t, l.ext = false → ∃ line ∈ done, labelNameOf line = some l.name

/-- A source that declares `X` external and then defines it as a label. -/
def externThenLabel : List CStr := [".extern X\n".toList, "X: stop\n".toList]

/-- A source whose label `X` lies behind 40000 data words. -/
def bigMatrixThenJump : List CStr :=
  ["M: .mat [200][200]\n".toList, "X: stop\n".toList, "jmp X\n".toList]

/-- A jump to a label defined on the next line. -/
def forwardJump : List CStr := ["jmp X\n".toList, "X: stop\n".toList]

/-- A jump to an external symbol. -/
def externJump : List CStr := [".extern X\n".toList, "jmp X\n".toList]

/-- The two-line source `MAIN: mov r1, r2`, `stop`. -/
def mainSource : List CStr := ["MAIN: mov r1, r2\n".toList, "stop\n".toList]

/-- The sixteen mnemonics in the order of their opcodes. -/
def mnemonics : List CStr :=
  ["mov".toList, "cmp".toList, "add".toList, "sub".toList, "lea".toList, "clr".toList,
   "not".toList, "inc".toList, "dec".toList, "jmp".toList, "bne".toList, "jsr".toList,
   "red".toList, "prn".toList, "rts".toList, "stop".toList]

/-- A source that defines the matrix `M` and clears `M[r1]][r2]`, an operand with
a stray closing bracket. -/
def strayBracketSource : List CStr := ["M: .mat [2][2]\n".toList, "clr M[r1]][r2]\n".toList]

/-! ### Integer literals and parameter lists -/

/-- The decimal digit `d` as a character. -/
def decChar (d : Nat) : Char := Char.ofNat (48 + d)

/-- The text of a run of decimal digits, most significant first. -/
def decText (ds : List Nat) : CStr := ds.map decChar

/-- The number written by a run of decimal digits. -/
def decValue (ds : List Nat) : Nat := ds.foldl (fun a d => 10 * a + d) 0

/-- A run of decimal digits: not empty, every digit below ten. -/
def digitsOk (ds : List Nat) : Bool := !ds.isEmpty && ds.all (fun d => decide (d < 10))

/-- A signed integer literal: an optional sign (`some true` is `-`, `some false`
is `+`) and a run of decimal digits. -/
structure IntLit where
  sign : Option Bool
  digits : List Nat

def litOk (x : IntLit) : Bool := digitsOk x.digits

def litText (x : IntLit) : CStr :=
  (match x.sign with
   | none => []
   | some false => ['+']
   | some true => ['-']) ++ decText x.digits

def litValue (x : IntLit) : Int :=
  if x.sign = some true then - (decValue x.digits : Int) else (decValue x.digits : Int)

/-- The cells of a parameter list: the first literal as it is, every later one
behind `pad` blanks. -/
def litCells (pad : Nat) (lits : List IntLit) : List CStr :=
  match lits with
  | [] => []
  | x :: r => litText x :: r.map (fun y => List.replicate pad ' ' ++ litText y)

/-- Cells joined by commas. -/
def joinCells (cells : List CStr) : CStr :=
  match cells with
  | [] => []
  | [c] => c
  | c :: d :: r => c ++ ',' :: joinCells (d :: r)

/-- The parameter list `v1,v2,...,vk`, with `pad` blanks after every comma. -/
def joinLits (pad : Nat) (lits : List IntLit) : CStr := joinCells (litCells pad lits)

/-- The low ten bits of an integer in two's complement. -/
def lowTen (v : Int) : Nat := (v % 1024).toNat

/-- The text `p` is the literal `x` behind some blanks. -/
def CellOf (p : CStr) (x : IntLit) : Prop :=
  litOk x = true ∧ ∃ n, p = List.replicate n ' ' ++ litText x


/-- A labelled matrix of 256 rows and 256 columns: 65536 words. -/
def wideMatrixSource : List CStr := ["M: .mat [256][256]\n".toList]

/-- The locals of `EncodeOperands` on entry to its loop. -/
def operandStart (st : AsmState) : OperandState :=
  { table := st.table, Code := st.Code, word_count := 1, is_reg := false, Error := st.Error }

/-- The call `EncodeOperands numOprnd line opcode st` enters turn `i` of its loop
with the operand text `operand` and the locals `s`: the first turn of a one- or
two-operand instruction, or the second turn of a two-operand instruction whose
first operand was encoded. -/
def ReachesTurn (numOprnd : Nat) (line : CStr) (opcode : Int) (st : AsmState) (i : Nat)
    (operand : CStr) (s : OperandState) : Prop :=
  (i = 1 ∧ numOprnd = 1 ∧ deleteSpacesP (strtok line "\r\n".toList).1 = some operand ∧
    s = operandStart st) ∨
  (i = 1 ∧ numOprnd = 2 ∧ deleteSpacesP (strtok line ",\r\n".toList).1 = some operand ∧
    s = operandStart st) ∨
  (i = 2 ∧ numOprnd = 2 ∧
    ∃ operand1, deleteSpacesP (strtok line ",\r\n".toList).1 = some operand1 ∧
      encodeOperand operand1 1 2 opcode st.IC (operandStart st) = some (s, true) ∧
      deleteSpacesP (strtok (strtok line ",\r\n".toList).2 "\r\n".toList).1 = some operand)

/-- A signed integer literal: an optional single leading `+` or `-` followed by
one or more digits. -/
def isIntLiteral (s : CStr) : Bool :=
  match s with
  | [] => false
  | c :: r => if c = '+' || c = '-' then !r.isEmpty && r.all isdigit else (c :: r).all isdigit

/-- A source of `n` lines `stop`. -/
def stopLines (n : Nat) : List CStr := List.replicate n "stop\n".toList

/-- A matrix of 156 words, a label behind it and a jump to that label. -/
def farLabelSource : List CStr :=
  ["M: .mat [13][12]\n".toList, "X: stop\n".toList, "jmp X\n".toList]

/-- The name that `ProcessExternDefinition` reads from an `.extern` line of the
first pass. -/
def externNameOf (line : CStr) : CStr :=
  deleteSpaces (deleteSpaces ((stripLineEnd line).drop ".extern".length))

/-- The remainder of a label line as `ProcessLabelDefinition` reads it in the
first pass. -/
def remainderOf (line : CStr) : Option CStr :=
  deleteSpacesP (strtok (strtok (stripLineEnd line) ":\r\n".toList).2 "\r\n".toList).1

/-- Reading `lines`, the first pass stores `l` when it comes to the line `line`:
the pass over the lines before it returns a table `t0` in which `findLabel` does
not find the name, and the step on `line` adds the label to `t0`. -/
def IntroducedAt (lines : List CStr) (l : Label) (line : CStr) : Prop :=
  ∃ pre post t0 e0, lines = pre ++ line :: post ∧ FirstPass pre false = some (t0, e0) ∧
    findLabel t0 l.name = -1 ∧
    FirstPassLine line t0 e0 = some (addLabel t0 l.name l.ext l.mat, e0)

/-- The label `l` is the one `createLabel` makes for `line`: external for an
`.extern` line, and for a label line a matrix when the remainder of the line
starts with `.mat`. -/
def FreshFrom (line : CStr) (l : Label) : Prop :=
  (isExtern line = true ∧ l = createLabel (externNameOf line) true false) ∨
  (isExtern line = false ∧ IsLabelDefinition line = true ∧
    ∃ name rest, labelNameOf line = some name ∧ remainderOf line = some rest ∧
      l = createLabel name false (IsMatrixDirective rest))

/-- An `.extern` line, a matrix behind a label and an instruction behind a label. -/
def threeKindsSource : List CStr :=
  [".extern X\n".toList, "M: .mat [2][2]\n".toList, "A: stop\n".toList]

/-- Words that an operand of addressing mode `m` takes behind the opcode word:
two for a matrix operand, one otherwise. -/
def operandWords (m : Int) : Nat := if m = 2 then 2 else 1

/-- A table of one chain that holds the label `X` with address 16384 and the one
reference position 0. -/
def highAddressTable : LabelTable :=
  { table_size := 1, num_labels := 1,
    Labels := [[{ name := "X".toList, ext := false, ent := false, mat := false,
                  address := 16384, ref := [0], dc := 0 }]] }

/-- The table of `create_LabelTable` after thirteen calls of `resizeLabelTable`. -/
def resizedTable : LabelTable := Nat.iterate resizeLabelTable 13 (create_LabelTable TABLE_SIZE)

/-- The table with the one external symbol `X`. -/
def externTable : LabelTable :=
  addLabel (create_LabelTable TABLE_SIZE) "X".toList true false

/-- An immediate operand as the text describes it: `#`, an optional sign and one
or more decimal digits. -/
def isImmediateText (operand : CStr) : Bool :=
  match operand with
  | [] => false
  | c :: r => decide (c = '#') && isIntLiteral r

/-- A zeroed image with the one external symbol `X` in the table. -/
def externState : AsmState := { emptyState with table := externTable }

/-- A table of one chain that holds the label `X` with address 103 and the one
reference position 2. -/
def lowAddressTable : LabelTable :=
  { table_size := 1, num_labels := 1,
    Labels := [[{ name := "X".toList, ext := false, ent := false, mat := false,
                  address := 103, ref := [2], dc := 0 }]] }

/-- A matrix of 16384 words, a label behind it and a jump to that label. -/
def highAddressSource : List CStr :=
  ["M: .mat [128][128]\n".toList, "X: stop\n".toList, "jmp X\n".toList]

/-- A matrix of one word with three initial values, and a data word behind it. -/
def longListSource : List CStr :=
  ["M: .mat [1][1] 1,2,3\n".toList, "N: .data 4\n".toList]

/-- A matrix of 400 words without initial values, and a data word behind it. -/
def farDataSource : List CStr :=
  ["M: .mat [20][20]\n".toList, "N: .data 7\n".toList]

/-- The integer `v` is in the range of a 64-bit `long`. -/
def fitsLong (v : Int) : Bool :=
  decide (-9223372036854775808 ≤ v ∧ v ≤ 9223372036854775807)

/-- The integer `v` is in the range of a 32-bit `int`. -/
def fitsInt (v : Int) : Bool := decide (-2147483648 ≤ v ∧ v ≤ 2147483647)
/-! ## Words and `insertBin` -/

theorem orBits_small : ∀ m, m < 1024 →
    ((((((((((0 ||| (((m >>> 0) % 2) <<< 0)) ||| (((m >>> 1) % 2) <<< 1)) ||| (((m >>> 2) % 2) <<< 2))
      ||| (((m >>> 3) % 2) <<< 3)) ||| (((m >>> 4) % 2) <<< 4)) ||| (((m >>> 5) % 2) <<< 5))
      ||| (((m >>> 6) % 2) <<< 6)) ||| (((m >>> 7) % 2) <<< 7)) ||| (((m >>> 8) % 2) <<< 8))
      ||| (((m >>> 9) % 2) <<< 9)) = m := by
  decide!

theorem shift_mod (t i : Nat) (hi : i < 10) : (t >>> i) % 2 = ((t % 1024) >>> i) % 2 := by
  have h1 : ∀ x : Nat, (x >>> i) % 2 = if x.testBit i then 1 else 0 := by
    intro x
    simp only [Nat.testBit, Nat.one_and_eq_mod_two, Nat.mod_two_bne_zero, beq_iff_eq]
    rcases Nat.mod_two_eq_zero_or_one (x >>> i) with h | h <;> simp [h]
  rw [h1, h1, show (1024 : Nat) = 2 ^ 10 from rfl, Nat.testBit_mod_two_pow]
  simp [hi]

/-- The bit loop of `insertBin` ORs the low ten bits of `x` into the word. -/
theorem insertBin_eq (x : Int) (Code : Mem) (count : Nat) :
    insertBin x Code count = setWord Code count (Code count ||| (x % 1024).toNat) := by
  have hx : ((x % 65536).toNat) % 1024 = (x % 1024).toNat := by omega
  have hlt : (x % 1024).toNat < 1024 := by omega
  funext j
  simp only [insertBin, SIZE_OF_BITS, List.range_succ, List.range_zero, List.nil_append,
    List.cons_append, List.foldl_cons, List.foldl_nil, setWord]
  by_cases hj : j = count
  · subst hj
    simp only [if_true]
    have := orBits_small _ hlt
    rw [← hx] at this ⊢
    simp only [Nat.zero_or] at this
    rw [shift_mod _ 0 (by norm_num), shift_mod _ 1 (by norm_num), shift_mod _ 2 (by norm_num),
      shift_mod _ 3 (by norm_num), shift_mod _ 4 (by norm_num), shift_mod _ 5 (by norm_num),
      shift_mod _ 6 (by norm_num), shift_mod _ 7 (by norm_num), shift_mod _ 8 (by norm_num),
      shift_mod _ 9 (by norm_num)]
    simp only [Nat.lor_assoc]
    simp only [Nat.lor_assoc] at this
    rw [this]
  · simp [hj]

/-! ## The load factor -/

theorem loadFactorInv_iff (t : LabelTable) :
    LoadFactorInv t ↔ 4 * t.num_labels < 3 * t.table_size := by
  unfold LoadFactorInv
  constructor
  · intro h
    have h2 : (4 * t.num_labels : ℚ) < 3 * t.table_size := by linarith
    exact_mod_cast h2
  · intro h
    have h2 : (4 * t.num_labels : ℚ) < 3 * t.table_size := by exact_mod_cast h
    linarith

/-- The low ten bits of `(signed short) v << 2`. -/
theorem imm_word (v : Int) : ((toInt16 v * 4) % 1024).toNat = (v % 256).toNat * 4 := by
  unfold toInt16
  omega

/-! ## The chains of the table -/

theorem pushChain_length (b : List (List Label)) (i : Nat) (l : Label) :
    (pushChain b i l).length = b.length := by
  simp [pushChain]

theorem getD_pushChain (b : List (List Label)) (i j : Nat) (l : Label) (hi : i < b.length) :
    (pushChain b i l).getD j [] = if j = i then l :: b.getD i [] else b.getD j [] := by
  unfold pushChain
  by_cases hj : j = i
  · subst hj
    simp [List.getD_eq_getElem?_getD, List.getElem?_set, hi]
  · have : i ≠ j := fun h => hj h.symm
    simp [List.getD_eq_getElem?_getD, List.getElem?_set, hj, this]

theorem pushChain_homed (n : Nat) (b : List (List Label)) (i : Nat) (l : Label)
    (hb : Homed n b) (hi : i < b.length) (hl : hash l.name % n = i) :
    Homed n (pushChain b i l) := by
  intro j x hx
  rw [getD_pushChain b i j l hi] at hx
  by_cases hj : j = i
  · subst hj
    simp only [if_true, List.mem_cons] at hx
    rcases hx with rfl | hx
    · exact hl
    · exact hb _ _ hx
  · simp only [hj, if_false] at hx
    exact hb _ _ hx

theorem flatten_pushChain_perm (b : List (List Label)) (i : Nat) (l : Label)
    (hi : i < b.length) : (pushChain b i l).flatten.Perm (l :: b.flatten) := by
  induction b generalizing i with
  | nil => simp at hi
  | cons c r ih =>
    cases i with
    | zero => simp [pushChain]
    | succ i =>
      have hi2 : i < r.length := by simpa using hi
      have h := ih i hi2
      simp only [pushChain, List.set_cons_succ, List.flatten_cons] at h ⊢
      have e : (c :: r).getD (i + 1) [] = r.getD i [] := by simp
      rw [e]
      exact (List.Perm.append_left c h).trans List.perm_middle

/-- The loop that links a list of labels into new chains. -/
theorem rehash_facts (n : Nat) (ls : List Label) (b : List (List Label))
    (hn : 0 < n) (hlen : b.length = n) (hb : Homed n b) :
    let r := ls.foldl (fun acc l => pushChain acc (hash l.name % n) l) b
    r.length = n ∧ Homed n r ∧ r.flatten.Perm (ls ++ b.flatten) := by
  induction ls generalizing b with
  | nil => exact ⟨hlen, hb, List.Perm.refl _⟩
  | cons l ls ih =>
    have hi : hash l.name % n < b.length := by rw [hlen]; exact Nat.mod_lt _ hn
    have h := ih (pushChain b (hash l.name % n) l)
      (by rw [pushChain_length, hlen]) (pushChain_homed n b _ l hb hi rfl)
    refine ⟨h.1, h.2.1, ?_⟩
    refine h.2.2.trans ?_
    have hp := flatten_pushChain_perm b _ l hi
    exact (List.Perm.append_left ls hp).trans List.perm_middle

theorem foldl_chains (n : Nat) (chains : List (List Label)) (b : List (List Label)) :
    chains.foldl (fun new_labels chain =>
        chain.foldl (fun acc l => pushChain acc (hash l.name % n) l) new_labels) b
      = chains.flatten.foldl (fun acc l => pushChain acc (hash l.name % n) l) b := by
  induction chains generalizing b with
  | nil => rfl
  | cons c r ih => simp [List.foldl_append, ih]

theorem homed_replicate (n : Nat) : Homed n (List.replicate n ([] : List Label)) := by
  intro i l hl
  simp [List.getD_eq_getElem?_getD, List.getElem?_replicate] at hl
  split at hl <;> simp at hl

theorem WF_create (size : Nat) (h : 0 < size) : WF (create_LabelTable size) :=
  ⟨h, by simp [create_LabelTable], homed_replicate size⟩

theorem resize_facts (t : LabelTable) (h : WF t) :
    WF (resizeLabelTable t) ∧ (allLabels (resizeLabelTable t)).Perm (allLabels t) ∧
    (resizeLabelTable t).table_size = 2 * t.table_size ∧
    (resizeLabelTable t).num_labels = t.num_labels := by
  have hn : 0 < t.table_size * 2 := by have := h.pos; omega
  have h2 := rehash_facts (t.table_size * 2) t.Labels.flatten
    (List.replicate (t.table_size * 2) []) hn (by simp) (homed_replicate _)
  simp only [] at h2
  refine ⟨⟨hn, ?_, ?_⟩, ?_, by simp [resizeLabelTable]; omega, rfl⟩
  · simp only [resizeLabelTable, foldl_chains]; exact h2.1
  · simp only [resizeLabelTable, foldl_chains]; exact h2.2.1
  · simp only [allLabels, resizeLabelTable, foldl_chains]
    refine h2.2.2.trans ?_
    simp

theorem checkResize_facts (t : LabelTable) (h : WF t) :
    WF (CheckAndResizeTable t) ∧ (allLabels (CheckAndResizeTable t)).Perm (allLabels t) := by
  unfold CheckAndResizeTable
  split_ifs
  · exact ⟨(resize_facts t h).1, (resize_facts t h).2.1⟩
  · exact ⟨h, List.Perm.refl _⟩

theorem addLabel_facts (t : LabelTable) (name : CStr) (ext mat : Bool) (h : WF t) :
    WF (addLabel t name ext mat) ∧
    (allLabels (addLabel t name ext mat)).Perm (createLabel name ext mat :: allLabels t) := by
  have hi : hash name % t.table_size < t.Labels.length := by
    rw [h.len]; exact Nat.mod_lt _ h.pos
  have hw : WF { table_size := t.table_size,
                 num_labels := (if t.Labels.getD (hash name % t.table_size) [] = [] then
                    t.num_labels + 1 else t.num_labels),
                 Labels := pushChain t.Labels (hash name % t.table_size)
                    (createLabel name ext mat) } :=
    ⟨h.pos, by simp [pushChain_length, h.len],
      pushChain_homed _ _ _ _ h.home hi (by simp [createLabel])⟩
  have h2 := checkResize_facts _ hw
  refine ⟨h2.1, h2.2.trans ?_⟩
  exact flatten_pushChain_perm _ _ _ hi

/-! ## Lookup in a well-formed table -/

theorem mem_allLabels_iff (t : LabelTable) (h : WF t) (l : Label) :
    l ∈ allLabels t ↔ l ∈ t.Labels.getD (hash l.name % t.table_size) [] := by
  constructor
  · intro hl
    simp only [allLabels, List.mem_flatten] at hl
    obtain ⟨chain, hc, hlc⟩ := hl
    obtain ⟨i, hi, rfl⟩ := List.getElem_of_mem hc
    have e : t.Labels.getD i [] = t.Labels[i] := by
      simp [List.getD_eq_getElem?_getD, List.getElem?_eq_getElem hi]
    have := h.home i l (by rw [e]; exact hlc)
    rw [this, e]; exact hlc
  · intro hl
    simp only [allLabels, List.mem_flatten]
    refine ⟨_, ?_, hl⟩
    have hi : hash l.name % t.table_size < t.Labels.length := by
      rw [h.len]; exact Nat.mod_lt _ h.pos
    simp [List.getD_eq_getElem?_getD, List.getElem?_eq_getElem hi]

theorem findLabel_eq (t : LabelTable) (h : WF t) (n : CStr) :
    findLabel t n = if (∃ l ∈ allLabels t, l.name = n) then toShort (hash n % t.table_size)
      else -1 := by
  unfold findLabel
  simp only []
  have key : ((t.Labels.getD (hash n % t.table_size) []).any (fun l => decide (l.name = n))) = true
      ↔ ∃ l ∈ allLabels t, l.name = n := by
    simp only [List.any_eq_true, decide_eq_true_eq]
    constructor
    · rintro ⟨l, hl, rfl⟩
      exact ⟨l, (mem_allLabels_iff t h l).mpr hl, rfl⟩
    · rintro ⟨l, hl, rfl⟩
      exact ⟨l, (mem_allLabels_iff t h l).mp hl, rfl⟩
  by_cases hx : ∃ l ∈ allLabels t, l.name = n
  · rw [if_pos (key.mpr hx), if_pos hx]
  · rw [if_neg (fun hh => hx (key.mp hh)), if_neg hx]

theorem addLabel_num_size (t : LabelTable) (n : CStr) (e m : Bool) :
    let num := if t.Labels.getD (hash n % t.table_size) [] = [] then t.num_labels + 1
      else t.num_labels
    (addLabel t n e m).num_labels = num ∧
    (addLabel t n e m).table_size =
      if 4 * num ≥ 3 * t.table_size then t.table_size * 2 else t.table_size := by
  simp only [addLabel, CheckAndResizeTable, resizeLabelTable]
  split_ifs <;> simp

/-! ## The name family -/

theorem allBelow_spec (p : Nat → Bool) (n : Nat) (h : allBelow p n = true) :
    ∀ j, j < n → p j = true := by
  induction n with
  | zero => intro j hj; omega
  | succ n ih =>
    have h2 : (p n && allBelow p n) = true := h
    simp only [Bool.and_eq_true] at h2
    intro j hj
    rcases Nat.lt_succ_iff_lt_or_eq.mp hj with h1 | h1
    · exact ih h2.2 j h1
    · rw [h1]; exact h2.1

theorem hashOfIndex_check :
    allBelow (fun j => Nat.beq (hashOfIndex ((18431 + j) ^^^ 112336)) (2902015 + j)) 30721
      = true := by
  decide!

theorem digitChar_toNat (d : Nat) (h : d < 8) : (digitChar d).toNat = 80 + d := by
  interval_cases d <;> rfl

theorem hash_nameOf (j : Nat) (hj : j < 30721) : hash (nameOf j) = 2902015 + j := by
  have h1 := allBelow_spec _ _ hashOfIndex_check j hj
  have h2 : hashOfIndex ((18431 + j) ^^^ 112336) = 2902015 + j := Nat.eq_of_beq_eq_true h1
  rw [← h2]
  simp only [nameOf, nameDigits, hash, List.map, List.foldl, hashOfIndex, hstep]
  rw [digitChar_toNat _ (Nat.mod_lt _ (by norm_num)), digitChar_toNat _ (Nat.mod_lt _ (by norm_num)),
    digitChar_toNat _ (Nat.mod_lt _ (by norm_num)), digitChar_toNat _ (Nat.mod_lt _ (by norm_num)),
    digitChar_toNat _ (Nat.mod_lt _ (by norm_num)), digitChar_toNat _ (Nat.mod_lt _ (by norm_num))]

theorem nameOf_injective (i j : Nat) (hi : i < 30721) (hj : j < 30721)
    (h : nameOf i = nameOf j) : i = j := by
  have := congrArg hash h
  rw [hash_nameOf i hi, hash_nameOf j hj] at this
  omega

theorem firstNames_nodup (n : Nat) (hn : n ≤ 30721) : (firstNames n).Nodup := by
  unfold firstNames
  refine List.Nodup.map_on ?_ (List.nodup_range n)
  intro i hi j hj h
  simp only [List.mem_range] at hi hj
  exact nameOf_injective i j (by omega) (by omega) h

theorem insertAll_succ (n : Nat) (t : LabelTable) :
    insertAll (firstNames (n + 1)) t = addLabel (insertAll (firstNames n) t) (nameOf n) true false := by
  simp [insertAll, firstNames, List.range_succ, List.foldl_append]

/-! ## Growth of the table under the name family -/

theorem mod_eq_close (a b s : Nat) (hab : a < b) (hbs : b - a < s) (h : a % s = b % s) : False := by
  have h1 : (b - a) % s = 0 := Nat.sub_mod_eq_zero_of_mod_eq h.symm
  have h2 : s ∣ (b - a) := Nat.dvd_of_mod_eq_zero h1
  have h3 := Nat.le_of_dvd (by omega) h2
  omega

theorem grown_step (j : Nat) (hj : j < 30721) (t : LabelTable) (G : Grown j t) :
    Grown (j + 1) (addLabel t (nameOf j) true false) := by
  have hfresh : t.Labels.getD (hash (nameOf j) % t.table_size) [] = [] := by
    rw [List.eq_nil_iff_forall_not_mem]
    intro l hl
    have hhome := G.wf.home _ l hl
    have hmem : l ∈ allLabels t := by
      rw [mem_allLabels_iff t G.wf, hhome]; exact hl
    obtain ⟨i, hi, hname⟩ := G.names l hmem
    rw [hname, hash_nameOf i (by omega), hash_nameOf j hj] at hhome
    have hload := G.load
    exact mod_eq_close (2902015 + i) (2902015 + j) t.table_size (by omega) (by omega) hhome
  have hns := addLabel_num_size t (nameOf j) true false
  simp only [hfresh, if_true, G.num] at hns
  have hf := addLabel_facts t (nameOf j) true false G.wf
  have hload := G.load
  have htight := G.tight
  obtain ⟨k, hk⟩ := G.pow
  refine ⟨hf.1, hns.1, ?_, ?_, ?_, ?_, ?_⟩
  · rw [hns.2]
    split_ifs
    · exact ⟨k + 1, by rw [hk, pow_succ]; ring⟩
    · exact ⟨k, hk⟩
  · rw [hns.2]
    have h0 : j = 0 ∨ 1 ≤ j := by omega
    split_ifs <;> rcases h0 with h0 | h0 <;> omega
  · rw [hns.2]
    split_ifs <;> omega
  · intro l hl
    rcases List.mem_cons.mp ((hf.2.mem_iff).mp hl) with h1 | h1
    · exact ⟨j, by omega, by rw [h1]; rfl⟩
    · obtain ⟨i, hi, hn⟩ := G.names l h1
      exact ⟨i, by omega, hn⟩
  · intro i hi
    rcases Nat.lt_succ_iff_lt_or_eq.mp hi with h1 | h1
    · obtain ⟨l, hl, hn⟩ := G.has i h1
      exact ⟨l, (hf.2.mem_iff).mpr (List.mem_cons_of_mem _ hl), hn⟩
    · exact ⟨createLabel (nameOf j) true false, (hf.2.mem_iff).mpr (List.mem_cons_self _ _),
        by rw [h1]; rfl⟩

theorem grown_all (j : Nat) (hj : j ≤ 30721) :
    Grown j (insertAll (firstNames j) (create_LabelTable TABLE_SIZE)) := by
  induction j with
  | zero =>
    refine ⟨WF_create _ (by decide), rfl, ⟨0, rfl⟩, by decide, Or.inl rfl, ?_, ?_⟩
    · intro l hl
      simp [insertAll, firstNames, allLabels, create_LabelTable, TABLE_SIZE] at hl
    · intro i hi; omega
  | succ j ih =>
    rw [insertAll_succ]
    exact grown_step j (by omega) _ (ih (by omega))

theorem grown_size (t : LabelTable) (G : Grown 30721 t) : t.table_size = 81920 := by
  obtain ⟨k, hk⟩ := G.pow
  have hload := G.load
  have htight := G.tight
  have hk13 : k = 13 := by
    by_contra hne
    rcases Nat.lt_or_gt_of_ne hne with h | h
    · have : 2 ^ k ≤ 2 ^ 12 := Nat.pow_le_pow_right (by norm_num) (by omega)
      norm_num at this
      omega
    · have : 2 ^ 14 ≤ 2 ^ k := Nat.pow_le_pow_right (by norm_num) (by omega)
      norm_num at this
      omega
  rw [hk, hk13]; norm_num

theorem findLabel_big_table :
    findLabel (insertAll (firstNames 30721) (create_LabelTable TABLE_SIZE)) (nameOf 30720) = -1 := by
  have G := grown_all 30721 (le_refl _)
  rw [findLabel_eq _ G.wf, if_pos (G.has 30720 (by norm_num)), grown_size _ G,
    hash_nameOf 30720 (by norm_num)]
  decide

/-- C2 (failing input): after `addLabel` of the 30721 pairwise-distinct names of the
family into `create_LabelTable(10)`, `findLabel` returns -1 for the name inserted
last: its chain index 65535 does not fit the `short` that `findLabel` returns. -/
theorem C2_findLabel_misses_an_inserted_name :
    (firstNames 30721).Nodup ∧ nameOf 30720 ∈ firstNames 30721 ∧
    findLabel (insertAll (firstNames 30721) (create_LabelTable TABLE_SIZE)) (nameOf 30720)
      = -1 := by
  refine ⟨firstNames_nodup _ (le_refl _), ?_, findLabel_big_table⟩
  exact List.mem_map.mpr ⟨30720, List.mem_range.mpr (by norm_num), rfl⟩

/-! ## Strings -/

theorem takeWhile_append_stop {α : Type} (p : α → Bool) (a : List α) (d : α) (b : List α)
    (ha : ∀ c ∈ a, p c = true) (hd : p d = false) :
    (a ++ d :: b).takeWhile p = a := by
  induction a with
  | nil => simp [List.takeWhile, hd]
  | cons x r ih =>
    have hx := ha x (List.mem_cons_self _ _)
    rw [List.cons_append, List.takeWhile_cons, if_pos hx,
      ih (fun c hc => ha c (List.mem_cons_of_mem _ hc))]

theorem dropWhile_append_stop {α : Type} (p : α → Bool) (a : List α) (d : α) (b : List α)
    (ha : ∀ c ∈ a, p c = true) (hd : p d = false) :
    (a ++ d :: b).dropWhile p = d :: b := by
  induction a with
  | nil => simp [List.dropWhile, hd]
  | cons x r ih =>
    have hx := ha x (List.mem_cons_self _ _)
    rw [List.cons_append, List.dropWhile_cons, if_pos hx,
      ih (fun c hc => ha c (List.mem_cons_of_mem _ hc))]

theorem takeWhile_all {α : Type} (p : α → Bool) (a : List α) (ha : ∀ c ∈ a, p c = true) :
    a.takeWhile p = a := by
  induction a with
  | nil => rfl
  | cons x r ih =>
    rw [List.takeWhile_cons, if_pos (ha x (List.mem_cons_self _ _)),
      ih (fun c hc => ha c (List.mem_cons_of_mem _ hc))]

theorem dropWhile_all {α : Type} (p : α → Bool) (a : List α) (ha : ∀ c ∈ a, p c = true) :
    a.dropWhile p = [] := by
  induction a with
  | nil => rfl
  | cons x r ih =>
    rw [List.dropWhile_cons, if_pos (ha x (List.mem_cons_self _ _))]
    exact ih (fun c hc => ha c (List.mem_cons_of_mem _ hc))

theorem dropWhile_head_stop {α : Type} (p : α → Bool) (x : α) (r : List α) (hx : p x = false) :
    (x :: r).dropWhile p = x :: r := by
  rw [List.dropWhile_cons, hx]; rfl

/-- A token followed by a delimiter: `strtok` returns the token and saves the
position after the delimiter. -/
theorem strtok_token (a : CStr) (d : Char) (b : CStr) (delims : CStr) (ha : a ≠ [])
    (hno : ∀ c ∈ a, delims.contains c = false) (hd : delims.contains d = true) :
    strtok (a ++ d :: b) delims = (some a, b) := by
  obtain ⟨x, r, rfl⟩ := List.exists_cons_of_ne_nil ha
  have hx := hno x (List.mem_cons_self _ _)
  unfold strtok
  have h1 : ((x :: r) ++ d :: b).dropWhile (fun c => delims.contains c) = (x :: r) ++ d :: b := by
    simp only [List.cons_append]
    exact dropWhile_head_stop _ _ _ hx
  rw [h1]
  have h2 : ((x :: r) ++ d :: b).takeWhile (fun c => !delims.contains c) = x :: r :=
    takeWhile_append_stop _ _ _ _ (fun c hc => by simpa using hno c hc) (by simpa using hd)
  have h3 : ((x :: r) ++ d :: b).dropWhile (fun c => !delims.contains c) = d :: b :=
    dropWhile_append_stop _ _ _ _ (fun c hc => by simpa using hno c hc) (by simpa using hd)
  simp only [List.cons_append] at h1 h2 h3 ⊢
  rw [h2, h3]
  rfl

/-- A token that runs to the end of the string. -/
theorem strtok_whole (a : CStr) (delims : CStr) (ha : a ≠ [])
    (hno : ∀ c ∈ a, delims.contains c = false) :
    strtok a delims = (some a, []) := by
  obtain ⟨x, r, rfl⟩ := List.exists_cons_of_ne_nil ha
  have hx := hno x (List.mem_cons_self _ _)
  unfold strtok
  rw [dropWhile_head_stop _ _ _ hx]
  have h2 : (x :: r).takeWhile (fun c => !delims.contains c) = x :: r :=
    takeWhile_all _ _ (fun c hc => by simpa using hno c hc)
  have h3 : (x :: r).dropWhile (fun c => !delims.contains c) = [] :=
    dropWhile_all _ _ (fun c hc => by simpa using hno c hc)
  simp only [] at h2 h3 ⊢
  rw [h2, h3]
  rfl

/-- Nothing but delimiters: `strtok` returns `NULL`. -/
theorem strtok_none (a : CStr) (delims : CStr) (h : ∀ c ∈ a, delims.contains c = true) :
    strtok a delims = (none, []) := by
  unfold strtok
  rw [dropWhile_all _ _ h]

/-- The function `deleteSpaces` leaves a string alone that neither starts with
white space nor ends in a blank or tab. -/
theorem deleteSpaces_id (s : CStr) (h1 : ∀ c, s.head? = some c → isspace c = false)
    (h2 : ∀ c, s.getLast? = some c → (c = ' ' || c = '\t') = false) :
    deleteSpaces s = s := by
  unfold deleteSpaces
  have e1 : s.dropWhile isspace = s := by
    cases s with
    | nil => rfl
    | cons x r => exact dropWhile_head_stop _ _ _ (h1 x rfl)
  rw [e1]
  have e2 : s.reverse.dropWhile (fun c => c = ' ' || c = '\t') = s.reverse := by
    cases hs : s.reverse with
    | nil => rfl
    | cons x r =>
      have : s.getLast? = some x := by
        rw [List.getLast?_eq_head?_reverse, hs]; rfl
      have := h2 x this
      simp only [List.dropWhile, this]
  rw [e2, List.reverse_reverse]

theorem deleteSpaces_space (s : CStr) : deleteSpaces (' ' :: s) = deleteSpaces s := by
  unfold deleteSpaces
  have : isspace ' ' = true := by decide
  simp [List.dropWhile, this]

/-! ## Valid label names -/

theorem isalnum_not_space (c : Char) (h : isalnum c = true) : isspace c = false := by
  simp only [isalnum, isalpha, isdigit, isspace, Bool.or_eq_true, Bool.and_eq_true,
    decide_eq_true_eq] at h
  simp only [isspace, Bool.or_eq_false_iff, Bool.and_eq_false_iff, decide_eq_false_iff_not]
  omega

theorem isalnum_ne (c d : Char) (h : isalnum c = true) (hd : isalnum d = false) : c ≠ d := by
  rintro rfl
  rw [h] at hd
  exact Bool.noConfusion hd

/-- Names accepted by `validLabel` are non-empty and alphanumeric. -/
theorem validLabel_alnum (n : CStr) (h : validLabel n = true) :
    n ≠ [] ∧ ∀ c ∈ n, isalnum c = true := by
  unfold validLabel at h
  split_ifs at h with h1 h2 h3 h4
  cases n with
  | nil => simp at h3
  | cons x r =>
    have h3' : isalpha x = true := by simpa using h3
    have h4' : ∀ c ∈ r, isalnum c = true := by simpa using h4
    refine ⟨by simp, ?_⟩
    intro c hc
    rcases List.mem_cons.mp hc with rfl | hc
    · simp [isalnum, h3']
    · exact h4' c hc

theorem alnum_no_delim (n : CStr) (hn : ∀ c ∈ n, isalnum c = true) (delims : CStr)
    (hd : ∀ d ∈ delims, isalnum d = false) : ∀ c ∈ n, delims.contains c = false := by
  intro c hc
  cases hh : delims.contains c
  · rfl
  · have hm : c ∈ delims := by simpa using hh
    have := hd c hm
    rw [hn c hc] at this
    exact Bool.noConfusion this

theorem alnum_hasChar (n : CStr) (hn : ∀ c ∈ n, isalnum c = true) (d : Char)
    (hd : isalnum d = false) : hasChar n d = false := by
  unfold hasChar
  cases hh : n.any (fun x => decide (x = d))
  · rfl
  · simp only [List.any_eq_true, decide_eq_true_eq] at hh
    obtain ⟨x, hx, rfl⟩ := hh
    rw [hn x hx] at hd
    exact Bool.noConfusion hd

theorem alnum_deleteSpaces (n : CStr) (hn : ∀ c ∈ n, isalnum c = true) : deleteSpaces n = n := by
  apply deleteSpaces_id
  · intro c hc
    exact isalnum_not_space c (hn c (List.mem_of_mem_head? hc))
  · intro c hc
    have hc2 := hn c (List.mem_of_mem_getLast? hc)
    have h1 : c ≠ ' ' := isalnum_ne c ' ' hc2 (by decide)
    have h2 : c ≠ '\t' := isalnum_ne c '\t' hc2 (by decide)
    simp [h1, h2]

/-! ## Label and extern definitions of valid names -/

theorem stripLineEnd_id (s : CStr)
    (h : ∀ c, s.getLast? = some c → (c = '\r' || c = '\n') = false) : stripLineEnd s = s := by
  unfold stripLineEnd
  have e2 : s.reverse.dropWhile (fun c => c = '\r' || c = '\n') = s.reverse := by
    cases hs : s.reverse with
    | nil => rfl
    | cons x r =>
      have : s.getLast? = some x := by
        rw [List.getLast?_eq_head?_reverse, hs]; rfl
      exact dropWhile_head_stop _ _ _ (h x this)
  rw [e2, List.reverse_reverse]

theorem getLast?_append_ne_nil (a b : CStr) (hb : b ≠ []) : (a ++ b).getLast? = b.getLast? := by
  rw [List.getLast?_append, List.getLast?_eq_getLast _ hb]; rfl

/-- An `.extern` line with a valid name: refused when `findLabel` reports the
name, and inserted as an external symbol otherwise. -/
theorem ProcessExternDefinition_valid (n : CStr) (t : LabelTable) (e : Bool)
    (hv : validLabel n = true) :
    ProcessExternDefinition (externLine n) t e =
      if findLabel t n ≠ -1 then (t, true) else (addLabel t n true false, e) := by
  obtain ⟨hne, hal⟩ := validLabel_alnum n hv
  have hdrop : (externLine n).drop ".extern".length = ' ' :: n := rfl
  have hds : deleteSpaces n = n := alnum_deleteSpaces n hal
  have hcomment : isEmptyOrComment n = false := by
    obtain ⟨x, r, rfl⟩ := List.exists_cons_of_ne_nil hne
    have hx := hal x (List.mem_cons_self _ _)
    have h1 : x ≠ ';' := isalnum_ne x ';' hx (by decide)
    have h2 : x ≠ '\n' := isalnum_ne x '\n' hx (by decide)
    simp [isEmptyOrComment, h1, h2]
  have hsp : hasChar n ' ' = false := alnum_hasChar n hal ' ' (by decide)
  have htab : hasChar n '\t' = false := alnum_hasChar n hal '\t' (by decide)
  unfold ProcessExternDefinition
  simp only [hdrop, deleteSpaces_space, hds, hcomment, hsp, htab, hv, Bool.or_false,
    Bool.not_true, Bool.false_eq_true, if_false]

theorem FirstPassLine_externLine (n : CStr) (t : LabelTable) (e : Bool)
    (hv : validLabel n = true) :
    FirstPassLine (externLine n) t e = some (ProcessExternDefinition (externLine n) t e) := by
  obtain ⟨hne, hal⟩ := validLabel_alnum n hv
  have h1 : isExtern (externLine n) = true := rfl
  have h2 : stripLineEnd (externLine n) = externLine n := by
    apply stripLineEnd_id
    intro c hc
    rw [externLine, getLast?_append_ne_nil _ _ hne] at hc
    have hc2 := hal c (List.mem_of_mem_getLast? hc)
    have h1 : c ≠ '\r' := isalnum_ne c '\r' hc2 (by decide)
    have h2 : c ≠ '\n' := isalnum_ne c '\n' hc2 (by decide)
    simp [h1, h2]
  unfold FirstPassLine
  simp only [h1, h2, Bool.true_or, if_true]

/-- A label line `NAME:rest` with a valid name and a remainder that holds a
character other than a line terminator. -/
theorem ProcessLabelDefinition_valid (n rest : CStr) (t : LabelTable) (e : Bool)
    (hv : validLabel n = true) (tok : CStr)
    (hrest : (strtok rest "\r\n".toList).1 = some tok) :
    ProcessLabelDefinition (n ++ ':' :: rest) t e =
      if findLabel t n ≠ -1 then some (t, true)
      else some (addLabel t n false (IsMatrixDirective (deleteSpaces tok)), e) := by
  obtain ⟨hne, hal⟩ := validLabel_alnum n hv
  have htok : strtok (n ++ ':' :: rest) ":\r\n".toList = (some n, rest) :=
    strtok_token n ':' rest _ hne
      (alnum_no_delim n hal _ (by decide)) (by decide)
  unfold ProcessLabelDefinition
  simp only [htok, deleteSpacesP, Option.map_some', alnum_deleteSpaces n hal, hv, hrest,
    Bool.not_true, Bool.false_eq_true, if_false]

theorem digitChar_alpha (d : Nat) : isalpha (digitChar d) = true := by
  unfold digitChar; split <;> decide

theorem digitChar_ne_s (d : Nat) : digitChar d ≠ 's' := by
  unfold digitChar; split <;> decide

theorem digitChar_ne_e (d : Nat) : digitChar d ≠ 'e' := by
  unfold digitChar; split <;> decide

theorem digitChar_ne_space (d : Nat) : digitChar d ≠ ' ' := by
  unfold digitChar; split <;> decide

theorem digitChar_ne_tab (d : Nat) : digitChar d ≠ '\t' := by
  unfold digitChar; split <;> decide

theorem validLabel_nameOf (j : Nat) : validLabel (nameOf j) = true := by
  simp [validLabel, nameOf, nameDigits, hasChar, MAX_LABEL, isalnum, digitChar_alpha,
    digitChar_ne_s, digitChar_ne_e, digitChar_ne_space, digitChar_ne_tab, reserved_word,
    register_name, getOpcode]

/-! ## `FirstPass` on the name family -/

theorem FirstPassLoop_append (a b : List CStr) (t : LabelTable) (e : Bool) :
    FirstPassLoop (a ++ b) t e =
      match FirstPassLoop a t e with
      | none => none
      | some r => FirstPassLoop b r.1 r.2 := by
  induction a generalizing t e with
  | nil => rfl
  | cons l ls ih =>
    simp only [List.cons_append, FirstPassLoop]
    cases FirstPassLine l t e with
    | none => rfl
    | some r => exact ih r.1 r.2

theorem findLabel_fresh (j : Nat) (hj : j < 30721) (t : LabelTable) (G : Grown j t) :
    findLabel t (nameOf j) = -1 := by
  rw [findLabel_eq t G.wf, if_neg]
  rintro ⟨l, hl, hn⟩
  obtain ⟨i, hi, hni⟩ := G.names l hl
  rw [hni] at hn
  have := nameOf_injective i j (by omega) hj hn
  omega

theorem firstPass_family (j : Nat) (hj : j ≤ 30721) :
    FirstPassLoop ((firstNames j).map externLine) (create_LabelTable TABLE_SIZE) false =
      some (insertAll (firstNames j) (create_LabelTable TABLE_SIZE), false) := by
  induction j with
  | zero => rfl
  | succ j ih =>
    have hl : (firstNames (j + 1)).map externLine =
        (firstNames j).map externLine ++ [externLine (nameOf j)] := by
      simp [firstNames, List.range_succ]
    rw [hl, FirstPassLoop_append, ih (by omega), insertAll_succ]
    simp only [FirstPassLoop]
    rw [FirstPassLine_externLine _ _ _ (validLabel_nameOf j),
      ProcessExternDefinition_valid _ _ _ (validLabel_nameOf j),
      findLabel_fresh j (by omega) _ (grown_all j (by omega))]
    simp

/-- C1 (failing input): the 30721 lines `.extern NAME` of the name family pass
`FirstPass` without error; the name defined by the last line is then in the
table, and yet a further extern definition and a further label definition of
that name are both accepted: the error flag stays clear and the name is
inserted again. -/
theorem C1_duplicate_definition_accepted :
    ∃ t, FirstPass ((firstNames 30721).map externLine) false = some (t, false) ∧
      List.getLast? (firstNames 30721) = some (nameOf 30720) ∧
      validLabel (nameOf 30720) = true ∧
      (∃ l ∈ allLabels t, l.name = nameOf 30720) ∧
      ProcessExternDefinition (externLine (nameOf 30720)) t false =
        (addLabel t (nameOf 30720) true false, false) ∧
      ProcessLabelDefinition (nameOf 30720 ++ ": stop".toList) t false =
        some (addLabel t (nameOf 30720) false false, false) := by
  have G := grown_all 30721 (le_refl _)
  refine ⟨_, firstPass_family 30721 (le_refl _), ?_, validLabel_nameOf _, G.has 30720 (by norm_num),
    ?_, ?_⟩
  · have e : firstNames 30721 = firstNames 30720 ++ [nameOf 30720] := by
      unfold firstNames
      rw [show (30721 : Nat) = 30720 + 1 from rfl, List.range_succ, List.map_append]
      rfl
    rw [e, List.getLast?_append]
    rfl
  · rw [ProcessExternDefinition_valid _ _ _ (validLabel_nameOf _), findLabel_big_table,
      if_neg (fun h => h rfl)]
  · have h := ProcessLabelDefinition_valid (nameOf 30720) " stop".toList
      (insertAll (firstNames 30721) (create_LabelTable TABLE_SIZE)) false
      (validLabel_nameOf _) " stop".toList (by decide)
    have e : nameOf 30720 ++ ": stop".toList = nameOf 30720 ++ ':' :: " stop".toList := rfl
    have hm : IsMatrixDirective (deleteSpaces " stop".toList) = false := by decide
    rw [e, h, findLabel_big_table, if_neg (fun h => h rfl), hm]

/-! ## Memory -/

theorem setWord_same (m : Mem) (i v : Nat) : setWord m i v i = v := by simp [setWord]

theorem setWord_other (m : Mem) (i v j : Nat) (h : j ≠ i) : setWord m i v j = m j := by
  simp [setWord, h]

theorem insertBin_same (x : Int) (m : Mem) (i : Nat) :
    insertBin x m i i = m i ||| (x % 1024).toNat := by
  rw [insertBin_eq, setWord_same]

theorem insertBin_other (x : Int) (m : Mem) (i j : Nat) (h : j ≠ i) :
    insertBin x m i j = m j := by
  rw [insertBin_eq, setWord_other _ _ _ _ h]

/-! ## Tables whose names are all valid -/

theorem findLabel_ne_neg_one (t : LabelTable) (n : CStr) (h : findLabel t n ≠ -1) :
    ∃ l ∈ allLabels t, l.name = n := by
  unfold findLabel at h
  simp only [] at h
  split_ifs at h with hc
  · simp only [List.any_eq_true, decide_eq_true_eq] at hc
    obtain ⟨l, hl, hn⟩ := hc
    refine ⟨l, ?_, hn⟩
    simp only [allLabels, List.mem_flatten]
    refine ⟨_, ?_, hl⟩
    by_cases hi : hash n % t.table_size < t.Labels.length
    · simp [List.getD_eq_getElem?_getD, List.getElem?_eq_getElem hi]
    · simp [List.getD_eq_getElem?_getD, List.getElem?_eq_none (Nat.le_of_not_lt hi)] at hl
  · exact absurd rfl h

theorem findLabel_invalid (t : LabelTable) (n : CStr)
    (hv : ∀ l ∈ allLabels t, validLabel l.name = true) (hn : validLabel n = false) :
    findLabel t n = -1 := by
  by_contra h
  obtain ⟨l, hl, hln⟩ := findLabel_ne_neg_one t n h
  have := hv l hl
  rw [hln, hn] at this
  exact Bool.noConfusion this

/-! ## Register operands -/

theorem regName_cases (a : Nat) (ha : a < 8) :
    regName a = "r0".toList ∨ regName a = "r1".toList ∨ regName a = "r2".toList ∨
    regName a = "r3".toList ∨ regName a = "r4".toList ∨ regName a = "r5".toList ∨
    regName a = "r6".toList ∨ regName a = "r7".toList := by
  interval_cases a <;> decide

theorem regName_facts (a : Nat) (ha : a < 8) :
    validLabel (regName a) = false ∧ isValidReg (regName a) = true ∧
    atoi ((regName a).drop 1) = (a : Int) ∧ (regName a).head? = some 'r' ∧
    strchr (regName a) '[' = none ∧ deleteSpaces (regName a) = regName a ∧
    (∀ c ∈ regName a, isalnum c = true) := by
  interval_cases a <;> decide

theorem getAddressingMode_reg (a : Nat) (ha : a < 8) (t : LabelTable)
    (hf : findLabel t (regName a) = -1) : getAddressingMode (regName a) t = 3 := by
  obtain ⟨_, _, _, h4, h5, _⟩ := regName_facts a ha
  unfold getAddressingMode
  rw [h4, h5]
  simp [hf]

/-- A register operand that may stand in its position is encoded and the loop
goes on. -/
theorem encodeOperand_reg (a : Nat) (ha : a < 8) (i numOprnd : Nat) (opcode : Int) (IC : Nat)
    (s : OperandState) (hf : findLabel s.table (regName a) = -1)
    (huse : IsValidRegUse i numOprnd opcode = true) :
    encodeOperand (regName a) i numOprnd opcode IC s =
      some ({ s with
        Code := insertBin (if i = 1 ∧ numOprnd = 2 then (3 : Int) * 16 else 3 * 4)
          (encodeRegisterOperand (regName a) s.Code i numOprnd IC s.is_reg s.word_count).1 IC,
        is_reg := (encodeRegisterOperand (regName a) s.Code i numOprnd IC s.is_reg s.word_count).2.1,
        word_count :=
          (encodeRegisterOperand (regName a) s.Code i numOprnd IC s.is_reg s.word_count).2.2 },
        true) := by
  obtain ⟨_, h2, _⟩ := regName_facts a ha
  unfold encodeOperand
  simp only [getAddressingMode_reg a ha s.table hf, IMMEDIATE, LABEL, MATRIX, REGISTER, h2, huse]
  simp

/-! ## Writing through a label pointer -/

theorem updateChain_any (c : List Label) (n m : CStr) (f : Label → Label)
    (hf : ∀ l, (f l).name = l.name) :
    (updateChain c n f).any (fun l => decide (l.name = m)) = c.any (fun l => decide (l.name = m)) := by
  induction c with
  | nil => rfl
  | cons x r ih =>
    unfold updateChain
    split_ifs with h
    · simp [hf]
    · simp only [List.any_cons, ih]

theorem updateChain_find_same (c : List Label) (n : CStr) (f : Label → Label)
    (hf : ∀ l, (f l).name = l.name) :
    (updateChain c n f).find? (fun l => decide (l.name = n)) =
      (c.find? (fun l => decide (l.name = n))).map f := by
  induction c with
  | nil => rfl
  | cons x r ih =>
    unfold updateChain
    split_ifs with h
    · simp [List.find?, hf, h]
    · simp [List.find?, h, ih]

theorem updateChain_find_other (c : List Label) (n m : CStr) (f : Label → Label)
    (hf : ∀ l, (f l).name = l.name) (hm : m ≠ n) :
    (updateChain c n f).find? (fun l => decide (l.name = m)) =
      c.find? (fun l => decide (l.name = m)) := by
  induction c with
  | nil => rfl
  | cons x r ih =>
    unfold updateChain
    split_ifs with h
    · have : ¬ x.name = m := fun e => hm (e.symm.trans h)
      simp [List.find?, hf, this]
    · by_cases hx : x.name = m
      · simp [List.find?, hx]
      · simp [List.find?, hx, ih]

theorem updateLabel_getD (t : LabelTable) (i j : Nat) (n : CStr) (f : Label → Label) :
    (updateLabel t i n f).Labels.getD j [] =
      if j = i then updateChain (t.Labels.getD i []) n f else t.Labels.getD j [] := by
  unfold updateLabel
  simp only [List.getD_eq_getElem?_getD, List.getElem?_set]
  by_cases hj : j = i
  · subst hj
    by_cases hlt : j < t.Labels.length
    · simp [hlt]
    · simp [hlt, List.getElem?_eq_none (Nat.le_of_not_lt hlt), updateChain]
  · have : i ≠ j := fun h => hj h.symm
    simp [hj, this]

theorem updateLabel_size (t : LabelTable) (i : Nat) (n : CStr) (f : Label → Label) :
    (updateLabel t i n f).table_size = t.table_size := rfl

theorem updateLabel_findLabel (t : LabelTable) (i : Nat) (n m : CStr) (f : Label → Label)
    (hf : ∀ l, (f l).name = l.name) :
    findLabel (updateLabel t i n f) m = findLabel t m := by
  have key : ((updateLabel t i n f).Labels.getD (hash m % t.table_size) []).any
      (fun l => decide (l.name = m)) =
      (t.Labels.getD (hash m % t.table_size) []).any (fun l => decide (l.name = m)) := by
    rw [updateLabel_getD]
    split_ifs with h
    · rw [updateChain_any _ _ _ _ hf, h]
    · rfl
  unfold findLabel
  simp only [updateLabel_size, key]

theorem updateLabel_chainLookup (t : LabelTable) (i j : Nat) (n m : CStr) (f : Label → Label)
    (hf : ∀ l, (f l).name = l.name) :
    chainLookup (updateLabel t i n f) j m =
      if j = i ∧ m = n then (chainLookup t i n).map f else chainLookup t j m := by
  unfold chainLookup
  rw [updateLabel_getD]
  by_cases hj : j = i
  · subst hj
    by_cases hm : m = n
    · subst hm
      simp [updateChain_find_same _ _ _ hf]
    · simp [hm, updateChain_find_other _ _ _ _ hf hm]
  · simp [hj]

theorem updateLabel_lookup (t : LabelTable) (n m : CStr) (f : Label → Label)
    (hf : ∀ l, (f l).name = l.name) :
    lookupLabel (updateLabel t (findLabel t n).toNat n f) m =
      if m = n then (lookupLabel t n).map f else lookupLabel t m := by
  unfold lookupLabel
  simp only [updateLabel_findLabel _ _ _ _ _ hf, updateLabel_chainLookup _ _ _ _ _ _ hf]
  by_cases hm : m = n
  · subst hm
    split_ifs <;> simp_all
  · simp [hm]

/-! ## Claims about the symbol table -/

/-- C3 (failing input): `A` and `K` are two distinct names that hash to the same
chain of a table of size 10; after `addLabel` of both, `num_labels` is 1, not 2:
the counter only grows when the chain of the new label was empty. -/
theorem C3_num_labels_counts_chains :
    "A".toList ≠ "K".toList ∧
    (addLabel (addLabel (create_LabelTable 10) "A".toList false false)
      "K".toList false false).num_labels = 1 := by
  decide

/-- C4: the load-factor invariant `num_labels < 0.75 * table_size` holds for
`create_LabelTable(10)`, and every `addLabel` that starts from a table satisfying
it ends in a table satisfying it (the single doubling of `CheckAndResizeTable`
is enough). -/
theorem C4_load_factor_invariant :
    LoadFactorInv (create_LabelTable TABLE_SIZE) ∧
    ∀ (t : LabelTable) (name : CStr) (ext mat : Bool),
      LoadFactorInv t → LoadFactorInv (addLabel t name ext mat) := by
  refine ⟨?_, ?_⟩
  · rw [loadFactorInv_iff]; decide
  · intro t name ext mat h
    rw [loadFactorInv_iff] at h ⊢
    simp only [addLabel, CheckAndResizeTable, resizeLabelTable]
    have h0 : t.num_labels = 0 ∨ 1 ≤ t.num_labels := by omega
    split_ifs <;> simp only [] <;> rcases h0 with h0 | h0 <;> omega

/-- C4 at a concrete input: the table after the first insertion. -/
theorem C4_load_factor_witness :
    LoadFactorInv (addLabel (create_LabelTable TABLE_SIZE) "MAIN".toList false false) :=
  C4_load_factor_invariant.2 _ _ _ _ C4_load_factor_invariant.1

/-! ## Two register operands -/

theorem twoOp_facts (op : CStr)
    (hop : op ∈ ["mov".toList, "cmp".toList, "add".toList, "sub".toList]) :
    op ≠ [] ∧ (∀ c ∈ op, " \r\n".toList.contains c = false) ∧ deleteSpaces op = op ∧
    0 ≤ getOpcode op ∧ getOpcode op ≤ 3 := by
  simp only [List.mem_cons, List.mem_singleton, List.not_mem_nil, or_false] at hop
  rcases hop with rfl | rfl | rfl | rfl <;> decide

theorem regPair_facts (a b : Nat) (ha : a < 8) (hb : b < 8) :
    strtok (regName a ++ ',' :: ' ' :: regName b) "\r\n".toList =
      (some (regName a ++ ',' :: ' ' :: regName b), []) ∧
    deleteSpaces (regName a ++ ',' :: ' ' :: regName b) = regName a ++ ',' :: ' ' :: regName b ∧
    IsValidInstSyntax (some (regName a ++ ',' :: ' ' :: regName b)) 2 = some true ∧
    strtok (regName a ++ ',' :: ' ' :: regName b) ",\r\n".toList =
      (some (regName a), ' ' :: regName b) ∧
    (strtok (' ' :: regName b) "\r\n".toList).1 = some (' ' :: regName b) := by
  interval_cases a <;> interval_cases b <;> decide


theorem encode_two_registers (op : CStr) (a b : Nat) (st : AsmState)
    (hop : op ∈ ["mov".toList, "cmp".toList, "add".toList, "sub".toList])
    (ha : a < 8) (hb : b < 8)
    (hv : ∀ l ∈ allLabels st.table, validLabel l.name = true) :
    EncodeInstruction (op ++ ' ' :: (regName a ++ ',' :: ' ' :: regName b)) st =
      some { st with
        Code := insertBin (3 * 4) (insertBin ((b : Int) * 4) (insertBin (3 * 16)
          (insertBin ((a : Int) * 64) (insertBin (getOpcode op * 64) st.Code st.IC) (st.IC + 1))
          st.IC) (st.IC + 1)) st.IC,
        IC := st.IC + 2 } := by
  obtain ⟨hne, hnd, hds, hge, hle⟩ := twoOp_facts op hop
  obtain ⟨r1, r2, r3, r4, r5⟩ := regPair_facts a b ha hb
  obtain ⟨va, _, ata, _, _, dsa, _⟩ := regName_facts a ha
  obtain ⟨vb, _, atb, _, _, dsb, _⟩ := regName_facts b hb
  have hfa := findLabel_invalid st.table _ hv va
  have hfb := findLabel_invalid st.table _ hv vb
  have htok : strtok (op ++ ' ' :: (regName a ++ ',' :: ' ' :: regName b)) " \r\n".toList =
      (some op, regName a ++ ',' :: ' ' :: regName b) :=
    strtok_token op ' ' _ _ hne hnd (by decide)
  have hnum : getNumOperand (getOpcode op) = 2 := by
    unfold getNumOperand
    have h14 : ¬ (getOpcode op = 14 ∨ getOpcode op = 15) := by omega
    have h04 : getOpcode op = 0 ∨ getOpcode op = 1 ∨ getOpcode op = 2 ∨ getOpcode op = 3 ∨
        getOpcode op = 4 := by omega
    rw [if_neg h14, if_pos h04]
  have hneg : getOpcode op ≠ -1 := by omega
  have huse : ∀ i, IsValidRegUse i 2 (getOpcode op) = true := by
    intro i
    unfold IsValidRegUse
    have : ¬ (i = 1 ∧ 2 = 2 ∧ getOpcode op = 4) := by omega
    rw [if_neg this]
  have e1 := encodeOperand_reg a ha 1 2 (getOpcode op) st.IC
    { table := st.table, Code := insertBin (getOpcode op * 64) st.Code st.IC, word_count := 1,
      is_reg := false, Error := st.Error } hfa (huse 1)
  unfold EncodeInstruction
  simp only [htok, deleteSpacesP, Option.map_some', hds, hneg, if_false, hnum, r1, r2, r3,
    OfNat.ofNat_ne_zero]
  unfold EncodeOperands
  simp only [OfNat.ofNat_ne_one, if_false, if_true, r4, r5, deleteSpacesP, Option.map_some',
    dsa, deleteSpaces_space, dsb, e1]
  rw [encodeOperand_reg b hb 2 2 (getOpcode op) st.IC _ hfb (huse 2)]
  simp only [closeOperands, encodeRegisterOperand, ata, atb, if_true, OfNat.ofNat_ne_one,
    if_false, and_self, and_true, true_and, Nat.add_sub_cancel]

/-- C5: for `op` in mov, cmp, add, sub and registers `ra`, `rb` (a, b in 0..7),
encoding `op ra, rb` at `IC` over zeroed words `Code[IC]`, `Code[IC+1]`, in a
table whose names all passed `validLabel`, returns without touching the error
flag, writes `Code[IC] = (op << 6) | (3 << 4) | (3 << 2)` and the one shared
word `Code[IC+1] = (a << 6) | (b << 2)`, changes no other word and advances
`IC` by 2. -/
theorem C5_two_registers_share_one_word (op : CStr) (a b : Nat) (st : AsmState)
    (hop : op ∈ ["mov".toList, "cmp".toList, "add".toList, "sub".toList])
    (ha : a < 8) (hb : b < 8)
    (hv : ∀ l ∈ allLabels st.table, validLabel l.name = true)
    (h0 : st.Code st.IC = 0) (h1 : st.Code (st.IC + 1) = 0) :
    ∃ st', EncodeInstruction (op ++ ' ' :: (regName a ++ ',' :: ' ' :: regName b)) st = some st' ∧
      st'.Error = st.Error ∧ st'.IC = st.IC + 2 ∧
      st'.Code st.IC = ((getOpcode op).toNat <<< 6) ||| (3 <<< 4) ||| (3 <<< 2) ∧
      st'.Code (st.IC + 1) = (a <<< 6) ||| (b <<< 2) ∧
      (∀ j, j ≠ st.IC → j ≠ st.IC + 1 → st'.Code j = st.Code j) ∧
      st'.table = st.table ∧ st'.Data = st.Data ∧ st'.DC = st.DC := by
  obtain ⟨hne, hnd, hds, hge, hle⟩ := twoOp_facts op hop
  refine ⟨_, encode_two_registers op a b st hop ha hb hv, rfl, rfl, ?_, ?_, ?_, rfl, rfl, rfl⟩
  · have hk : (getOpcode op).toNat < 4 := by omega
    have hk2 : (getOpcode op * 64 % 1024).toNat = (getOpcode op).toNat * 64 := by omega
    simp only [insertBin_same, insertBin_other _ _ _ _ (Nat.ne_of_lt (Nat.lt_succ_self st.IC)),
      h0, hk2, Nat.zero_or]
    generalize (getOpcode op).toNat = k at hk
    interval_cases k <;> decide
  · have ha2 : ((a : Int) * 64 % 1024).toNat = a * 64 := by omega
    have hb2 : ((b : Int) * 4 % 1024).toNat = b * 4 := by omega
    simp only [insertBin_same, insertBin_other _ _ _ _ (Nat.succ_ne_self st.IC), h1, ha2, hb2,
      Nat.zero_or]
    interval_cases a <;> interval_cases b <;> decide
  · intro j hj0 hj1
    simp only []
    rw [insertBin_other _ _ _ _ hj0, insertBin_other _ _ _ _ hj1, insertBin_other _ _ _ _ hj0,
      insertBin_other _ _ _ _ hj1, insertBin_other _ _ _ _ hj0]

/-- C5 at a concrete input: `mov r1, r2` at `IC = 0` in the empty table. -/
theorem C5_two_registers_witness :
    ∃ st', EncodeInstruction ("mov".toList ++ ' ' :: (regName 1 ++ ',' :: ' ' :: regName 2))
        emptyState = some st' ∧
      st'.Error = emptyState.Error ∧ st'.IC = emptyState.IC + 2 ∧
      st'.Code emptyState.IC = ((getOpcode "mov".toList).toNat <<< 6) ||| (3 <<< 4) ||| (3 <<< 2) ∧
      st'.Code (emptyState.IC + 1) = (1 <<< 6) ||| (2 <<< 2) ∧
      (∀ j, j ≠ emptyState.IC → j ≠ emptyState.IC + 1 → st'.Code j = emptyState.Code j) ∧
      st'.table = emptyState.table ∧ st'.Data = emptyState.Data ∧ st'.DC = emptyState.DC :=
  C5_two_registers_share_one_word "mov".toList 1 2 emptyState (by decide) (by decide) (by decide)
    (by intro l hl; simp [allLabels, emptyState, create_LabelTable, TABLE_SIZE] at hl) rfl rfl

/-! ## Immediate and direct operands -/

theorem numChar_no_delim (c : Char) (h : isdigit c = true ∨ c = '-' ∨ c = '+') :
    c ≠ ',' ∧ c ≠ '\r' ∧ c ≠ '\n' ∧ c ≠ ' ' ∧ c ≠ '\t' ∧ isspace c = false := by
  rcases h with h | rfl | rfl
  · simp only [isdigit, Bool.and_eq_true, decide_eq_true_eq] at h
    refine ⟨?_, ?_, ?_, ?_, ?_, ?_⟩
    · rintro rfl; simp at h
    · rintro rfl; simp at h
    · rintro rfl; simp at h
    · rintro rfl; simp at h
    · rintro rfl; simp at h
    · simp only [isspace, Bool.or_eq_false_iff, Bool.and_eq_false_iff, decide_eq_false_iff_not]
      omega
  · decide
  · decide

theorem encodeOperand_imm (v : CStr) (hv : isValidNum v = true) (i numOprnd : Nat)
    (opcode : Int) (IC : Nat) (s : OperandState)
    (huse : IsValidImmUse i opcode numOprnd = true) :
    encodeOperand ('#' :: v) i numOprnd opcode IC s =
      some ({ s with
        Code := insertBin (if i = 1 ∧ numOprnd = 2 then (0 : Int) * 16 else 0 * 4)
          (insertBin (toInt16 (atoi v) * 4) s.Code (IC + s.word_count)) IC,
        word_count := s.word_count + 1 }, true) := by
  have hm : getAddressingMode ('#' :: v) s.table = 0 := by
    unfold getAddressingMode; simp
  have hvi : isValidImmediate ('#' :: v) = true := by
    unfold isValidImmediate; simpa using hv
  unfold encodeOperand
  simp only [hm, IMMEDIATE, hvi, huse, encodeImmediate]
  simp

theorem lookupLabel_some (t : LabelTable) (n : CStr) (lab : Label)
    (h : lookupLabel t n = some lab) :
    0 ≤ findLabel t n ∧ findLabel t n ≠ -1 ∧ chainLookup t (findLabel t n).toNat n = some lab := by
  unfold lookupLabel at h
  split_ifs at h with h1
  exact ⟨by omega, by omega, h⟩

theorem forall2_refl {α : Type} (R : α → α → Prop) (h : ∀ a, R a a) (l : List α) :
    List.Forall₂ R l l := by
  induction l with
  | nil => exact List.Forall₂.nil
  | cons x r ih => exact List.Forall₂.cons (h x) ih

theorem forall2_trans {α : Type} (R : α → α → Prop) (h : ∀ a b c, R a b → R b c → R a c)
    (l1 l2 l3 : List α) (h12 : List.Forall₂ R l1 l2) (h23 : List.Forall₂ R l2 l3) :
    List.Forall₂ R l1 l3 := by
  induction h12 generalizing l3 with
  | nil => cases h23; exact List.Forall₂.nil
  | cons hab _ ih =>
    cases h23 with
    | cons hbc hrest => exact List.Forall₂.cons (h _ _ _ hab hbc) (ih _ hrest)

theorem tableRel_refl (E : Label → Label → Prop) (hE : ∀ l, E l l) (t : LabelTable) :
    TableRel E t t :=
  ⟨rfl, rfl, forall2_refl _ (fun c => forall2_refl E hE c) _⟩

theorem tableRel_trans (E : Label → Label → Prop) (hE : ∀ a b c, E a b → E b c → E a c)
    (t1 t2 t3 : LabelTable) (h12 : TableRel E t1 t2) (h23 : TableRel E t2 t3) :
    TableRel E t1 t3 :=
  ⟨h23.1.trans h12.1, h23.2.1.trans h12.2.1,
    forall2_trans _ (fun a b c => forall2_trans E hE a b c) _ _ _ h12.2.2 h23.2.2⟩

theorem tableRel_mono (E E' : Label → Label → Prop) (h : ∀ a b, E a b → E' a b)
    (t t' : LabelTable) (hr : TableRel E t t') : TableRel E' t t' :=
  ⟨hr.1, hr.2.1, hr.2.2.imp (fun _ _ hc => hc.imp h)⟩

theorem updateChain_forall2 (E : Label → Label → Prop) (hE : ∀ l, E l l) (c : List Label)
    (n : CStr) (f : Label → Label) (hf : ∀ l, E l (f l)) :
    List.Forall₂ E c (updateChain c n f) := by
  induction c with
  | nil => exact List.Forall₂.nil
  | cons x r ih =>
    unfold updateChain
    split_ifs
    · exact List.Forall₂.cons (hf x) (forall2_refl E hE r)
    · exact List.Forall₂.cons (hE x) ih

theorem set_forall2 {α : Type} (R : α → α → Prop) (hR : ∀ a, R a a) (l : List α) (i : Nat)
    (y : α) (hy : ∀ x, l[i]? = some x → R x y) : List.Forall₂ R l (l.set i y) := by
  induction l generalizing i with
  | nil => exact List.Forall₂.nil
  | cons x r ih =>
    cases i with
    | zero => exact List.Forall₂.cons (hy x (by simp)) (forall2_refl R hR r)
    | succ i => exact List.Forall₂.cons (hR x) (ih i (fun z hz => hy z (by simpa using hz)))

theorem updateLabel_rel (E : Label → Label → Prop) (hE : ∀ l, E l l) (t : LabelTable) (i : Nat)
    (n : CStr) (f : Label → Label) (hf : ∀ l, E l (f l)) :
    TableRel E t (updateLabel t i n f) := by
  refine ⟨rfl, rfl, ?_⟩
  unfold updateLabel
  apply set_forall2 _ (fun c => forall2_refl E hE c)
  intro c hc
  have : t.Labels.getD i [] = c := by simp [List.getD_eq_getElem?_getD, hc]
  rw [this]
  exact updateChain_forall2 E hE c n f hf

theorem forall2_getD (E : Label → Label → Prop) (b b' : List (List Label))
    (h : List.Forall₂ (List.Forall₂ E) b b') (i : Nat) :
    List.Forall₂ E (b.getD i []) (b'.getD i []) := by
  induction h generalizing i with
  | nil => simp
  | cons hc _ ih =>
    cases i with
    | zero => simpa using hc
    | succ i => simpa using ih i

theorem forall2_any_name (E : Label → Label → Prop) (hE : ∀ a b, E a b → b.name = a.name)
    (c c' : List Label) (h : List.Forall₂ E c c') (m : CStr) :
    c'.any (fun l => decide (l.name = m)) = c.any (fun l => decide (l.name = m)) := by
  induction h with
  | nil => rfl
  | cons hab _ ih => simp only [List.any_cons, ih, hE _ _ hab]

theorem forall2_find_name (E : Label → Label → Prop) (hE : ∀ a b, E a b → b.name = a.name)
    (c c' : List Label) (h : List.Forall₂ E c c') (m : CStr) :
    (c.find? (fun l => decide (l.name = m)) = none ∧
      c'.find? (fun l => decide (l.name = m)) = none) ∨
    ∃ l l', c.find? (fun l => decide (l.name = m)) = some l ∧
      c'.find? (fun l => decide (l.name = m)) = some l' ∧ E l l' := by
  induction h with
  | nil => exact Or.inl ⟨rfl, rfl⟩
  | @cons a b r r' hab _ ih =>
    by_cases ha : a.name = m
    · right
      refine ⟨a, b, by simp [List.find?, ha], ?_, hab⟩
      have : b.name = m := by rw [hE _ _ hab]; exact ha
      simp [List.find?, this]
    · have hb : ¬ b.name = m := by rw [hE _ _ hab]; exact ha
      simpa [List.find?, ha, hb] using ih

theorem tableRel_findLabel (E : Label → Label → Prop) (hE : ∀ a b, E a b → b.name = a.name)
    (t t' : LabelTable) (h : TableRel E t t') (m : CStr) : findLabel t' m = findLabel t m := by
  unfold Assembler.findLabel
  simp only [h.1]
  rw [forall2_any_name E hE _ _ (forall2_getD E _ _ h.2.2 _) m]

theorem tableRel_lookup (E : Label → Label → Prop) (hE : ∀ a b, E a b → b.name = a.name)
    (t t' : LabelTable) (h : TableRel E t t') (m : CStr) :
    (lookupLabel t m = none ∧ lookupLabel t' m = none) ∨
    ∃ l l', lookupLabel t m = some l ∧ lookupLabel t' m = some l' ∧ E l l' := by
  unfold lookupLabel
  rw [tableRel_findLabel E hE t t' h m]
  split_ifs
  · exact Or.inl ⟨rfl, rfl⟩
  · unfold chainLookup
    exact forall2_find_name E hE _ _ (forall2_getD E _ _ h.2.2 _) m


/-! ## What the second pass leaves alone -/

theorem sameAddr_refl (l : Label) : SameAddr l l := ⟨⟨rfl, rfl, rfl⟩, rfl⟩

theorem sameAddr_trans (a b c : Label) (h1 : SameAddr a b) (h2 : SameAddr b c) : SameAddr a c :=
  ⟨⟨h2.1.1.trans h1.1.1, h2.1.2.1.trans h1.1.2.1, h2.1.2.2.trans h1.1.2.2⟩, h2.2.trans h1.2⟩

theorem sameAddr_name (a b : Label) (h : SameAddr a b) : b.name = a.name := h.1.1

theorem sameRefs_refl (l : Label) : SameRefs l l := ⟨sameAddr_refl l, rfl⟩

theorem sameSkel_refl (l : Label) : SameSkel l l := ⟨rfl, rfl, rfl⟩

theorem sameSkel_trans (a b c : Label) (h1 : SameSkel a b) (h2 : SameSkel b c) : SameSkel a c :=
  ⟨h2.1.trans h1.1, h2.2.1.trans h1.2.1, h2.2.2.trans h1.2.2⟩

theorem saveRef_sameAddr (p : Nat) (l : Label) : SameAddr l (saveRef l p) := ⟨⟨rfl, rfl, rfl⟩, rfl⟩

theorem tableRel_addr_refl (t : LabelTable) : TableRel SameAddr t t :=
  tableRel_refl SameAddr sameAddr_refl t

theorem tableRel_addr_trans (t1 t2 t3 : LabelTable) (h12 : TableRel SameAddr t1 t2)
    (h23 : TableRel SameAddr t2 t3) : TableRel SameAddr t1 t3 :=
  tableRel_trans SameAddr sameAddr_trans t1 t2 t3 h12 h23

theorem encodeLabelOperand_frame (op : CStr) (t : LabelTable) (Code : Mem) (IC wc : Nat)
    (b : Bool) (t' : LabelTable) (c' : Mem) (wc' : Nat)
    (h : encodeLabelOperand op t Code IC wc = some (b, t', c', wc')) :
    TableRel SameAddr t t' ∧ wc ≤ wc' := by
  unfold encodeLabelOperand at h
  simp only [] at h
  split_ifs at h with h1 h2
  · simp only [Option.some.injEq, Prod.mk.injEq] at h
    obtain ⟨_, rfl, _, rfl⟩ := h
    exact ⟨tableRel_addr_refl _, le_refl _⟩
  · split at h
    · exact absurd h (by simp)
    · split_ifs at h with h3
      all_goals
        simp only [Option.some.injEq, Prod.mk.injEq] at h
        obtain ⟨_, rfl, _, rfl⟩ := h
        first
          | exact ⟨tableRel_addr_refl _, le_refl _⟩
          | exact ⟨updateLabel_rel SameAddr sameAddr_refl _ _ _ _ (saveRef_sameAddr _), by omega⟩

theorem encodeMatrixOperand_frame (op : CStr) (t : LabelTable) (Code : Mem) (IC wc : Nat)
    (b : Bool) (t' : LabelTable) (c' : Mem) (wc' : Nat)
    (h : encodeMatrixOperand op t Code IC wc = some (b, t', c', wc')) :
    TableRel SameAddr t t' ∧ wc ≤ wc' := by
  unfold encodeMatrixOperand at h
  split at h
  · exact absurd h (by simp)
  · simp only [Option.some.injEq, Prod.mk.injEq] at h
    obtain ⟨_, rfl, _, rfl⟩ := h
    exact ⟨tableRel_addr_refl _, le_refl _⟩
  · simp only [] at h
    split_ifs at h with h1
    split at h
    · exact absurd h (by simp)
    · simp only [Option.some.injEq, Prod.mk.injEq] at h
      obtain ⟨_, rfl, _, rfl⟩ := h
      exact ⟨updateLabel_rel SameAddr sameAddr_refl _ _ _ _ (saveRef_sameAddr _), by omega⟩

theorem encodeOperand_frame (op : CStr) (i k : Nat) (opc : Int) (IC : Nat)
    (s s' : OperandState) (go : Bool) (h : encodeOperand op i k opc IC s = some (s', go)) :
    TableRel SameAddr s.table s'.table ∧ s.word_count ≤ s'.word_count ∧
      (go = true → s'.Error = s.Error) ∧ (go = false → s'.Error = true) := by
  unfold encodeOperand at h
  simp only [] at h
  by_cases h1 : getAddressingMode op s.table = IMMEDIATE
  · rw [if_pos h1] at h
    by_cases h2 : (!isValidImmediate op || !IsValidImmUse i opc k) = true
    · rw [if_pos h2] at h
      simp only [Option.some.injEq, Prod.mk.injEq] at h
      obtain ⟨rfl, rfl⟩ := h
      exact ⟨tableRel_addr_refl _, le_refl _, by simp, by simp⟩
    · rw [if_neg h2] at h
      simp only [Option.some.injEq, Prod.mk.injEq] at h
      obtain ⟨rfl, rfl⟩ := h
      exact ⟨tableRel_addr_refl _, by simp [encodeImmediate], by simp, by simp⟩
  rw [if_neg h1] at h
  by_cases h2 : getAddressingMode op s.table = LABEL
  · rw [if_pos h2] at h
    split at h
    · exact absurd h (by simp)
    · simp only [Option.some.injEq, Prod.mk.injEq] at h
      obtain ⟨rfl, rfl⟩ := h
      exact ⟨tableRel_addr_refl _, le_refl _, by simp, by simp⟩
    · rename_i t c w heq
      simp only [Option.some.injEq, Prod.mk.injEq] at h
      obtain ⟨rfl, rfl⟩ := h
      have := encodeLabelOperand_frame _ _ _ _ _ _ _ _ _ heq
      exact ⟨this.1, this.2, by simp, by simp⟩
  rw [if_neg h2] at h
  by_cases h3 : getAddressingMode op s.table = MATRIX
  · rw [if_pos h3] at h
    split at h
    · exact absurd h (by simp)
    · simp only [Option.some.injEq, Prod.mk.injEq] at h
      obtain ⟨rfl, rfl⟩ := h
      exact ⟨tableRel_addr_refl _, le_refl _, by simp, by simp⟩
    · rename_i t c w heq
      simp only [Option.some.injEq, Prod.mk.injEq] at h
      obtain ⟨rfl, rfl⟩ := h
      have := encodeMatrixOperand_frame _ _ _ _ _ _ _ _ _ heq
      exact ⟨this.1, this.2, by simp, by simp⟩
  rw [if_neg h3] at h
  by_cases h4 : getAddressingMode op s.table = REGISTER
  · rw [if_pos h4] at h
    by_cases h5 : (!isValidReg op || !IsValidRegUse i k opc) = true
    · rw [if_pos h5] at h
      simp only [Option.some.injEq, Prod.mk.injEq] at h
      obtain ⟨rfl, rfl⟩ := h
      exact ⟨tableRel_addr_refl _, le_refl _, by simp, by simp⟩
    · rw [if_neg h5] at h
      simp only [Option.some.injEq, Prod.mk.injEq] at h
      obtain ⟨rfl, rfl⟩ := h
      refine ⟨tableRel_addr_refl _, ?_, by simp, by simp⟩
      simp only [encodeRegisterOperand]
      split_ifs <;> simp
  rw [if_neg h4] at h
  simp only [Option.some.injEq, Prod.mk.injEq] at h
  obtain ⟨rfl, rfl⟩ := h
  exact ⟨tableRel_addr_refl _, le_refl _, by simp, by simp⟩

theorem closeOperands_facts (st : AsmState) (s : OperandState) (b : Bool) :
    (closeOperands st s b).table = s.table ∧ (closeOperands st s b).Code = s.Code ∧
    (closeOperands st s b).Error = s.Error ∧ (closeOperands st s b).Data = st.Data ∧
    (closeOperands st s b).DC = st.DC ∧ st.IC ≤ (closeOperands st s b).IC := by
  refine ⟨rfl, rfl, rfl, rfl, rfl, ?_⟩
  unfold closeOperands
  simp only []
  split_ifs <;> omega

theorem operand_error_mono (s s' : OperandState) (go : Bool)
    (h : (go = true → s'.Error = s.Error) ∧ (go = false → s'.Error = true)) :
    s.Error = true → s'.Error = true := by
  intro he
  cases go with
  | true => rw [h.1 rfl]; exact he
  | false => exact h.2 rfl

theorem EncodeOperands_frame (k : Nat) (line : CStr) (opc : Int) (st st' : AsmState)
    (h : EncodeOperands k line opc st = some st') :
    TableRel SameAddr st.table st'.table ∧ st'.Data = st.Data ∧ st'.DC = st.DC ∧
      st.IC ≤ st'.IC ∧ (st.Error = true → st'.Error = true) := by
  unfold EncodeOperands at h
  simp only [] at h
  by_cases h1 : k = 1
  · rw [if_pos h1] at h
    split at h
    · simp only [Option.some.injEq] at h
      subst h
      exact ⟨tableRel_addr_refl _, rfl, rfl, le_refl _, id⟩
    · split at h
      · exact absurd h (by simp)
      · rename_i s1 go heq
        simp only [Option.some.injEq] at h
        subst h
        have hf := encodeOperand_frame _ _ _ _ _ _ _ _ heq
        have hc := closeOperands_facts st s1 go
        rw [hc.1, hc.2.2.1, hc.2.2.2.1, hc.2.2.2.2.1]
        exact ⟨hf.1, rfl, rfl, hc.2.2.2.2.2, operand_error_mono _ _ _ hf.2.2⟩
  rw [if_neg h1] at h
  by_cases h2 : k = 2
  · rw [if_pos h2] at h
    split at h
    · simp only [Option.some.injEq] at h
      subst h
      exact ⟨tableRel_addr_refl _, rfl, rfl, le_refl _, id⟩
    · split at h
      · exact absurd h (by simp)
      · rename_i s1 heq
        simp only [Option.some.injEq] at h
        subst h
        have hf := encodeOperand_frame _ _ _ _ _ _ _ _ heq
        have hc := closeOperands_facts st s1 false
        rw [hc.1, hc.2.2.1, hc.2.2.2.1, hc.2.2.2.2.1]
        exact ⟨hf.1, rfl, rfl, hc.2.2.2.2.2, operand_error_mono _ _ _ hf.2.2⟩
      · rename_i s1 heq
        have hf := encodeOperand_frame _ _ _ _ _ _ _ _ heq
        split at h
        · simp only [Option.some.injEq] at h
          subst h
          have hc := closeOperands_facts st s1 false
          rw [hc.1, hc.2.2.1, hc.2.2.2.1, hc.2.2.2.2.1]
          exact ⟨hf.1, rfl, rfl, hc.2.2.2.2.2, operand_error_mono _ _ _ hf.2.2⟩
        · split at h
          · exact absurd h (by simp)
          · rename_i s2 go heq2
            simp only [Option.some.injEq] at h
            subst h
            have hf2 := encodeOperand_frame _ _ _ _ _ _ _ _ heq2
            have hc := closeOperands_facts st s2 go
            rw [hc.1, hc.2.2.1, hc.2.2.2.1, hc.2.2.2.2.1]
            exact ⟨tableRel_addr_trans _ _ _ hf.1 hf2.1, rfl, rfl, hc.2.2.2.2.2,
              fun he => operand_error_mono _ _ _ hf2.2.2 (operand_error_mono _ _ _ hf.2.2 he)⟩
  rw [if_neg h2] at h
  simp only [Option.some.injEq] at h
  subst h
  have hc := closeOperands_facts st
    { table := st.table, Code := st.Code, word_count := 1, is_reg := false, Error := st.Error } true
  rw [hc.1, hc.2.2.1, hc.2.2.2.1, hc.2.2.2.2.1]
  exact ⟨tableRel_addr_refl _, rfl, rfl, hc.2.2.2.2.2, id⟩

theorem EncodeInstruction_frame (line : CStr) (st st' : AsmState)
    (h : EncodeInstruction line st = some st') :
    TableRel SameAddr st.table st'.table ∧ st'.Data = st.Data ∧ st'.DC = st.DC ∧
      st.IC ≤ st'.IC ∧ (st.Error = true → st'.Error = true) := by
  unfold EncodeInstruction at h
  simp only [] at h
  split at h
  · exact absurd h (by simp)
  · rename_i inst _
    by_cases h1 : getOpcode inst = -1
    · rw [if_pos h1] at h
      simp only [Option.some.injEq] at h
      subst h
      exact ⟨tableRel_addr_refl _, rfl, rfl, le_refl _, fun _ => rfl⟩
    rw [if_neg h1] at h
    by_cases h2 : getNumOperand (getOpcode inst) = 0
    · rw [if_pos h2] at h
      simp only [Option.some.injEq] at h
      subst h
      exact ⟨tableRel_addr_refl _, rfl, rfl, Nat.le_succ _, id⟩
    rw [if_neg h2] at h
    split at h
    · have := EncodeOperands_frame _ _ _ _ _ h
      exact this
    · simp only [Option.some.injEq] at h
      subst h
      exact ⟨tableRel_addr_refl _, rfl, rfl, le_refl _, fun _ => rfl⟩
    · exact absurd h (by simp)

theorem encodeDataParams_error (params : List CStr) (Data : Mem) (DC wc : Nat) (e : Bool) :
    e = true → (encodeDataParams params Data DC wc e).2.2 = true := by
  intro he
  induction params generalizing Data wc with
  | nil => simpa [encodeDataParams] using he
  | cons p rest ih =>
    unfold encodeDataParams
    simp only []
    split_ifs
    · rfl
    · exact ih _ _

theorem EncodeDataLine_error (line : CStr) (Data : Mem) (DC : Nat) (e : Bool) :
    e = true → (EncodeDataLine line Data DC e).2.2 = true := by
  intro he
  unfold EncodeDataLine
  simp only []
  split_ifs
  · rfl
  · exact encodeDataParams_error _ _ _ _ _ he

theorem EncodeStringLine_error (line : CStr) (Data : Mem) (DC : Nat) (e : Bool)
    (r : Mem × Nat × Bool) (h : EncodeStringLine line Data DC e = some r) :
    e = true → r.2.2 = true := by
  intro he
  unfold EncodeStringLine at h
  simp only [] at h
  split_ifs at h
  · simp only [Option.some.injEq] at h; subst h; rfl
  · split at h
    · exact absurd h (by simp)
    · split_ifs at h
      simp only [Option.some.injEq] at h; subst h; exact he

theorem EncodeMatrixLine_error (line : CStr) (Data : Mem) (DC : Nat) (e : Bool)
    (r : Mem × Nat × Bool) (h : EncodeMatrixLine line Data DC e = some r) :
    e = true → r.2.2 = true := by
  intro he
  unfold EncodeMatrixLine at h
  simp only [] at h
  repeat' (first | split_ifs at h | split at h)
  all_goals first
    | (simp only [Option.some.injEq] at h; subst h; first | rfl | exact he)
    | cases h

theorem dc_sameRefs (d : Nat) (l : Label) : SameRefs l { l with dc := d } :=
  ⟨⟨⟨rfl, rfl, rfl⟩, rfl⟩, rfl⟩

theorem ent_sameRefs (l : Label) : SameRefs l { l with ent := true } :=
  ⟨⟨⟨rfl, rfl, rfl⟩, rfl⟩, rfl⟩

theorem tableRel_refs_refl (t : LabelTable) : TableRel SameRefs t t :=
  tableRel_refl SameRefs sameRefs_refl t

theorem setLabelDc_frame (t : LabelTable) (p : Option LabelPtr) (DC : Nat) (t' : LabelTable)
    (h : setLabelDc t p DC = some t') : TableRel SameRefs t t' := by
  unfold setLabelDc at h
  split at h
  · exact absurd h (by simp)
  · simp only [Option.some.injEq] at h
    subst h
    exact updateLabel_rel SameRefs sameRefs_refl _ _ _ _ (dc_sameRefs _)

theorem setLabelDc_opt_frame (b : Bool) (t : LabelTable) (p : Option LabelPtr) (DC : Nat)
    (t' : LabelTable) (h : (if b = true then setLabelDc t p DC else some t) = some t') :
    TableRel SameRefs t t' := by
  split_ifs at h
  · exact setLabelDc_frame _ _ _ _ h
  · simp only [Option.some.injEq] at h
    subst h
    exact tableRel_refs_refl _

theorem ProcessEntryLine_frame (line : CStr) (t : LabelTable) (e : Bool)
    (r : LabelTable × Bool) (h : ProcessEntryLine line t e = some r) :
    TableRel SameRefs t r.1 ∧ (e = true → r.2 = true) := by
  unfold ProcessEntryLine at h
  simp only [] at h
  repeat' (first | split_ifs at h | split at h)
  all_goals first
    | (simp only [Option.some.injEq] at h; subst h
       first
         | exact ⟨tableRel_refs_refl _, fun _ => rfl⟩
         | exact ⟨updateLabel_rel SameRefs sameRefs_refl _ _ _ _ ent_sameRefs, id⟩)

theorem ProcessDirectives_frame (line : CStr) (st : AsmState) (p : Option LabelPtr) (b : Bool)
    (st' : AsmState) (h : ProcessDirectives line st p b = some st') :
    TableRel SameRefs st.table st'.table ∧ st'.Code = st.Code ∧ st'.IC = st.IC ∧
      (st.Error = true → st'.Error = true) := by
  unfold ProcessDirectives at h
  simp only [] at h
  by_cases h1 : IsDataDirective line = true
  · rw [if_pos h1] at h
    split at h
    · exact absurd h (by simp)
    · rename_i t heq
      simp only [Option.some.injEq] at h
      subst h
      exact ⟨setLabelDc_opt_frame _ _ _ _ _ heq, rfl, rfl, EncodeDataLine_error _ _ _ _⟩
  rw [if_neg h1] at h
  by_cases h2 : IsStringDirective line = true
  · rw [if_pos h2] at h
    split at h
    · exact absurd h (by simp)
    · rename_i t heq
      split at h
      · exact absurd h (by simp)
      · rename_i r hr
        simp only [Option.some.injEq] at h
        subst h
        exact ⟨setLabelDc_opt_frame _ _ _ _ _ heq, rfl, rfl, EncodeStringLine_error _ _ _ _ _ hr⟩
  rw [if_neg h2] at h
  by_cases h3 : IsMatrixDirective line = true
  · rw [if_pos h3] at h
    by_cases hb : (!b) = true
    · rw [if_pos hb] at h
      simp only [Option.some.injEq] at h
      subst h
      exact ⟨tableRel_refs_refl _, rfl, rfl, fun _ => rfl⟩
    rw [if_neg hb] at h
    split at h
    · exact absurd h (by simp)
    · rename_i t heq
      split at h
      · exact absurd h (by simp)
      · rename_i r hr
        simp only [Option.some.injEq] at h
        subst h
        exact ⟨setLabelDc_frame _ _ _ _ heq, rfl, rfl, EncodeMatrixLine_error _ _ _ _ _ hr⟩
  rw [if_neg h3] at h
  by_cases h4 : IsEntryDirective line = true
  · rw [if_pos h4] at h
    split at h
    · exact absurd h (by simp)
    · rename_i r hr
      simp only [Option.some.injEq] at h
      subst h
      have := ProcessEntryLine_frame _ _ _ _ hr
      exact ⟨this.1, rfl, rfl, this.2⟩
  rw [if_neg h4] at h
  split_ifs at h
  · simp only [Option.some.injEq] at h
    subst h
    exact ⟨tableRel_refs_refl _, rfl, rfl, fun _ => rfl⟩
  · simp only [Option.some.injEq] at h
    subst h
    exact ⟨tableRel_refs_refl _, rfl, rfl, id⟩

theorem toShort_le (n : Nat) : toShort n ≤ (n : Int) := by
  unfold toShort
  split_ifs <;> omega

theorem findLabel_lt_size (t : LabelTable) (n : CStr) (h : 0 < t.table_size) :
    findLabel t n < (t.table_size : Int) := by
  unfold findLabel
  simp only []
  split_ifs
  · have := toShort_le (hash n % t.table_size)
    have := Nat.mod_lt (hash n) h
    omega
  · omega

theorem UpdateAddress_found (name : CStr) (t : LabelTable) (IC DC : Nat) (lab : Label)
    (hsize : 0 < t.table_size) (hlook : lookupLabel t name = some lab) :
    UpdateAddressAndGetLabel (some name) t IC DC =
      (updateLabel t (findLabel t name).toNat name
          (fun l => { l with address := (IC + DC + 100) % 65536 }),
        some ((findLabel t name).toNat, name)) := by
  obtain ⟨h0, _, h2⟩ := lookupLabel_some _ _ _ hlook
  have hlt := findLabel_lt_size t name hsize
  unfold UpdateAddressAndGetLabel
  simp only []
  rw [if_neg (by omega), h2]

theorem labelNameOf_some (line name : CStr) (h : labelNameOf line = some name) :
    IsLabelDefinition line = true ∧ deleteSpacesP (strtok line ":\r\n".toList).1 = some name := by
  unfold labelNameOf at h
  split_ifs at h with h1
  exact ⟨h1, h⟩

theorem ProcessLine_label (line name : CStr) (st st' : AsmState)
    (hname : labelNameOf line = some name) (hrun : ProcessLine line st = some st') :
    ∃ rest, deleteSpacesP (strtok (strtok line ":\r\n".toList).2 "\r\n".toList).1 = some rest ∧
      ((IsInstructionLine rest = true ∧
        EncodeInstruction rest
          { st with table := (UpdateAddressAndGetLabel (some name) st.table st.IC st.DC).1 } =
            some st') ∨
       (IsInstructionLine rest = false ∧
        ProcessDirectives rest
          { st with table := (UpdateAddressAndGetLabel (some name) st.table st.IC st.DC).1 }
          (UpdateAddressAndGetLabel (some name) st.table st.IC st.DC).2 true = some st')) := by
  obtain ⟨h1, h2⟩ := labelNameOf_some _ _ hname
  unfold ProcessLine at hrun
  simp only [h1, if_true, h2] at hrun
  split at hrun
  · exact absurd hrun (by simp)
  · rename_i t tmp rest b heq
    simp only [Prod.mk.injEq] at heq
    obtain ⟨rfl, rfl, h3, rfl⟩ := heq
    refine ⟨rest, h3, ?_⟩
    split_ifs at hrun with hi
    · exact Or.inl ⟨hi, hrun⟩
    · exact Or.inr ⟨by simpa using hi, hrun⟩

theorem ProcessLine_plain (line : CStr) (st st' : AsmState)
    (hname : IsLabelDefinition line = false) (hrun : ProcessLine line st = some st') :
    (IsInstructionLine line = true ∧ EncodeInstruction line st = some st') ∨
    (IsInstructionLine line = false ∧ ProcessDirectives line st none false = some st') := by
  unfold ProcessLine at hrun
  simp only [hname] at hrun
  split at hrun
  · rename_i heq
    simp at heq
  · rename_i t tmp rest b heq
    simp only [Bool.false_eq_true, if_false, Prod.mk.injEq] at heq
    obtain ⟨rfl, rfl, h3, rfl⟩ := heq
    simp only [Option.some.injEq] at h3
    subst h3
    split_ifs at hrun with hi
    · exact Or.inl ⟨hi, hrun⟩
    · exact Or.inr ⟨by simpa using hi, hrun⟩


/-! ## Reference lists -/

theorem updateChain_decomp (c : List Label) (n : CStr) (f : Label → Label) :
    (updateChain c n f = c ∧ c.find? (fun l => decide (l.name = n)) = none) ∨
    ∃ pre l post, c = pre ++ l :: post ∧ updateChain c n f = pre ++ f l :: post ∧
      c.find? (fun l => decide (l.name = n)) = some l := by
  induction c with
  | nil => exact Or.inl ⟨rfl, rfl⟩
  | cons x r ih =>
    unfold updateChain
    by_cases hx : x.name = n
    · rw [if_pos hx]
      exact Or.inr ⟨[], x, r, rfl, rfl, by simp [List.find?, hx]⟩
    · rw [if_neg hx]
      rcases ih with ⟨h1, h2⟩ | ⟨pre, l, post, h1, h2, h3⟩
      · exact Or.inl ⟨by rw [h1], by simp [List.find?, hx, h2]⟩
      · exact Or.inr ⟨x :: pre, l, post, by rw [h1]; rfl, by rw [h2]; rfl,
          by simp [List.find?, hx, h3]⟩

theorem flatten_set {α : Type} (b : List (List α)) (i : Nat) (c : List α) :
    (b.set i c = b ∧ b.getD i [] = []) ∨
    ∃ L1 L2, b.flatten = L1 ++ (b.getD i [] ++ L2) ∧ (b.set i c).flatten = L1 ++ (c ++ L2) := by
  induction b generalizing i with
  | nil => exact Or.inl ⟨rfl, rfl⟩
  | cons x r ih =>
    cases i with
    | zero => exact Or.inr ⟨[], r.flatten, by simp, by simp⟩
    | succ i =>
      rcases ih i with ⟨h1, h2⟩ | ⟨L1, L2, h1, h2⟩
      · exact Or.inl ⟨by simp [h1], by simpa using h2⟩
      · refine Or.inr ⟨x ++ L1, L2, ?_, ?_⟩
        · simp only [List.flatten_cons, h1, List.getD_cons_succ, List.append_assoc]
        · simp only [List.set_cons_succ, List.flatten_cons, h2, List.append_assoc]

theorem updateLabel_allLabels (t : LabelTable) (i : Nat) (n : CStr) (f : Label → Label) :
    (allLabels (updateLabel t i n f) = allLabels t ∧ chainLookup t i n = none) ∨
    ∃ A l B, allLabels t = A ++ l :: B ∧ allLabels (updateLabel t i n f) = A ++ f l :: B ∧
      chainLookup t i n = some l := by
  unfold allLabels updateLabel chainLookup
  simp only []
  rcases updateChain_decomp (t.Labels.getD i []) n f with ⟨h1, h2⟩ | ⟨pre, l, post, h1, h2, h3⟩
  · left
    refine ⟨?_, h2⟩
    rw [h1]
    rcases flatten_set t.Labels i (t.Labels.getD i []) with ⟨e1, _⟩ | ⟨L1, L2, e1, e2⟩
    · rw [e1]
    · rw [e2, e1]
  · right
    rcases flatten_set t.Labels i (updateChain (t.Labels.getD i []) n f) with
      ⟨_, e2⟩ | ⟨L1, L2, e1, e2⟩
    · rw [e2] at h1
      exact absurd h1 (by simp)
    · refine ⟨L1 ++ pre, l, post ++ L2, ?_, ?_, h3⟩
      · rw [e1, h1]; simp
      · rw [e2, h2]; simp

theorem forall2_flatten {α : Type} (R : α → α → Prop) (a b : List (List α))
    (h : List.Forall₂ (List.Forall₂ R) a b) : List.Forall₂ R a.flatten b.flatten := by
  induction h with
  | nil => exact List.Forall₂.nil
  | cons hc _ ih =>
    simp only [List.flatten_cons]
    exact List.rel_append hc ih

theorem forall2_mem_right {α : Type} (R : α → α → Prop) (a b : List α)
    (h : List.Forall₂ R a b) : ∀ y ∈ b, ∃ x ∈ a, R x y := by
  induction h with
  | nil => intro y hy; simp at hy
  | cons hab _ ih =>
    intro y hy
    rcases List.mem_cons.mp hy with rfl | hy
    · exact ⟨_, List.mem_cons_self _ _, hab⟩
    · obtain ⟨x, hx, hr⟩ := ih y hy
      exact ⟨x, List.mem_cons_of_mem _ hx, hr⟩

theorem forall2_map_eq {α β : Type} (R : α → α → Prop) (g : α → β)
    (hR : ∀ x y, R x y → g y = g x) (a b : List α) (h : List.Forall₂ R a b) :
    b.map g = a.map g := by
  induction h with
  | nil => rfl
  | cons hab _ ih => simp only [List.map_cons, ih, hR _ _ hab]

theorem tableRel_labels (E : Label → Label → Prop) (t t' : LabelTable) (h : TableRel E t t') :
    List.Forall₂ E (allLabels t) (allLabels t') :=
  forall2_flatten E _ _ h.2.2

theorem keepsRefs_name (a b : Label) (h : KeepsRefs a b) : b.name = a.name := h.1.1

theorem ARE_eq (a b : Label) (h : b.ext = a.ext) : ARE b = ARE a := by
  unfold ARE; rw [h]

theorem refInv_rel (t t' : LabelTable) (Code : Mem) (IC top : Nat)
    (h : TableRel KeepsRefs t t') (hinv : RefInv t Code IC top) : RefInv t' Code IC top := by
  have hl := tableRel_labels _ _ _ h
  refine ⟨hinv.zero, ?_, ?_, ?_, ?_⟩
  · intro l' hl' p hp
    obtain ⟨l, hlm, hk⟩ := forall2_mem_right _ _ _ hl l' hl'
    rw [hk.2] at hp
    rw [ARE_eq l l' hk.1.2.1]
    exact hinv.refs l hlm p hp
  · unfold allRefs
    rw [forall2_map_eq KeepsRefs (fun l => l.ref) (fun _ _ hk => hk.2) _ _ hl]
    exact hinv.nodup
  · intro l' hl' hne
    obtain ⟨l, hlm, hk⟩ := forall2_mem_right _ _ _ hl l' hl'
    rw [hk.2] at hne
    obtain ⟨l0, h0, h0r⟩ := hinv.owner l hlm hne
    rcases tableRel_lookup KeepsRefs keepsRefs_name t t' h l.name with ⟨hn, _⟩ | ⟨a, b, ha, hb, hab⟩
    · rw [h0] at hn; exact absurd hn (by simp)
    · rw [h0] at ha
      simp only [Option.some.injEq] at ha
      subst ha
      refine ⟨b, ?_, ?_⟩
      · rw [hk.1.1]; exact hb
      · rw [hab.2, h0r, hk.2]
  · intro l' hl' hm
    obtain ⟨l, hlm, hk⟩ := forall2_mem_right _ _ _ hl l' hl'
    rw [hk.1.2.1]
    exact hinv.matExt l hlm (by rw [← hk.1.2.2]; exact hm)

theorem refInv_code (t : LabelTable) (Code Code' : Mem) (IC top top' : Nat)
    (hinv : RefInv t Code IC top) (htop : top ≤ top')
    (hz : ∀ q, top' ≤ q → Code' q = 0)
    (hsame : ∀ l ∈ allLabels t, ∀ p ∈ l.ref, Code' p = Code p) : RefInv t Code' IC top' := by
  refine ⟨hz, ?_, hinv.nodup, hinv.owner, hinv.matExt⟩
  intro l hl p hp
  obtain ⟨h1, h2, h3⟩ := hinv.refs l hl p hp
  exact ⟨by omega, h2, by rw [hsame l hl p hp]; exact h3⟩

theorem refInv_advance (t : LabelTable) (Code : Mem) (IC top : Nat)
    (hinv : RefInv t Code IC top) : RefInv t Code top (top + 1) := by
  refine ⟨fun q hq => hinv.zero q (by omega), ?_, hinv.nodup, hinv.owner, hinv.matExt⟩
  intro l hl p hp
  obtain ⟨h1, _, h3⟩ := hinv.refs l hl p hp
  exact ⟨by omega, by omega, h3⟩

theorem find_some_name (c : List Label) (n : CStr) (l : Label)
    (h : c.find? (fun l => decide (l.name = n)) = some l) : l.name = n ∧ l ∈ c := by
  have h1 := List.find?_some h
  exact ⟨by simpa using h1, List.mem_of_find?_eq_some h⟩

theorem refInv_addRef (t : LabelTable) (Code Code' : Mem) (IC top top' : Nat) (n : CStr)
    (cur : Label) (hinv : RefInv t Code IC top) (hlook : lookupLabel t n = some cur)
    (hIC : IC < top) (hfit : top < 65536) (htop : top < top')
    (hz : ∀ q, top' ≤ q → Code' q = 0)
    (hsame : ∀ l ∈ allLabels t, ∀ p ∈ l.ref, Code' p = Code p)
    (hnew : Code' top = ARE cur) :
    RefInv (updateLabel t (findLabel t n).toNat n (fun l => saveRef l top)) Code' IC top' := by
  obtain ⟨_, _, hchain⟩ := lookupLabel_some _ _ _ hlook
  have hname : cur.name = n := (find_some_name _ _ _ hchain).1
  have hmod : top % 65536 = top := Nat.mod_eq_of_lt hfit
  rcases updateLabel_allLabels t (findLabel t n).toNat n (fun l => saveRef l top) with
    ⟨_, hnone⟩ | ⟨A, l, B, hA, hB, hsome⟩
  · rw [hchain] at hnone; exact absurd hnone (by simp)
  rw [hchain] at hsome
  simp only [Option.some.injEq] at hsome
  subst hsome
  have hcur : cur ∈ allLabels t := by rw [hA]; simp
  have hrefsOld : allRefs t =
      (A.map (fun l => l.ref)).flatten ++ (cur.ref ++ (B.map (fun l => l.ref)).flatten) := by
    unfold allRefs; rw [hA]; simp
  have hrefsNew : allRefs (updateLabel t (findLabel t n).toNat n (fun l => saveRef l top)) =
      (A.map (fun l => l.ref)).flatten ++
        (top :: (cur.ref ++ (B.map (fun l => l.ref)).flatten)) := by
    unfold allRefs; rw [hB]; simp [saveRef, hmod]
  have hbelow : ∀ p ∈ allRefs t, p < top := by
    intro p hp
    unfold allRefs at hp
    simp only [List.mem_flatten, List.mem_map] at hp
    obtain ⟨r, ⟨l, hl, rfl⟩, hpr⟩ := hp
    exact (hinv.refs l hl p hpr).1
  have hnd := hinv.nodup
  have hlookNew : ∀ m, lookupLabel (updateLabel t (findLabel t n).toNat n
      (fun l => saveRef l top)) m =
      if m = n then some (saveRef cur top) else lookupLabel t m := by
    intro m
    rw [updateLabel_lookup t n m (fun l => saveRef l top) (fun _ => rfl), hlook]
    rfl
  have hold : ∀ l ∈ allLabels t, ∀ p ∈ l.ref, p < top' ∧ p ≠ IC ∧ Code' p = ARE l := by
    intro l hl p hp
    obtain ⟨h1, h2, h3⟩ := hinv.refs l hl p hp
    exact ⟨by omega, h2, by rw [hsame l hl p hp]; exact h3⟩
  have hmemA : ∀ l ∈ A, l ∈ allLabels t := by
    intro l hl; rw [hA]; simp [hl]
  have hmemB : ∀ l ∈ B, l ∈ allLabels t := by
    intro l hl; rw [hA]; simp [hl]
  have hclash : ∀ l, l ∈ A ∨ l ∈ B → l.ref ≠ [] → l.name ≠ n := by
    intro l hl hne hn
    have hlt : l ∈ allLabels t := hl.elim (hmemA l) (hmemB l)
    obtain ⟨l0, h0, h0r⟩ := hinv.owner l hlt hne
    rw [hn, hlook] at h0
    simp only [Option.some.injEq] at h0
    subst h0
    obtain ⟨r, hr⟩ := List.exists_mem_of_ne_nil _ hne
    rw [hrefsOld] at hnd
    rcases hl with hl | hl
    · have hrA : r ∈ (A.map (fun l => l.ref)).flatten := by
        simp only [List.mem_flatten, List.mem_map]
        exact ⟨l.ref, ⟨l, hl, rfl⟩, hr⟩
      have hd := (List.nodup_append.mp hnd).2.2
      exact hd hrA (by rw [h0r]; simp [hr])
    · have hrB : r ∈ (B.map (fun l => l.ref)).flatten := by
        simp only [List.mem_flatten, List.mem_map]
        exact ⟨l.ref, ⟨l, hl, rfl⟩, hr⟩
      have hd := (List.nodup_append.mp (List.nodup_append.mp hnd).2.1).2.2
      exact hd (by rw [h0r]; exact hr) hrB
  refine ⟨hz, ?_, ?_, ?_, ?_⟩
  · intro l hl p hp
    rw [hB] at hl
    rcases List.mem_append.mp hl with hl | hl
    · exact hold l (hmemA l hl) p hp
    rcases List.mem_cons.mp hl with rfl | hl
    · simp only [saveRef, hmod, List.mem_cons] at hp
      rcases hp with rfl | hp
      · exact ⟨htop, by omega, hnew⟩
      · exact hold cur hcur p hp
    · exact hold l (hmemB l hl) p hp
  · rw [hrefsNew]
    have hperm : ((A.map (fun l => l.ref)).flatten ++
        (top :: (cur.ref ++ (B.map (fun l => l.ref)).flatten))).Perm
        (top :: ((A.map (fun l => l.ref)).flatten ++
          (cur.ref ++ (B.map (fun l => l.ref)).flatten))) := List.perm_middle
    rw [hperm.nodup_iff, List.nodup_cons, ← hrefsOld]
    exact ⟨fun hm => absurd (hbelow top hm) (by omega), hnd⟩
  · intro l hl hne
    rw [hB] at hl
    rw [hlookNew]
    have hcase : l = saveRef cur top ∨ (l ∈ A ∨ l ∈ B) := by
      rcases List.mem_append.mp hl with hl | hl
      · exact Or.inr (Or.inl hl)
      rcases List.mem_cons.mp hl with rfl | hl
      · exact Or.inl rfl
      · exact Or.inr (Or.inr hl)
    rcases hcase with rfl | hl
    · refine ⟨saveRef cur top, ?_, rfl⟩
      rw [if_pos (by simpa [saveRef] using hname)]
    · rw [if_neg (hclash l hl hne)]
      exact hinv.owner l (hl.elim (hmemA l) (hmemB l)) hne
  · intro l hl hm
    rw [hB] at hl
    rcases List.mem_append.mp hl with hl | hl
    · exact hinv.matExt l (hmemA l hl) hm
    rcases List.mem_cons.mp hl with rfl | hl
    · exact hinv.matExt cur hcur hm
    · exact hinv.matExt l (hmemB l hl) hm


/-! ## Operands and the reference lists -/

theorem encodeLabelOperand_true (op : CStr) (t : LabelTable) (Code : Mem) (IC wc : Nat)
    (t' : LabelTable) (c' : Mem) (wc' : Nat)
    (h : encodeLabelOperand op t Code IC wc = some (true, t', c', wc')) :
    ∃ cur, lookupLabel t op = some cur ∧
      t' = updateLabel t (findLabel t op).toNat op (fun l => saveRef l (IC + wc)) ∧
      c' = insertBin (if cur.ext then 1 else 2) Code (IC + wc) ∧ wc' = wc + 1 := by
  unfold encodeLabelOperand at h
  simp only [] at h
  by_cases h1 : findLabel t op = -1
  · rw [if_pos h1] at h
    simp at h
  rw [if_neg h1] at h
  by_cases h2 : findLabel t op < 0
  · rw [if_pos h2] at h
    simp at h
  rw [if_neg h2] at h
  split at h
  · simp at h
  · rename_i cur hcur
    by_cases h3 : cur.mat = true
    · rw [if_pos h3] at h
      simp at h
    rw [if_neg h3] at h
    simp only [Option.some.injEq, Prod.mk.injEq, true_and] at h
    obtain ⟨rfl, rfl, rfl⟩ := h
    refine ⟨cur, ?_, rfl, rfl, rfl⟩
    unfold lookupLabel
    rw [if_neg h2]
    exact hcur

theorem matrix_parse_facts (op : CStr) (t : LabelTable) (r0 r1 : Nat) (name : CStr)
    (h : ValidateAndParseMatrixOperand op t = some (some (r0, r1, name))) :
    ¬ ((t.Labels.getD (findLabel t name).toNat []).any
        (fun l => decide (l.name = name) && decide (l.mat = false))) = true := by
  unfold ValidateAndParseMatrixOperand at h
  simp only [] at h
  by_cases c1 : (!isLegalBrackets (some op)) = true
  · rw [if_pos c1] at h; simp at h
  rw [if_neg c1] at h
  split at h
  · simp at h
  · rename_i tmp _
    by_cases c2 : tmp = []
    · rw [if_pos c2] at h; simp at h
    rw [if_neg c2] at h
    by_cases c3 : findLabel t tmp = -1
    · rw [if_pos c3] at h; simp at h
    rw [if_neg c3] at h
    by_cases c4 : findLabel t tmp < 0
    · rw [if_pos c4] at h; simp at h
    rw [if_neg c4] at h
    by_cases c5 : ((t.Labels.getD (findLabel t tmp).toNat []).any
        (fun l => decide (l.name = tmp) && decide (l.mat = false))) = true
    · rw [if_pos c5] at h; simp at h
    rw [if_neg c5] at h
    have hname : tmp = name := by
      repeat' (first | split_ifs at h | split at h)
      all_goals (simp only [Option.some.injEq, Prod.mk.injEq, reduceCtorEq] at h)
      all_goals exact h.2.2
    rw [← hname]
    exact c5

theorem encodeMatrixOperand_true (op : CStr) (t : LabelTable) (Code : Mem) (IC wc : Nat)
    (t' : LabelTable) (c' : Mem) (wc' : Nat)
    (h : encodeMatrixOperand op t Code IC wc = some (true, t', c', wc')) :
    ∃ cur name, ∃ a b : Int, lookupLabel t name = some cur ∧ cur.mat = true ∧
      t' = updateLabel t (findLabel t name).toNat name (fun l => saveRef l (IC + wc)) ∧
      c' = insertBin b (insertBin a (insertBin 2 Code (IC + wc)) (IC + (wc + 1)))
            (IC + (wc + 1)) ∧
      wc' = wc + 2 := by
  unfold encodeMatrixOperand at h
  split at h
  · simp at h
  · simp at h
  · rename_i r0 r1 name hparse
    simp only [] at h
    by_cases h2 : findLabel t name < 0
    · rw [if_pos h2] at h
      simp at h
    rw [if_neg h2] at h
    split at h
    · simp at h
    · rename_i cur hcur
      simp only [Option.some.injEq, Prod.mk.injEq, true_and] at h
      obtain ⟨rfl, rfl, rfl⟩ := h
      have hlook : lookupLabel t name = some cur := by
        unfold lookupLabel
        rw [if_neg h2]
        exact hcur
      refine ⟨cur, name, _, _, hlook, ?_, rfl, rfl, rfl⟩
      have hany := matrix_parse_facts op t r0 r1 name hparse
      obtain ⟨hn, hm⟩ := find_some_name _ _ _ hcur
      by_contra hmat
      apply hany
      rw [List.any_eq_true]
      have hf : cur.mat = false := by simpa using hmat
      exact ⟨cur, hm, by simp [hn, hf]⟩

theorem ARE_bits (cur : Label) : (((if cur.ext = true then (1 : Int) else 2)) % 1024).toNat = ARE cur := by
  unfold ARE
  split_ifs <;> rfl

theorem encodeOperand_refInv (op : CStr) (i k : Nat) (opc : Int) (IC : Nat)
    (s s' : OperandState) (h : encodeOperand op i k opc IC s = some (s', true))
    (hinv : RefInv s.table s.Code IC (IC + s.word_count)) (hwc : 1 ≤ s.word_count)
    (hreg : s.is_reg = true →
      ∀ l ∈ allLabels s.table, ∀ p ∈ l.ref, p < IC + (s.word_count - 1))
    (hfit : IC + s'.word_count ≤ 65536) :
    RefInv s'.table s'.Code IC (IC + s'.word_count) ∧
    (s.is_reg = false → s'.is_reg = true →
      ∀ l ∈ allLabels s'.table, ∀ p ∈ l.ref, p < IC + (s'.word_count - 1)) := by
  have hrefs := hinv.refs
  unfold encodeOperand at h
  simp only [] at h
  by_cases h1 : getAddressingMode op s.table = IMMEDIATE
  · rw [if_pos h1] at h
    by_cases h2 : (!isValidImmediate op || !IsValidImmUse i opc k) = true
    · rw [if_pos h2] at h
      simp at h
    rw [if_neg h2] at h
    simp only [Option.some.injEq, Prod.mk.injEq, and_true] at h
    subst h
    simp only [encodeImmediate]
    refine ⟨refInv_code _ _ _ _ _ _ hinv (by omega) ?_ ?_, ?_⟩
    · intro q hq
      rw [insertBin_other _ _ _ _ (by omega), insertBin_other _ _ _ _ (by omega)]
      exact hinv.zero q (by omega)
    · intro l hl p hp
      obtain ⟨a, b, _⟩ := hrefs l hl p hp
      rw [insertBin_other _ _ _ _ b, insertBin_other _ _ _ _ (by omega)]
    · intro e1 e2
      rw [e1] at e2
      exact absurd e2 (by simp)
  rw [if_neg h1] at h
  by_cases h2 : getAddressingMode op s.table = LABEL
  · rw [if_pos h2] at h
    split at h
    · simp at h
    · simp at h
    · rename_i t c w heq
      simp only [Option.some.injEq, Prod.mk.injEq, and_true] at h
      subst h
      obtain ⟨cur, hlook, rfl, rfl, rfl⟩ := encodeLabelOperand_true _ _ _ _ _ _ _ _ heq
      simp only [] at hfit ⊢
      refine ⟨refInv_addRef _ _ _ _ _ _ _ cur hinv hlook (by omega) (by omega) (by omega)
        ?_ ?_ ?_, ?_⟩
      · intro q hq
        rw [insertBin_other _ _ _ _ (by omega), insertBin_other _ _ _ _ (by omega)]
        exact hinv.zero q (by omega)
      · intro l hl p hp
        obtain ⟨a, b, _⟩ := hrefs l hl p hp
        rw [insertBin_other _ _ _ _ b, insertBin_other _ _ _ _ (by omega)]
      · rw [insertBin_other _ _ _ _ (by omega), insertBin_same, hinv.zero _ (le_refl _),
          ARE_bits]
        simp
      · intro e1 e2
        rw [e1] at e2
        exact absurd e2 (by simp)
  rw [if_neg h2] at h
  by_cases h3 : getAddressingMode op s.table = MATRIX
  · rw [if_pos h3] at h
    split at h
    · simp at h
    · simp at h
    · rename_i t c w heq
      simp only [Option.some.injEq, Prod.mk.injEq, and_true] at h
      subst h
      obtain ⟨cur, name, a, b, hlook, hmat, rfl, rfl, rfl⟩ :=
        encodeMatrixOperand_true _ _ _ _ _ _ _ _ heq
      simp only [] at hfit ⊢
      have hcurmem : cur ∈ allLabels s.table := by
        obtain ⟨_, _, hchain⟩ := lookupLabel_some _ _ _ hlook
        have hm := (find_some_name _ _ _ hchain).2
        unfold allLabels
        rw [List.mem_flatten]
        refine ⟨_, ?_, hm⟩
        by_cases hlt : (findLabel s.table name).toNat < s.table.Labels.length
        · simp [List.getD_eq_getElem?_getD, List.getElem?_eq_getElem hlt]
        · simp [List.getD_eq_getElem?_getD, List.getElem?_eq_none (Nat.le_of_not_lt hlt)] at hm
      have hext : ARE cur = 2 := by
        unfold ARE
        rw [hinv.matExt cur hcurmem hmat]
        rfl
      refine ⟨refInv_addRef _ _ _ _ _ _ _ cur hinv hlook (by omega) (by omega) (by omega)
        ?_ ?_ ?_, ?_⟩
      · intro q hq
        rw [insertBin_other _ _ _ _ (by omega), insertBin_other _ _ _ _ (by omega),
          insertBin_other _ _ _ _ (by omega), insertBin_other _ _ _ _ (by omega)]
        exact hinv.zero q (by omega)
      · intro l hl p hp
        obtain ⟨a, b, _⟩ := hrefs l hl p hp
        rw [insertBin_other _ _ _ _ b, insertBin_other _ _ _ _ (by omega),
          insertBin_other _ _ _ _ (by omega), insertBin_other _ _ _ _ (by omega)]
      · rw [insertBin_other _ _ _ _ (by omega), insertBin_other _ _ _ _ (by omega),
          insertBin_other _ _ _ _ (by omega), insertBin_same, hinv.zero _ (le_refl _), hext]
        rfl
      · intro e1 e2
        rw [e1] at e2
        exact absurd e2 (by simp)
  rw [if_neg h3] at h
  by_cases h4 : getAddressingMode op s.table = REGISTER
  · rw [if_pos h4] at h
    by_cases h5 : (!isValidReg op || !IsValidRegUse i k opc) = true
    · rw [if_pos h5] at h
      simp at h
    rw [if_neg h5] at h
    simp only [Option.some.injEq, Prod.mk.injEq, and_true] at h
    subst h
    by_cases c1 : k = 1
    · have hr : encodeRegisterOperand op s.Code i k IC s.is_reg s.word_count =
          (insertBin (atoi (op.drop 1) * 4) s.Code (IC + s.word_count), s.is_reg,
            s.word_count + 1) := by
        simp [encodeRegisterOperand, c1]
      rw [hr] at hfit ⊢
      simp only [] at hfit ⊢
      refine ⟨refInv_code _ _ _ _ _ _ hinv (by omega) ?_ ?_, ?_⟩
      · intro q hq
        rw [insertBin_other _ _ _ _ (by omega), insertBin_other _ _ _ _ (by omega)]
        exact hinv.zero q (by omega)
      · intro l hl p hp
        obtain ⟨a, b, _⟩ := hrefs l hl p hp
        rw [insertBin_other _ _ _ _ b, insertBin_other _ _ _ _ (by omega)]
      · intro e1 e2
        rw [e1] at e2
        exact absurd e2 (by simp)
    by_cases c2 : i = 1
    · have hr : encodeRegisterOperand op s.Code i k IC s.is_reg s.word_count =
          (insertBin (atoi (op.drop 1) * 64) s.Code (IC + s.word_count), true,
            s.word_count + 1) := by
        simp [encodeRegisterOperand, c1, c2]
      rw [hr] at hfit ⊢
      simp only [] at hfit ⊢
      refine ⟨refInv_code _ _ _ _ _ _ hinv (by omega) ?_ ?_, ?_⟩
      · intro q hq
        rw [insertBin_other _ _ _ _ (by omega), insertBin_other _ _ _ _ (by omega)]
        exact hinv.zero q (by omega)
      · intro l hl p hp
        obtain ⟨a, b, _⟩ := hrefs l hl p hp
        rw [insertBin_other _ _ _ _ b, insertBin_other _ _ _ _ (by omega)]
      · intro _ _ l hl p hp
        have := (hrefs l hl p hp).1
        omega
    by_cases c3 : i = 2
    · by_cases c4 : s.is_reg = true
      · have hr : encodeRegisterOperand op s.Code i k IC s.is_reg s.word_count =
            (insertBin (atoi (op.drop 1) * 4) s.Code (IC + (s.word_count - 1)), false,
              s.word_count) := by
          simp [encodeRegisterOperand, c1, c3, c4]
        rw [hr] at hfit ⊢
        simp only [] at hfit ⊢
        refine ⟨refInv_code _ _ _ _ _ _ hinv (by omega) ?_ ?_, ?_⟩
        · intro q hq
          rw [insertBin_other _ _ _ _ (by omega), insertBin_other _ _ _ _ (by omega)]
          exact hinv.zero q (by omega)
        · intro l hl p hp
          obtain ⟨a, b, _⟩ := hrefs l hl p hp
          have := hreg c4 l hl p hp
          rw [insertBin_other _ _ _ _ b, insertBin_other _ _ _ _ (by omega)]
        · intro e1
          rw [e1] at c4
          exact absurd c4 (by simp)
      · have hr : encodeRegisterOperand op s.Code i k IC s.is_reg s.word_count =
            (insertBin (atoi (op.drop 1) * 4) s.Code (IC + s.word_count), s.is_reg,
              s.word_count + 1) := by
          simp [encodeRegisterOperand, c1, c3, c4]
        rw [hr] at hfit ⊢
        simp only [] at hfit ⊢
        refine ⟨refInv_code _ _ _ _ _ _ hinv (by omega) ?_ ?_, ?_⟩
        · intro q hq
          rw [insertBin_other _ _ _ _ (by omega), insertBin_other _ _ _ _ (by omega)]
          exact hinv.zero q (by omega)
        · intro l hl p hp
          obtain ⟨a, b, _⟩ := hrefs l hl p hp
          rw [insertBin_other _ _ _ _ b, insertBin_other _ _ _ _ (by omega)]
        · intro e1 e2
          rw [e1] at e2
          exact absurd e2 (by simp)
    · have hr : encodeRegisterOperand op s.Code i k IC s.is_reg s.word_count =
          (s.Code, s.is_reg, s.word_count) := by
        simp [encodeRegisterOperand, c1, c2, c3]
      rw [hr] at hfit ⊢
      simp only [] at hfit ⊢
      refine ⟨refInv_code _ _ _ _ _ _ hinv (by omega) ?_ ?_, ?_⟩
      · intro q hq
        rw [insertBin_other _ _ _ _ (by omega)]
        exact hinv.zero q (by omega)
      · intro l hl p hp
        obtain ⟨a, b, _⟩ := hrefs l hl p hp
        rw [insertBin_other _ _ _ _ b]
      · intro e1 e2
        rw [e1] at e2
        exact absurd e2 (by simp)
  rw [if_neg h4] at h
  simp at h


/-! ## Instructions and the reference lists -/

theorem strtok_fst_clean (s d : CStr) (tok : CStr) (h : (strtok s d).1 = some tok) :
    ∀ c ∈ tok, d.contains c = false := by
  unfold strtok at h
  split at h
  · simp at h
  · simp only [Option.some.injEq] at h
    subst h
    intro c hc
    have := List.mem_takeWhile_imp hc
    simpa using this

theorem deleteSpaces_mem (s : CStr) (c : Char) (h : c ∈ deleteSpaces s) : c ∈ s := by
  unfold deleteSpaces at h
  rw [List.mem_reverse] at h
  have h1 := (List.dropWhile_sublist _).subset h
  rw [List.mem_reverse] at h1
  exact (List.dropWhile_sublist _).subset h1

theorem split_at_char (line : CStr) (d : Char) (h : hasChar line d = true) :
    ∃ a b, line = a ++ d :: b ∧ ∀ c ∈ a, c ≠ d := by
  induction line with
  | nil => simp [hasChar] at h
  | cons x r ih =>
    by_cases hx : x = d
    · exact ⟨[], r, by rw [hx]; rfl, by simp⟩
    · have hr : hasChar r d = true := by
        simp only [hasChar, List.any_cons, Bool.or_eq_true, decide_eq_true_eq] at h
        rcases h with h | h
        · exact absurd h hx
        · simpa [hasChar] using h
      obtain ⟨a, b, hab, ha⟩ := ih hr
      refine ⟨x :: a, b, by rw [hab]; rfl, ?_⟩
      intro c hc
      rcases List.mem_cons.mp hc with rfl | hc
      · exact hx
      · exact ha c hc

theorem second_operand (rest : CStr) (hnl : ∀ c ∈ rest, c ≠ '\r' ∧ c ≠ '\n')
    (hsyn : IsValidInstSyntax (some rest) 2 = some true) :
    (deleteSpacesP (strtok (strtok rest ",\r\n".toList).2 "\r\n".toList).1).isSome = true := by
  unfold IsValidInstSyntax at hsyn
  simp only [Option.isSome_some, and_true] at hsyn
  rw [if_neg (by decide)] at hsyn
  split_ifs at hsyn with c1 c2 c3 c4
  all_goals try (simp at hsyn; done)
  simp only [Bool.or_eq_true, decide_eq_true_eq, not_or] at c1
  have hc : hasChar rest ',' = true := by
    simpa using c4
  obtain ⟨a, b, hab, ha⟩ := split_at_char rest ',' hc
  have hane : a ≠ [] := by
    rintro rfl
    apply c1.1
    rw [hab]; rfl
  have hbne : b ≠ [] := by
    rintro rfl
    apply c1.2
    rw [hab]
    simp
  have hmem : ∀ c ∈ a, c ∈ rest := by
    intro c hc; rw [hab]; simp [hc]
  have hmemb : ∀ c ∈ b, c ∈ rest := by
    intro c hc; rw [hab]; simp [hc]
  have h1 : strtok rest ",\r\n".toList = (some a, b) := by
    rw [hab]
    apply strtok_token _ _ _ _ hane
    · intro c hc
      have h1 := ha c hc
      have h2 := hnl c (hmem c hc)
      simp [h1, h2.1, h2.2]
    · decide
  rw [h1]
  have h2 : strtok b "\r\n".toList = (some b, []) := by
    apply strtok_whole _ _ hbne
    intro c hc
    have h2 := hnl c (hmemb c hc)
    simp [h2.1, h2.2]
  rw [h2]
  rfl

theorem EncodeOperands_refInv (k : Nat) (line : CStr) (opc : Int) (st st' : AsmState)
    (h : EncodeOperands k line opc st = some st') (herr : st'.Error = false)
    (hfit : st'.IC ≤ 65536) (hinv : RefInv st.table st.Code st.IC (st.IC + 1))
    (hline : k = 2 →
      (deleteSpacesP (strtok (strtok line ",\r\n".toList).2 "\r\n".toList).1).isSome = true) :
    RefInv st'.table st'.Code st'.IC (st'.IC + 1) := by
  unfold EncodeOperands at h
  simp only [] at h
  by_cases h1 : k = 1
  · rw [if_pos h1] at h
    split at h
    · simp only [Option.some.injEq] at h
      subst h
      exact hinv
    · split at h
      · simp at h
      · rename_i s1 go heq
        simp only [Option.some.injEq] at h
        subst h
        have hf := encodeOperand_frame _ _ _ _ _ _ _ _ heq
        cases go with
        | false =>
          have := hf.2.2.2 rfl
          simp only [closeOperands] at herr
          rw [this] at herr
          exact absurd herr (by simp)
        | true =>
          simp only [closeOperands, if_true] at hfit ⊢
          have := encodeOperand_refInv _ _ _ _ _ _ _ heq hinv (le_refl _)
            (fun e => absurd e (by simp)) hfit
          exact refInv_advance _ _ _ _ this.1
  rw [if_neg h1] at h
  by_cases h2 : k = 2
  · rw [if_pos h2] at h
    split at h
    · simp only [Option.some.injEq] at h
      subst h
      exact hinv
    · split at h
      · simp at h
      · rename_i s1 heq
        simp only [Option.some.injEq] at h
        subst h
        have hf := encodeOperand_frame _ _ _ _ _ _ _ _ heq
        have := hf.2.2.2 rfl
        simp only [closeOperands] at herr
        rw [this] at herr
        exact absurd herr (by simp)
      · rename_i s1 heq
        have hf := encodeOperand_frame _ _ _ _ _ _ _ _ heq
        split at h
        · rename_i hnone
          have := hline h2
          rw [hnone] at this
          exact absurd this (by simp)
        · split at h
          · simp at h
          · rename_i s2 go heq2
            simp only [Option.some.injEq] at h
            subst h
            have hf2 := encodeOperand_frame _ _ _ _ _ _ _ _ heq2
            cases go with
            | false =>
              have := hf2.2.2.2 rfl
              simp only [closeOperands] at herr
              rw [this] at herr
              exact absurd herr (by simp)
            | true =>
              simp only [closeOperands, if_true] at hfit ⊢
              have hw1 : 1 ≤ s1.word_count := hf.2.1
              have hw2 : s1.word_count ≤ s2.word_count := hf2.2.1
              have r1 := encodeOperand_refInv _ _ _ _ _ _ _ heq hinv (le_refl _)
                (fun e => absurd e (by simp)) (by omega)
              have r2 := encodeOperand_refInv _ _ _ _ _ _ _ heq2 r1.1 hw1 (r1.2 rfl) hfit
              exact refInv_advance _ _ _ _ r2.1
  rw [if_neg h2] at h
  simp only [Option.some.injEq] at h
  subst h
  simp only [closeOperands, if_true]
  exact refInv_advance _ _ _ _ hinv

theorem EncodeInstruction_refInv (line : CStr) (st st' : AsmState)
    (h : EncodeInstruction line st = some st') (herr : st'.Error = false)
    (hfit : st'.IC ≤ 65536) (hinv : RefInv st.table st.Code st.IC (st.IC + 1)) :
    RefInv st'.table st'.Code st'.IC (st'.IC + 1) := by
  unfold EncodeInstruction at h
  simp only [] at h
  split at h
  · simp at h
  · rename_i inst _
    by_cases h1 : getOpcode inst = -1
    · rw [if_pos h1] at h
      simp only [Option.some.injEq] at h
      subst h
      exact absurd herr (by simp)
    rw [if_neg h1] at h
    have hinv1 : RefInv st.table (insertBin (getOpcode inst * 64) st.Code st.IC) st.IC
        (st.IC + 1) := by
      refine refInv_code _ _ _ _ _ _ hinv (le_refl _) ?_ ?_
      · intro q hq
        rw [insertBin_other _ _ _ _ (by omega)]
        exact hinv.zero q hq
      · intro l hl p hp
        rw [insertBin_other _ _ _ _ (hinv.refs l hl p hp).2.1]
    by_cases h2 : getNumOperand (getOpcode inst) = 0
    · rw [if_pos h2] at h
      simp only [Option.some.injEq] at h
      subst h
      exact refInv_advance _ _ _ _ hinv1
    rw [if_neg h2] at h
    split at h
    · rename_i rest hsyn hrest
      have hnl : ∀ c ∈ rest, c ≠ '\r' ∧ c ≠ '\n' := by
        intro c hc
        unfold deleteSpacesP at hrest
        rw [Option.map_eq_some'] at hrest
        obtain ⟨tok, htok, rfl⟩ := hrest
        have := strtok_fst_clean _ _ _ htok c (deleteSpaces_mem _ _ hc)
        simp only [String.toList, List.contains_cons, List.contains_nil, Bool.or_false,
          Bool.or_eq_false_iff, beq_eq_false_iff_ne, ne_eq] at this
        exact this
      refine EncodeOperands_refInv _ _ _ _ _ h herr hfit hinv1 ?_
      intro hk
      rw [hk] at hsyn
      rw [hrest] at hsyn
      exact second_operand rest hnl hsyn
    · simp only [Option.some.injEq] at h
      subst h
      exact absurd herr (by simp)
    · simp at h


/-! ## Lines of the second pass -/

theorem UpdateAddress_cases (name : Option CStr) (t : LabelTable) (IC DC : Nat) :
    (UpdateAddressAndGetLabel name t IC DC).1 = t ∨
    ∃ n lab, name = some n ∧ lookupLabel t n = some lab ∧
      (UpdateAddressAndGetLabel name t IC DC).1 =
        updateLabel t (findLabel t n).toNat n
          (fun l => { l with address := (IC + DC + 100) % 65536 }) := by
  unfold UpdateAddressAndGetLabel
  split
  · exact Or.inl rfl
  · rename_i n
    simp only []
    split_ifs with h
    · exact Or.inl rfl
    · split
      · exact Or.inl rfl
      · rename_i lab hlab
        refine Or.inr ⟨n, lab, rfl, ?_, rfl⟩
        unfold lookupLabel
        rw [if_neg (fun hh => h (Or.inl hh))]
        exact hlab

theorem UpdateAddress_keeps (name : Option CStr) (t : LabelTable) (IC DC : Nat) :
    TableRel KeepsRefs t (UpdateAddressAndGetLabel name t IC DC).1 := by
  rcases UpdateAddress_cases name t IC DC with h | ⟨n, lab, _, _, h⟩
  · rw [h]; exact tableRel_refl _ (fun _ => ⟨sameSkel_refl _, rfl⟩) _
  · rw [h]
    exact updateLabel_rel _ (fun _ => ⟨sameSkel_refl _, rfl⟩) _ _ _ _
      (fun _ => ⟨⟨rfl, rfl, rfl⟩, rfl⟩)

theorem ProcessLine_cases (line : CStr) (st st' : AsmState)
    (h : ProcessLine line st = some st') :
    ∃ rest tmp b,
      EncodeInstruction rest
        { st with table := (UpdateAddressAndGetLabel (labelNameOf line) st.table st.IC st.DC).1 }
          = some st' ∨
      ProcessDirectives rest
        { st with table := (UpdateAddressAndGetLabel (labelNameOf line) st.table st.IC st.DC).1 }
        tmp b = some st' := by
  by_cases hl : IsLabelDefinition line = true
  · have hn : labelNameOf line = deleteSpacesP (strtok line ":\r\n".toList).1 := by
      unfold labelNameOf; rw [if_pos hl]
    rw [hn]
    unfold ProcessLine at h
    simp only [hl, if_true] at h
    split at h
    · simp at h
    · rename_i t tmp rest b heq
      simp only [Prod.mk.injEq] at heq
      obtain ⟨rfl, rfl, _, rfl⟩ := heq
      refine ⟨rest, (UpdateAddressAndGetLabel (deleteSpacesP (strtok line ":\r\n".toList).1)
        st.table st.IC st.DC).2, true, ?_⟩
      split_ifs at h
      · exact Or.inl h
      · exact Or.inr h
  · have hlf : IsLabelDefinition line = false := by simpa using hl
    have hn : labelNameOf line = none := by
      unfold labelNameOf; rw [if_neg hl]
    rw [hn]
    rcases ProcessLine_plain line st st' hlf h with ⟨_, he⟩ | ⟨_, hd⟩
    · exact ⟨line, none, false, Or.inl he⟩
    · exact ⟨line, none, false, Or.inr hd⟩

theorem ProcessLine_mono (line : CStr) (st st' : AsmState)
    (h : ProcessLine line st = some st') :
    st.IC ≤ st'.IC ∧ (st.Error = true → st'.Error = true) ∧
      TableRel SameSkel st.table st'.table := by
  obtain ⟨rest, tmp, b, hc⟩ := ProcessLine_cases line st st' h
  have hk := tableRel_mono KeepsRefs SameSkel (fun _ _ hh => hh.1) _ _
    (UpdateAddress_keeps (labelNameOf line) st.table st.IC st.DC)
  rcases hc with he | hd
  · have := EncodeInstruction_frame _ _ _ he
    exact ⟨this.2.2.2.1, this.2.2.2.2,
      tableRel_trans SameSkel sameSkel_trans _ _ _ hk
        (tableRel_mono SameAddr SameSkel (fun _ _ hh => hh.1) _ _ this.1)⟩
  · have := ProcessDirectives_frame _ _ _ _ _ hd
    exact ⟨by rw [this.2.2.1], this.2.2.2,
      tableRel_trans SameSkel sameSkel_trans _ _ _ hk
        (tableRel_mono SameRefs SameSkel (fun _ _ hh => hh.1.1) _ _ this.1)⟩

theorem SecondPassLoop_mono (lines : List CStr) (st st' : AsmState)
    (h : SecondPassLoop lines st = some st') :
    st.IC ≤ st'.IC ∧ (st.Error = true → st'.Error = true) ∧
      TableRel SameSkel st.table st'.table := by
  induction lines generalizing st with
  | nil =>
    simp only [SecondPassLoop, Option.some.injEq] at h
    subst h
    exact ⟨le_refl _, id, tableRel_refl _ sameSkel_refl _⟩
  | cons line rest ih =>
    unfold SecondPassLoop at h
    split at h
    · simp at h
    · rename_i st1 h1
      have m1 := ProcessLine_mono _ _ _ h1
      have m2 := ih _ h
      exact ⟨le_trans m1.1 m2.1, fun e => m2.2.1 (m1.2.1 e),
        tableRel_trans SameSkel sameSkel_trans _ _ _ m1.2.2 m2.2.2⟩

theorem ProcessLine_refInv (line : CStr) (st st' : AsmState)
    (h : ProcessLine line st = some st') (herr : st'.Error = false) (hfit : st'.IC ≤ 65536)
    (hinv : RefInv st.table st.Code st.IC (st.IC + 1)) :
    RefInv st'.table st'.Code st'.IC (st'.IC + 1) := by
  obtain ⟨rest, tmp, b, hc⟩ := ProcessLine_cases line st st' h
  have hk := UpdateAddress_keeps (labelNameOf line) st.table st.IC st.DC
  have h1 := refInv_rel _ _ _ _ _ hk hinv
  rcases hc with he | hd
  · exact EncodeInstruction_refInv _ _ _ he herr hfit h1
  · have hf := ProcessDirectives_frame _ _ _ _ _ hd
    rw [hf.2.1, hf.2.2.1]
    exact refInv_rel _ _ _ _ _
      (tableRel_mono SameRefs KeepsRefs (fun _ _ hh => ⟨hh.1.1, hh.2⟩) _ _ hf.1) h1

theorem SecondPassLoop_refInv (lines : List CStr) (st st' : AsmState)
    (h : SecondPassLoop lines st = some st') (herr : st'.Error = false)
    (hfit : st'.IC ≤ 65536) (hinv : RefInv st.table st.Code st.IC (st.IC + 1)) :
    RefInv st'.table st'.Code st'.IC (st'.IC + 1) := by
  induction lines generalizing st with
  | nil =>
    simp only [SecondPassLoop, Option.some.injEq] at h
    subst h
    exact hinv
  | cons line rest ih =>
    unfold SecondPassLoop at h
    split at h
    · simp at h
    · rename_i st1 h1
      have m2 := SecondPassLoop_mono _ _ _ h
      have e1 : st1.Error = false := by
        cases he : st1.Error with
        | false => rfl
        | true => rw [m2.2.1 he] at herr; exact absurd herr (by simp)
      exact ih _ h (ProcessLine_refInv _ _ _ h1 e1 (le_trans m2.1 hfit) hinv)

theorem addrInv_rel (lines : List CStr) (t t' : LabelTable) (h : TableRel SameAddr t t')
    (hinv : AddrInv lines t) : AddrInv lines t' := by
  refine ⟨by rw [h.1]; exact hinv.pos, ?_, ?_⟩
  · intro l' hl' he
    obtain ⟨l, hl, hk⟩ := forall2_mem_right _ _ _ (tableRel_labels _ _ _ h) l' hl'
    rw [hk.2]
    exact hinv.extAddr l hl (by rw [← hk.1.2.1]; exact he)
  · intro line hline n l' hn hlook
    rcases tableRel_lookup SameAddr sameAddr_name t t' h n with ⟨_, h2⟩ | ⟨a, b, ha, hb, hab⟩
    · rw [h2] at hlook; exact absurd hlook (by simp)
    · rw [hb] at hlook
      simp only [Option.some.injEq] at hlook
      subst hlook
      rw [hab.1.2.1]
      exact hinv.targets line hline n a hn ha

theorem lookup_mem (t : LabelTable) (n : CStr) (l : Label) (h : lookupLabel t n = some l) :
    l ∈ allLabels t ∧ l.name = n := by
  obtain ⟨_, _, hchain⟩ := lookupLabel_some _ _ _ h
  obtain ⟨hn, hm⟩ := find_some_name _ _ _ hchain
  refine ⟨?_, hn⟩
  unfold allLabels
  rw [List.mem_flatten]
  refine ⟨_, ?_, hm⟩
  by_cases hlt : (findLabel t n).toNat < t.Labels.length
  · simp [List.getD_eq_getElem?_getD, List.getElem?_eq_getElem hlt]
  · simp [List.getD_eq_getElem?_getD, List.getElem?_eq_none (Nat.le_of_not_lt hlt)] at hm

theorem ProcessLine_addrInv (lines : List CStr) (line : CStr) (hmem : line ∈ lines)
    (st st' : AsmState) (h : ProcessLine line st = some st')
    (hinv : AddrInv lines st.table) : AddrInv lines st'.table := by
  obtain ⟨rest, tmp, b, hc⟩ := ProcessLine_cases line st st' h
  have h1 : AddrInv lines
      (UpdateAddressAndGetLabel (labelNameOf line) st.table st.IC st.DC).1 := by
    rcases UpdateAddress_cases (labelNameOf line) st.table st.IC st.DC with e | ⟨n, lab, hn, hl, e⟩
    · rw [e]; exact hinv
    · rw [e]
      have hext : lab.ext = false := hinv.targets line hmem n lab hn hl
      have hskel : TableRel SameSkel st.table (updateLabel st.table (findLabel st.table n).toNat n
          (fun l => { l with address := (st.IC + st.DC + 100) % 65536 })) :=
        updateLabel_rel _ sameSkel_refl _ _ _ _ (fun _ => ⟨rfl, rfl, rfl⟩)
      refine ⟨hinv.pos, ?_, ?_⟩
      · intro l' hl' he
        rcases updateLabel_allLabels st.table (findLabel st.table n).toNat n
            (fun l => { l with address := (st.IC + st.DC + 100) % 65536 }) with
          ⟨e1, _⟩ | ⟨A, l, B, hA, hB, hsome⟩
        · rw [e1] at hl'
          exact hinv.extAddr l' hl' he
        · obtain ⟨_, _, hchain⟩ := lookupLabel_some _ _ _ hl
          rw [hchain] at hsome
          simp only [Option.some.injEq] at hsome
          subst hsome
          rw [hB] at hl'
          rcases List.mem_append.mp hl' with hm | hm
          · exact hinv.extAddr l' (by rw [hA]; simp [hm]) he
          rcases List.mem_cons.mp hm with rfl | hm
          · simp only [] at he
            rw [hext] at he
            exact absurd he (by simp)
          · exact hinv.extAddr l' (by rw [hA]; simp [hm]) he
      · intro line2 hline2 m l' hm hlook
        rcases tableRel_lookup SameSkel (fun _ _ hh => hh.1) _ _ hskel m with
          ⟨_, h2⟩ | ⟨a, b, ha, hb, hab⟩
        · rw [h2] at hlook; exact absurd hlook (by simp)
        · rw [hb] at hlook
          simp only [Option.some.injEq] at hlook
          subst hlook
          rw [hab.2.1]
          exact hinv.targets line2 hline2 m a hm ha
  rcases hc with he | hd
  · exact addrInv_rel _ _ _ (EncodeInstruction_frame _ _ _ he).1 h1
  · exact addrInv_rel _ _ _
      (tableRel_mono SameRefs SameAddr (fun _ _ hh => hh.1) _ _
        (ProcessDirectives_frame _ _ _ _ _ hd).1) h1

theorem SecondPassLoop_addrInv (lines : List CStr) (done : List CStr)
    (hsub : ∀ line ∈ done, line ∈ lines) (st st' : AsmState)
    (h : SecondPassLoop done st = some st') (hinv : AddrInv lines st.table) :
    AddrInv lines st'.table := by
  induction done generalizing st with
  | nil =>
    simp only [SecondPassLoop, Option.some.injEq] at h
    subst h
    exact hinv
  | cons line rest ih =>
    unfold SecondPassLoop at h
    split at h
    · simp at h
    · rename_i st1 h1
      exact ih (fun l hl => hsub l (List.mem_cons_of_mem _ hl)) _ h
        (ProcessLine_addrInv lines line (hsub line (List.mem_cons_self _ _)) _ _ h1 hinv)


/-! ## The address given at a label definition -/

theorem isSome_getD {α : Type} (o : Option α) (d : α) (h : o.isSome = true) :
    o = some (o.getD d) := by
  cases o with
  | none => simp at h
  | some x => rfl

/-- C10, counterexample: after `A: .mat [255][257]` the counters are `IC = 0` and
`DC = 65535`; `ProcessLine` on `X: stop` then returns with `X` at address 99, not
at `0 + 65535 + 100 = 65635`. -/
theorem C10_address_wraps :
    afterBigMatrix.map (fun st => (st.IC, st.DC,
        (lookupLabel st.table "X".toList).map (fun l => l.address))) = some (0, 65535, some 0) ∧
    labelNameOf "X: stop\n".toList = some "X".toList ∧
    afterBigMatrix.map (fun st => (ProcessLine "X: stop\n".toList st).map
        (fun st' => (lookupLabel st'.table "X".toList).map (fun l => l.address))) =
      some (some (some 99)) ∧
    0 + 65535 + 100 ≠ 99 := by
  decide!

/-- C10, amended: on a line with a colon whose label the table lookup finds,
whenever `ProcessLine` returns, the lookup finds the label with address
`(IC + DC + 100) mod 2^16`, the counters being those before the line, whatever
the remainder of the line is. -/
theorem C10_label_address_mod (line name : CStr) (st st' : AsmState) (lab : Label)
    (hname : labelNameOf line = some name) (hsize : 0 < st.table.table_size)
    (hlook : lookupLabel st.table name = some lab) (hrun : ProcessLine line st = some st') :
    ∃ lab', lookupLabel st'.table name = some lab' ∧
      lab'.address = (st.IC + st.DC + 100) % 65536 := by
  obtain ⟨rest, _, hcase⟩ := ProcessLine_label line name st st' hname hrun
  rw [UpdateAddress_found name st.table st.IC st.DC lab hsize hlook] at hcase
  have h1 : lookupLabel (updateLabel st.table (findLabel st.table name).toNat name
      (fun l => { l with address := (st.IC + st.DC + 100) % 65536 })) name =
      some { lab with address := (st.IC + st.DC + 100) % 65536 } := by
    rw [updateLabel_lookup st.table name name
      (fun l => { l with address := (st.IC + st.DC + 100) % 65536 }) (fun _ => rfl),
      if_pos rfl, hlook]
    rfl
  have hrel : TableRel SameAddr (updateLabel st.table (findLabel st.table name).toNat name
      (fun l => { l with address := (st.IC + st.DC + 100) % 65536 })) st'.table := by
    rcases hcase with ⟨_, he⟩ | ⟨_, hd⟩
    · exact (EncodeInstruction_frame _ _ _ he).1
    · exact tableRel_mono SameRefs SameAddr (fun _ _ h => h.1) _ _
        (ProcessDirectives_frame _ _ _ _ _ hd).1
  rcases tableRel_lookup SameAddr sameAddr_name _ _ hrel name with ⟨hn, _⟩ | ⟨l, l', hl, hl', hE⟩
  · rw [h1] at hn; exact absurd hn (by simp)
  · rw [h1] at hl
    simp only [Option.some.injEq] at hl
    subst hl
    exact ⟨l', hl', hE.2⟩

/-- C10, witness: the line `X: stop` on a table that holds `X`. -/
theorem C10_label_address_witness :
    ∃ lab', lookupLabel
        ((ProcessLine "X: stop\n".toList oneLabelState).getD oneLabelState).table "X".toList =
          some lab' ∧
      lab'.address = (oneLabelState.IC + oneLabelState.DC + 100) % 65536 :=
  C10_label_address_mod "X: stop\n".toList "X".toList oneLabelState
    ((ProcessLine "X: stop\n".toList oneLabelState).getD oneLabelState)
    (createLabel "X".toList false false) (by decide!) (by decide!) (by decide!)
    (isSome_getD _ _ (by decide!))


/-! ## The address of a defined label -/

theorem SecondPassLoop_append (a b : List CStr) (st : AsmState) :
    SecondPassLoop (a ++ b) st = (SecondPassLoop a st).bind (SecondPassLoop b) := by
  induction a generalizing st with
  | nil => rfl
  | cons x r ih =>
    simp only [List.cons_append, SecondPassLoop]
    cases ProcessLine x st with
    | none => rfl
    | some st1 => exact ih st1

theorem defAddr_step (done : List CStr) (start st st1 : AsmState) (line : CStr)
    (hpos : 0 < st.table.table_size) (hdone : SecondPassLoop done start = some st)
    (hinv : DefAddr done start st.table) (h : ProcessLine line st = some st1) :
    DefAddr (done ++ [line]) start st1.table := by
  intro n l hlook hex
  obtain ⟨rest, tmp, b, hc⟩ := ProcessLine_cases line st st1 h
  have hrel : TableRel SameAddr
      (UpdateAddressAndGetLabel (labelNameOf line) st.table st.IC st.DC).1 st1.table := by
    rcases hc with he | hd
    · exact (EncodeInstruction_frame _ _ _ he).1
    · exact tableRel_mono SameRefs SameAddr (fun _ _ hh => hh.1) _ _
        (ProcessDirectives_frame _ _ _ _ _ hd).1
  obtain ⟨l1, hl1, haddr⟩ : ∃ l1, lookupLabel
      (UpdateAddressAndGetLabel (labelNameOf line) st.table st.IC st.DC).1 n = some l1 ∧
      l.address = l1.address := by
    rcases tableRel_lookup SameAddr sameAddr_name _ _ hrel n with ⟨_, h2⟩ | ⟨a, b, ha, hb, hab⟩
    · rw [h2] at hlook; exact absurd hlook (by simp)
    · rw [hb] at hlook
      simp only [Option.some.injEq] at hlook
      subst hlook
      exact ⟨a, ha, hab.2⟩
  by_cases hn : labelNameOf line = some n
  · rw [hn] at hl1
    obtain ⟨lab, hlab⟩ : ∃ lab, lookupLabel st.table n = some lab := by
      rcases tableRel_lookup KeepsRefs keepsRefs_name _ _
          (UpdateAddress_keeps (some n) st.table st.IC st.DC) n with ⟨_, h2⟩ | ⟨a, b, ha, _, _⟩
      · rw [h2] at hl1; exact absurd hl1 (by simp)
      · exact ⟨a, ha⟩
    rw [UpdateAddress_found n st.table st.IC st.DC lab hpos hlab] at hl1
    simp only [] at hl1
    rw [updateLabel_lookup st.table n n
      (fun l => { l with address := (st.IC + st.DC + 100) % 65536 }) (fun _ => rfl),
      if_pos rfl, hlab] at hl1
    simp only [Option.map_some', Option.some.injEq] at hl1
    refine ⟨done.length, st, by simp, ?_, ?_, ?_⟩
    · simpa using hn
    · simpa using hdone
    · rw [haddr, ← hl1]
      rfl
  · obtain ⟨line', hmem, hdef⟩ := hex
    have hmem' : line' ∈ done := by
      rcases List.mem_append.mp hmem with hm | hm
      · exact hm
      · simp only [List.mem_singleton] at hm
        subst hm
        exact absurd hdef hn
    have hl0 : lookupLabel st.table n = some l1 := by
      rcases UpdateAddress_cases (labelNameOf line) st.table st.IC st.DC with
        e | ⟨m, lab, hm, _, e⟩
      · rw [e] at hl1; exact hl1
      · rw [e, updateLabel_lookup st.table m n
          (fun l => { l with address := (st.IC + st.DC + 100) % 65536 }) (fun _ => rfl)] at hl1
        have hne : n ≠ m := by
          rintro rfl
          exact hn hm
        rw [if_neg hne] at hl1
        exact hl1
    obtain ⟨k, stk, hk, hkn, hks, hka⟩ := hinv n l1 hl0 ⟨line', hmem', hdef⟩
    refine ⟨k, stk, by simp; omega, ?_, ?_, by rw [haddr]; exact hka⟩
    · rw [List.getD_append _ _ _ _ hk]
      exact hkn
    · rw [List.take_append_of_le_length (Nat.le_of_lt hk)]
      exact hks

theorem defAddr_loop (rest : List CStr) (done : List CStr) (start st stf : AsmState)
    (hpos : 0 < st.table.table_size) (hdone : SecondPassLoop done start = some st)
    (hinv : DefAddr done start st.table) (h : SecondPassLoop rest st = some stf) :
    DefAddr (done ++ rest) start stf.table := by
  induction rest generalizing done st with
  | nil =>
    simp only [SecondPassLoop, Option.some.injEq] at h
    subst h
    simpa using hinv
  | cons line rest ih =>
    unfold SecondPassLoop at h
    split at h
    · simp at h
    · rename_i st1 h1
      have hd1 : SecondPassLoop (done ++ [line]) start = some st1 := by
        rw [SecondPassLoop_append, hdone]
        simp [SecondPassLoop, h1]
      have hp1 : 0 < st1.table.table_size := by
        rw [(ProcessLine_mono _ _ _ h1).2.2.1]; exact hpos
      have := ih (done ++ [line]) st1 hp1 hd1 (defAddr_step _ _ _ _ _ hpos hdone hinv h1) h
      simpa using this


/-! ## Resolution of the recorded references -/

theorem patch_refs (a : Nat) (r : List Nat) (Code : Mem) (q : Nat) :
    (r.foldl (fun code pos => setWord code pos (code pos ||| a)) Code) q =
      if q ∈ r then Code q ||| a else Code q := by
  induction r generalizing Code with
  | nil => simp
  | cons pos r ih =>
    rw [List.foldl_cons, ih]
    by_cases hq : q = pos
    · subst hq
      simp only [setWord_same, List.mem_cons, true_or, if_true]
      split_ifs
      · rw [Nat.or_assoc, Nat.or_self]
      · rfl
    · rw [setWord_other _ _ _ _ hq]
      simp only [List.mem_cons, hq, false_or]

theorem patch_labels (ls : List Label) (Code : Mem)
    (hnd : ((ls.map (fun l => l.ref)).flatten).Nodup) :
    (∀ l ∈ ls, ∀ p ∈ l.ref,
      (ls.foldl (fun code (cur : Label) =>
          cur.ref.foldl (fun code pos =>
            setWord code pos (code pos ||| ((cur.address * 4) % 65536))) code) Code) p =
        Code p ||| ((l.address * 4) % 65536)) ∧
    (∀ q, q ∉ (ls.map (fun l => l.ref)).flatten →
      (ls.foldl (fun code (cur : Label) =>
          cur.ref.foldl (fun code pos =>
            setWord code pos (code pos ||| ((cur.address * 4) % 65536))) code) Code) q =
        Code q) := by
  induction ls generalizing Code with
  | nil => exact ⟨fun l hl => absurd hl (by simp), fun q _ => rfl⟩
  | cons x r ih =>
    simp only [List.map_cons, List.flatten_cons] at hnd ⊢
    obtain ⟨_, hr, hdis⟩ := List.nodup_append.mp hnd
    have ih' := ih (x.ref.foldl (fun code pos =>
      setWord code pos (code pos ||| ((x.address * 4) % 65536))) Code) hr
    simp only [List.foldl_cons]
    constructor
    · intro l hl p hp
      rcases List.mem_cons.mp hl with rfl | hl
      · rw [ih'.2 p (fun hh => hdis hp hh), patch_refs, if_pos hp]
      · have hpr : p ∈ (r.map (fun l => l.ref)).flatten := by
          simp only [List.mem_flatten, List.mem_map]
          exact ⟨l.ref, ⟨l, hl, rfl⟩, hp⟩
        rw [ih'.1 l hl p hp, patch_refs, if_neg (fun hh => hdis hh hpr)]
    · intro q hq
      simp only [List.mem_append, not_or] at hq
      rw [ih'.2 q hq.2, patch_refs, if_neg hq.1]

theorem foldl_flatten_chains {α β : Type} (f : β → α → β) (chains : List (List α)) (b : β) :
    chains.foldl (fun acc chain => chain.foldl f acc) b = chains.flatten.foldl f b := by
  induction chains generalizing b with
  | nil => rfl
  | cons c r ih => simp only [List.foldl_cons, List.flatten_cons, List.foldl_append, ih]

theorem resolved_word (t : LabelTable) (Code : Mem) (hnd : (allRefs t).Nodup)
    (l : Label) (hl : l ∈ allLabels t) (p : Nat) (hp : p ∈ l.ref) :
    reallocateLabels t Code p = Code p ||| ((l.address * 4) % 65536) := by
  unfold reallocateLabels
  rw [foldl_flatten_chains]
  exact (patch_labels (allLabels t) Code hnd).1 l hl p hp


/-! ## Invariants of the first pass -/

theorem toShort_small (n : Nat) (h : n < 32768) : toShort n = (n : Int) := by
  unfold toShort
  have : n % 65536 = n := Nat.mod_eq_of_lt (by omega)
  rw [this, if_pos h]

theorem mod_le_mod_double (x s s' : Nat) (h : s' = s ∨ s' = s * 2) : x % s ≤ x % s' := by
  rcases h with rfl | rfl
  · exact le_refl _
  · have : x % (s * 2) % s = x % s := Nat.mod_mod_of_dvd x (Dvd.intro 2 rfl)
    rw [← this]
    exact Nat.mod_le _ _

theorem addLabel_size (t : LabelTable) (m : CStr) (ext mat : Bool) :
    (addLabel t m ext mat).table_size = t.table_size ∨
    (addLabel t m ext mat).table_size = t.table_size * 2 := by
  have := (addLabel_num_size t m ext mat).2
  simp only [] at this
  rw [this]
  split_ifs <;> simp

theorem tableInv_create : TableInv (create_LabelTable TABLE_SIZE) := by
  refine ⟨WF_create _ (by decide), ?_, ?_⟩
  · intro l hl
    simp [allLabels, create_LabelTable] at hl
  · intro n _ l1 hl
    simp [allLabels, create_LabelTable] at hl

theorem tableInv_add (t : LabelTable) (m : CStr) (ext mat : Bool) (h : TableInv t)
    (hfresh : findLabel t m = -1) (hme : mat = true → ext = false) :
    TableInv (addLabel t m ext mat) := by
  have hf := addLabel_facts t m ext mat h.wf
  have hmem : ∀ l, l ∈ allLabels (addLabel t m ext mat) ↔
      l = createLabel m ext mat ∨ l ∈ allLabels t := by
    intro l
    rw [hf.2.mem_iff, List.mem_cons]
  refine ⟨hf.1, ?_, ?_⟩
  · intro l hl
    rcases (hmem l).mp hl with rfl | hl
    · exact ⟨rfl, rfl, hme⟩
    · exact h.pristine l hl
  · intro n hn l1 hl1 l2 hl2 e1 e2
    have hsmall : hash n % t.table_size < 32768 :=
      lt_of_le_of_lt (mod_le_mod_double _ _ _ (addLabel_size t m ext mat)) hn
    have hnew : ∀ l ∈ allLabels t, l.name = n → n ≠ m := by
      intro l hl hname hnm
      have := findLabel_eq t h.wf m
      rw [if_pos ⟨l, hl, hname.trans hnm⟩, hfresh, toShort_small _ (by rw [← hnm]; exact hsmall)]
        at this
      omega
    rcases (hmem l1).mp hl1 with rfl | hl1 <;> rcases (hmem l2).mp hl2 with rfl | hl2
    · rfl
    · exact absurd e1.symm (hnew l2 hl2 e2)
    · exact absurd e2.symm (hnew l1 hl1 e1)
    · exact h.unique n hsmall l1 hl1 l2 hl2 e1 e2

theorem stripLineEnd_decomp (line : CStr) :
    ∃ tail, line = stripLineEnd line ++ tail ∧ ∀ c ∈ tail, c = '\r' ∨ c = '\n' := by
  refine ⟨(line.reverse.takeWhile (fun c => c = '\r' || c = '\n')).reverse, ?_, ?_⟩
  · unfold stripLineEnd
    rw [← List.reverse_append, List.takeWhile_append_dropWhile, List.reverse_reverse]
  · intro c hc
    rw [List.mem_reverse] at hc
    have := List.mem_takeWhile_imp hc
    simpa using this

theorem dropWhile_append_nil {α : Type} (p : α → Bool) (a tail : List α)
    (ht : ∀ c ∈ tail, p c = true) (ha : a.dropWhile p = []) : (a ++ tail).dropWhile p = [] := by
  rw [List.dropWhile_eq_nil_iff] at ha ⊢
  intro x hx
  rcases List.mem_append.mp hx with h | h
  · exact ha x h
  · exact ht x h

theorem dropWhile_append_cons {α : Type} (p : α → Bool) (a tail : List α)
    (ha : a.dropWhile p ≠ []) : (a ++ tail).dropWhile p = a.dropWhile p ++ tail := by
  induction a with
  | nil => simp at ha
  | cons x r ih =>
    by_cases hx : p x = true
    · simp only [List.cons_append, List.dropWhile_cons, hx, if_true] at ha ⊢
      exact ih ha
    · simp [List.dropWhile_cons, hx]

theorem takeWhile_append_stop_all {α : Type} (p : α → Bool) (a tail : List α)
    (ht : ∀ c ∈ tail, p c = false) : (a ++ tail).takeWhile p = a.takeWhile p := by
  induction a with
  | nil =>
    cases tail with
    | nil => rfl
    | cons y r => simp [List.takeWhile_cons, ht y (List.mem_cons_self _ _)]
  | cons x r ih =>
    by_cases hx : p x = true
    · simp only [List.cons_append, List.takeWhile_cons, hx, if_true, ih]
    · simp [List.takeWhile_cons, hx]

theorem strtok_fst_append (a tail d : CStr) (ht : ∀ c ∈ tail, d.contains c = true) :
    (strtok (a ++ tail) d).1 = (strtok a d).1 := by
  unfold strtok
  by_cases hd : a.dropWhile (fun c => d.contains c) = []
  · rw [dropWhile_append_nil _ a tail ht hd, hd]
  · rw [dropWhile_append_cons _ a tail hd]
    obtain ⟨x, r, hxr⟩ := List.exists_cons_of_ne_nil hd
    rw [hxr]
    simp only [List.cons_append]
    rw [← List.cons_append, takeWhile_append_stop_all _ (x :: r) tail
      (fun c hc => by have := ht c hc; simpa using this)]

theorem hasChar_append (a b : CStr) (c : Char) :
    hasChar (a ++ b) c = (hasChar a c || hasChar b c) := by
  simp [hasChar, List.any_append]

theorem hasChar_false_of (tail : CStr) (c : Char) (h : ∀ x ∈ tail, x ≠ c) :
    hasChar tail c = false := by
  simp only [hasChar, List.any_eq_false, decide_eq_true_eq]
  exact h

theorem labelNameOf_strip (line : CStr) : labelNameOf (stripLineEnd line) = labelNameOf line := by
  obtain ⟨tail, hl, ht⟩ := stripLineEnd_decomp line
  have h1 : IsLabelDefinition line = IsLabelDefinition (stripLineEnd line) := by
    unfold IsLabelDefinition
    conv_lhs => rw [hl]
    rw [hasChar_append, hasChar_false_of tail ':' (fun x hx => by
      rcases ht x hx with rfl | rfl <;> decide)]
    simp
  have h2 : (strtok line ":\r\n".toList).1 = (strtok (stripLineEnd line) ":\r\n".toList).1 := by
    conv_lhs => rw [hl]
    exact strtok_fst_append _ _ _ (fun c hc => by rcases ht c hc with rfl | rfl <;> decide)
  unfold labelNameOf
  rw [h1, h2]

theorem isPrefixOf_append_tail (p a tail : CStr) (hp : ∀ c ∈ p, c ∉ tail) :
    p.isPrefixOf (a ++ tail) = p.isPrefixOf a := by
  induction p generalizing a with
  | nil => simp
  | cons x r ih =>
    cases a with
    | nil =>
      cases tail with
      | nil => rfl
      | cons y t =>
        have : x ≠ y := fun e => hp x (List.mem_cons_self _ _) (by rw [e]; exact List.mem_cons_self _ _)
        simp [List.isPrefixOf, this]
    | cons y a =>
      rw [List.cons_append, List.isPrefixOf_cons₂, List.isPrefixOf_cons₂,
        ih a (fun c hc => hp c (List.mem_cons_of_mem _ hc))]

theorem isExtern_strip (line : CStr) : isExtern (stripLineEnd line) = isExtern line := by
  obtain ⟨tail, hl, ht⟩ := stripLineEnd_decomp line
  unfold isExtern startsWith
  conv_rhs => rw [hl]
  rw [isPrefixOf_append_tail]
  intro c hc hct
  rcases ht c hct with rfl | rfl <;> simp at hc

theorem mem_dropWhile_of_not {α : Type} (p : α → Bool) (l : List α) (c : α) (hc : c ∈ l)
    (hp : p c = false) : c ∈ l.dropWhile p := by
  induction l with
  | nil => simp at hc
  | cons x r ih =>
    by_cases hx : p x = true
    · rw [List.dropWhile_cons, if_pos hx]
      rcases List.mem_cons.mp hc with rfl | hc
      · rw [hp] at hx; exact absurd hx (by simp)
      · exact ih hc
    · simp only [List.dropWhile_cons, hx]
      exact hc

theorem colon_deleteSpaces (s : CStr) (h : ':' ∈ s) : ':' ∈ deleteSpaces s := by
  unfold deleteSpaces
  rw [List.mem_reverse]
  apply mem_dropWhile_of_not _ _ _ _ (by decide)
  rw [List.mem_reverse]
  exact mem_dropWhile_of_not _ _ _ h (by decide)

theorem hasChar_mem (s : CStr) (c : Char) : hasChar s c = true ↔ c ∈ s := by
  simp [hasChar]

theorem extern_colon_error (line : CStr) (t : LabelTable) (e : Bool)
    (hx : isExtern line = true) (hc : hasChar line ':' = true) :
    (ProcessExternDefinition line t e).2 = true := by
  have hdrop : ':' ∈ line.drop ".extern".length := by
    unfold isExtern startsWith at hx
    obtain ⟨rest, hrest⟩ := List.isPrefixOf_iff_prefix.mp hx
    rw [hasChar_mem, ← hrest, List.mem_append] at hc
    rw [← hrest]
    have e : List.drop ".extern".length (".extern".toList ++ rest) = rest := by
      simp [List.drop_append_eq_append_drop]
      rfl
    rw [e]
    rcases hc with hc | hc
    · simp at hc
    · exact hc
  have h2 := colon_deleteSpaces _ (colon_deleteSpaces _ hdrop)
  unfold ProcessExternDefinition
  simp only []
  split_ifs with c1 c2 c3 c4
  · rfl
  · rfl
  · rfl
  · rfl
  · exfalso
    have hv : validLabel (deleteSpaces (deleteSpaces (line.drop ".extern".length))) = true := by
      simpa using c3
    have := (validLabel_alnum _ hv).2 ':' h2
    simp [isalnum, isalpha, isdigit] at this

theorem ProcessExternDefinition_cases (line : CStr) (t : LabelTable) (e : Bool) :
    ProcessExternDefinition line t e = (t, true) ∨
    ∃ m, findLabel t m = -1 ∧ ProcessExternDefinition line t e = (addLabel t m true false, e) := by
  unfold ProcessExternDefinition
  simp only []
  split_ifs with c1 c2 c3 c4
  · exact Or.inl rfl
  · exact Or.inl rfl
  · exact Or.inl rfl
  · exact Or.inl rfl
  · exact Or.inr ⟨_, by simpa using c4, rfl⟩

theorem ProcessLabelDefinition_cases (line : CStr) (t : LabelTable) (e : Bool)
    (r : LabelTable × Bool) (h : ProcessLabelDefinition line t e = some r) :
    r = (t, true) ∨
    ∃ m mat, deleteSpacesP (strtok line ":\r\n".toList).1 = some m ∧ findLabel t m = -1 ∧
      r = (addLabel t m false mat, e) := by
  unfold ProcessLabelDefinition at h
  simp only [] at h
  split at h
  · simp at h
  · rename_i m hm
    split_ifs at h with c1 c2
    · simp only [Option.some.injEq] at h
      exact Or.inl h.symm
    · simp only [Option.some.injEq] at h
      exact Or.inl h.symm
    · split at h
      · simp at h
      · simp only [Option.some.injEq] at h
        exact Or.inr ⟨m, _, hm, by simpa using c2, h.symm⟩


/-! ## The first pass, line by line -/

theorem isLabel_strip (line : CStr) :
    IsLabelDefinition (stripLineEnd line) = IsLabelDefinition line := by
  obtain ⟨tail, hl, ht⟩ := stripLineEnd_decomp line
  unfold IsLabelDefinition
  conv_rhs => rw [hl]
  rw [hasChar_append, hasChar_false_of tail ':' (fun x hx => by
    rcases ht x hx with rfl | rfl <;> decide)]
  simp

theorem labelNameOf_none (line : CStr) (h : IsLabelDefinition line = false) :
    labelNameOf line = none := by
  unfold labelNameOf
  rw [h]
  rfl

theorem linesInv_same (done : List CStr) (line : CStr) (t : LabelTable) (e e' : Bool)
    (hL : LinesInv done t e) (he : e' = false → e = false ∧ labelNameOf line = none) :
    LinesInv (line :: done) t e' := by
  refine ⟨?_, ?_⟩
  · intro h0 line' hmem n hn
    obtain ⟨h1, h2⟩ := he h0
    rcases List.mem_cons.mp hmem with rfl | hmem
    · rw [h2] at hn; exact absurd hn (by simp)
    · exact hL.defined h1 line' hmem n hn
  · intro l hl hext
    obtain ⟨line', hmem, hn⟩ := hL.origin l hl hext
    exact ⟨line', List.mem_cons_of_mem _ hmem, hn⟩

theorem linesInv_add (done : List CStr) (line : CStr) (t : LabelTable) (e : Bool)
    (m : CStr) (ext mat : Bool) (hL : LinesInv done t e) (hwf : WF t)
    (horigin : ext = false → labelNameOf line = some m)
    (hdef : e = false → labelNameOf line = none ∨ (labelNameOf line = some m ∧ ext = false)) :
    LinesInv (line :: done) (addLabel t m ext mat) e := by
  have hf := addLabel_facts t m ext mat hwf
  have hmem : ∀ l, l ∈ allLabels (addLabel t m ext mat) ↔
      l = createLabel m ext mat ∨ l ∈ allLabels t := by
    intro l
    rw [hf.2.mem_iff, List.mem_cons]
  refine ⟨?_, ?_⟩
  · intro h0 line' hm n hn
    rcases List.mem_cons.mp hm with rfl | hm
    · rcases hdef h0 with h1 | ⟨h1, h2⟩
      · rw [h1] at hn; exact absurd hn (by simp)
      · rw [h1] at hn
        simp only [Option.some.injEq] at hn
        subst hn
        exact ⟨createLabel m ext mat, (hmem _).mpr (Or.inl rfl), rfl, h2⟩
    · obtain ⟨l, hl, h1, h2⟩ := hL.defined h0 line' hm n hn
      exact ⟨l, (hmem l).mpr (Or.inr hl), h1, h2⟩
  · intro l hl hext
    rcases (hmem l).mp hl with rfl | hl
    · exact ⟨line, List.mem_cons_self _ _, horigin hext⟩
    · obtain ⟨line', hm, hn⟩ := hL.origin l hl hext
      exact ⟨line', List.mem_cons_of_mem _ hm, hn⟩

theorem FirstPassLine_step (done : List CStr) (line : CStr) (t t' : LabelTable) (e e' : Bool)
    (h : FirstPassLine line t e = some (t', e')) (hT : TableInv t) (hL : LinesInv done t e) :
    TableInv t' ∧ LinesInv (line :: done) t' e' ∧ (e = true → e' = true) := by
  unfold FirstPassLine at h
  by_cases hc : (isExtern line || IsLabelDefinition line) = true
  · rw [if_pos hc] at h
    simp only [] at h
    by_cases hx : isExtern (stripLineEnd line) = true
    · rw [if_pos hx] at h
      simp only [Option.some.injEq] at h
      have hcolon : IsLabelDefinition line = true → e' = true := by
        intro hl
        have := extern_colon_error (stripLineEnd line) t e hx
          (by rw [← isLabel_strip] at hl; exact hl)
        rw [h] at this
        exact this
      have hnone : e' = false → labelNameOf line = none := by
        intro h0
        apply labelNameOf_none
        cases hl : IsLabelDefinition line with
        | false => rfl
        | true => rw [hcolon hl] at h0; exact absurd h0 (by simp)
      rcases ProcessExternDefinition_cases (stripLineEnd line) t e with e1 | ⟨m, hm, e1⟩
      · rw [e1] at h
        simp only [Prod.mk.injEq] at h
        obtain ⟨rfl, rfl⟩ := h
        exact ⟨hT, linesInv_same _ _ _ _ _ hL (fun h0 => absurd h0 (by simp)), fun _ => rfl⟩
      · rw [e1] at h
        simp only [Prod.mk.injEq] at h
        obtain ⟨rfl, rfl⟩ := h
        exact ⟨tableInv_add _ _ _ _ hT hm (fun hh => absurd hh (by simp)),
          linesInv_add _ _ _ _ _ _ _ hL hT.wf (fun hh => absurd hh (by simp))
            (fun h0 => Or.inl (hnone h0)), id⟩
    · rw [if_neg hx] at h
      have hxl : isExtern line = false := by
        rw [← isExtern_strip]; simpa using hx
      have hlab : IsLabelDefinition line = true := by
        rw [hxl] at hc; simpa using hc
      rcases ProcessLabelDefinition_cases _ _ _ _ h with e1 | ⟨m, mat, hm, hfresh, e1⟩
      · simp only [Prod.mk.injEq] at e1
        obtain ⟨rfl, rfl⟩ := e1
        exact ⟨hT, linesInv_same _ _ _ _ _ hL (fun h0 => absurd h0 (by simp)), fun _ => rfl⟩
      · simp only [Prod.mk.injEq] at e1
        obtain ⟨rfl, rfl⟩ := e1
        have hname : labelNameOf line = some m := by
          rw [← labelNameOf_strip]
          unfold labelNameOf
          rw [isLabel_strip, if_pos hlab]
          exact hm
        exact ⟨tableInv_add _ _ _ _ hT hfresh (fun _ => rfl),
          linesInv_add _ _ _ _ _ _ _ hL hT.wf (fun _ => hname)
            (fun _ => Or.inr ⟨hname, rfl⟩), id⟩
  · rw [if_neg hc] at h
    simp only [Option.some.injEq, Prod.mk.injEq] at h
    obtain ⟨rfl, rfl⟩ := h
    have hlab : IsLabelDefinition line = false := by
      simp only [Bool.or_eq_true, not_or] at hc
      simpa using hc.2
    exact ⟨hT, linesInv_same _ _ _ _ _ hL (fun h0 => ⟨h0, labelNameOf_none _ hlab⟩), id⟩

theorem FirstPassLoop_inv (lines done : List CStr) (t t' : LabelTable) (e e' : Bool)
    (h : FirstPassLoop lines t e = some (t', e')) (hT : TableInv t) (hL : LinesInv done t e) :
    TableInv t' ∧ LinesInv (lines.reverse ++ done) t' e' ∧ (e = true → e' = true) := by
  induction lines generalizing done t e with
  | nil =>
    simp only [FirstPassLoop, Option.some.injEq, Prod.mk.injEq] at h
    obtain ⟨rfl, rfl⟩ := h
    exact ⟨hT, by simpa using hL, id⟩
  | cons line rest ih =>
    unfold FirstPassLoop at h
    split at h
    · simp at h
    · rename_i r hr
      have s1 := FirstPassLine_step done line t r.1 e r.2 hr hT hL
      have s2 := ih (line :: done) r.1 r.2 h s1.1 s1.2.1
      refine ⟨s2.1, ?_, fun he => s2.2.2 (s1.2.2 he)⟩
      have : (line :: rest).reverse ++ done = rest.reverse ++ line :: done := by simp
      rw [this]
      exact s2.2.1

theorem linesInv_empty : LinesInv [] (create_LabelTable TABLE_SIZE) false := by
  refine ⟨fun _ line hl => absurd hl (by simp), ?_⟩
  intro l hl
  simp [allLabels, create_LabelTable] at hl

theorem lookup_small (t : LabelTable) (hwf : WF t) (n : CStr) (l : Label)
    (h : lookupLabel t n = some l) : hash n % t.table_size < 32768 := by
  obtain ⟨h0, h1, hchain⟩ := lookupLabel_some _ _ _ h
  obtain ⟨hn, hm⟩ := find_some_name _ _ _ hchain
  have hhome := hwf.home _ l hm
  rw [hn] at hhome
  have hfe := findLabel_eq t hwf n
  split_ifs at hfe with hex
  · rw [hfe] at hhome h0
    unfold toShort at hhome h0
    split_ifs at hhome h0 with hs
    · have : ((hash n % t.table_size % 65536 : Nat) : Int).toNat =
          hash n % t.table_size % 65536 := Int.toNat_natCast _
      rw [this] at hhome
      omega
    · omega
  · rw [hfe] at h1
    exact absurd rfl h1

theorem allRefs_nil (t : LabelTable) (h : ∀ l ∈ allLabels t, l.ref = []) : allRefs t = [] := by
  unfold allRefs
  rw [List.flatten_eq_nil_iff]
  intro r hr
  rw [List.mem_map] at hr
  obtain ⟨l, hl, rfl⟩ := hr
  exact h l hl

theorem firstPass_facts (lines : List CStr) (t1 : LabelTable)
    (h : FirstPass lines false = some (t1, false)) :
    AddrInv lines t1 ∧ RefInv t1 zeroMem 0 1 ∧
    (∀ l ∈ allLabels t1, l.ext = false → ∃ line ∈ lines, labelNameOf line = some l.name) := by
  unfold FirstPass at h
  obtain ⟨hT, hL, _⟩ := FirstPassLoop_inv lines [] _ _ _ _ h tableInv_create linesInv_empty
  simp only [List.append_nil] at hL
  refine ⟨⟨hT.wf.pos, fun l hl _ => (hT.pristine l hl).1, ?_⟩, ⟨fun _ _ => rfl, ?_, ?_, ?_, ?_⟩, ?_⟩
  · intro line hline n l hn hlook
    obtain ⟨l2, hl2, hname2, hext2⟩ := hL.defined rfl line (List.mem_reverse.mpr hline) n hn
    obtain ⟨hl, hname⟩ := lookup_mem t1 n l hlook
    rw [hT.unique n (lookup_small t1 hT.wf n l hlook) l hl l2 hl2 hname hname2]
    exact hext2
  · intro l hl p hp
    rw [(hT.pristine l hl).2.1] at hp
    exact absurd hp (by simp)
  · rw [allRefs_nil t1 (fun l hl => (hT.pristine l hl).2.1)]
    exact List.nodup_nil
  · intro l hl hne
    exact absurd (hT.pristine l hl).2.1 hne
  · intro l hl
    exact (hT.pristine l hl).2.2
  · intro l hl hext
    obtain ⟨line, hm, hn⟩ := hL.origin l hl hext
    exact ⟨line, List.mem_reverse.mp hm, hn⟩


/-! ## External symbols and resolved references -/

theorem assembleFile_parts (lines : List CStr) (st : AsmState)
    (hrun : assembleFile lines = some st) (herr : st.Error = false) :
    ∃ t1 st1, FirstPass lines false = some (t1, false) ∧
      SecondPassLoop lines (passTwoStart t1 false) = some st1 ∧ st1.Error = false ∧
      st = { st1 with Code := reallocateLabels st1.table st1.Code } := by
  unfold assembleFile at hrun
  split at hrun
  · simp at hrun
  · rename_i r hr
    unfold SecondPass at hrun
    split at hrun
    · simp at hrun
    · rename_i st1 h1
      have hm := SecondPassLoop_mono _ _ _ h1
      have herr1 : st1.Error = false := by
        split_ifs at hrun with hc
        · simpa using hc
        · simp only [Option.some.injEq] at hrun
          rw [← hrun] at herr
          exact herr
      have hr2 : r.2 = false := by
        cases h2 : r.2 with
        | false => rfl
        | true =>
          have := hm.2.1 h2
          rw [herr1] at this
          exact absurd this (by simp)
      refine ⟨r.1, st1, ?_, ?_, herr1, ?_⟩
      · rw [hr, ← hr2]
      · rw [← hr2]; exact h1
      · rw [if_pos (by simp [herr1])] at hrun
        simp only [Option.some.injEq] at hrun
        exact hrun.symm

/-- C9, counterexample: on `.extern X` followed by `X: stop` the first pass flags
the second definition, and the second pass then stores address 100 in the
external symbol `X`. -/
theorem C9_extern_gets_address :
    (FirstPass externThenLabel false).map
        (fun r => (r.2, (lookupLabel r.1 "X".toList).map (fun l => (l.ext, l.address)))) =
      some (true, some (true, 0)) ∧
    ((FirstPass externThenLabel false).bind
        (fun r => SecondPassLoop externThenLabel (passTwoStart r.1 r.2))).map
        (fun st => (lookupLabel st.table "X".toList).map (fun l => (l.ext, l.address))) =
      some (some (true, 100)) := by
  decide!

/-- C9, amended: when the first pass returns without flagging an error, every
external symbol has address 0 after any prefix of first-pass steps and after
any prefix of second-pass steps, whether or not the second pass flags errors. -/
theorem C9_extern_address_zero (lines : List CStr) (t1 : LabelTable)
    (h1 : FirstPass lines false = some (t1, false)) :
    (∀ k t e, FirstPassLoop (lines.take k) (create_LabelTable TABLE_SIZE) false = some (t, e) →
      ∀ l ∈ allLabels t, l.ext = true → l.address = 0) ∧
    (∀ k st, SecondPassLoop (lines.take k) (passTwoStart t1 false) = some st →
      ∀ l ∈ allLabels st.table, l.ext = true → l.address = 0) := by
  constructor
  · intro k t e h l hl _
    exact ((FirstPassLoop_inv _ [] _ _ _ _ h tableInv_create linesInv_empty).1.pristine l hl).1
  · intro k st h l hl hext
    have hA := (firstPass_facts lines t1 h1).1
    exact (SecondPassLoop_addrInv lines (lines.take k) (fun x hx => List.mem_of_mem_take hx)
      _ _ h hA).extAddr l hl hext

/-- C9, witness: `.extern X` followed by `jmp X`. -/
theorem C9_extern_address_witness :
    (∀ k t e, FirstPassLoop (externJump.take k) (create_LabelTable TABLE_SIZE) false =
        some (t, e) → ∀ l ∈ allLabels t, l.ext = true → l.address = 0) ∧
    (∀ k st, SecondPassLoop (externJump.take k)
        (passTwoStart (addLabel (create_LabelTable TABLE_SIZE) "X".toList true false) false) =
          some st → ∀ l ∈ allLabels st.table, l.ext = true → l.address = 0) :=
  C9_extern_address_zero externJump
    (addLabel (create_LabelTable TABLE_SIZE) "X".toList true false) (by decide!)

/-- C8: when both passes end without the error flag and the image is at most
2^16 words, every external symbol has address 0 when the references are
resolved, and every word at a position recorded for it is 1 afterwards. -/
theorem C8_extern_words (lines : List CStr) (st : AsmState)
    (hrun : assembleFile lines = some st) (herr : st.Error = false) (hfit : st.IC ≤ 65536)
    (l : Label) (hl : l ∈ allLabels st.table) (hext : l.ext = true) :
    l.address = 0 ∧ ∀ p ∈ l.ref, st.Code p = 1 := by
  obtain ⟨t1, st1, hp1, hp2, herr1, rfl⟩ := assembleFile_parts lines st hrun herr
  simp only [] at hfit hl ⊢
  obtain ⟨hA, hR, _⟩ := firstPass_facts lines t1 hp1
  have hA1 := SecondPassLoop_addrInv lines lines (fun _ hx => hx) _ _ hp2 hA
  have hR1 := SecondPassLoop_refInv lines _ _ hp2 herr1 hfit hR
  have haddr := hA1.extAddr l hl hext
  refine ⟨haddr, ?_⟩
  intro p hp
  rw [resolved_word st1.table st1.Code hR1.nodup l hl p hp, (hR1.refs l hl p hp).2.2, haddr]
  unfold ARE
  rw [hext]
  rfl

/-- C8, witness: `.extern X` followed by `jmp X`; the word after the jump is 1. -/
theorem C8_extern_words_witness :
    (createLabel "X".toList true false).address = 0 ∧
    ∀ p ∈ [1], ((assembleFile externJump).getD emptyState).Code p = 1 :=
  C8_extern_words externJump ((assembleFile externJump).getD emptyState)
    (isSome_getD _ _ (by decide!)) (by decide!) (by decide!)
    { createLabel "X".toList true false with ref := [1] } (by decide!) rfl

/-- C7, counterexample: with `X` defined behind 40000 data words its address is
40100; the word recorded for `jmp X` holds 29330 after resolution, not
`(40100 << 2) | 2 = 160402`. -/
theorem C7_word_truncated :
    (assembleFile bigMatrixThenJump).map (fun st => (st.Error, st.IC, st.Code 2)) =
      some (false, 3, 29330) ∧
    (assembleFile bigMatrixThenJump).map
        (fun st => (lookupLabel st.table "X".toList).map (fun l => (l.ext, l.address, l.ref))) =
      some (some (false, 40100, [2])) ∧
    (40100 <<< 2) ||| 2 = 160402 := by
  decide!

/-- C7, amended: when both passes end without the error flag and the image is at
most 2^16 words, every word at a position recorded for a symbol that is not
external is `((A * 4) mod 2^16) | 2`, where `A = (IC + DC + 100) mod 2^16` is
computed from the counters before a line that defines the symbol, wherever that
line stands in the source. -/
theorem C7_reference_words (lines : List CStr) (st : AsmState)
    (hrun : assembleFile lines = some st) (herr : st.Error = false) (hfit : st.IC ≤ 65536)
    (l : Label) (hl : l ∈ allLabels st.table) (hext : l.ext = false)
    (p : Nat) (hp : p ∈ l.ref) :
    ∃ t1 k stk, FirstPass lines false = some (t1, false) ∧ k < lines.length ∧
      labelNameOf (lines.getD k []) = some l.name ∧
      SecondPassLoop (lines.take k) (passTwoStart t1 false) = some stk ∧
      st.Code p = ((lineAddress stk * 4) % 65536) ||| 2 := by
  obtain ⟨t1, st1, hp1, hp2, herr1, rfl⟩ := assembleFile_parts lines st hrun herr
  simp only [] at hfit hl ⊢
  obtain ⟨hA, hR, horigin⟩ := firstPass_facts lines t1 hp1
  have hR1 := SecondPassLoop_refInv lines _ _ hp2 herr1 hfit hR
  have hne : l.ref ≠ [] := List.ne_nil_of_mem hp
  obtain ⟨l0, hlook, href⟩ := hR1.owner l hl hne
  obtain ⟨hl0, _⟩ := lookup_mem _ _ _ hlook
  have hdef : ∃ line ∈ lines, labelNameOf line = some l.name := by
    have hrel := (SecondPassLoop_mono _ _ _ hp2).2.2
    obtain ⟨l', hl', hk⟩ := forall2_mem_right _ _ _ (tableRel_labels _ _ _ hrel) l hl
    obtain ⟨line, hm, hn⟩ := horigin l' hl' (by rw [← hk.2.1]; exact hext)
    exact ⟨line, hm, by rw [hk.1]; exact hn⟩
  have hD : DefAddr ([] ++ lines) (passTwoStart t1 false) st1.table :=
    defAddr_loop lines [] (passTwoStart t1 false) (passTwoStart t1 false) st1 hA.pos rfl
      (fun _ _ _ hex => by
        obtain ⟨_, hm, _⟩ := hex
        exact absurd hm (by simp)) hp2
  simp only [List.nil_append] at hD
  obtain ⟨k, stk, hk, hkn, hks, hka⟩ := hD l.name l0 hlook hdef
  refine ⟨t1, k, stk, hp1, hk, hkn, hks, ?_⟩
  rw [resolved_word st1.table st1.Code hR1.nodup l0 hl0 p (by rw [href]; exact hp),
    (hR1.refs l hl p hp).2.2, hka]
  unfold ARE
  rw [hext]
  exact Nat.lor_comm _ _

/-- C7, witness: `jmp X` with `X` defined on the next line, at address 102; the
word after the jump is `(102 * 4) | 2 = 410`. -/
theorem C7_reference_words_witness :
    ∃ t1 k stk, FirstPass forwardJump false = some (t1, false) ∧ k < forwardJump.length ∧
      labelNameOf (forwardJump.getD k []) = some "X".toList ∧
      SecondPassLoop (forwardJump.take k) (passTwoStart t1 false) = some stk ∧
      ((assembleFile forwardJump).getD emptyState).Code 1 = ((lineAddress stk * 4) % 65536) ||| 2 :=
  C7_reference_words forwardJump ((assembleFile forwardJump).getD emptyState)
    (isSome_getD _ _ (by decide!)) (by decide!) (by decide!)
    { createLabel "X".toList false false with address := 102, ref := [1] } (by decide!) rfl
    1 (by decide)


/-! ## The opcode table and whole-line evaluations -/

theorem mnemonic_facts (m : CStr) (hm : m ∈ mnemonics) :
    m ≠ [] ∧ (∀ c ∈ m, isalnum c = true) ∧ 0 ≤ getOpcode m ∧ getOpcode m ≤ 15 := by
  simp only [mnemonics, List.mem_cons, List.mem_singleton, List.not_mem_nil, or_false] at hm
  rcases hm with rfl | rfl | rfl | rfl | rfl | rfl | rfl | rfl | rfl | rfl | rfl | rfl | rfl |
    rfl | rfl | rfl <;> decide

theorem mnemonic_token (m rest : CStr) (hm : m ∈ mnemonics) (d : Char)
    (hd : " \r\n".toList.contains d = true) :
    strtok (m ++ d :: rest) " \r\n".toList = (some m, rest) ∧ deleteSpaces m = m := by
  obtain ⟨hne, hal, _, _⟩ := mnemonic_facts m hm
  exact ⟨strtok_token m d rest _ hne (alnum_no_delim m hal _ (by decide)) hd,
    alnum_deleteSpaces m hal⟩

/-- C15: `getOpcode` sends the sixteen mnemonics, in the order mov, cmp, add, sub,
lea, clr, not, inc, dec, jmp, bne, jsr, red, prn, rts, stop, to 0..15 and every
other string to -1; `getNumOperand` is 2 on 0..4, 1 on 5..13 and 0 on 14, 15. -/
theorem C15_opcode_table (inst : CStr) :
    getOpcode inst =
      (if inst ∈ mnemonics then ((mnemonics.indexOf inst : Nat) : Int) else -1) ∧
    mnemonics.map getOpcode = [0, 1, 2, 3, 4, 5, 6, 7, 8, 9, 10, 11, 12, 13, 14, 15] ∧
    ([0, 1, 2, 3, 4, 5, 6, 7, 8, 9, 10, 11, 12, 13, 14, 15] : List Int).map getNumOperand =
      [2, 2, 2, 2, 2, 1, 1, 1, 1, 1, 1, 1, 1, 1, 0, 0] := by
  refine ⟨?_, by decide, by decide⟩
  by_cases hin : inst ∈ mnemonics
  · rw [if_pos hin]
    simp only [mnemonics, List.mem_cons, List.mem_singleton, List.not_mem_nil, or_false] at hin
    rcases hin with rfl | rfl | rfl | rfl | rfl | rfl | rfl | rfl | rfl | rfl | rfl | rfl | rfl |
      rfl | rfl | rfl <;> decide
  · rw [if_neg hin]
    have hne : ∀ m, m ∈ mnemonics → ¬ inst = m := fun m hm e => hin (e ▸ hm)
    unfold getOpcode
    rw [if_neg (hne _ (by decide)), if_neg (hne _ (by decide)), if_neg (hne _ (by decide)),
      if_neg (hne _ (by decide)), if_neg (hne _ (by decide)), if_neg (hne _ (by decide)),
      if_neg (hne _ (by decide)), if_neg (hne _ (by decide)), if_neg (hne _ (by decide)),
      if_neg (hne _ (by decide)), if_neg (hne _ (by decide)), if_neg (hne _ (by decide)),
      if_neg (hne _ (by decide)), if_neg (hne _ (by decide)), if_neg (hne _ (by decide)),
      if_neg (hne _ (by decide))]

/-- C14, counterexample: for `MAIN: mov r1, r2` followed by `stop` the passes end
with `IC = 3`, and the header line written for it is the one of the counters
3 and 0, which differs from the one of 2 and 0. -/
theorem C14_header_counts_three :
    (assembleFile mainSource).map (fun st => (st.Error, st.IC, st.DC)) = some (false, 3, 0) ∧
    (assembleFile mainSource).map (fun st => objectHeader st.IC st.DC) =
      some (objectHeader 3 0) ∧
    objectHeader 3 0 ≠ objectHeader 2 0 := by
  decide!

/-- C14, amended: for `MAIN: mov r1, r2` followed by `stop` both passes end
without error, the header line of the object file is a tab, `d` (3 in base 4:
two words for `mov r1, r2`, one for `stop`), a blank and `a` (0), and the
address of `MAIN` is 100. -/
theorem C14_main_source :
    (assembleFile mainSource).map (fun st => (st.Error, st.IC, st.DC)) = some (false, 3, 0) ∧
    (assembleFile mainSource).map (fun st => objectHeader st.IC st.DC) =
      some (some "\td a\n".toList) ∧
    (assembleFile mainSource).map
        (fun st => (lookupLabel st.table "MAIN".toList).map (fun l => l.address)) =
      some (some 100) ∧
    (assembleFile mainSource).map (fun st => (List.range 3).map st.Code) =
      some [60, 72, 960] := by
  decide!

/-- C16 at the failing input: with `M` a matrix, the operand `M[r1]][r2]` of `clr`
does not start with `#`, is not found by the lookup, has three closing brackets
for two opening ones and is not a register name; `getAddressingMode` answers 2
and both passes end without error, three words long. -/
theorem C16_stray_bracket_accepted :
    "M[r1]][r2]".toList.head? ≠ some '#' ∧
    ("M[r1]][r2]".toList.count '[', "M[r1]][r2]".toList.count ']') = (2, 3) ∧
    (FirstPass strayBracketSource false).map
        (fun r => (r.2, lookupLabel r.1 "M[r1]][r2]".toList,
          getAddressingMode "M[r1]][r2]".toList r.1)) = some (false, none, 2) ∧
    (assembleFile strayBracketSource).map (fun st => (st.Error, st.IC)) = some (false, 3) := by
  decide!

/-- C19 at the failing inputs: for a mnemonic `m` with one operand, the line `m`
followed by two blanks returns from `EncodeInstruction` with the error flag and
`IC` as they were, and the line `m` alone or followed by one blank does not
return (`IsValidInstSyntax` reads through `NULL`). -/
theorem C19_missing_operand_not_flagged (m : CStr) (hm : m ∈ mnemonics)
    (h1 : getNumOperand (getOpcode m) = 1) (st : AsmState) :
    (∃ st', EncodeInstruction (m ++ "  \n".toList) st = some st' ∧ st'.Error = st.Error ∧
      st'.IC = st.IC) ∧
    EncodeInstruction (m ++ " \n".toList) st = none ∧
    EncodeInstruction (m ++ "\n".toList) st = none := by
  obtain ⟨_, _, hge, _⟩ := mnemonic_facts m hm
  have hneg : getOpcode m ≠ -1 := by omega
  refine ⟨?_, ?_, ?_⟩
  · obtain ⟨htok, hds⟩ := mnemonic_token m " \n".toList hm ' ' (by decide)
    have e1 : strtok " \n".toList "\r\n".toList = (some " ".toList, []) := by decide
    have e2 : deleteSpaces " ".toList = [] := by decide
    have e3 : strtok ([] : CStr) ['\r', '\n'] = (none, []) := by decide
    refine ⟨{ st with Code := insertBin (getOpcode m * 64) st.Code st.IC }, ?_, rfl, rfl⟩
    have : m ++ "  \n".toList = m ++ ' ' :: " \n".toList := rfl
    rw [this]
    unfold EncodeInstruction
    simp only [htok, deleteSpacesP, Option.map_some', hds, hneg, if_false, h1, e1, e2,
      OfNat.ofNat_ne_zero, one_ne_zero]
    unfold IsValidInstSyntax EncodeOperands
    simp [e3, deleteSpacesP, hasChar]
  · obtain ⟨htok, hds⟩ := mnemonic_token m "\n".toList hm ' ' (by decide)
    have e1 : strtok "\n".toList "\r\n".toList = (none, []) := by decide
    have : m ++ " \n".toList = m ++ ' ' :: "\n".toList := rfl
    rw [this]
    unfold EncodeInstruction
    simp only [htok, deleteSpacesP, Option.map_some', hds, hneg, if_false, h1, e1,
      Option.map_none', one_ne_zero]
    unfold IsValidInstSyntax
    simp
  · obtain ⟨htok, hds⟩ := mnemonic_token m [] hm '\n' (by decide)
    have e1 : strtok ([] : CStr) "\r\n".toList = (none, []) := by decide
    have : m ++ "\n".toList = m ++ '\n' :: [] := rfl
    rw [this]
    unfold EncodeInstruction
    simp only [htok, deleteSpacesP, Option.map_some', hds, hneg, if_false, h1, e1,
      Option.map_none', one_ne_zero]
    unfold IsValidInstSyntax
    simp

/-- C19, at `inc`: two blanks after the mnemonic leave the error flag clear. -/
theorem C19_missing_operand_witness :
    (∃ st', EncodeInstruction ("inc".toList ++ "  \n".toList) emptyState = some st' ∧
      st'.Error = emptyState.Error ∧ st'.IC = emptyState.IC) ∧
    EncodeInstruction ("inc".toList ++ " \n".toList) emptyState = none ∧
    EncodeInstruction ("inc".toList ++ "\n".toList) emptyState = none :=
  C19_missing_operand_not_flagged "inc".toList (by decide) (by decide) emptyState

/-- C20 at the failing inputs: for `rts` and `stop` followed by a blank and any
text, `EncodeInstruction` returns with the error flag as it was and `IC`
advanced by one: the test of `IsValidInstSyntax` for text after a mnemonic
without operands is never reached. -/
theorem C20_trailing_text_accepted (m : CStr) (hm : m ∈ ["rts".toList, "stop".toList])
    (text : CStr) (st : AsmState) :
    ∃ st', EncodeInstruction (m ++ ' ' :: text) st = some st' ∧ st'.Error = st.Error ∧
      st'.IC = st.IC + 1 := by
  have hmn : m ∈ mnemonics := by
    simp only [List.mem_cons, List.mem_singleton, List.not_mem_nil, or_false] at hm
    rcases hm with rfl | rfl <;> decide
  have h0 : getNumOperand (getOpcode m) = 0 ∧ getOpcode m ≠ -1 := by
    simp only [List.mem_cons, List.mem_singleton, List.not_mem_nil, or_false] at hm
    rcases hm with rfl | rfl <;> decide
  obtain ⟨htok, hds⟩ := mnemonic_token m text hmn ' ' (by decide)
  refine ⟨{ st with Code := insertBin (getOpcode m * 64) st.Code st.IC, IC := st.IC + 1 }, ?_,
    rfl, rfl⟩
  unfold EncodeInstruction
  simp only [htok, deleteSpacesP, Option.map_some', hds, h0.2, if_false, h0.1, if_true]

/-- C20, at `stop x`: no error, `IC` advanced by one. -/
theorem C20_trailing_text_witness :
    ∃ st', EncodeInstruction ("stop".toList ++ ' ' :: "x\n".toList) emptyState = some st' ∧
      st'.Error = emptyState.Error ∧ st'.IC = emptyState.IC + 1 :=
  C20_trailing_text_accepted "stop".toList (by decide) "x\n".toList emptyState


/-! ## Integer literals -/

theorem decChar_facts (d : Nat) (h : d < 10) :
    (decChar d).toNat = 48 + d ∧ isdigit (decChar d) = true ∧ decChar d ≠ '-' ∧
    decChar d ≠ '+' ∧ isspace (decChar d) = false := by
  interval_cases d <;> decide

theorem digitsOk_iff (ds : List Nat) (h : digitsOk ds = true) :
    ds ≠ [] ∧ ∀ d ∈ ds, d < 10 := by
  unfold digitsOk at h
  simp only [Bool.and_eq_true, Bool.not_eq_true', List.isEmpty_eq_false, ne_eq,
    List.all_eq_true, decide_eq_true_eq] at h
  exact h

theorem decText_digits (ds : List Nat) (h : ∀ d ∈ ds, d < 10) :
    ∀ c ∈ decText ds, isdigit c = true := by
  intro c hc
  unfold decText at hc
  rw [List.mem_map] at hc
  obtain ⟨d, hd, rfl⟩ := hc
  exact (decChar_facts d (h d hd)).2.1

theorem foldl_decText (ds : List Nat) (h : ∀ d ∈ ds, d < 10) (a : Nat) :
    (decText ds).foldl (fun a c => 10 * a + (c.toNat - 48)) a =
      ds.foldl (fun a d => 10 * a + d) a := by
  induction ds generalizing a with
  | nil => rfl
  | cons d r ih =>
    have hd := (decChar_facts d (h d (List.mem_cons_self _ _))).1
    simp only [decText, List.map_cons, List.foldl_cons, hd, Nat.add_sub_cancel_left]
    exact ih (fun x hx => h x (List.mem_cons_of_mem _ hx)) _

theorem digitsValue_decText (ds : List Nat) (h : ∀ d ∈ ds, d < 10) :
    digitsValue (decText ds) = decValue ds := by
  unfold digitsValue decValue
  rw [takeWhile_all _ _ (decText_digits ds h)]
  exact foldl_decText ds h 0

theorem decimalValue_decText (ds : List Nat) (h : digitsOk ds = true) :
    decimalValue (decText ds) = (decValue ds : Int) := by
  obtain ⟨hne, hlt⟩ := digitsOk_iff ds h
  obtain ⟨d, r, rfl⟩ := List.exists_cons_of_ne_nil hne
  have hd := decChar_facts d (hlt d (List.mem_cons_self _ _))
  have e : decText (d :: r) = decChar d :: decText r := rfl
  unfold decimalValue
  rw [e, dropWhile_head_stop _ _ _ hd.2.2.2.2]
  simp only [hd.2.2.1, hd.2.2.2.1, if_false]
  rw [← e, digitsValue_decText _ hlt]

theorem decimalValue_litText (x : IntLit) (h : litOk x = true) :
    decimalValue (litText x) = litValue x := by
  obtain ⟨hne, hlt⟩ := digitsOk_iff x.digits h
  unfold litText litValue
  rcases hs : x.sign with _ | b
  · simp only [List.nil_append]
    rw [decimalValue_decText _ h]
    simp
  · cases b
    · simp only [List.singleton_append]
      unfold decimalValue
      rw [dropWhile_head_stop _ _ _ (by decide)]
      simp only [digitsValue_decText _ hlt]
      simp
    · simp only [List.singleton_append]
      unfold decimalValue
      rw [dropWhile_head_stop _ _ _ (by decide)]
      simp only [digitsValue_decText _ hlt]
      simp

/-- The value of `atoi` in terms of the decimal value read. -/
theorem atoi_eq (s : CStr) :
    atoi s = toInt32 (if decimalValue s > 9223372036854775807 then 9223372036854775807
      else if decimalValue s < -9223372036854775808 then -9223372036854775808
      else decimalValue s) := rfl

/-- In the range of `int`, `atoi` is the decimal value. -/
theorem atoi_fitsInt (s : CStr) (h : fitsInt (decimalValue s) = true) :
    atoi s = decimalValue s := by
  simp only [fitsInt, decide_eq_true_eq] at h
  rw [atoi_eq]
  unfold toInt32
  split_ifs <;> omega

/-- In the range of `long`, `atoi` keeps the low 32 bits of the decimal value. -/
theorem atoi_fitsLong (s : CStr) (h : fitsLong (decimalValue s) = true) :
    atoi s % 65536 = decimalValue s % 65536 ∧ atoi s % 1024 = decimalValue s % 1024 ∧
    atoi s % 256 = decimalValue s % 256 := by
  simp only [fitsLong, decide_eq_true_eq] at h
  rw [atoi_eq]
  unfold toInt32
  split_ifs <;> omega

theorem atoi_decText (ds : List Nat) (h : digitsOk ds = true)
    (hs : decValue ds < 2147483648) : atoi (decText ds) = (decValue ds : Int) := by
  rw [atoi_fitsInt, decimalValue_decText _ h]
  rw [decimalValue_decText _ h]
  simp only [fitsInt, decide_eq_true_eq]
  omega

theorem atoi_litText (x : IntLit) (h : litOk x = true) (hf : fitsLong (litValue x) = true) :
    atoi (litText x) % 65536 = litValue x % 65536 ∧ atoi (litText x) % 1024 = litValue x % 1024 ∧
    atoi (litText x) % 256 = litValue x % 256 := by
  have := atoi_fitsLong (litText x) (by rw [decimalValue_litText x h]; exact hf)
  rw [decimalValue_litText x h] at this
  exact this

theorem isValidNum_decText (ds : List Nat) (h : digitsOk ds = true) :
    isValidNum (decText ds) = true := by
  obtain ⟨hne, hlt⟩ := digitsOk_iff ds h
  obtain ⟨d, r, rfl⟩ := List.exists_cons_of_ne_nil hne
  have hd := decChar_facts d (hlt d (List.mem_cons_self _ _))
  have hall := decText_digits (d :: r) hlt
  have e : decText (d :: r) = decChar d :: decText r := rfl
  rw [e] at hall ⊢
  unfold isValidNum
  simp only [hd.2.2.1, hd.2.2.2.1, decide_False, Bool.or_self, Bool.false_eq_true, if_false]
  rw [List.all_eq_true]
  exact hall

/-- The characters of a literal are digits and signs. -/
theorem litText_chars (x : IntLit) (h : litOk x = true) :
    litText x ≠ [] ∧ ∀ c ∈ litText x, isdigit c = true ∨ c = '-' ∨ c = '+' := by
  obtain ⟨hne, hlt⟩ := digitsOk_iff x.digits h
  have hd := decText_digits x.digits hlt
  have hne2 : decText x.digits ≠ [] := by
    unfold decText
    simpa using hne
  unfold litText
  constructor
  · simp [hne2]
  · intro c hc
    rw [List.mem_append] at hc
    rcases hc with hc | hc
    · rcases hs : x.sign with _ | b
      · rw [hs] at hc; simp at hc
      · rw [hs] at hc
        cases b
        · simp only [List.mem_singleton] at hc
          exact Or.inr (Or.inr hc)
        · simp only [List.mem_singleton] at hc
          exact Or.inr (Or.inl hc)
    · exact Or.inl (hd c hc)

theorem dataParamChars_digits (s : CStr) (h : ∀ c ∈ s, isdigit c = true) :
    dataParamChars s = true := by
  induction s with
  | nil => rfl
  | cons c r ih =>
    have hc := h c (List.mem_cons_self _ _)
    have h1 : c ≠ '-' := by rintro rfl; exact absurd hc (by decide)
    have h2 : c ≠ '+' := by rintro rfl; exact absurd hc (by decide)
    unfold dataParamChars
    simp only [h1, h2, decide_False, Bool.or_self, Bool.false_eq_true, if_false, hc,
      Bool.true_and]
    exact ih (fun x hx => h x (List.mem_cons_of_mem _ hx))

theorem numChars_no_blank (s : CStr) (h : ∀ c ∈ s, isdigit c = true ∨ c = '-' ∨ c = '+')
    (d : Char) (hd : d = ' ' ∨ d = '\t' ∨ d = ',' ∨ d = '\r' ∨ d = '\n' ∨ d = '[' ∨ d = ']') :
    hasChar s d = false := by
  apply hasChar_false_of
  intro x hx hxd
  subst hxd
  rcases h x hx with h1 | h1 | h1
  · rcases hd with rfl | rfl | rfl | rfl | rfl | rfl | rfl <;> exact absurd h1 (by decide)
  · rcases hd with rfl | rfl | rfl | rfl | rfl | rfl | rfl <;> exact absurd h1 (by decide)
  · rcases hd with rfl | rfl | rfl | rfl | rfl | rfl | rfl <;> exact absurd h1 (by decide)

theorem IsValidDataParam_litText (x : IntLit) (h : litOk x = true) :
    IsValidDataParam (litText x) = true := by
  obtain ⟨hne, hlt⟩ := digitsOk_iff x.digits h
  obtain ⟨_, hch⟩ := litText_chars x h
  have hd := decText_digits x.digits hlt
  unfold IsValidDataParam
  rw [numChars_no_blank _ hch ' ' (Or.inl rfl), numChars_no_blank _ hch '\t' (Or.inr (Or.inl rfl))]
  simp only [Bool.or_self, Bool.false_eq_true, if_false]
  unfold litText
  rcases hs : x.sign with _ | b
  · exact dataParamChars_digits _ hd
  · obtain ⟨d, r, hdr⟩ := List.exists_cons_of_ne_nil hne
    have e : decText x.digits = decChar d :: decText r := by rw [hdr]; rfl
    have hd0 : isdigit (decChar d) = true := hd _ (by rw [e]; exact List.mem_cons_self _ _)
    have hr : dataParamChars (decText r) = true :=
      dataParamChars_digits _ (fun c hc => hd c (by rw [e]; exact List.mem_cons_of_mem _ hc))
    cases b
    · simp only [List.singleton_append, e]
      unfold dataParamChars
      simp [hd0, hr]
    · simp only [List.singleton_append, e]
      unfold dataParamChars
      simp [hd0, hr]

theorem deleteSpaces_blanks (n : Nat) (s : CStr) :
    deleteSpaces (List.replicate n ' ' ++ s) = deleteSpaces s := by
  induction n with
  | zero => rfl
  | succ n ih =>
    rw [List.replicate_succ, List.cons_append, deleteSpaces_space, ih]

theorem deleteSpaces_numText (s : CStr)
    (h : ∀ c ∈ s, isdigit c = true ∨ c = '-' ∨ c = '+') : deleteSpaces s = s := by
  apply deleteSpaces_id
  · intro c hc
    exact (numChar_no_delim c (h c (List.mem_of_mem_head? hc))).2.2.2.2.2
  · intro c hc
    obtain ⟨_, _, _, h4, h5, _⟩ := numChar_no_delim c (h c (List.mem_of_mem_getLast? hc))
    simp [h4, h5]

theorem deleteSpaces_cell (n : Nat) (x : IntLit) (h : litOk x = true) :
    deleteSpaces (List.replicate n ' ' ++ litText x) = litText x := by
  obtain ⟨_, hch⟩ := litText_chars x h
  rw [deleteSpaces_blanks, deleteSpaces_numText _ hch]


/-! ## Claim C6: an immediate and a direct operand -/

theorem cell_facts (p : CStr) (x : IntLit) (h : CellOf p x) :
    p ≠ [] ∧ (∀ c ∈ p, ",\r\n".toList.contains c = false) ∧
    (∀ c ∈ p, c ≠ '[' ∧ c ≠ ']' ∧ c ≠ ',' ∧ c ≠ '\r' ∧ c ≠ '\n') ∧
    deleteSpaces p = litText x := by
  obtain ⟨hok, n, rfl⟩ := h
  obtain ⟨hne, hch⟩ := litText_chars x hok
  have key : ∀ c ∈ List.replicate n ' ' ++ litText x,
      c ≠ '[' ∧ c ≠ ']' ∧ c ≠ ',' ∧ c ≠ '\r' ∧ c ≠ '\n' := by
    intro c hc
    rw [List.mem_append] at hc
    rcases hc with hc | hc
    · rw [List.mem_replicate] at hc
      rw [hc.2]
      decide
    · rcases hch c hc with h1 | h1 | h1
      · refine ⟨?_, ?_, ?_, ?_, ?_⟩ <;> (rintro rfl; exact absurd h1 (by decide))
      · rw [h1]; decide
      · rw [h1]; decide
  refine ⟨by simp [hne], ?_, key, deleteSpaces_cell n x hok⟩
  intro c hc
  obtain ⟨_, _, h3, h4, h5⟩ := key c hc
  simp [h3, h4, h5]

theorem tokensFrom_run (d w rest cur : CStr) (hw : ∀ c ∈ w, d.contains c = false) :
    tokensFrom d (w ++ rest) cur = tokensFrom d rest (w.reverse ++ cur) := by
  induction w generalizing cur with
  | nil => rfl
  | cons c r ih =>
    have hc := hw c (List.mem_cons_self _ _)
    rw [List.cons_append, tokensFrom]
    simp only [hc, Bool.false_eq_true, if_false]
    rw [ih _ (fun x hx => hw x (List.mem_cons_of_mem _ hx))]
    simp

theorem tokensFrom_end (d eol cur : CStr) (he : ∀ c ∈ eol, d.contains c = true) :
    tokensFrom d eol cur = if cur = [] then [] else [cur.reverse] := by
  induction eol generalizing cur with
  | nil => rfl
  | cons c r ih =>
    have hc := he c (List.mem_cons_self _ _)
    have ih' := fun cur => ih cur (fun x hx => he x (List.mem_cons_of_mem _ hx))
    rw [tokensFrom]
    simp only [hc, if_true]
    by_cases hcur : cur = []
    · simp [hcur, ih']
    · simp [hcur, ih']

theorem tokens_joinCells (cells : List CStr) (eol : CStr)
    (hc : ∀ c ∈ cells, ∃ x, CellOf c x) (he : ∀ c ∈ eol, c = '\r' ∨ c = '\n') :
    tokens (joinCells cells ++ eol) ",\r\n".toList = cells := by
  have he' : ∀ c ∈ eol, ",\r\n".toList.contains c = true := by
    intro c hc
    rcases he c hc with rfl | rfl <;> decide
  unfold tokens
  induction cells with
  | nil =>
    simp only [joinCells, List.nil_append]
    rw [tokensFrom_end _ _ _ he']
    rfl
  | cons c r ih =>
    obtain ⟨x, hx⟩ := hc c (List.mem_cons_self _ _)
    obtain ⟨hne, hnd, _, _⟩ := cell_facts c x hx
    have ih' := ih (fun y hy => hc y (List.mem_cons_of_mem _ hy))
    cases r with
    | nil =>
      simp only [joinCells]
      rw [tokensFrom_run _ _ _ _ hnd, tokensFrom_end _ _ _ he']
      simp [hne]
    | cons d r2 =>
      simp only [joinCells, List.append_assoc, List.cons_append]
      rw [tokensFrom_run _ _ _ _ hnd, tokensFrom]
      have : ",\r\n".toList.contains ',' = true := by decide
      simp only [this, if_true, List.append_nil, List.reverse_eq_nil_iff, hne, if_false,
        List.reverse_reverse]
      rw [ih']

theorem doubleCommas_blanks (n : Nat) (b : Bool) (rest : CStr) (x : Char)
    (hx : isspace x = false ∧ x ≠ ',') :
    hasDoubleCommasFrom b (List.replicate n ' ' ++ x :: rest) = hasDoubleCommasFrom false rest := by
  have hsp : isspace ' ' = true := by decide
  have hne : ' ' ≠ ',' := by decide
  induction n generalizing b with
  | zero =>
    simp only [List.replicate_zero, List.nil_append]
    rw [hasDoubleCommasFrom]
    cases b <;> simp [hx.1, hx.2]
  | succ n ih =>
    rw [List.replicate_succ, List.cons_append, hasDoubleCommasFrom]
    cases b
    · simp only [Bool.false_eq_true, if_false, hne]
      exact ih false
    · simp only [if_true, hsp]
      exact ih true

theorem doubleCommas_run (w rest : CStr) (hw : ∀ c ∈ w, c ≠ ',') :
    hasDoubleCommasFrom false (w ++ rest) = hasDoubleCommasFrom false rest := by
  induction w with
  | nil => rfl
  | cons c r ih =>
    rw [List.cons_append, hasDoubleCommasFrom]
    simp only [Bool.false_eq_true, if_false, hw c (List.mem_cons_self _ _)]
    exact ih (fun x hx => hw x (List.mem_cons_of_mem _ hx))

theorem doubleCommas_cell (p : CStr) (x : IntLit) (h : CellOf p x) (b : Bool) (rest : CStr) :
    hasDoubleCommasFrom b (p ++ rest) = hasDoubleCommasFrom false rest := by
  obtain ⟨hok, n, rfl⟩ := h
  obtain ⟨hne, hch⟩ := litText_chars x hok
  obtain ⟨c, r, hcr⟩ := List.exists_cons_of_ne_nil hne
  have hc := numChar_no_delim c (hch c (by rw [hcr]; exact List.mem_cons_self _ _))
  rw [hcr, List.append_assoc, List.cons_append,
    doubleCommas_blanks n b _ c ⟨hc.2.2.2.2.2, hc.1⟩]
  apply doubleCommas_run
  intro y hy
  exact (numChar_no_delim y (hch y (by rw [hcr]; exact List.mem_cons_of_mem _ hy))).1

theorem doubleCommas_join (cells : List CStr) (eol : CStr)
    (hc : ∀ c ∈ cells, ∃ x, CellOf c x) (he : ∀ c ∈ eol, c = '\r' ∨ c = '\n') (b : Bool)
    (hb : cells = [] → b = false) :
    hasDoubleCommasFrom b (joinCells cells ++ eol) = false := by
  have hend : hasDoubleCommasFrom false eol = false := by
    have := doubleCommas_run eol [] (fun c hc => by rcases he c hc with rfl | rfl <;> decide)
    rw [List.append_nil] at this
    rw [this]
    rfl
  induction cells generalizing b with
  | nil =>
    rw [hb rfl]
    exact hend
  | cons c r ih =>
    obtain ⟨x, hx⟩ := hc c (List.mem_cons_self _ _)
    have ih' := ih (fun y hy => hc y (List.mem_cons_of_mem _ hy))
    cases r with
    | nil =>
      simp only [joinCells]
      rw [doubleCommas_cell c x hx]
      exact hend
    | cons d r2 =>
      simp only [joinCells, List.append_assoc, List.cons_append]
      rw [doubleCommas_cell c x hx, hasDoubleCommasFrom]
      simp only [Bool.false_eq_true, if_false, if_true]
      exact ih' true (fun h => absurd h (by simp))

theorem joinCells_cons (c : CStr) (r : List CStr) : ∃ tail, joinCells (c :: r) = c ++ tail := by
  cases r with
  | nil => exact ⟨[], by simp [joinCells]⟩
  | cons d r2 => exact ⟨',' :: joinCells (d :: r2), rfl⟩

theorem joinCells_last (cells : List CStr) (hne : cells ≠ [])
    (hc : ∀ c ∈ cells, ∃ x, CellOf c x) :
    ∃ front x, litOk x = true ∧ joinCells cells = front ++ litText x := by
  induction cells with
  | nil => exact absurd rfl hne
  | cons c r ih =>
    cases r with
    | nil =>
      obtain ⟨x, hok, n, rfl⟩ := hc c (List.mem_cons_self _ _)
      exact ⟨List.replicate n ' ', x, hok, rfl⟩
    | cons d r2 =>
      obtain ⟨front, x, hok, e⟩ := ih (by simp) (fun y hy => hc y (List.mem_cons_of_mem _ hy))
      refine ⟨c ++ ',' :: front, x, hok, ?_⟩
      simp only [joinCells, e, List.append_assoc, List.cons_append]

theorem litCells_cells (pad : Nat) (lits : List IntLit) (hok : ∀ x ∈ lits, litOk x = true) :
    List.Forall₂ CellOf (litCells pad lits) lits := by
  cases lits with
  | nil => exact List.Forall₂.nil
  | cons x r =>
    unfold litCells
    refine List.Forall₂.cons ⟨hok x (List.mem_cons_self _ _), 0, rfl⟩ ?_
    have hr : ∀ y ∈ r, litOk y = true := fun y hy => hok y (List.mem_cons_of_mem _ hy)
    clear hok
    induction r with
    | nil => exact List.Forall₂.nil
    | cons y r2 ih =>
      exact List.Forall₂.cons ⟨hr y (List.mem_cons_self _ _), pad, rfl⟩
        (ih (fun z hz => hr z (List.mem_cons_of_mem _ hz)))

theorem forall2_mem_left_of {α β : Type} (R : α → β → Prop) (a : List α) (b : List β)
    (h : List.Forall₂ R a b) : ∀ x ∈ a, ∃ y ∈ b, R x y := by
  induction h with
  | nil => intro y hy; simp at hy
  | cons hab _ ih =>
    intro y hy
    rcases List.mem_cons.mp hy with rfl | hy
    · exact ⟨_, List.mem_cons_self _ _, hab⟩
    · obtain ⟨x, hx, hr⟩ := ih y hy
      exact ⟨x, List.mem_cons_of_mem _ hx, hr⟩

theorem forall2_cells (cells : List CStr) (lits : List IntLit)
    (h : List.Forall₂ CellOf cells lits) : ∀ c ∈ cells, ∃ x, CellOf c x := by
  intro c hc
  obtain ⟨x, _, hx⟩ := forall2_mem_left_of CellOf cells lits h c hc
  exact ⟨x, hx⟩


/-! ## Data words -/

theorem IsValidDataSyntax_join (pad : Nat) (lits : List IntLit) (eol : CStr)
    (hok : ∀ x ∈ lits, litOk x = true) (he : ∀ c ∈ eol, c = '\r' ∨ c = '\n') :
    IsValidDataSyntax (joinLits pad lits ++ eol) = true := by
  have hcells := forall2_cells _ _ (litCells_cells pad lits hok)
  have heol : ∀ c ∈ eol, c ≠ ',' ∧ c ≠ ' ' ∧ c ≠ '\t' := by
    intro c hc
    rcases he c hc with rfl | rfl <;> decide
  have hhead : (joinLits pad lits ++ eol).head? ≠ some ',' := by
    intro h
    cases lits with
    | nil =>
      simp only [joinLits, litCells, joinCells, List.nil_append] at h
      exact (heol _ (List.mem_of_mem_head? h)).1 rfl
    | cons x r =>
      obtain ⟨hne, hch⟩ := litText_chars x (hok x (List.mem_cons_self _ _))
      obtain ⟨tail, e⟩ := joinCells_cons (litText x)
        (r.map (fun y => List.replicate pad ' ' ++ litText y))
      obtain ⟨c, r2, hcr⟩ := List.exists_cons_of_ne_nil hne
      simp only [joinLits, litCells] at h
      rw [e, hcr] at h
      simp only [List.cons_append, List.head?_cons, Option.some.injEq] at h
      have := (numChar_no_delim c (hch c (by rw [hcr]; exact List.mem_cons_self _ _))).1
      exact this h
  have hlast : (joinLits pad lits ++ eol).getLast? ≠ some ',' := by
    intro h
    by_cases hn : eol = []
    · subst hn
      rw [List.append_nil] at h
      by_cases hl : litCells pad lits = []
      · simp [joinLits, hl, joinCells] at h
      · obtain ⟨front, x, hx, e⟩ := joinCells_last _ hl hcells
        obtain ⟨hne, hch⟩ := litText_chars x hx
        unfold joinLits at h
        rw [e, getLast?_append_ne_nil _ _ hne] at h
        exact (numChar_no_delim _ (hch _ (List.mem_of_mem_getLast? h))).1 rfl
    · rw [getLast?_append_ne_nil _ _ hn] at h
      exact (heol _ (List.mem_of_mem_getLast? h)).1 rfl
  have hmid : (!hasChar (joinLits pad lits ++ eol) ',' &&
      (hasChar (joinLits pad lits ++ eol) ' ' || hasChar (joinLits pad lits ++ eol) '\t')) =
      false := by
    have e1 : hasChar eol ' ' = false := hasChar_false_of _ _ (fun x hx => (heol x hx).2.1)
    have e2 : hasChar eol '\t' = false := hasChar_false_of _ _ (fun x hx => (heol x hx).2.2)
    match lits, hok with
    | [], _ =>
      simp [joinLits, litCells, joinCells, e1, e2]
    | [x], hok =>
      obtain ⟨_, hch⟩ := litText_chars x (hok x (List.mem_cons_self _ _))
      simp only [joinLits, litCells, List.map_nil, joinCells, hasChar_append, e1, e2,
        numChars_no_blank _ hch ' ' (Or.inl rfl),
        numChars_no_blank _ hch '\t' (Or.inr (Or.inl rfl)), Bool.or_self, Bool.and_false]
    | x :: y :: r, _ =>
      have : hasChar (joinLits pad (x :: y :: r) ++ eol) ',' = true := by
        simp only [joinLits, litCells, List.map_cons, joinCells, hasChar_append]
        simp [hasChar]
      rw [this]
      rfl
  unfold IsValidDataSyntax
  have h1 : (decide ((joinLits pad lits ++ eol).head? = some ',') ||
      decide ((joinLits pad lits ++ eol).getLast? = some ',')) = false := by
    rw [decide_eq_false hhead, decide_eq_false hlast]
    rfl
  have h3 : hasDoubleCommas (joinLits pad lits ++ eol) = false :=
    doubleCommas_join _ _ hcells he false (fun _ => rfl)
  rw [h1, hmid, h3]
  rfl

theorem lowTen_short (v : Int) : (((v % 65536).toNat : Int) % 1024).toNat = lowTen v := by
  unfold lowTen
  have h0 : 0 ≤ v % 65536 := Int.emod_nonneg _ (by decide)
  rw [Int.toNat_of_nonneg h0, Int.emod_emod_of_dvd v (by decide)]

theorem encodeDataParams_spec (params : List CStr) (lits : List IntLit)
    (h : List.Forall₂ CellOf params lits) (Data : Mem) (DC wc : Nat) (e : Bool) :
    ∃ D', encodeDataParams params Data DC wc e = (D', DC + (wc + lits.length), e) ∧
      (∀ i (hi : i < lits.length),
        D' (DC + (wc + i)) = Data (DC + (wc + i)) ||| lowTen (atoi (litText lits[i]))) ∧
      (∀ j, (j < DC + wc ∨ DC + (wc + lits.length) ≤ j) → D' j = Data j) := by
  induction h generalizing Data wc with
  | nil => exact ⟨Data, rfl, fun i hi => absurd hi (by simp), fun _ _ => rfl⟩
  | @cons p x ps xs hpx _ ih =>
    obtain ⟨_, _, _, hds⟩ := cell_facts p x hpx
    obtain ⟨D', h1, h2, h3⟩ := ih (insertBin (atoi (litText x)) Data (DC + wc)) (wc + 1)
    refine ⟨D', ?_, ?_, ?_⟩
    · unfold encodeDataParams
      simp only [hds, IsValidDataParam_litText x hpx.1, Bool.not_true, Bool.false_eq_true,
        if_false, h1, List.length_cons]
      congr 2
      omega
    · intro i hi
      cases i with
      | zero =>
        simp only [Nat.add_zero, List.getElem_cons_zero]
        rw [h3 _ (Or.inl (by omega)), insertBin_same]
        rfl
      | succ i =>
        have := h2 i (by simpa using hi)
        simp only [List.getElem_cons_succ]
        have e1 : DC + (wc + (i + 1)) = DC + (wc + 1 + i) := by omega
        rw [e1, this, insertBin_other _ _ _ _ (by omega)]
    · intro j hj
      simp only [List.length_cons] at hj
      rw [h3 j (by omega), insertBin_other _ _ _ _ (by omega)]

theorem encodeMatrixParams_spec (params : List CStr) (lits : List IntLit)
    (h : List.Forall₂ CellOf params lits) (Data : Mem) (DC L : Nat)
    (hL : L + lits.length < 65536) :
    ∃ D', encodeMatrixParams params Data DC L = (D', true) ∧
      (∀ i (hi : i < lits.length),
        D' (DC + (L + i)) = Data (DC + (L + i)) ||| lowTen (atoi (litText lits[i]))) ∧
      (∀ j, (j < DC + L ∨ DC + (L + lits.length) ≤ j) → D' j = Data j) := by
  induction h generalizing Data L with
  | nil => exact ⟨Data, rfl, fun i hi => absurd hi (by simp), fun _ _ => rfl⟩
  | @cons p x ps xs hpx _ ih =>
    obtain ⟨_, _, _, hds⟩ := cell_facts p x hpx
    simp only [List.length_cons] at hL
    obtain ⟨D', h1, h2, h3⟩ := ih
      (insertBin (((atoi (litText x) % 65536).toNat : Nat) : Int) Data (DC + L)) (L + 1)
      (by omega)
    have hmod : (L + 1) % 65536 = L + 1 := Nat.mod_eq_of_lt (by omega)
    refine ⟨D', ?_, ?_, ?_⟩
    · unfold encodeMatrixParams
      simp only [hds, IsValidDataParam_litText x hpx.1, Bool.not_true, Bool.false_eq_true,
        if_false, hmod, h1]
    · intro i hi
      cases i with
      | zero =>
        simp only [Nat.add_zero, List.getElem_cons_zero]
        rw [h3 _ (Or.inl (by omega)), insertBin_same, lowTen_short]
      | succ i =>
        have := h2 i (by simpa using hi)
        simp only [List.getElem_cons_succ]
        have e1 : DC + (L + (i + 1)) = DC + (L + 1 + i) := by omega
        rw [e1, this, insertBin_other _ _ _ _ (by omega)]
    · intro j hj
      simp only [List.length_cons] at hj
      rw [h3 j (by omega), insertBin_other _ _ _ _ (by omega)]


/-! ## The `.data` and `.string` lines -/

theorem dropWhile_skip {α : Type} (p : α → Bool) (a b : List α) (ha : ∀ c ∈ a, p c = true)
    (hb : ∀ c, b.head? = some c → p c = false) : (a ++ b).dropWhile p = b := by
  induction a with
  | nil =>
    cases b with
    | nil => rfl
    | cons x r => exact dropWhile_head_stop p x r (hb x rfl)
  | cons x r ih =>
    rw [List.cons_append, List.dropWhile_cons, if_pos (ha x (List.mem_cons_self _ _))]
    exact ih (fun c hc => ha c (List.mem_cons_of_mem _ hc))

/-- The first character of a parameter list followed by a line end is a digit,
a sign or a line-end character. -/
theorem joinLits_head (pad : Nat) (lits : List IntLit) (eol : CStr)
    (hok : ∀ x ∈ lits, litOk x = true) (c : Char)
    (h : (joinLits pad lits ++ eol).head? = some c) :
    (isdigit c = true ∨ c = '-' ∨ c = '+') ∨ c ∈ eol := by
  cases lits with
  | nil =>
    simp only [joinLits, litCells, joinCells, List.nil_append] at h
    exact Or.inr (List.mem_of_mem_head? h)
  | cons x r =>
    obtain ⟨hne, hch⟩ := litText_chars x (hok x (List.mem_cons_self _ _))
    obtain ⟨tail, e⟩ := joinCells_cons (litText x)
      (r.map (fun y => List.replicate pad ' ' ++ litText y))
    obtain ⟨d, r2, hcr⟩ := List.exists_cons_of_ne_nil hne
    simp only [joinLits, litCells] at h
    rw [e, hcr] at h
    simp only [List.cons_append, List.head?_cons, Option.some.injEq] at h
    subst h
    exact Or.inl (hch d (by rw [hcr]; exact List.mem_cons_self _ _))

theorem EncodeDataLine_spec (blanks : CStr) (pad : Nat) (lits : List IntLit) (eol : CStr)
    (Data : Mem) (DC : Nat) (e : Bool)
    (hb : ∀ c ∈ blanks, c = ' ' ∨ c = '\t')
    (hok : ∀ x ∈ lits, litOk x = true) (he : ∀ c ∈ eol, c = '\r' ∨ c = '\n') :
    ∃ D', EncodeDataLine (".data".toList ++ blanks ++ joinLits pad lits ++ eol) Data DC e =
        (D', DC + lits.length, e) ∧
      (∀ i (hi : i < lits.length), D' (DC + i) = Data (DC + i) |||
        lowTen (atoi (litText lits[i]))) ∧
      (∀ j, (j < DC ∨ DC + lits.length ≤ j) → D' j = Data j) := by
  have hline : ((".data".toList ++ blanks ++ joinLits pad lits ++ eol).drop
      ".data".length).dropWhile (fun c => c = ' ' || c = '\t') = joinLits pad lits ++ eol := by
    have e1 : (".data".toList ++ blanks ++ joinLits pad lits ++ eol).drop ".data".length =
        blanks ++ (joinLits pad lits ++ eol) := by
      simp only [List.append_assoc]
      exact List.drop_left _ _
    rw [e1]
    apply dropWhile_skip
    · intro c hc
      rcases hb c hc with rfl | rfl <;> rfl
    · intro c hc
      rcases joinLits_head pad lits eol hok c hc with (h | rfl | rfl) | h
      · have := (numChar_no_delim c (Or.inl h))
        revert h
        simp only [isdigit]
        intro h
        have h1 : c ≠ ' ' := by rintro rfl; simp at h
        have h2 : c ≠ '\t' := by rintro rfl; simp at h
        simp [h1, h2]
      · rfl
      · rfl
      · rcases he c h with rfl | rfl <;> rfl
  have hcells := forall2_cells _ _ (litCells_cells pad lits hok)
  obtain ⟨D', h1, h2, h3⟩ := encodeDataParams_spec _ _ (litCells_cells pad lits hok) Data DC 0 e
  refine ⟨D', ?_, ?_, ?_⟩
  · unfold EncodeDataLine
    simp only [hline, IsValidDataSyntax_join pad lits eol hok he, Bool.not_true,
      Bool.false_eq_true, if_false]
    have ht : tokens (joinLits pad lits ++ eol) ",\r\n".toList = litCells pad lits :=
      tokens_joinCells _ _ hcells he
    rw [ht, h1, Nat.zero_add]
  · intro i hi
    have := h2 i hi
    simpa only [Nat.zero_add] using this
  · intro j hj
    exact h3 j (by simpa only [Nat.zero_add, Nat.add_zero] using hj)


/-! ## The `.string` line -/

theorem strchr_head (c : Char) (r : CStr) : strchr (c :: r) c = some (c :: r) := by
  unfold strchr
  rw [dropWhile_head_stop _ _ _ (by simp)]

theorem strchr_skip (a : CStr) (c : Char) (b : CStr) (h : ∀ x ∈ a, x ≠ c) :
    strchr (a ++ c :: b) c = some (c :: b) := by
  unfold strchr
  rw [dropWhile_skip _ a (c :: b) (fun x hx => by simp [h x hx]) (fun x hx => by
    simp only [List.head?_cons, Option.some.injEq] at hx
    subst hx
    simp)]

theorem deleteSpaces_lead (blanks X : CStr) (hb : ∀ c ∈ blanks, c = ' ' ∨ c = '\t')
    (h1 : ∀ c, X.head? = some c → isspace c = false)
    (h2 : ∀ c, X.getLast? = some c → (c = ' ' || c = '\t') = false) :
    deleteSpaces (blanks ++ X) = X := by
  have e : deleteSpaces (blanks ++ X) = deleteSpaces X := by
    have eX : X.dropWhile isspace = X := by
      have := dropWhile_skip isspace [] X (fun c hc => absurd hc (by simp)) h1
      simpa using this
    unfold deleteSpaces
    rw [dropWhile_skip isspace blanks X (fun c hc => by
      rcases hb c hc with rfl | rfl <;> rfl) h1, eX]
  rw [e, deleteSpaces_id X h1 h2]

theorem deleteSpaces_only_blanks (blanks : CStr) (hb : ∀ c ∈ blanks, c = ' ' ∨ c = '\t') :
    deleteSpaces blanks = [] := by
  unfold deleteSpaces
  have : blanks.dropWhile isspace = [] := by
    rw [List.dropWhile_eq_nil_iff]
    intro c hc
    rcases hb c hc with rfl | rfl <;> rfl
  rw [this]
  rfl

theorem decText_num (ds : List Nat) (h : digitsOk ds = true) :
    decText ds ≠ [] ∧ ∀ c ∈ decText ds, isdigit c = true ∨ c = '-' ∨ c = '+' := by
  obtain ⟨hne, hlt⟩ := digitsOk_iff ds h
  refine ⟨?_, fun c hc => Or.inl (decText_digits ds hlt c hc)⟩
  unfold decText
  simpa using hne

theorem mem_joinCells (cells : List CStr) (c : Char) (h : c ∈ joinCells cells) :
    c = ',' ∨ ∃ p ∈ cells, c ∈ p := by
  induction cells with
  | nil => simp [joinCells] at h
  | cons p r ih =>
    cases r with
    | nil =>
      simp only [joinCells] at h
      exact Or.inr ⟨p, List.mem_cons_self _ _, h⟩
    | cons d r2 =>
      simp only [joinCells, List.mem_append, List.mem_cons] at h
      rcases h with h | h | h
      · exact Or.inr ⟨p, List.mem_cons_self _ _, h⟩
      · exact Or.inl h
      · rcases ih h with h | ⟨q, hq, hc⟩
        · exact Or.inl h
        · exact Or.inr ⟨q, List.mem_cons_of_mem _ hq, hc⟩

/-- A parameter list holds no bracket and no line-end character. -/
theorem joinLits_chars (pad : Nat) (lits : List IntLit) (hok : ∀ x ∈ lits, litOk x = true) :
    ∀ c ∈ joinLits pad lits, c ≠ '[' ∧ c ≠ ']' ∧ c ≠ '\r' ∧ c ≠ '\n' := by
  intro c hc
  rcases mem_joinCells _ c hc with rfl | ⟨p, hp, hcp⟩
  · decide
  · obtain ⟨x, hx⟩ := forall2_cells _ _ (litCells_cells pad lits hok) p hp
    obtain ⟨_, _, h3, _⟩ := cell_facts p x hx
    have := h3 c hcp
    exact ⟨this.1, this.2.1, this.2.2.2.1, this.2.2.2.2⟩

theorem joinLits_ends (pad : Nat) (lits : List IntLit) (hok : ∀ x ∈ lits, litOk x = true)
    (hne : lits ≠ []) :
    joinLits pad lits ≠ [] ∧
    (∀ c, (joinLits pad lits).head? = some c → isspace c = false) ∧
    (∀ c, (joinLits pad lits).getLast? = some c → (c = ' ' || c = '\t') = false) := by
  have hcells := forall2_cells _ _ (litCells_cells pad lits hok)
  have hl : litCells pad lits ≠ [] := by
    cases lits with
    | nil => exact absurd rfl hne
    | cons x r => simp [litCells]
  obtain ⟨front, x, hx, e⟩ := joinCells_last _ hl hcells
  obtain ⟨hxne, hch⟩ := litText_chars x hx
  refine ⟨?_, ?_, ?_⟩
  · unfold joinLits
    rw [e]
    simp [hxne]
  · intro c hc
    have := joinLits_head pad lits [] hok c (by rw [List.append_nil]; exact hc)
    rcases this with h | h
    · exact (numChar_no_delim c h).2.2.2.2.2
    · simp at h
  · intro c hc
    unfold joinLits at hc
    rw [e, getLast?_append_ne_nil _ _ hxne] at hc
    have := numChar_no_delim c (hch c (List.mem_of_mem_getLast? hc))
    simp [this.2.2.2.1, this.2.2.2.2.1]

theorem mem_of_mem_dropWhile {α : Type} (p : α → Bool) (l : List α) (c : α)
    (h : c ∈ l.dropWhile p) : c ∈ l :=
  (List.dropWhile_sublist p).subset h

theorem EncodeMatrixLine_spec (blanks sep : CStr) (rd cd : List Nat) (pad : Nat)
    (lits : List IntLit) (eol : CStr) (Data : Mem) (DC : Nat) (e : Bool)
    (hb : ∀ c ∈ blanks, c = ' ' ∨ c = '\t') (hsep : ∀ c ∈ sep, c = ' ' ∨ c = '\t')
    (hr : digitsOk rd = true) (hc : digitsOk cd = true)
    (hok : ∀ x ∈ lits, litOk x = true) (he : ∀ c ∈ eol, c = '\r' ∨ c = '\n')
    (hk : lits.length < 65536)
    (hrs : decValue rd < 2147483648) (hcs : decValue cd < 2147483648) :
    ∃ D', EncodeMatrixLine (".mat".toList ++ blanks ++ '[' :: (decText rd ++ ']' :: '[' ::
          (decText cd ++ ']' :: (sep ++ joinLits pad lits ++ eol)))) Data DC e =
        some (D', DC + (decValue rd * decValue cd) % 65536, e) ∧
      (∀ i (hi : i < lits.length), D' (DC + i) = Data (DC + i) |||
        lowTen (atoi (litText lits[i]))) ∧
      (∀ j, (j < DC ∨ DC + lits.length ≤ j) → D' j = Data j) := by
  obtain ⟨hRne, hRch⟩ := decText_num rd hr
  obtain ⟨hCne, hCch⟩ := decText_num cd hc
  have hJ := joinLits_chars pad lits hok
  have hsepc : ∀ c ∈ sep, c ≠ '[' ∧ c ≠ ']' ∧ c ≠ '\r' ∧ c ≠ '\n' := by
    intro c hc
    rcases hsep c hc with rfl | rfl <;> decide
  have heolc : ∀ c ∈ eol, c ≠ '[' ∧ c ≠ ']' := by
    intro c hc
    rcases he c hc with rfl | rfl <;> decide
  have hline : ((".mat".toList ++ blanks ++ '[' :: (decText rd ++ ']' :: '[' ::
      (decText cd ++ ']' :: (sep ++ joinLits pad lits ++ eol)))).drop
      ".mat".length).dropWhile (fun c => c = ' ' || c = '\t') =
      '[' :: (decText rd ++ ']' :: '[' ::
        (decText cd ++ ']' :: (sep ++ joinLits pad lits ++ eol))) := by
    have e1 : (".mat".toList ++ blanks ++ '[' :: (decText rd ++ ']' :: '[' ::
        (decText cd ++ ']' :: (sep ++ joinLits pad lits ++ eol)))).drop ".mat".length =
        blanks ++ '[' :: (decText rd ++ ']' :: '[' ::
          (decText cd ++ ']' :: (sep ++ joinLits pad lits ++ eol))) := by
      simp only [List.append_assoc]
      exact List.drop_left _ _
    rw [e1]
    apply dropWhile_skip
    · intro c hc
      rcases hb c hc with rfl | rfl <;> rfl
    · intro c hc
      simp only [List.head?_cons, Option.some.injEq] at hc
      subst hc
      rfl
  have hlegal : isLegalBrackets (some ('[' :: (decText rd ++ ']' :: '[' ::
      (decText cd ++ ']' :: (sep ++ joinLits pad lits ++ eol))))) = true := by
    unfold isLegalBrackets
    simp only [strchr_head, List.drop_succ_cons, List.drop_zero]
    rw [strchr_skip _ ']' _ (fun x hx => by
      rintro rfl
      have := numChars_no_blank _ hRch ']' (by simp)
      rw [(hasChar_mem _ _).mpr hx] at this
      cases this)]
    simp only [strchr_head, List.drop_succ_cons, List.drop_zero]
    rw [strchr_skip _ ']' _ (fun x hx => by
      rintro rfl
      have := numChars_no_blank _ hCch ']' (by simp)
      rw [(hasChar_mem _ _).mpr hx] at this
      cases this)]
    simp only [List.drop_succ_cons, List.drop_zero]
    have hno : ∀ c ∈ (sep ++ joinLits pad lits ++ eol).dropWhile isspace, c ≠ '[' ∧ c ≠ ']' := by
      intro c hc
      have := mem_of_mem_dropWhile _ _ _ hc
      simp only [List.mem_append] at this
      rcases this with (h | h) | h
      · exact ⟨(hsepc c h).1, (hsepc c h).2.1⟩
      · exact ⟨(hJ c h).1, (hJ c h).2.1⟩
      · exact heolc c h
    have hn1 := hasChar_false_of _ '[' (fun x hx => (hno x hx).1)
    have hn2 := hasChar_false_of _ ']' (fun x hx => (hno x hx).2)
    simp only [hn1, hn2, Bool.or_self, Bool.false_eq_true, if_false]
  have ht1 : strtok (decText rd ++ ']' :: '[' ::
      (decText cd ++ ']' :: (sep ++ joinLits pad lits ++ eol))) "]".toList =
      (some (decText rd), '[' :: (decText cd ++ ']' :: (sep ++ joinLits pad lits ++ eol))) :=
    strtok_token _ ']' _ _ hRne (fun c hc => by
      have := numChars_no_blank _ hRch ']' (by simp)
      have hne : c ≠ ']' := by
        rintro rfl
        rw [(hasChar_mem _ _).mpr hc] at this
        cases this
      simp [hne]) (by decide)
  have ht2 : strtok ('[' :: (decText cd ++ ']' :: (sep ++ joinLits pad lits ++ eol)))
      "]".toList = (some ('[' :: decText cd), sep ++ joinLits pad lits ++ eol) := by
    have := strtok_token ('[' :: decText cd) ']' (sep ++ joinLits pad lits ++ eol) "]".toList
      (by simp) (fun c hc => by
        have hne : c ≠ ']' := by
          rcases List.mem_cons.mp hc with rfl | hc
          · decide
          · rintro rfl
            have := numChars_no_blank _ hCch ']' (by simp)
            rw [(hasChar_mem _ _).mpr hc] at this
            cases this
        simp [hne]) (by decide)
    simpa using this
  have hd1 : deleteSpaces (decText rd) = decText rd := deleteSpaces_numText _ hRch
  have hd2 : deleteSpaces ('[' :: decText cd) = '[' :: decText cd := by
    apply deleteSpaces_id
    · intro c hc
      simp only [List.head?_cons, Option.some.injEq] at hc
      subst hc
      rfl
    · intro c hc
      have e2 : ('[' :: decText cd) = ['['] ++ decText cd := rfl
      rw [e2, getLast?_append_ne_nil _ _ hCne] at hc
      have := numChar_no_delim c (hCch c (List.mem_of_mem_getLast? hc))
      simp [this.2.2.2.1, this.2.2.2.2.1]
  have hwc : (((decValue rd : Int) * (decValue cd : Int)) % 65536).toNat =
      (decValue rd * decValue cd) % 65536 := by
    have : ((decValue rd : Int) * (decValue cd : Int)) = ((decValue rd * decValue cd : Nat) : Int) := by
      push_cast
      rfl
    rw [this]
    omega
  have hrow : ¬ ((decValue rd : Int) < 0) := by omega
  have hcol : ¬ ((decValue cd : Int) < 0) := by omega
  by_cases hl : lits = []
  · subst hl
    refine ⟨Data, ?_, fun i hi => absurd hi (by simp), fun _ _ => rfl⟩
    have hJ0 : joinLits pad [] = [] := rfl
    have hdata : (deleteSpacesP (strtok (sep ++ joinLits pad [] ++ eol) "\r\n".toList).1 = none) ∨
        (deleteSpacesP (strtok (sep ++ joinLits pad [] ++ eol) "\r\n".toList).1 = some []) := by
      rw [hJ0, List.append_nil, strtok_fst_append _ _ _ (by
        intro c hc
        rcases he c hc with rfl | rfl <;> decide)]
      by_cases hs : sep = []
      · subst hs
        left
        rfl
      · right
        rw [strtok_whole _ _ hs (fun c hc => by
          have := hsepc c hc
          simp [this.2.2.1, this.2.2.2])]
        simp only [deleteSpacesP, Option.map_some', deleteSpaces_only_blanks sep hsep]
    unfold EncodeMatrixLine
    simp only [hline, hlegal, List.drop_succ_cons, List.drop_zero, ht1, ht2, deleteSpacesP,
      Option.map_some', hd1, hd2, isValidNum_decText rd hr, isValidNum_decText cd hc,
      atoi_decText rd hr hrs, atoi_decText cd hc hcs, hrow, hcol, hwc, Bool.not_true,
      Bool.false_eq_true, if_false, List.head?_cons, ne_eq, not_true_eq_false]
    rcases hdata with h | h
    · simp only [deleteSpacesP] at h
      rw [h]
    · simp only [deleteSpacesP] at h
      rw [h]
      simp
  · obtain ⟨hJne, hJh, hJl⟩ := joinLits_ends pad lits hok hl
    have hcells := forall2_cells _ _ (litCells_cells pad lits hok)
    obtain ⟨D', h1, h2, h3⟩ := encodeMatrixParams_spec _ _ (litCells_cells pad lits hok)
      Data DC 0 (by omega)
    refine ⟨D', ?_, ?_, ?_⟩
    · have hdata : deleteSpacesP (strtok (sep ++ joinLits pad lits ++ eol) "\r\n".toList).1 =
          some (joinLits pad lits) := by
        rw [strtok_fst_append _ _ _ (by
          intro c hc
          rcases he c hc with rfl | rfl <;> decide),
          strtok_whole _ _ (by simp [hJne]) (fun c hc => by
            have : c ≠ '\r' ∧ c ≠ '\n' := by
              rcases List.mem_append.mp hc with h | h
              · exact ⟨(hsepc c h).2.2.1, (hsepc c h).2.2.2⟩
              · exact ⟨(hJ c h).2.2.1, (hJ c h).2.2.2⟩
            simp [this.1, this.2])]
        simp only [deleteSpacesP, Option.map_some', deleteSpaces_lead sep _ hsep hJh hJl]
      have hsyn : IsValidDataSyntax (joinLits pad lits) = true := by
        have := IsValidDataSyntax_join pad lits [] hok (fun c hc => absurd hc (by simp))
        rwa [List.append_nil] at this
      have htok : tokens (joinLits pad lits) ",\r\n".toList = litCells pad lits := by
        have := tokens_joinCells (litCells pad lits) [] hcells (fun c hc => absurd hc (by simp))
        rwa [List.append_nil] at this
      unfold EncodeMatrixLine
      simp only [hline, hlegal, List.drop_succ_cons, List.drop_zero, ht1, ht2, deleteSpacesP,
        Option.map_some', hd1, hd2, isValidNum_decText rd hr, isValidNum_decText cd hc,
        atoi_decText rd hr hrs, atoi_decText cd hc hcs, hrow, hcol, hwc, Bool.not_true,
        Bool.false_eq_true, if_false, List.head?_cons, ne_eq, not_true_eq_false]
      simp only [deleteSpacesP] at hdata
      rw [hdata]
      simp only [hJne, if_false, hsyn, htok, h1, Bool.not_true, Bool.false_eq_true]
    · intro i hi
      have := h2 i hi
      simpa only [Nat.zero_add] using this
    · intro j hj
      exact h3 j (by simpa only [Nat.zero_add, Nat.add_zero] using hj)


/-! ## Claims C11, C12, C13: the data directives -/

/-- C11, counterexample: the line `.mat [256][256]` is accepted (no error) and
leaves the data counter where it was, although `256 * 256 = 65536` words are
declared; the same holds for the labelled line `M: .mat [256][256]` assembled as
a whole file. A row count outside the range of `int` is not a non-negative
`int` for the code: `.mat [3000000000][1]` is refused with the error flag set.
An initial value beyond the range of `long` is read as -1:
`.mat [1][1] 9223372036854775808` stores 1023, not the low ten bits 0 of the
value. -/
theorem C11_wide_matrix_keeps_DC :
    (EncodeMatrixLine ".mat [256][256]\n".toList zeroMem 0 false).map (fun r => (r.2.1, r.2.2)) =
      some (0, false) ∧
    (assembleFile wideMatrixSource).map (fun st => (st.DC, st.Error)) = some (0, false) ∧
    decValue [2, 5, 6] * decValue [2, 5, 6] = 65536 ∧
    (EncodeMatrixLine ".mat [3000000000][1]\n".toList zeroMem 0 false).map
      (fun r => (r.2.1, r.2.2)) = some (0, true) ∧
    (EncodeMatrixLine ".mat [1][1] 9223372036854775808\n".toList zeroMem 0 false).map
      (fun r => (r.2.1, r.2.2, r.1 0)) = some (1, false, 1023) := by
  decide!

/-- C11 (amended): for the line `.mat [r][c] v1,...,vk` with decimal numbers `r`,
`c` in the range of `int` and `k <= r*c`, `k < 65536` signed integer literals in
the range of `long`, `EncodeMatrixLine` over zeroed words `Data[DC .. DC+k)`
stores the low ten bits of `v(i+1)` in `Data[DC+i]` for every `i < k`, leaves
every other data word unchanged (so the words of `Data[DC+k .. DC+r*c)` that
were zero stay zero, and no word outside `Data[DC .. DC+r*c)` is modified),
advances `DC` by `(r * c) mod 65536` and keeps the error flag. -/
theorem C11_mat_line (blanks sep : CStr) (rd cd : List Nat) (pad : Nat)
    (lits : List IntLit) (eol : CStr) (Data : Mem) (DC : Nat) (e : Bool)
    (hb : ∀ c ∈ blanks, c = ' ' ∨ c = '\t') (hsep : ∀ c ∈ sep, c = ' ' ∨ c = '\t')
    (hr : digitsOk rd = true) (hc : digitsOk cd = true)
    (hrs : decValue rd < 2147483648) (hcs : decValue cd < 2147483648)
    (hok : ∀ x ∈ lits, litOk x = true) (hfit : ∀ x ∈ lits, fitsLong (litValue x) = true)
    (he : ∀ c ∈ eol, c = '\r' ∨ c = '\n')
    (hk : lits.length < 65536) (hkle : lits.length ≤ decValue rd * decValue cd)
    (hz : ∀ i, i < lits.length → Data (DC + i) = 0) :
    ∃ D', EncodeMatrixLine (".mat".toList ++ blanks ++ '[' :: (decText rd ++ ']' :: '[' ::
          (decText cd ++ ']' :: (sep ++ joinLits pad lits ++ eol)))) Data DC e =
        some (D', DC + (decValue rd * decValue cd) % 65536, e) ∧
      (∀ i (hi : i < lits.length), D' (DC + i) = lowTen (litValue lits[i])) ∧
      (∀ j, (j < DC ∨ DC + lits.length ≤ j) → D' j = Data j) ∧
      (∀ i, lits.length ≤ i → i < decValue rd * decValue cd → Data (DC + i) = 0 →
        D' (DC + i) = 0) ∧
      (∀ j, D' j ≠ Data j → DC ≤ j ∧ j < DC + decValue rd * decValue cd) := by
  obtain ⟨D', h1, h2, h3⟩ :=
    EncodeMatrixLine_spec blanks sep rd cd pad lits eol Data DC e hb hsep hr hc hok he hk hrs hcs
  refine ⟨D', h1, fun i hi => ?_, h3, fun i hi _ hzi => ?_, fun j hj => ?_⟩
  · rw [h2 i hi, hz i hi, Nat.zero_or]
    unfold lowTen
    rw [(atoi_litText _ (hok _ (List.getElem_mem _)) (hfit _ (List.getElem_mem _))).2.1]
  · rw [h3 _ (Or.inr (by omega)), hzi]
  · by_contra hcon
    exact hj (h3 j (by omega))

/-- C11, witness: `.mat [2][3] 1,2,3,4,5,6` stores 1..6 in six words and advances
`DC` by 6. -/
theorem C11_mat_line_witness :
    ∃ D', EncodeMatrixLine ".mat [2][3] 1,2,3,4,5,6\n".toList zeroMem 0 false =
        some (D', 6, false) ∧
      D' 0 = 1 ∧ D' 1 = 2 ∧ D' 2 = 3 ∧ D' 3 = 4 ∧ D' 4 = 5 ∧ D' 5 = 6 ∧ D' 6 = 0 := by
  obtain ⟨D', h1, h2, h3, _, _⟩ := C11_mat_line [' '] [' '] [2] [3] 0
    [⟨none, [1]⟩, ⟨none, [2]⟩, ⟨none, [3]⟩, ⟨none, [4]⟩, ⟨none, [5]⟩, ⟨none, [6]⟩] ['\n']
    zeroMem 0 false (by decide) (by decide) (by decide) (by decide) (by decide) (by decide)
    (by decide) (by decide) (by decide) (by decide) (by decide) (fun _ _ => rfl)
  refine ⟨D', h1, ?_, ?_, ?_, ?_, ?_, ?_, ?_⟩
  · exact (h2 0 (by decide)).trans (by decide)
  · exact (h2 1 (by decide)).trans (by decide)
  · exact (h2 2 (by decide)).trans (by decide)
  · exact (h2 3 (by decide)).trans (by decide)
  · exact (h2 4 (by decide)).trans (by decide)
  · exact (h2 5 (by decide)).trans (by decide)
  · exact h3 6 (Or.inr (by decide))

/-- C13, counterexample: the literal 9223372036854775808 is beyond the range of
`long`; `atoi` returns -1 for it, so `.data 9223372036854775808` stores 1023 in
`Data[0]` without error, while the value of the literal is 0 modulo 1024; the
same holds for the line behind a label, assembled as a file. -/
theorem C13_long_literal_saturates :
    ((EncodeDataLine ".data 9223372036854775808\n".toList zeroMem 0 false).1 0,
      (EncodeDataLine ".data 9223372036854775808\n".toList zeroMem 0 false).2) =
        (1023, 1, false) ∧
    (assembleFile ["N: .data 9223372036854775808\n".toList]).map
      (fun st => (st.Error, st.DC, st.Data 0)) = some (false, 1, 1023) ∧
    atoi "9223372036854775808".toList = -1 ∧
    decimalValue "9223372036854775808".toList = 9223372036854775808 ∧
    (9223372036854775808 : Int) % 1024 = 0 := by
  decide!

/-- C13 (amended): for a `.data` line whose parameters are `k` comma-separated
signed integer literals in the range of `long`, `EncodeDataLine` over zeroed
words `Data[DC .. DC+k)` stores `v(i+1) mod 1024` (the ten-bit two's-complement
pattern) in `Data[DC+i]` for every `i < k`, changes no other data word, advances
`DC` by `k` and keeps the error flag. -/
theorem C13_data_line (blanks : CStr) (pad : Nat) (lits : List IntLit) (eol : CStr)
    (Data : Mem) (DC : Nat) (e : Bool)
    (hb : ∀ c ∈ blanks, c = ' ' ∨ c = '\t')
    (hok : ∀ x ∈ lits, litOk x = true) (hfit : ∀ x ∈ lits, fitsLong (litValue x) = true)
    (he : ∀ c ∈ eol, c = '\r' ∨ c = '\n')
    (hz : ∀ i, i < lits.length → Data (DC + i) = 0) :
    ∃ D', EncodeDataLine (".data".toList ++ blanks ++ joinLits pad lits ++ eol) Data DC e =
        (D', DC + lits.length, e) ∧
      (∀ i (hi : i < lits.length), D' (DC + i) = ((litValue lits[i]) % 1024).toNat) ∧
      (∀ j, (j < DC ∨ DC + lits.length ≤ j) → D' j = Data j) := by
  obtain ⟨D', h1, h2, h3⟩ := EncodeDataLine_spec blanks pad lits eol Data DC e hb hok he
  refine ⟨D', h1, fun i hi => ?_, h3⟩
  rw [h2 i hi, hz i hi, Nat.zero_or]
  unfold lowTen
  rw [(atoi_litText _ (hok _ (List.getElem_mem _)) (hfit _ (List.getElem_mem _))).2.1]

/-- C13, witness: `.data 7, -3` stores 7 and 1021 and advances `DC` by 2. -/
theorem C13_data_line_witness :
    ∃ D', EncodeDataLine ".data 7, -3\n".toList zeroMem 0 false = (D', 2, false) ∧
      D' 0 = 7 ∧ D' 1 = 1021 ∧ D' 2 = 0 := by
  obtain ⟨D', h1, h2, h3⟩ := C13_data_line [' '] 1 [⟨none, [7]⟩, ⟨some true, [3]⟩] ['\n']
    zeroMem 0 false (by decide) (by decide) (by decide) (by decide) (fun _ _ => rfl)
  exact ⟨D', h1, (h2 0 (by decide)).trans (by decide), (h2 1 (by decide)).trans (by decide),
    h3 2 (Or.inr (by decide))⟩

/-! ## Claim C17: which operands an opcode takes -/

/-- A turn of the operand loop that returns early ends `EncodeOperands`: the
locals are written back and `PC[0]` stays. -/
theorem turn_rejected (numOprnd : Nat) (line : CStr) (opcode : Int) (st : AsmState) (i : Nat)
    (operand : CStr) (s s' : OperandState) (h : ReachesTurn numOprnd line opcode st i operand s)
    (he : encodeOperand operand i numOprnd opcode st.IC s = some (s', false)) :
    EncodeOperands numOprnd line opcode st = some (closeOperands st s' false) := by
  rcases h with ⟨rfl, rfl, h1, rfl⟩ | ⟨rfl, rfl, h1, rfl⟩ | ⟨rfl, rfl, op1, h1, h2, h3⟩
  · unfold EncodeOperands
    unfold operandStart at he
    simp only [if_true, h1, he]
  · unfold EncodeOperands
    unfold operandStart at he
    simp only [if_false, if_true, h1, he, OfNat.ofNat_ne_one]
  · unfold EncodeOperands
    unfold operandStart at h2
    simp only [if_false, if_true, h1, h2, h3, he, OfNat.ofNat_ne_one]

theorem closeOperands_rejected (st : AsmState) (s : OperandState) :
    (closeOperands st s false).Error = s.Error ∧ (closeOperands st s false).IC = st.IC := by
  simp [closeOperands]

/-- C17: in any turn of the operand loop of `EncodeOperands` for an opcode with
its operand count, a well-formed immediate operand `#v` is accepted (the loop
goes on, the error flag is untouched) exactly when it is the operand of opcode
13, or the first operand of a two-operand opcode other than 4, or the second
operand of opcode 1; a register operand `r0`..`r7` that is not a symbol is
rejected exactly when it is the first operand of opcode 4; and whenever the
operand is rejected, `EncodeOperands` returns with the error flag set and the
instruction counter unchanged. -/
theorem C17_operand_legality (numOprnd : Nat) (line : CStr) (opcode : Int) (st : AsmState)
    (i : Nat) (operand : CStr) (s : OperandState)
    (hn : numOprnd = getNumOperand opcode)
    (hturn : ReachesTurn numOprnd line opcode st i operand s) :
    (∀ v, operand = '#' :: v → isValidNum v = true →
      ∃ s' go, encodeOperand operand i numOprnd opcode st.IC s = some (s', go) ∧
        (go = true ↔ (i = 1 ∧ opcode = 13) ∨ (i = 1 ∧ numOprnd = 2 ∧ opcode ≠ 4) ∨
          (i = 2 ∧ opcode = 1)) ∧
        (go = true → s'.Error = s.Error) ∧
        (go = false → ∃ st', EncodeOperands numOprnd line opcode st = some st' ∧
          st'.Error = true ∧ st'.IC = st.IC)) ∧
    (∀ a, a < 8 → operand = regName a → findLabel s.table operand = -1 →
      ∃ s' go, encodeOperand operand i numOprnd opcode st.IC s = some (s', go) ∧
        (go = false ↔ (i = 1 ∧ opcode = 4)) ∧
        (go = true → s'.Error = s.Error) ∧
        (go = false → ∃ st', EncodeOperands numOprnd line opcode st = some st' ∧
          st'.Error = true ∧ st'.IC = st.IC)) := by
  have hi : (i = 1 ∧ (numOprnd = 1 ∨ numOprnd = 2)) ∨ (i = 2 ∧ numOprnd = 2) := by
    rcases hturn with ⟨h1, h2, _⟩ | ⟨h1, h2, _⟩ | ⟨h1, h2, _⟩
    · exact Or.inl ⟨h1, Or.inl h2⟩
    · exact Or.inl ⟨h1, Or.inr h2⟩
    · exact Or.inr ⟨h1, h2⟩
  have h13 : opcode = 13 → numOprnd = 1 := by
    intro h
    rw [hn, h]
    decide
  have h4 : opcode = 4 → numOprnd = 2 := by
    intro h
    rw [hn, h]
    decide
  have h1 : opcode = 1 → numOprnd = 2 := by
    intro h
    rw [hn, h]
    decide
  constructor
  · intro v hv hnum
    subst hv
    by_cases huse : IsValidImmUse i opcode numOprnd = true
    · refine ⟨_, true, encodeOperand_imm v hnum i numOprnd opcode st.IC s huse, ?_, ?_, ?_⟩
      · refine ⟨fun _ => ?_, fun _ => rfl⟩
        unfold IsValidImmUse at huse
        by_contra hcon
        simp only [not_or, not_and, Decidable.not_not] at hcon
        obtain ⟨c1, c2, c3⟩ := hcon
        rcases hi with ⟨rfl, hno | hno⟩ | ⟨rfl, hno⟩
        · have e13 : opcode ≠ 13 := c1 rfl
          simp [hno, e13] at huse
        · have e4 : opcode = 4 := c2 rfl hno
          simp [hno, e4] at huse
        · have e1 : opcode ≠ 1 := c3 rfl
          simp [e1] at huse
      · intro _
        rfl
      · intro h
        cases h
    · have hm : getAddressingMode ('#' :: v) s.table = 0 := by
        unfold getAddressingMode
        simp
      have hrej : encodeOperand ('#' :: v) i numOprnd opcode st.IC s =
          some ({ s with Error := true }, false) := by
        unfold encodeOperand
        simp only [hm, IMMEDIATE, huse]
        simp
      refine ⟨_, false, hrej, ?_, ?_, ?_⟩
      · refine ⟨fun h => (by cases h), fun hacc => ?_⟩
        exfalso
        apply huse
        unfold IsValidImmUse
        rcases hacc with ⟨rfl, e13⟩ | ⟨rfl, e2, e4⟩ | ⟨rfl, e1⟩
        · simp [e13]
        · simp [e2, e4]
        · simp [e1]
      · intro h
        cases h
      · intro _
        refine ⟨_, turn_rejected _ _ _ _ _ _ _ _ hturn hrej, ?_, ?_⟩
        · rw [(closeOperands_rejected _ _).1]
        · rw [(closeOperands_rejected _ _).2]
  · intro a ha hop hf
    subst hop
    by_cases huse : IsValidRegUse i numOprnd opcode = true
    · refine ⟨_, true, encodeOperand_reg a ha i numOprnd opcode st.IC s hf huse, ?_, ?_, ?_⟩
      · refine ⟨fun h => (by cases h), fun hrej => ?_⟩
        exfalso
        unfold IsValidRegUse at huse
        simp [hrej.1, hrej.2, h4 hrej.2] at huse
      · intro _
        rfl
      · intro h
        cases h
    · obtain ⟨_, h2, _⟩ := regName_facts a ha
      have hrej : encodeOperand (regName a) i numOprnd opcode st.IC s =
          some ({ s with Error := true }, false) := by
        unfold encodeOperand
        simp only [getAddressingMode_reg a ha s.table hf, IMMEDIATE, LABEL, MATRIX, REGISTER,
          h2, huse]
        simp
      refine ⟨_, false, hrej, ?_, ?_, ?_⟩
      · refine ⟨fun _ => ?_, fun _ => rfl⟩
        unfold IsValidRegUse at huse
        by_contra hcon
        apply huse
        rw [if_neg (fun hc => hcon ⟨hc.1, hc.2.2⟩)]
      · intro h
        cases h
      · intro _
        refine ⟨_, turn_rejected _ _ _ _ _ _ _ _ hturn hrej, ?_, ?_⟩
        · rw [(closeOperands_rejected _ _).1]
        · rw [(closeOperands_rejected _ _).2]

/-- C17, witness: `clr #5` (opcode 5, one operand) rejects its immediate operand. -/
theorem C17_operand_legality_witness :
    ∃ s' go, encodeOperand "#5".toList 1 1 5 0 (operandStart emptyState) = some (s', go) ∧
      go = false ∧
      ∃ st', EncodeOperands 1 "#5".toList 5 emptyState = some st' ∧ st'.Error = true ∧
        st'.IC = 0 := by
  obtain ⟨s', go, h1, h2, _, h4⟩ :=
    (C17_operand_legality 1 "#5".toList 5 emptyState 1 "#5".toList (operandStart emptyState)
      (by decide) (Or.inl ⟨rfl, rfl, by decide, rfl⟩)).1 "5".toList rfl (by decide)
  have hgo : go = false := by
    cases go with
    | false => rfl
    | true =>
      exfalso
      have := h2.mp rfl
      revert this
      decide
  exact ⟨s', go, h1, hgo, h4 hgo⟩


/-! ## Shape of a token and of an operand with brackets -/

/-- C21 at the failing input: the parameter text `1-2` holds the single token
`1-2`, which is not a signed integer literal, yet `IsValidDataParam` accepts it
and `EncodeDataLine` stores the word 1, advances `DC` by one and leaves the
error flag clear; both passes accept the file `.data 1-2`. -/
theorem C21_sign_inside_token_accepted :
    tokens "1-2".toList ",\r\n".toList = ["1-2".toList] ∧
    isIntLiteral "1-2".toList = false ∧
    IsValidDataParam "1-2".toList = true ∧
    (EncodeDataLine ".data 1-2".toList zeroMem 0 false).2 = (1, false) ∧
    (EncodeDataLine ".data 1-2".toList zeroMem 0 false).1 0 = 1 ∧
    (assembleFile [".data 1-2\n".toList]).map (fun st => (st.Error, st.DC, st.Data 0)) =
      some (false, 1, 1) := by
  decide!

/-- C22 at the failing input: the argument made of one double quote passes
`IsValidString`, and the character loop of `EncodeStringLine` then runs past the
end of the string instead of setting the error flag. -/
theorem C22_lone_quote_not_refused :
    deleteSpacesP (strtok (strtok ".string \"\n".toList " \r\n".toList).2 "\r\n".toList).1 =
      some ['"'] ∧
    IsValidString (some ['"']) = true ∧
    (EncodeStringLine ".string \"\n".toList zeroMem 0 false).isNone = true ∧
    (assembleFile [".string \"\n".toList]).isNone = true := by
  decide!

theorem getOpcode_mnemonic (inst : CStr) : getOpcode inst ≠ -1 ↔ inst ∈ mnemonics := by
  constructor
  · intro h
    by_contra hin
    apply h
    have hne : ∀ m, m ∈ mnemonics → ¬ inst = m := fun m hm e => hin (e ▸ hm)
    unfold getOpcode
    rw [if_neg (hne _ (by decide)), if_neg (hne _ (by decide)), if_neg (hne _ (by decide)),
      if_neg (hne _ (by decide)), if_neg (hne _ (by decide)), if_neg (hne _ (by decide)),
      if_neg (hne _ (by decide)), if_neg (hne _ (by decide)), if_neg (hne _ (by decide)),
      if_neg (hne _ (by decide)), if_neg (hne _ (by decide)), if_neg (hne _ (by decide)),
      if_neg (hne _ (by decide)), if_neg (hne _ (by decide)), if_neg (hne _ (by decide)),
      if_neg (hne _ (by decide))]
  · intro hin
    have := (mnemonic_facts inst hin).2.2.1
    omega

/-- C24: `validLabel` accepts a name exactly when it has 1 to 31 characters, the
first a letter and the others letters or digits, and is none of the reserved
words `string`, `data`, `entry`, `extern`, none of the register names `r0`..`r7`
and none of the sixteen mnemonics. The directive name `mat` is not reserved. -/
theorem C24_validLabel_iff (n : CStr) :
    (validLabel n = true ↔
      (1 ≤ n.length ∧ n.length ≤ 31 ∧ (∀ c, n.head? = some c → isalpha c = true) ∧
        (∀ c ∈ n.drop 1, isalnum c = true) ∧
        n ∉ reserved_word ∧ n ∉ register_name ∧ n ∉ mnemonics)) ∧
    reserved_word = ["string".toList, "data".toList, "entry".toList, "extern".toList] ∧
    register_name = (List.range 8).map regName ∧
    validLabel "mat".toList = true := by
  refine ⟨?_, rfl, by decide, by decide⟩
  constructor
  · intro h
    unfold validLabel at h
    split_ifs at h with h1 h2 h3 h4 h5 h6 h7
    simp only [MAX_LABEL, gt_iff_lt, not_lt] at h2
    simp only [Bool.not_eq_true', Bool.not_eq_false] at h3 h4
    cases n with
    | nil => simp at h3
    | cons x r =>
      refine ⟨by simp, h2, ?_, ?_, ?_, ?_, ?_⟩
      · intro c hc
        simp only [List.head?_cons, Option.some.injEq] at hc
        subst hc
        simpa using h3
      · simpa using h4
      · simpa using h5
      · simpa using h6
      · intro hin
        exact h7 ((getOpcode_mnemonic _).mpr hin)
  · rintro ⟨h1, h2, h3, h4, h5, h6, h7⟩
    cases n with
    | nil => simp at h1
    | cons x r =>
      have hx : isalpha x = true := h3 x rfl
      have hr : ∀ c ∈ r, isalnum c = true := by simpa using h4
      have hall : ∀ c ∈ x :: r, isalnum c = true := by
        intro c hc
        rcases List.mem_cons.mp hc with rfl | hc
        · simp [isalnum, hx]
        · exact hr c hc
      have hb1 := alnum_hasChar _ hall ' ' (by decide)
      have hb2 := alnum_hasChar _ hall '\t' (by decide)
      have hop : ¬ getOpcode (x :: r) ≠ -1 := fun h => h7 ((getOpcode_mnemonic _).mp h)
      unfold validLabel
      rw [hb1, hb2]
      simp only [Bool.or_self, Bool.false_eq_true, if_false, MAX_LABEL, gt_iff_lt]
      rw [if_neg (by omega)]
      simp only [hx, Bool.not_true, Bool.false_eq_true, if_false, List.drop_succ_cons,
        List.drop_zero]
      have hr2 : r.all isalnum = true := by simpa using hr
      have h5' : reserved_word.contains (x :: r) = false := by simpa using h5
      have h6' : register_name.contains (x :: r) = false := by simpa using h6
      simp only [hr2, h5', h6', Bool.not_true, Bool.false_eq_true, if_false]
      rw [if_neg hop]

/-- C26: on a well-formed table `resizeLabelTable` doubles `table_size`, keeps
`num_labels`, and stores the same label records (all fields, reference lists in
their order) as before, in a well-formed table. -/
theorem C26_resize_preserves (t : LabelTable) (h : WF t) :
    (resizeLabelTable t).table_size = 2 * t.table_size ∧
    (allLabels (resizeLabelTable t)).Perm (allLabels t) ∧
    (resizeLabelTable t).num_labels = t.num_labels ∧
    WF (resizeLabelTable t) :=
  ⟨(resize_facts t h).2.2.1, (resize_facts t h).2.1, (resize_facts t h).2.2.2,
    (resize_facts t h).1⟩

/-- C26, witness: the table of 10 chains that holds `A` and `K` in one chain. -/
theorem C26_resize_witness :
    (resizeLabelTable
      (addLabel (addLabel (create_LabelTable 10) "A".toList false false)
        "K".toList false false)).table_size = 20 ∧
    (allLabels (resizeLabelTable
      (addLabel (addLabel (create_LabelTable 10) "A".toList false false)
        "K".toList false false))).Perm
      (allLabels (addLabel (addLabel (create_LabelTable 10) "A".toList false false)
        "K".toList false false)) :=
  ⟨(C26_resize_preserves _
      (addLabel_facts _ _ _ _ (addLabel_facts _ _ _ _ (WF_create 10 (by decide))).1).1).1,
   (C26_resize_preserves _
      (addLabel_facts _ _ _ _ (addLabel_facts _ _ _ _ (WF_create 10 (by decide))).1).1).2.1⟩

/-- C27 at the failing inputs: the cleanup of `main` zeroes the first 128 words
of `Code` and `Data` only and never writes `PC[1]`: every later word and the
data counter keep the value the previous file left. After the file
`.string "AB"` the data counter is still 3, and after a file of 129 lines `stop`
word 128 of `Code` still holds 960. -/
theorem C27_cleanup_leaves_state :
    (∀ Code Data IC DC,
      (mainCleanup Code Data IC DC).2.2.2 = DC ∧
      (∀ j, 128 ≤ j → (mainCleanup Code Data IC DC).1 j = Code j ∧
        (mainCleanup Code Data IC DC).2.1 j = Data j) ∧
      (∀ j, j < 128 → (mainCleanup Code Data IC DC).1 j = 0 ∧
        (mainCleanup Code Data IC DC).2.1 j = 0)) ∧
    (assembleFile [".string \"AB\"\n".toList]).map
        (fun st => (st.Error, (mainCleanup st.Code st.Data st.IC st.DC).2.2.2)) =
      some (false, 3) ∧
    (assembleFile (stopLines 129)).map
        (fun st => (st.Error, st.IC, (mainCleanup st.Code st.Data st.IC st.DC).1 128)) =
      some (false, 129, 960) := by
  refine ⟨?_, by decide!, by decide!⟩
  intro Code Data IC DC
  refine ⟨?_, ?_, ?_⟩
  · simp [mainCleanup, memsetZero, SIZEOF_INT]
  · intro j hj
    have h1 : ¬ (2 * (j + 1) ≤ 256) := by omega
    have h2 : ¬ (2 * j < 256) := by omega
    simp [mainCleanup, memsetZero, SIZEOF_SHORT, MAX_LENGTH, h1, h2]
  · intro j hj
    have h1 : 2 * (j + 1) ≤ 256 := by omega
    simp [mainCleanup, memsetZero, SIZEOF_SHORT, MAX_LENGTH, h1]

/-- C28 at the failing input: the source `M: .mat [13][12]`, `X: stop`, `jmp X`
is assembled without error with `IC = 3` and `DC = 156`; `X` has address 256 and
the word of the reference to it, `Code[2]`, is 1026, above 1023. -/
theorem C28_word_above_ten_bits :
    (assembleFile farLabelSource).map
        (fun st => (st.Error, st.IC, st.DC, st.Code 2)) = some (false, 3, 156, 1026) ∧
    (assembleFile farLabelSource).map
        (fun st => (lookupLabel st.table "X".toList).map (fun l => (l.address, l.ref))) =
      some (some (256, [2])) ∧
    ¬ (1026 ≤ 1023) := by
  decide!

/-- C29: in the second pass a line without a colon that begins with `.` but with
none of `.data`, `.string`, `.mat`, `.entry` is left by `ProcessLine` with the
state as it was when it begins with `.extern`, and with the error flag set and
everything else as it was otherwise. -/
theorem C29_other_directives (line : CStr) (st : AsmState)
    (hl : IsLabelDefinition line = false) (hd : line.head? = some '.')
    (h1 : IsDataDirective line = false) (h2 : IsStringDirective line = false)
    (h3 : IsMatrixDirective line = false) (h4 : IsEntryDirective line = false) :
    ProcessLine line st = some (if isExtern line then st else { st with Error := true }) := by
  have hi : IsInstructionLine line = false := by
    cases line with
    | nil => simp at hd
    | cons c r =>
      simp only [List.head?_cons, Option.some.injEq] at hd
      subst hd
      rfl
  unfold ProcessLine
  simp only [hl, Bool.false_eq_true, if_false, hi]
  unfold ProcessDirectives
  simp only [h1, h2, h3, h4, Bool.false_eq_true, if_false]
  cases isExtern line <;> rfl

/-- C29, witness: `.foo` sets the error flag. -/
theorem C29_other_directives_witness :
    ProcessLine ".foo\n".toList emptyState = some { emptyState with Error := true } ∧
    ProcessLine ".extern X\n".toList emptyState = some emptyState :=
  ⟨C29_other_directives ".foo\n".toList emptyState (by decide) (by decide) (by decide)
      (by decide) (by decide) (by decide),
   rfl⟩


/-! ## Claim C23: the `.entry` line -/

theorem modeBits_word (m : Int) (hm : m = 0 ∨ m = 1 ∨ m = 2 ∨ m = 3) (b : Prop) [Decidable b] :
    (((if b then m * 16 else m * 4) : Int) % 1024).toNat = m.toNat * (if b then 16 else 4) := by
  rcases hm with rfl | rfl | rfl | rfl <;> split_ifs <;> rfl

/-- A turn of the operand loop that goes on: the operand has one of the four
addressing modes, its mode bits are OR-ed into the opcode word and the operand
words are written behind the opcode word. -/
theorem encodeOperand_opword (op : CStr) (i k : Nat) (opc : Int) (IC : Nat)
    (s s' : OperandState) (h : encodeOperand op i k opc IC s = some (s', true))
    (hwc : 1 ≤ s.word_count) (hreg : s.is_reg = true → 2 ≤ s.word_count) :
    (getAddressingMode op s.table = 0 ∨ getAddressingMode op s.table = 1 ∨
      getAddressingMode op s.table = 2 ∨ getAddressingMode op s.table = 3) ∧
    s'.Code IC = s.Code IC |||
      (getAddressingMode op s.table).toNat * (if i = 1 ∧ k = 2 then 16 else 4) ∧
    1 ≤ s'.word_count ∧ (s'.is_reg = true → 2 ≤ s'.word_count) := by
  unfold encodeOperand at h
  simp only [] at h
  by_cases h1 : getAddressingMode op s.table = IMMEDIATE
  · rw [if_pos h1] at h
    have hm : getAddressingMode op s.table = 0 := h1
    by_cases h2 : (!isValidImmediate op || !IsValidImmUse i opc k) = true
    · rw [if_pos h2] at h
      simp at h
    · rw [if_neg h2] at h
      simp only [Option.some.injEq, Prod.mk.injEq, and_true] at h
      subst h
      refine ⟨Or.inl hm, ?_, ?_, ?_⟩
      · simp only [encodeImmediate]
        rw [insertBin_same, insertBin_other _ _ _ _ (by omega),
          modeBits_word _ (Or.inl hm)]
      · simp only [encodeImmediate]
        omega
      · simp only [encodeImmediate]
        intro hr
        have := hreg hr
        omega
  rw [if_neg h1] at h
  by_cases h2 : getAddressingMode op s.table = LABEL
  · rw [if_pos h2] at h
    have hm : getAddressingMode op s.table = 1 := h2
    split at h
    · simp at h
    · simp at h
    · rename_i t c w heq
      simp only [Option.some.injEq, Prod.mk.injEq, and_true] at h
      subst h
      obtain ⟨cur, _, _, rfl, rfl⟩ := encodeLabelOperand_true _ _ _ _ _ _ _ _ heq
      refine ⟨Or.inr (Or.inl hm), ?_, ?_, ?_⟩
      · simp only []
        rw [insertBin_same, insertBin_other _ _ _ _ (by omega),
          modeBits_word _ (Or.inr (Or.inl hm))]
      · simp only []
        omega
      · simp only []
        intro hr
        have := hreg hr
        omega
  rw [if_neg h2] at h
  by_cases h3 : getAddressingMode op s.table = MATRIX
  · rw [if_pos h3] at h
    have hm : getAddressingMode op s.table = 2 := h3
    split at h
    · simp at h
    · simp at h
    · rename_i t c w heq
      simp only [Option.some.injEq, Prod.mk.injEq, and_true] at h
      subst h
      obtain ⟨cur, name, a, b, _, _, _, rfl, rfl⟩ :=
        encodeMatrixOperand_true _ _ _ _ _ _ _ _ heq
      refine ⟨Or.inr (Or.inr (Or.inl hm)), ?_, ?_, ?_⟩
      · simp only []
        rw [insertBin_same, insertBin_other _ _ _ _ (by omega),
          insertBin_other _ _ _ _ (by omega), insertBin_other _ _ _ _ (by omega),
          modeBits_word _ (Or.inr (Or.inr (Or.inl hm)))]
      · simp only []
        omega
      · simp only []
        intro hr
        have := hreg hr
        omega
  rw [if_neg h3] at h
  by_cases h4 : getAddressingMode op s.table = REGISTER
  · rw [if_pos h4] at h
    have hm : getAddressingMode op s.table = 3 := h4
    by_cases h5 : (!isValidReg op || !IsValidRegUse i k opc) = true
    · rw [if_pos h5] at h
      simp at h
    · rw [if_neg h5] at h
      simp only [Option.some.injEq, Prod.mk.injEq, and_true] at h
      subst h
      refine ⟨Or.inr (Or.inr (Or.inr hm)), ?_, ?_, ?_⟩
      · simp only []
        rw [insertBin_same, modeBits_word _ (Or.inr (Or.inr (Or.inr hm)))]
        congr 1
        unfold encodeRegisterOperand
        simp only []
        by_cases c1 : k = 1
        · rw [if_pos c1]
          exact insertBin_other _ _ _ _ (by omega)
        rw [if_neg c1]
        by_cases c2 : i = 1
        · rw [if_pos c2]
          exact insertBin_other _ _ _ _ (by omega)
        rw [if_neg c2]
        by_cases c3 : i = 2
        · rw [if_pos c3]
          by_cases c4 : s.is_reg = true
          · rw [if_pos c4]
            have := hreg c4
            exact insertBin_other _ _ _ _ (by omega)
          · rw [if_neg c4]
            exact insertBin_other _ _ _ _ (by omega)
        · rw [if_neg c3]
      · unfold encodeRegisterOperand
        simp only []
        split_ifs <;> simp only [] <;> omega
      · unfold encodeRegisterOperand
        simp only []
        split_ifs with c1 c2 c3 c4 <;> simp only [] <;> intro hr
        · have := hreg hr
          omega
        · omega
        · cases hr
        · have := hreg hr
          omega
        · have := hreg hr
          omega
  rw [if_neg h4] at h
  simp at h


theorem getAddressingMode_rel (op : CStr) (t t' : LabelTable) (h : TableRel SameAddr t t') :
    getAddressingMode op t' = getAddressingMode op t := by
  unfold getAddressingMode
  rw [tableRel_findLabel SameAddr sameAddr_name t t' h op]

theorem or_low_bits (a b : Nat) (ha : a % 4 = 0) (hb : b % 4 = 0) : (a ||| b) % 4 = 0 := by
  have e : (4 : Nat) = 2 ^ 2 := rfl
  rw [e] at ha hb ⊢
  apply Nat.eq_of_testBit_eq
  intro i
  have h1 := congrArg (fun x => x.testBit i) ha
  have h2 := congrArg (fun x => x.testBit i) hb
  simp only [Nat.testBit_mod_two_pow, Nat.zero_testBit] at h1 h2 ⊢
  rw [Nat.testBit_or]
  cases hd : decide (i < 2) <;> simp_all

theorem mode_low_bits (m : Int) (hm : m = 0 ∨ m = 1 ∨ m = 2 ∨ m = 3) :
    m.toNat * 4 % 4 = 0 ∧ m.toNat * 16 % 4 = 0 := by
  rcases hm with rfl | rfl | rfl | rfl <;> decide

/-- The opcode word after `EncodeOperands` returned without error: the mode bits
of the operands read are OR-ed into it. -/
theorem EncodeOperands_opword (k : Nat) (rest : CStr) (opc : Int) (st st' : AsmState)
    (h : EncodeOperands k rest opc st = some st') (herr : st'.Error = false) :
    ∃ w, st'.Code st.IC = st.Code st.IC ||| w ∧ w % 4 = 0 ∧
      (k = 1 → ∀ op, deleteSpacesP (strtok rest "\r\n".toList).1 = some op →
        (getAddressingMode op st.table = 0 ∨ getAddressingMode op st.table = 1 ∨
          getAddressingMode op st.table = 2 ∨ getAddressingMode op st.table = 3) ∧
        w = (getAddressingMode op st.table).toNat * 4) ∧
      (k = 2 → ∀ op1 op2, deleteSpacesP (strtok rest ",\r\n".toList).1 = some op1 →
        deleteSpacesP (strtok (strtok rest ",\r\n".toList).2 "\r\n".toList).1 = some op2 →
        (getAddressingMode op1 st.table = 0 ∨ getAddressingMode op1 st.table = 1 ∨
          getAddressingMode op1 st.table = 2 ∨ getAddressingMode op1 st.table = 3) ∧
        (getAddressingMode op2 st.table = 0 ∨ getAddressingMode op2 st.table = 1 ∨
          getAddressingMode op2 st.table = 2 ∨ getAddressingMode op2 st.table = 3) ∧
        w = (getAddressingMode op1 st.table).toNat * 16 |||
          (getAddressingMode op2 st.table).toNat * 4) := by
  unfold EncodeOperands at h
  simp only [] at h
  by_cases k1 : k = 1
  · subst k1
    rw [if_pos rfl] at h
    cases hop : deleteSpacesP (strtok rest "\r\n".toList).1 with
    | none =>
      rw [hop] at h
      simp only [Option.some.injEq] at h
      subst h
      exact ⟨0, by simp, rfl, fun _ op ho => (by cases ho), fun hk => (by cases hk)⟩
    | some op =>
      rw [hop] at h
      simp only [] at h
      cases he : encodeOperand op 1 1 opc st.IC
          { table := st.table, Code := st.Code, word_count := 1, is_reg := false,
            Error := st.Error } with
      | none => rw [he] at h; cases h
      | some r =>
        obtain ⟨s1, go⟩ := r
        rw [he] at h
        simp only [Option.some.injEq] at h
        subst h
        have hf := encodeOperand_frame _ _ _ _ _ _ _ _ he
        cases go with
        | false =>
          have := hf.2.2.2 rfl
          rw [(closeOperands_facts _ _ _).2.2.1, this] at herr
          cases herr
        | true =>
          obtain ⟨hm, hc, _, _⟩ := encodeOperand_opword _ _ _ _ _ _ _ he (le_refl 1)
            (fun hr => by cases hr)
          simp only [] at hm hc
          rw [if_neg (by omega)] at hc
          refine ⟨_, ?_, (mode_low_bits _ hm).1, ?_, fun hk => (by cases hk)⟩
          · rw [(closeOperands_facts _ _ _).2.1]
            exact hc
          · intro _ op' ho
            simp only [Option.some.injEq] at ho
            subst ho
            exact ⟨hm, rfl⟩
  rw [if_neg k1] at h
  by_cases k2 : k = 2
  · subst k2
    rw [if_pos rfl] at h
    cases hop1 : deleteSpacesP (strtok rest ",\r\n".toList).1 with
    | none =>
      rw [hop1] at h
      simp only [Option.some.injEq] at h
      subst h
      exact ⟨0, by simp, rfl, fun hk => (by cases hk), fun _ _ _ ho => (by cases ho)⟩
    | some op1 =>
      rw [hop1] at h
      simp only [] at h
      cases he : encodeOperand op1 1 2 opc st.IC
          { table := st.table, Code := st.Code, word_count := 1, is_reg := false,
            Error := st.Error } with
      | none => rw [he] at h; cases h
      | some r =>
        obtain ⟨s1, go⟩ := r
        rw [he] at h
        have hf := encodeOperand_frame _ _ _ _ _ _ _ _ he
        cases go with
        | false =>
          simp only [Option.some.injEq] at h
          subst h
          have := hf.2.2.2 rfl
          rw [(closeOperands_facts _ _ _).2.2.1, this] at herr
          cases herr
        | true =>
          obtain ⟨hm, hc, hw1, hr1⟩ := encodeOperand_opword _ _ _ _ _ _ _ he (le_refl 1)
            (fun hr => by cases hr)
          simp only [] at hm hc
          rw [if_pos ⟨trivial, trivial⟩] at hc
          simp only [] at h
          cases hop2 : deleteSpacesP (strtok (strtok rest ",\r\n".toList).2 "\r\n".toList).1 with
          | none =>
            rw [hop2] at h
            simp only [Option.some.injEq] at h
            subst h
            refine ⟨_, ?_, (mode_low_bits _ hm).2, fun hk => (by cases hk),
              fun _ _ _ _ ho => (by cases ho)⟩
            rw [(closeOperands_facts _ _ _).2.1]
            exact hc
          | some op2 =>
            rw [hop2] at h
            simp only [] at h
            cases he2 : encodeOperand op2 2 2 opc st.IC s1 with
            | none => rw [he2] at h; cases h
            | some r2 =>
              obtain ⟨s2, go2⟩ := r2
              rw [he2] at h
              simp only [Option.some.injEq] at h
              subst h
              have hf2 := encodeOperand_frame _ _ _ _ _ _ _ _ he2
              cases go2 with
              | false =>
                have := hf2.2.2.2 rfl
                rw [(closeOperands_facts _ _ _).2.2.1, this] at herr
                cases herr
              | true =>
                obtain ⟨hm2, hc2, _, _⟩ := encodeOperand_opword _ _ _ _ _ _ _ he2 hw1 hr1
                rw [getAddressingMode_rel op2 _ _ hf.1] at hm2 hc2
                simp only [] at hm2 hc2
                rw [if_neg (by omega)] at hc2
                refine ⟨_, ?_, or_low_bits _ _ (mode_low_bits _ hm).2 (mode_low_bits _ hm2).1,
                  fun hk => (by cases hk), ?_⟩
                · rw [(closeOperands_facts _ _ _).2.1, hc2, hc, Nat.lor_assoc]
                · intro _ o1 o2 ho1 ho2
                  simp only [Option.some.injEq] at ho1 ho2
                  subst ho1
                  subst ho2
                  exact ⟨hm, hm2, rfl⟩
  · rw [if_neg k2] at h
    simp only [Option.some.injEq] at h
    subst h
    exact ⟨0, by simp [closeOperands], rfl, fun hk => absurd hk k1, fun hk => absurd hk k2⟩

theorem opcode_word (opc : Int) (h0 : 0 ≤ opc) (h15 : opc ≤ 15) :
    ((opc * 64) % 1024).toNat = opc.toNat <<< 6 ∧ (opc.toNat <<< 6) % 4 = 0 := by
  rw [Nat.shiftLeft_eq]
  omega

/-- C30: when `EncodeInstruction` returns without error for a line whose first
word is `inst`, at `IC` over a zeroed word `Code[IC]`, then `inst` is one of the
sixteen mnemonics, bits 1..0 of `Code[IC]` are 0, and `Code[IC]` is
`opcode << 6` for an opcode without operands, `(opcode << 6) | (mode << 2)` for
a one-operand opcode with operand of addressing mode `mode`, and
`(opcode << 6) | (mode1 << 4) | (mode2 << 2)` for a two-operand opcode with
operands of modes `mode1` and `mode2`; the modes are in 0..3. -/
theorem C30_opcode_word (line inst : CStr) (st st' : AsmState)
    (hinst : deleteSpacesP (strtok line " \r\n".toList).1 = some inst)
    (hrun : EncodeInstruction line st = some st') (herr : st'.Error = false)
    (hz : st.Code st.IC = 0) :
    inst ∈ mnemonics ∧ st'.Code st.IC % 4 = 0 ∧
    (getNumOperand (getOpcode inst) = 0 → st'.Code st.IC = (getOpcode inst).toNat <<< 6) ∧
    (getNumOperand (getOpcode inst) = 1 → ∀ rest op,
      deleteSpacesP (strtok (strtok line " \r\n".toList).2 "\r\n".toList).1 = some rest →
      deleteSpacesP (strtok rest "\r\n".toList).1 = some op →
      (0 ≤ getAddressingMode op st.table ∧ getAddressingMode op st.table ≤ 3) ∧
      st'.Code st.IC =
        (getOpcode inst).toNat <<< 6 ||| (getAddressingMode op st.table).toNat <<< 2) ∧
    (getNumOperand (getOpcode inst) = 2 → ∀ rest op1 op2,
      deleteSpacesP (strtok (strtok line " \r\n".toList).2 "\r\n".toList).1 = some rest →
      deleteSpacesP (strtok rest ",\r\n".toList).1 = some op1 →
      deleteSpacesP (strtok (strtok rest ",\r\n".toList).2 "\r\n".toList).1 = some op2 →
      (0 ≤ getAddressingMode op1 st.table ∧ getAddressingMode op1 st.table ≤ 3) ∧
      (0 ≤ getAddressingMode op2 st.table ∧ getAddressingMode op2 st.table ≤ 3) ∧
      st'.Code st.IC =
        (getOpcode inst).toNat <<< 6 ||| (getAddressingMode op1 st.table).toNat <<< 4 |||
          (getAddressingMode op2 st.table).toNat <<< 2) := by
  unfold EncodeInstruction at hrun
  simp only [hinst] at hrun
  by_cases hop : getOpcode inst = -1
  · rw [if_pos hop] at hrun
    simp only [Option.some.injEq] at hrun
    subst hrun
    cases herr
  rw [if_neg hop] at hrun
  have hmn := (getOpcode_mnemonic inst).mp hop
  obtain ⟨_, _, h0, h15⟩ := mnemonic_facts inst hmn
  obtain ⟨hw, hw4⟩ := opcode_word _ h0 h15
  have hword : insertBin (getOpcode inst * 64) st.Code st.IC st.IC = (getOpcode inst).toNat <<< 6 := by
    rw [insertBin_same, hz, Nat.zero_or, hw]
  refine ⟨hmn, ?_⟩
  by_cases k0 : getNumOperand (getOpcode inst) = 0
  · rw [if_pos k0] at hrun
    simp only [Option.some.injEq] at hrun
    subst hrun
    simp only []
    rw [hword]
    exact ⟨hw4, fun _ => rfl, fun hk => (by omega), fun hk => (by omega)⟩
  rw [if_neg k0] at hrun
  cases hrest : deleteSpacesP (strtok (strtok line " \r\n".toList).2 "\r\n".toList).1 with
  | none =>
    rw [hrest] at hrun
    have hn : IsValidInstSyntax none (getNumOperand (getOpcode inst)) = none := by
      unfold IsValidInstSyntax
      simp
    rw [hn] at hrun
    cases hrun
  | some rest =>
    rw [hrest] at hrun
    cases hsyn : IsValidInstSyntax (some rest) (getNumOperand (getOpcode inst)) with
    | none =>
      rw [hsyn] at hrun
      cases hrun
    | some b =>
      rw [hsyn] at hrun
      cases b with
      | false =>
        simp only [Option.some.injEq] at hrun
        subst hrun
        cases herr
      | true =>
        simp only [] at hrun
        obtain ⟨w, hc, hw0, hk1, hk2⟩ := EncodeOperands_opword _ _ _ _ _ hrun herr
        simp only [] at hc hk1 hk2
        rw [hword] at hc
        refine ⟨?_, fun hk => absurd hk k0, ?_, ?_⟩
        · rw [hc]
          exact or_low_bits _ _ hw4 hw0
        · intro hk r op hr ho
          simp only [Option.some.injEq] at hr
          subst hr
          obtain ⟨hm, hwv⟩ := hk1 hk op ho
          refine ⟨by omega, ?_⟩
          rw [hc, hwv, Nat.shiftLeft_eq (getAddressingMode op st.table).toNat 2]
        · intro hk r op1 op2 hr ho1 ho2
          simp only [Option.some.injEq] at hr
          subst hr
          obtain ⟨hm1, hm2, hwv⟩ := hk2 hk op1 op2 ho1 ho2
          refine ⟨by omega, by omega, ?_⟩
          rw [hc, hwv, Nat.shiftLeft_eq (getAddressingMode op1 st.table).toNat 4,
            Nat.shiftLeft_eq (getAddressingMode op2 st.table).toNat 2, ← Nat.lor_assoc]

/-- C30, witness: `mov #5, r1` gives the opcode word `(0 << 6) | (0 << 4) | (3 << 2)`. -/
theorem C30_opcode_word_witness :
    ((EncodeInstruction "mov #5, r1\n".toList emptyState).getD emptyState).Code 0 =
      0 <<< 6 ||| 0 <<< 4 ||| 3 <<< 2 :=
  (C30_opcode_word "mov #5, r1\n".toList "mov".toList emptyState
    ((EncodeInstruction "mov #5, r1\n".toList emptyState).getD emptyState)
    (by decide) (isSome_getD _ _ (by decide!)) (by decide!) (by decide)).2.2.2.2
    (by decide) "#5, r1".toList "#5".toList "r1".toList (by decide) (by decide)
    (by decide) |>.2.2


/-! ## Claim C25: what the first pass stores -/

/-- A step of the first pass leaves the table alone or adds one label: for an
`.extern` line the external label of its name, for a label line the label of
its name, a matrix when the remainder starts with `.mat`. -/
theorem FirstPassLine_adds (line : CStr) (t t1 : LabelTable) (e e1 : Bool)
    (h : FirstPassLine line t e = some (t1, e1)) :
    t1 = t ∨ ∃ l, FreshFrom line l ∧ findLabel t l.name = -1 ∧
      t1 = addLabel t l.name l.ext l.mat ∧ e1 = e := by
  unfold FirstPassLine at h
  by_cases hc : (isExtern line || IsLabelDefinition line) = true
  · rw [if_pos hc] at h
    simp only [] at h
    by_cases hx : isExtern (stripLineEnd line) = true
    · rw [if_pos hx] at h
      simp only [Option.some.injEq] at h
      have hx' : isExtern line = true := by rw [← isExtern_strip]; exact hx
      unfold ProcessExternDefinition at h
      simp only [] at h
      split_ifs at h with c1 c2 c3 c4
      · simp only [Prod.mk.injEq] at h
        exact Or.inl h.1.symm
      · simp only [Prod.mk.injEq] at h
        exact Or.inl h.1.symm
      · simp only [Prod.mk.injEq] at h
        exact Or.inl h.1.symm
      · simp only [Prod.mk.injEq] at h
        exact Or.inl h.1.symm
      · simp only [Prod.mk.injEq] at h
        right
        refine ⟨createLabel (externNameOf line) true false, Or.inl ⟨hx', rfl⟩, ?_, h.1.symm,
          h.2.symm⟩
        simpa [createLabel, externNameOf] using c4
    · rw [if_neg hx] at h
      have hx' : isExtern line = false := by
        rw [← isExtern_strip]
        simpa using hx
      have hlab : IsLabelDefinition line = true := by
        rw [hx'] at hc
        simpa using hc
      unfold ProcessLabelDefinition at h
      simp only [] at h
      cases hn : deleteSpacesP (strtok (stripLineEnd line) ":\r\n".toList).1 with
      | none => rw [hn] at h; cases h
      | some name =>
        rw [hn] at h
        simp only [] at h
        by_cases c1 : (!validLabel name) = true
        · rw [if_pos c1] at h
          simp only [Option.some.injEq, Prod.mk.injEq] at h
          exact Or.inl h.1.symm
        rw [if_neg c1] at h
        by_cases c2 : findLabel t name ≠ -1
        · rw [if_pos c2] at h
          simp only [Option.some.injEq, Prod.mk.injEq] at h
          exact Or.inl h.1.symm
        rw [if_neg c2] at h
        cases hr : deleteSpacesP
            (strtok (strtok (stripLineEnd line) ":\r\n".toList).2 "\r\n".toList).1 with
        | none => rw [hr] at h; cases h
        | some rest =>
          rw [hr] at h
          simp only [Option.some.injEq, Prod.mk.injEq] at h
          right
          have hname : labelNameOf line = some name := by
            rw [← labelNameOf_strip]
            unfold labelNameOf
            rw [isLabel_strip, hlab, if_pos rfl, hn]
          refine ⟨createLabel name false (IsMatrixDirective rest),
            Or.inr ⟨hx', hlab, name, rest, hname, hr, rfl⟩, ?_, h.1.symm, h.2.symm⟩
          simpa [createLabel] using c2
  · rw [if_neg hc] at h
    simp only [Option.some.injEq, Prod.mk.injEq] at h
    exact Or.inl h.1.symm

theorem FirstPassLine_wf (line : CStr) (t t1 : LabelTable) (e e1 : Bool)
    (h : FirstPassLine line t e = some (t1, e1)) (hT : WF t) : WF t1 := by
  rcases FirstPassLine_adds line t t1 e e1 h with rfl | ⟨l, _, _, rfl, _⟩
  · exact hT
  · exact (addLabel_facts _ _ _ _ hT).1

/-- Every label of the table that the first pass returns was stored at some line
of the stream, as `createLabel` made it for that line. -/
theorem firstPass_introduced (rest pre : List CStr) (t t' : LabelTable) (e e' : Bool)
    (hpre : FirstPass pre false = some (t, e)) (hrest : FirstPassLoop rest t e = some (t', e'))
    (hT : WF t)
    (hinv : ∀ l ∈ allLabels t, ∃ line, IntroducedAt (pre ++ rest) l line ∧ FreshFrom line l) :
    ∀ l ∈ allLabels t', ∃ line, IntroducedAt (pre ++ rest) l line ∧ FreshFrom line l := by
  induction rest generalizing pre t e with
  | nil =>
    simp only [FirstPassLoop, Option.some.injEq, Prod.mk.injEq] at hrest
    obtain ⟨rfl, rfl⟩ := hrest
    exact hinv
  | cons line rest ih =>
    unfold FirstPassLoop at hrest
    cases hstep : FirstPassLine line t e with
    | none => rw [hstep] at hrest; cases hrest
    | some r =>
      obtain ⟨t1, e1⟩ := r
      rw [hstep] at hrest
      simp only [] at hrest
      have hpre1 : FirstPass (pre ++ [line]) false = some (t1, e1) := by
        unfold FirstPass at hpre ⊢
        rw [FirstPassLoop_append, hpre]
        simp only [FirstPassLoop, hstep]
      have hlist : pre ++ [line] ++ rest = pre ++ line :: rest := by simp
      have := ih (pre ++ [line]) t1 e1 hpre1 hrest (FirstPassLine_wf _ _ _ _ _ hstep hT)
      rw [hlist] at this
      apply this
      intro l hl
      rcases FirstPassLine_adds line t t1 e e1 hstep with rfl | ⟨l0, hfresh, hfind, ht1, he1⟩
      · exact hinv l hl
      · rw [ht1, he1] at hstep
        rw [ht1] at hl
        have hperm := (addLabel_facts t l0.name l0.ext l0.mat hT).2
        have hl0 : createLabel l0.name l0.ext l0.mat = l0 := by
          rcases hfresh with ⟨_, rfl⟩ | ⟨_, _, _, _, _, _, rfl⟩ <;> rfl
        rcases List.mem_cons.mp (hperm.subset hl) with hnew | hold
        · rw [hl0] at hnew
          subst hnew
          exact ⟨line, ⟨pre, rest, t, e, rfl, hpre, hfind, hstep⟩, hfresh⟩
        · exact hinv l hold

/-- C25: every label of the table that `FirstPass` returns has address 0, a
clear entry flag and an empty reference list, and was stored at a line of the
stream (the pass over the lines before it does not find the name, the step on
the line adds the label); the label is external exactly when that line is an
`.extern` line, and a matrix exactly when that line is a label line whose
remainder starts with `.mat`. -/
theorem C25_first_pass_labels (lines : List CStr) (t : LabelTable) (e : Bool)
    (h : FirstPass lines false = some (t, e)) :
    ∀ l ∈ allLabels t, l.address = 0 ∧ l.ent = false ∧ l.ref = [] ∧
      ∃ line, IntroducedAt lines l line ∧
        (l.ext = true ↔ isExtern line = true) ∧
        (l.mat = true ↔ (isExtern line = false ∧ IsLabelDefinition line = true ∧
          ∃ rest, remainderOf line = some rest ∧ IsMatrixDirective rest = true)) := by
  intro l hl
  have h0 : FirstPass [] false = some (create_LabelTable TABLE_SIZE, false) := rfl
  obtain ⟨line, hintro, hfresh⟩ := firstPass_introduced lines [] _ t false e h0 h
    (WF_create TABLE_SIZE (by decide)) (fun l hl => by simp [allLabels, create_LabelTable] at hl)
    l hl
  simp only [List.nil_append] at hintro
  rcases hfresh with ⟨hx, rfl⟩ | ⟨hx, hlab, name, rest, hname, hrest, rfl⟩
  · refine ⟨rfl, rfl, rfl, line, hintro, ?_, ?_⟩
    · simp [createLabel, hx]
    · simp [createLabel, hx]
  · refine ⟨rfl, rfl, rfl, line, hintro, ?_, ?_⟩
    · simp [createLabel, hx]
    · simp only [createLabel]
      constructor
      · intro hm
        exact ⟨hx, hlab, rest, hrest, hm⟩
      · rintro ⟨_, _, r2, hr2, hm⟩
        rw [hrest] at hr2
        simp only [Option.some.injEq] at hr2
        rw [hr2]
        exact hm

/-- C25, witness: in the stream `.extern X`, `M: .mat [2][2]`, `A: stop` the
label `M` is stored as a matrix that is not external. -/
theorem C25_first_pass_witness :
    createLabel "M".toList false true ∈
      allLabels ((FirstPass threeKindsSource false).getD
        (create_LabelTable TABLE_SIZE, false)).1 ∧
    ∃ line, IntroducedAt threeKindsSource (createLabel "M".toList false true) line ∧
      ((createLabel "M".toList false true).ext = true ↔ isExtern line = true) ∧
      ((createLabel "M".toList false true).mat = true ↔
        (isExtern line = false ∧ IsLabelDefinition line = true ∧
          ∃ rest, remainderOf line = some rest ∧ IsMatrixDirective rest = true)) :=
  ⟨by decide,
   (C25_first_pass_labels threeKindsSource _ _
    (isSome_getD _ (create_LabelTable TABLE_SIZE, false) (by decide))
    (createLabel "M".toList false true) (by decide)).2.2.2⟩

/-! ## Words and positions of one operand -/

/-- The word count, the flag and the untouched words of `encodeRegisterOperand`. -/
theorem encodeRegisterOperand_facts (operand : CStr) (Code : Mem) (i k IC : Nat)
    (is_reg : Bool) (wc : Nat) :
    (k = 1 → (encodeRegisterOperand operand Code i k IC is_reg wc).2.2 = wc + 1 ∧
      (encodeRegisterOperand operand Code i k IC is_reg wc).2.1 = is_reg) ∧
    (k ≠ 1 → i = 1 → (encodeRegisterOperand operand Code i k IC is_reg wc).2.2 = wc + 1 ∧
      (encodeRegisterOperand operand Code i k IC is_reg wc).2.1 = true) ∧
    (k ≠ 1 → i = 2 → is_reg = true →
      (encodeRegisterOperand operand Code i k IC is_reg wc).2.2 = wc ∧
      (encodeRegisterOperand operand Code i k IC is_reg wc).2.1 = false) ∧
    (k ≠ 1 → i = 2 → is_reg = false →
      (encodeRegisterOperand operand Code i k IC is_reg wc).2.2 = wc + 1 ∧
      (encodeRegisterOperand operand Code i k IC is_reg wc).2.1 = false) ∧
    (1 ≤ wc → ∀ j, ((j < IC + wc ∧ (j + 1 < IC + wc ∨ is_reg = false)) ∨
        IC + (encodeRegisterOperand operand Code i k IC is_reg wc).2.2 ≤ j) →
      (encodeRegisterOperand operand Code i k IC is_reg wc).1 j = Code j) := by
  unfold encodeRegisterOperand
  simp only []
  by_cases c1 : k = 1
  · simp only [if_pos c1]
    refine ⟨fun _ => ⟨trivial, trivial⟩, fun h => absurd c1 h, fun h => absurd c1 h,
      fun h => absurd c1 h, fun hwc j hj => insertBin_other _ _ _ _ (by omega)⟩
  simp only [if_neg c1]
  by_cases c2 : i = 1
  · simp only [if_pos c2]
    refine ⟨fun h => absurd h c1, fun _ _ => ⟨trivial, trivial⟩, fun _ h => ?_, fun _ h => ?_,
      fun hwc j hj => insertBin_other _ _ _ _ (by omega)⟩
    · omega
    · omega
  simp only [if_neg c2]
  by_cases c3 : i = 2
  · simp only [if_pos c3]
    cases is_reg with
    | true =>
      simp only [if_true]
      refine ⟨fun h => absurd h c1, fun _ h => absurd h c2, fun _ _ _ => ⟨trivial, trivial⟩,
        fun _ _ h => (by cases h), fun hwc j hj => insertBin_other _ _ _ _ ?_⟩
      rcases hj with ⟨h1, h2 | h2⟩ | h2
      · omega
      · cases h2
      · omega
    | false =>
      simp only [Bool.false_eq_true, if_false]
      refine ⟨fun h => absurd h c1, fun _ h => absurd h c2, fun _ _ h => (by cases h),
        fun _ _ _ => ⟨trivial, trivial⟩, fun hwc j hj => insertBin_other _ _ _ _ ?_⟩
      rcases hj with ⟨h1, _⟩ | h2
      · omega
      · omega
  · simp only [if_neg c3]
    exact ⟨fun h => absurd h c1, fun _ h => absurd h c2, fun _ h => absurd h c3,
      fun _ h => absurd h c3, fun _ _ _ => trivial⟩

/-- A turn of the operand loop that goes on: how many words the operand takes,
by its addressing mode, and what becomes of the flag `is_reg`. -/
theorem encodeOperand_words (op : CStr) (i k : Nat) (opc : Int) (IC : Nat)
    (s s' : OperandState) (h : encodeOperand op i k opc IC s = some (s', true)) :
    (getAddressingMode op s.table ≠ 3 →
      s'.word_count = s.word_count + operandWords (getAddressingMode op s.table) ∧
      s'.is_reg = s.is_reg) ∧
    (getAddressingMode op s.table = 3 →
      (k = 1 → s'.word_count = s.word_count + 1 ∧ s'.is_reg = s.is_reg) ∧
      (k ≠ 1 → i = 1 → s'.word_count = s.word_count + 1 ∧ s'.is_reg = true) ∧
      (k ≠ 1 → i = 2 → s.is_reg = true →
        s'.word_count = s.word_count ∧ s'.is_reg = false) ∧
      (k ≠ 1 → i = 2 → s.is_reg = false →
        s'.word_count = s.word_count + 1 ∧ s'.is_reg = false)) := by
  unfold encodeOperand at h
  simp only [] at h
  by_cases h1 : getAddressingMode op s.table = IMMEDIATE
  · rw [if_pos h1] at h
    have hm : getAddressingMode op s.table = 0 := h1
    by_cases h2 : (!isValidImmediate op || !IsValidImmUse i opc k) = true
    · rw [if_pos h2] at h
      simp at h
    · rw [if_neg h2] at h
      simp only [Option.some.injEq, Prod.mk.injEq, and_true] at h
      subst h
      rw [hm]
      exact ⟨fun _ => ⟨rfl, rfl⟩, fun h3 => absurd h3 (by decide)⟩
  rw [if_neg h1] at h
  by_cases h2 : getAddressingMode op s.table = LABEL
  · rw [if_pos h2] at h
    have hm : getAddressingMode op s.table = 1 := h2
    split at h
    · simp at h
    · simp at h
    · rename_i t c w heq
      simp only [Option.some.injEq, Prod.mk.injEq, and_true] at h
      subst h
      obtain ⟨cur, _, _, rfl, rfl⟩ := encodeLabelOperand_true _ _ _ _ _ _ _ _ heq
      rw [hm]
      exact ⟨fun _ => ⟨rfl, rfl⟩, fun h3 => absurd h3 (by decide)⟩
  rw [if_neg h2] at h
  by_cases h3 : getAddressingMode op s.table = MATRIX
  · rw [if_pos h3] at h
    have hm : getAddressingMode op s.table = 2 := h3
    split at h
    · simp at h
    · simp at h
    · rename_i t c w heq
      simp only [Option.some.injEq, Prod.mk.injEq, and_true] at h
      subst h
      obtain ⟨cur, name, a, b, _, _, _, rfl, rfl⟩ :=
        encodeMatrixOperand_true _ _ _ _ _ _ _ _ heq
      rw [hm]
      exact ⟨fun _ => ⟨rfl, rfl⟩, fun h3 => absurd h3 (by decide)⟩
  rw [if_neg h3] at h
  by_cases h4 : getAddressingMode op s.table = REGISTER
  · rw [if_pos h4] at h
    have hm : getAddressingMode op s.table = 3 := h4
    by_cases h5 : (!isValidReg op || !IsValidRegUse i k opc) = true
    · rw [if_pos h5] at h
      simp at h
    · rw [if_neg h5] at h
      simp only [Option.some.injEq, Prod.mk.injEq, and_true] at h
      subst h
      obtain ⟨f1, f2, f3, f4, _⟩ :=
        encodeRegisterOperand_facts op s.Code i k IC s.is_reg s.word_count
      exact ⟨fun hne => absurd hm hne, fun _ => ⟨f1, f2, f3, f4⟩⟩
  rw [if_neg h4] at h
  simp at h

/-- A turn of the operand loop that goes on writes, apart from the opcode word,
only the words of its operand: nothing below the last word counted so far,
that word only when a second register joins a first one, and nothing from the
new word count on. -/
theorem encodeOperand_writes (op : CStr) (i k : Nat) (opc : Int) (IC : Nat)
    (s s' : OperandState) (h : encodeOperand op i k opc IC s = some (s', true))
    (hwc : 1 ≤ s.word_count) (j : Nat) (hj : j ≠ IC)
    (hpos : (j < IC + s.word_count ∧
        (j + 1 < IC + s.word_count ∨ getAddressingMode op s.table ≠ 3 ∨ s.is_reg = false)) ∨
      IC + s'.word_count ≤ j) :
    s'.Code j = s.Code j := by
  have hw := encodeOperand_words op i k opc IC s s' h
  unfold encodeOperand at h
  simp only [] at h
  by_cases h1 : getAddressingMode op s.table = IMMEDIATE
  · rw [if_pos h1] at h
    have hm : getAddressingMode op s.table = 0 := h1
    have hw1 := (hw.1 (by rw [hm]; decide)).1
    rw [hm] at hw1
    simp only [operandWords] at hw1
    by_cases h2 : (!isValidImmediate op || !IsValidImmUse i opc k) = true
    · rw [if_pos h2] at h
      simp at h
    · rw [if_neg h2] at h
      simp only [Option.some.injEq, Prod.mk.injEq, and_true] at h
      subst h
      simp only [encodeImmediate] at hpos hw1 ⊢
      rw [insertBin_other _ _ _ _ hj, insertBin_other _ _ _ _ (by omega)]
  rw [if_neg h1] at h
  by_cases h2 : getAddressingMode op s.table = LABEL
  · rw [if_pos h2] at h
    have hm : getAddressingMode op s.table = 1 := h2
    split at h
    · simp at h
    · simp at h
    · rename_i t c w heq
      simp only [Option.some.injEq, Prod.mk.injEq, and_true] at h
      subst h
      obtain ⟨cur, _, _, rfl, rfl⟩ := encodeLabelOperand_true _ _ _ _ _ _ _ _ heq
      simp only [] at hpos ⊢
      rw [insertBin_other _ _ _ _ hj, insertBin_other _ _ _ _ (by omega)]
  rw [if_neg h2] at h
  by_cases h3 : getAddressingMode op s.table = MATRIX
  · rw [if_pos h3] at h
    have hm : getAddressingMode op s.table = 2 := h3
    split at h
    · simp at h
    · simp at h
    · rename_i t c w heq
      simp only [Option.some.injEq, Prod.mk.injEq, and_true] at h
      subst h
      obtain ⟨cur, name, a, b, _, _, _, rfl, rfl⟩ :=
        encodeMatrixOperand_true _ _ _ _ _ _ _ _ heq
      simp only [] at hpos ⊢
      rw [insertBin_other _ _ _ _ hj, insertBin_other _ _ _ _ (by omega),
        insertBin_other _ _ _ _ (by omega), insertBin_other _ _ _ _ (by omega)]
  rw [if_neg h3] at h
  by_cases h4 : getAddressingMode op s.table = REGISTER
  · rw [if_pos h4] at h
    have hm : getAddressingMode op s.table = 3 := h4
    by_cases h5 : (!isValidReg op || !IsValidRegUse i k opc) = true
    · rw [if_pos h5] at h
      simp at h
    · rw [if_neg h5] at h
      simp only [Option.some.injEq, Prod.mk.injEq, and_true] at h
      subst h
      obtain ⟨_, _, _, _, f5⟩ :=
        encodeRegisterOperand_facts op s.Code i k IC s.is_reg s.word_count
      simp only [] at hpos ⊢
      rw [insertBin_other _ _ _ _ hj]
      apply f5 hwc j
      rcases hpos with ⟨p1, p2 | p2 | p2⟩ | p2
      · exact Or.inl ⟨p1, Or.inl p2⟩
      · exact absurd hm p2
      · exact Or.inl ⟨p1, Or.inr p2⟩
      · exact Or.inr p2
  rw [if_neg h4] at h
  simp at h


/-! ## Immediate operands -/

theorem isValidNum_litText (x : IntLit) (h : litOk x = true) :
    isValidNum (litText x) = true := by
  have hd := decText_num x.digits h
  unfold litText
  rcases hs : x.sign with _ | b
  · simp only [List.nil_append]
    exact isValidNum_decText _ h
  · obtain ⟨c, r, hcr⟩ := List.exists_cons_of_ne_nil hd.1
    have hall : (c :: r).all isdigit = true := by
      rw [← hcr, List.all_eq_true]
      intro y hy
      rcases hd.2 y hy with h1 | h1 | h1
      · exact h1
      · rw [hcr] at hy
        have := decText_digits x.digits (digitsOk_iff _ h).2 y (by rw [hcr]; exact hy)
        exact this
      · have := decText_digits x.digits (digitsOk_iff _ h).2 y hy
        exact this
    cases b <;> simp only [List.singleton_append, hcr] <;> unfold isValidNum <;> simpa using hall

theorem isValidNum_eq (r : CStr) : isValidNum r = (r.isEmpty || isIntLiteral r) := by
  cases r with
  | nil => rfl
  | cons c r =>
    unfold isValidNum isIntLiteral
    simp only [List.isEmpty_cons, Bool.false_or]
    by_cases hc : (c = '-' || c = '+') = true
    · have hc2 : (c = '+' || c = '-') = true := by
        simp only [Bool.or_eq_true, decide_eq_true_eq] at hc ⊢
        exact hc.symm
      rw [if_pos hc, if_pos hc2]
      cases r with
      | nil => rfl
      | cons d r => simp
    · have hc2 : ¬ (c = '+' || c = '-') = true := by
        simp only [Bool.or_eq_true, decide_eq_true_eq] at hc ⊢
        exact fun h => hc h.symm
      rw [if_neg hc, if_neg hc2]

/-- C33, counterexample: the literal 9223372036854775808 is beyond the range of
`long`; `atoi` returns -1 for it, so the operand word of `prn
#9223372036854775808` is `255 * 4 = 1020`, written without error, while the
value of the literal is 0 modulo 256. -/
theorem C33_long_immediate_saturates :
    (encodeOperand "#9223372036854775808".toList 1 1 13 0 (operandStart emptyState)).map
      (fun r => (r.2, r.1.Error, r.1.Code 1)) = some (true, false, 1020) ∧
    (assembleFile ["prn #9223372036854775808\n".toList]).map
      (fun st => (st.Error, st.IC, st.Code 1)) = some (false, 2, 1020) ∧
    atoi "9223372036854775808".toList = -1 ∧
    litText ⟨none, [9, 2, 2, 3, 3, 7, 2, 0, 3, 6, 8, 5, 4, 7, 7, 5, 8, 0, 8]⟩ =
      "9223372036854775808".toList ∧
    (litValue ⟨none, [9, 2, 2, 3, 3, 7, 2, 0, 3, 6, 8, 5, 4, 7, 7, 5, 8, 0, 8]⟩ % 256).toNat * 4
      = 0 := by
  decide!

/-- C33 (amended): for every decimal immediate literal `#x` (an optional sign and
one or more digits) whose integer value `v` is in the range of `long`, in a
position where an immediate may stand, the turn of the operand loop goes on and
the operand word, written over a zeroed word behind the words counted so far,
is `(v mod 256) * 4`: the value modulo 256 sits in bits 9..2 and bits 1..0 are
0. -/
theorem C33_immediate_word (x : IntLit) (i k : Nat) (opc : Int) (IC : Nat) (s : OperandState)
    (hx : litOk x = true) (hfit : fitsLong (litValue x) = true)
    (huse : IsValidImmUse i opc k = true) (hwc : 1 ≤ s.word_count)
    (hz : s.Code (IC + s.word_count) = 0) :
    ∃ s', encodeOperand ('#' :: litText x) i k opc IC s = some (s', true) ∧
      s'.Code (IC + s.word_count) = (litValue x % 256).toNat * 4 ∧
      s'.Code (IC + s.word_count) / 4 = (litValue x % 256).toNat ∧
      s'.Code (IC + s.word_count) % 4 = 0 ∧
      s'.word_count = s.word_count + 1 := by
  refine ⟨_, encodeOperand_imm (litText x) (isValidNum_litText x hx) i k opc IC s huse, ?_⟩
  have hw : insertBin (if i = 1 ∧ k = 2 then (0 : Int) * 16 else 0 * 4)
      (insertBin (toInt16 (atoi (litText x)) * 4) s.Code (IC + s.word_count)) IC
        (IC + s.word_count) = (litValue x % 256).toNat * 4 := by
    rw [insertBin_other _ _ _ _ (by omega), insertBin_same, hz, Nat.zero_or, imm_word,
      (atoi_litText x hx hfit).2.2]
  simp only []
  rw [hw]
  refine ⟨rfl, ?_, ?_, trivial⟩
  · omega
  · omega

/-- C33, witness: `prn #-1` writes the operand word `255 * 4 = 1020`. -/
theorem C33_immediate_word_witness :
    ∃ s', encodeOperand "#-1".toList 1 1 13 0 (operandStart emptyState) = some (s', true) ∧
      s'.Code 1 = 1020 ∧ s'.Code 1 / 4 = 255 ∧ s'.Code 1 % 4 = 0 ∧ s'.word_count = 2 :=
  C33_immediate_word ⟨some true, [1]⟩ 1 1 13 0 (operandStart emptyState) (by decide) (by decide)
    (by decide) (by decide) (by decide)

/-- C34, failing input `prn #`: `isValidNum` accepts the empty string, so
`isValidImmediate` accepts the operand `#`, which has no digit; the instruction
is encoded without error with the operand word 0. In general `isValidImmediate`
accepts exactly `#` alone and the texts `#`, optional sign, one or more digits,
and an operand `#...` that it does not accept ends the operand loop with the
error flag set. -/
theorem C34_bare_hash_accepted :
    isValidImmediate "#".toList = true ∧ isImmediateText "#".toList = false ∧
    (EncodeInstruction "prn #\n".toList emptyState).map
      (fun st => (st.Error, st.IC, st.Code 0, st.Code 1)) = some (false, 2, 832, 0) ∧
    (assembleFile ["prn #\n".toList]).map (fun st => (st.Error, st.IC)) = some (false, 2) ∧
    (∀ op, isValidImmediate op = (decide (op = "#".toList) || isImmediateText op)) ∧
    ∀ r i k opc IC s, isValidImmediate ('#' :: r) = false →
      encodeOperand ('#' :: r) i k opc IC s = some ({ s with Error := true }, false) := by
  refine ⟨by decide, by decide, by decide!, by decide!, ?_, ?_⟩
  swap
  · intro r i k opc IC s hv
    have hm : getAddressingMode ('#' :: r) s.table = 0 := by
      unfold getAddressingMode; simp
    unfold encodeOperand
    simp only [hm, IMMEDIATE, hv]
    simp
  intro op
  cases op with
  | nil => rfl
  | cons c r =>
    unfold isValidImmediate isImmediateText
    by_cases hc : c = '#'
    · subst hc
      simp only [List.head?_cons, ne_eq, not_true_eq_false, if_false, List.drop_succ_cons,
        List.drop_zero, decide_True, Bool.true_and]
      rw [isValidNum_eq]
      cases r with
      | nil => rfl
      | cons d r => simp
    · have h1 : (c :: r).head? ≠ some '#' := by simpa using hc
      rw [if_pos h1]
      simp [hc]


/-! ## The operand text `NAME[rX][rY]` -/

theorem reg_fields (x y : Nat) (hx : x < 8) (hy : y < 8) :
    (((x : Int) * 64) % 1024).toNat = x <<< 6 ∧ (((y : Int) * 4) % 1024).toNat = y <<< 2 := by
  rw [Nat.shiftLeft_eq, Nat.shiftLeft_eq]
  omega

/-- When `EncodeOperands` returns without error and its operands are present,
every turn of its loop went on and the locals of the last turn are written
back. -/
theorem EncodeOperands_turns (k : Nat) (rest : CStr) (opc : Int) (st st' : AsmState)
    (h : EncodeOperands k rest opc st = some st') (herr : st'.Error = false) :
    (k = 1 → ∀ op, deleteSpacesP (strtok rest "\r\n".toList).1 = some op →
      ∃ s1, encodeOperand op 1 1 opc st.IC (operandStart st) = some (s1, true) ∧
        st' = closeOperands st s1 true) ∧
    (k = 2 → ∀ op1 op2, deleteSpacesP (strtok rest ",\r\n".toList).1 = some op1 →
      deleteSpacesP (strtok (strtok rest ",\r\n".toList).2 "\r\n".toList).1 = some op2 →
      ∃ s1 s2, encodeOperand op1 1 2 opc st.IC (operandStart st) = some (s1, true) ∧
        encodeOperand op2 2 2 opc st.IC s1 = some (s2, true) ∧
        st' = closeOperands st s2 true) := by
  unfold EncodeOperands at h
  simp only [] at h
  by_cases k1 : k = 1
  · subst k1
    rw [if_pos rfl] at h
    refine ⟨fun _ op hop => ?_, fun hk => (by cases hk)⟩
    rw [hop] at h
    simp only [] at h
    cases he : encodeOperand op 1 1 opc st.IC
        { table := st.table, Code := st.Code, word_count := 1, is_reg := false,
          Error := st.Error } with
    | none => rw [he] at h; cases h
    | some r =>
      obtain ⟨s1, go⟩ := r
      rw [he] at h
      simp only [Option.some.injEq] at h
      subst h
      have hf := encodeOperand_frame _ _ _ _ _ _ _ _ he
      cases go with
      | false =>
        have := hf.2.2.2 rfl
        rw [(closeOperands_facts _ _ _).2.2.1, this] at herr
        cases herr
      | true => exact ⟨s1, he, rfl⟩
  rw [if_neg k1] at h
  by_cases k2 : k = 2
  · subst k2
    rw [if_pos rfl] at h
    refine ⟨fun hk => (by cases hk), fun _ op1 op2 hop1 hop2 => ?_⟩
    rw [hop1] at h
    simp only [] at h
    cases he : encodeOperand op1 1 2 opc st.IC
        { table := st.table, Code := st.Code, word_count := 1, is_reg := false,
          Error := st.Error } with
    | none => rw [he] at h; cases h
    | some r =>
      obtain ⟨s1, go⟩ := r
      rw [he] at h
      have hf := encodeOperand_frame _ _ _ _ _ _ _ _ he
      cases go with
      | false =>
        simp only [Option.some.injEq] at h
        subst h
        have := hf.2.2.2 rfl
        rw [(closeOperands_facts _ _ _).2.2.1, this] at herr
        cases herr
      | true =>
        simp only [] at h
        rw [hop2] at h
        simp only [] at h
        cases he2 : encodeOperand op2 2 2 opc st.IC s1 with
        | none => rw [he2] at h; cases h
        | some r2 =>
          obtain ⟨s2, go2⟩ := r2
          rw [he2] at h
          simp only [Option.some.injEq] at h
          subst h
          have hf2 := encodeOperand_frame _ _ _ _ _ _ _ _ he2
          cases go2 with
          | false =>
            have := hf2.2.2.2 rfl
            rw [(closeOperands_facts _ _ _).2.2.1, this] at herr
            cases herr
          | true => exact ⟨s1, s2, he, he2, rfl⟩
  · exact ⟨fun hk => absurd hk k1, fun hk => absurd hk k2⟩

/-- When `EncodeInstruction` returns without error, the first word of the line
is a mnemonic; an instruction without operands takes the opcode word, and for
an instruction with operands `EncodeOperands` ran on the operand text behind
the opcode word written. -/
theorem EncodeInstruction_cases (line inst : CStr) (st st' : AsmState)
    (hinst : deleteSpacesP (strtok line " \r\n".toList).1 = some inst)
    (hrun : EncodeInstruction line st = some st') (herr : st'.Error = false) :
    inst ∈ mnemonics ∧
    (getNumOperand (getOpcode inst) = 0 →
      st' = { st with Code := insertBin (getOpcode inst * 64) st.Code st.IC, IC := st.IC + 1 }) ∧
    (getNumOperand (getOpcode inst) ≠ 0 → ∃ rest,
      deleteSpacesP (strtok (strtok line " \r\n".toList).2 "\r\n".toList).1 = some rest ∧
      EncodeOperands (getNumOperand (getOpcode inst)) rest (getOpcode inst)
        { st with Code := insertBin (getOpcode inst * 64) st.Code st.IC } = some st') := by
  unfold EncodeInstruction at hrun
  simp only [hinst] at hrun
  by_cases hop : getOpcode inst = -1
  · rw [if_pos hop] at hrun
    simp only [Option.some.injEq] at hrun
    subst hrun
    cases herr
  rw [if_neg hop] at hrun
  refine ⟨(getOpcode_mnemonic inst).mp hop, ?_⟩
  by_cases k0 : getNumOperand (getOpcode inst) = 0
  · rw [if_pos k0] at hrun
    simp only [Option.some.injEq] at hrun
    subst hrun
    exact ⟨fun _ => rfl, fun hk => absurd k0 hk⟩
  rw [if_neg k0] at hrun
  refine ⟨fun hk => absurd hk k0, fun _ => ?_⟩
  cases hrest : deleteSpacesP (strtok (strtok line " \r\n".toList).2 "\r\n".toList).1 with
  | none =>
    rw [hrest] at hrun
    have hn : IsValidInstSyntax none (getNumOperand (getOpcode inst)) = none := by
      unfold IsValidInstSyntax
      simp
    rw [hn] at hrun
    cases hrun
  | some rest =>
    rw [hrest] at hrun
    cases hsyn : IsValidInstSyntax (some rest) (getNumOperand (getOpcode inst)) with
    | none =>
      rw [hsyn] at hrun
      cases hrun
    | some b =>
      rw [hsyn] at hrun
      cases b with
      | false =>
        simp only [Option.some.injEq] at hrun
        subst hrun
        cases herr
      | true =>
        simp only [] at hrun
        exact ⟨rest, rfl, hrun⟩

theorem closeOperands_IC (st : AsmState) (s : OperandState) :
    (closeOperands st s true).IC = st.IC + s.word_count := by
  simp [closeOperands]

/-- The advance of `IC` by `EncodeOperands` when it returns without error and its
operands are present. -/
theorem operands_advance (k : Nat) (rest : CStr) (opc : Int) (st st' : AsmState)
    (h : EncodeOperands k rest opc st = some st') (herr : st'.Error = false) :
    (k = 1 → ∀ op, deleteSpacesP (strtok rest "\r\n".toList).1 = some op →
      st'.IC = st.IC + 1 + operandWords (getAddressingMode op st.table)) ∧
    (k = 2 → ∀ op1 op2, deleteSpacesP (strtok rest ",\r\n".toList).1 = some op1 →
      deleteSpacesP (strtok (strtok rest ",\r\n".toList).2 "\r\n".toList).1 = some op2 →
      st'.IC = st.IC + 1 + operandWords (getAddressingMode op1 st.table) +
        operandWords (getAddressingMode op2 st.table) -
        (if getAddressingMode op1 st.table = 3 ∧ getAddressingMode op2 st.table = 3
         then 1 else 0)) := by
  obtain ⟨t1, t2⟩ := EncodeOperands_turns k rest opc st st' h herr
  have e3 : operandWords 3 = 1 := rfl
  refine ⟨fun hk op hop => ?_, fun hk op1 op2 hop1 hop2 => ?_⟩
  · obtain ⟨s1, he, rfl⟩ := t1 hk op hop
    have hw := encodeOperand_words _ _ _ _ _ _ _ he
    rw [closeOperands_IC]
    simp only [operandStart] at hw
    by_cases hm : getAddressingMode op st.table = 3
    · rw [((hw.2 hm).1 trivial).1, hm, e3]
    · rw [(hw.1 hm).1]
      omega
  · obtain ⟨s1, s2, he1, he2, rfl⟩ := t2 hk op1 op2 hop1 hop2
    have hw1 := encodeOperand_words _ _ _ _ _ _ _ he1
    have hw2 := encodeOperand_words _ _ _ _ _ _ _ he2
    have hf := encodeOperand_frame _ _ _ _ _ _ _ _ he1
    rw [getAddressingMode_rel op2 _ _ hf.1] at hw2
    rw [closeOperands_IC]
    simp only [operandStart] at hw1 hw2
    by_cases hm1 : getAddressingMode op1 st.table = 3
    · obtain ⟨a1, a2⟩ := (hw1.2 hm1).2.1 (by decide) trivial
      by_cases hm2 : getAddressingMode op2 st.table = 3
      · obtain ⟨b1, _⟩ := (hw2.2 hm2).2.2.1 (by decide) trivial a2
        rw [b1, a1, hm1, hm2, e3, if_pos ⟨rfl, rfl⟩]
        omega
      · obtain ⟨b1, _⟩ := hw2.1 hm2
        rw [b1, a1, hm1, e3, if_neg (fun hc => hm2 hc.2)]
        omega
    · obtain ⟨a1, a2⟩ := hw1.1 hm1
      rw [if_neg (fun hc => hm1 hc.1)]
      by_cases hm2 : getAddressingMode op2 st.table = 3
      · obtain ⟨b1, _⟩ := (hw2.2 hm2).2.2.2 (by decide) trivial a2
        rw [b1, a1, hm2, e3]
        omega
      · obtain ⟨b1, _⟩ := hw2.1 hm2
        rw [b1, a1]
        omega

/-- The advance of `IC` by one instruction line that `EncodeInstruction` encodes
without error: 1 for an opcode without operands and, when the operands are
present, `1 + w(operand)` for one operand and `1 + w(operand 1) + w(operand 2) - s`
for two, with `w` 2 for a matrix operand and 1 otherwise and `s` 1 when both
operands are registers; `DC` and the data words are unchanged. -/
theorem instruction_advance (line inst : CStr) (st st' : AsmState)
    (hinst : deleteSpacesP (strtok line " \r\n".toList).1 = some inst)
    (hrun : EncodeInstruction line st = some st') (herr : st'.Error = false) :
    st'.DC = st.DC ∧ st'.Data = st.Data ∧
    (getNumOperand (getOpcode inst) = 0 → st'.IC = st.IC + 1) ∧
    (getNumOperand (getOpcode inst) = 1 → ∀ rest op,
      deleteSpacesP (strtok (strtok line " \r\n".toList).2 "\r\n".toList).1 = some rest →
      deleteSpacesP (strtok rest "\r\n".toList).1 = some op →
      st'.IC = st.IC + 1 + operandWords (getAddressingMode op st.table)) ∧
    (getNumOperand (getOpcode inst) = 2 → ∀ rest op1 op2,
      deleteSpacesP (strtok (strtok line " \r\n".toList).2 "\r\n".toList).1 = some rest →
      deleteSpacesP (strtok rest ",\r\n".toList).1 = some op1 →
      deleteSpacesP (strtok (strtok rest ",\r\n".toList).2 "\r\n".toList).1 = some op2 →
      st'.IC = st.IC + 1 + operandWords (getAddressingMode op1 st.table) +
        operandWords (getAddressingMode op2 st.table) -
        (if getAddressingMode op1 st.table = 3 ∧ getAddressingMode op2 st.table = 3
         then 1 else 0)) := by
  obtain ⟨_, hd, hdc, _, _⟩ := EncodeInstruction_frame line st st' hrun
  obtain ⟨_, c0, c1⟩ := EncodeInstruction_cases line inst st st' hinst hrun herr
  refine ⟨hdc, hd, fun hk => ?_, fun hk rest op hr ho => ?_, fun hk rest op1 op2 hr ho1 ho2 => ?_⟩
  · rw [c0 hk]
  · obtain ⟨rest0, hr0, hops⟩ := c1 (by omega)
    rw [hr] at hr0
    simp only [Option.some.injEq] at hr0
    subst hr0
    exact (operands_advance _ _ _ _ _ hops herr).1 hk op ho
  · obtain ⟨rest0, hr0, hops⟩ := c1 (by omega)
    rw [hr] at hr0
    simp only [Option.some.injEq] at hr0
    subst hr0
    exact (operands_advance _ _ _ _ _ hops herr).2 hk op1 op2 ho1 ho2

/-- C35, failing input `inc` followed by two blanks: the operand is missing,
`EncodeInstruction` writes the opcode word and returns without error, and `IC`
does not advance (the claim gives at least 1); the next instruction is then
written onto the same word, so the two-line source ends with `IC = 1`. -/
theorem C35_missing_operand_keeps_IC :
    (EncodeInstruction "inc  \n".toList emptyState).map
      (fun st => (st.Error, st.IC, st.DC, st.Code 0)) = some (false, 0, 0, 448) ∧
    (assembleFile ["inc  \n".toList, "stop\n".toList]).map
      (fun st => (st.Error, st.IC, st.Code 0)) = some (false, 1, 960) := by
  decide!


/-! ## Register operands that stand alone -/

theorem encodeOperand_reg_true (a : Nat) (ha : a < 8) (i k : Nat) (opc : Int) (IC : Nat)
    (s s' : OperandState) (hf : findLabel s.table (regName a) = -1)
    (h : encodeOperand (regName a) i k opc IC s = some (s', true)) :
    s'.Code = insertBin (if i = 1 ∧ k = 2 then (3 : Int) * 16 else 3 * 4)
        (encodeRegisterOperand (regName a) s.Code i k IC s.is_reg s.word_count).1 IC ∧
    s'.word_count = (encodeRegisterOperand (regName a) s.Code i k IC s.is_reg s.word_count).2.2 := by
  cases huse : IsValidRegUse i k opc with
  | true =>
    rw [encodeOperand_reg a ha i k opc IC s hf huse] at h
    simp only [Option.some.injEq, Prod.mk.injEq, and_true] at h
    subst h
    exact ⟨rfl, rfl⟩
  | false =>
    exfalso
    unfold encodeOperand at h
    simp only [getAddressingMode_reg a ha s.table hf, IMMEDIATE, LABEL, MATRIX, REGISTER,
      huse] at h
    simp at h

/-- The word that `encodeRegisterOperand` writes for a register that is not the
second of two registers. -/
theorem encodeRegisterOperand_word (a : Nat) (ha : a < 8) (Code : Mem) (i k IC : Nat)
    (is_reg : Bool) (wc : Nat) :
    (k = 1 → (encodeRegisterOperand (regName a) Code i k IC is_reg wc).1 (IC + wc) =
      Code (IC + wc) ||| a <<< 2) ∧
    (k ≠ 1 → i = 1 → (encodeRegisterOperand (regName a) Code i k IC is_reg wc).1 (IC + wc) =
      Code (IC + wc) ||| a <<< 6) ∧
    (k ≠ 1 → i = 2 → is_reg = false →
      (encodeRegisterOperand (regName a) Code i k IC is_reg wc).1 (IC + wc) =
        Code (IC + wc) ||| a <<< 2) := by
  obtain ⟨_, _, hat, _⟩ := regName_facts a ha
  obtain ⟨e6, e2⟩ := reg_fields a a ha ha
  unfold encodeRegisterOperand
  simp only [hat]
  refine ⟨fun hk => ?_, fun hk hi => ?_, fun hk hi hr => ?_⟩
  · rw [if_pos hk]
    simp only []
    rw [insertBin_same, e2]
  · rw [if_neg hk, if_pos hi]
    simp only []
    rw [insertBin_same, e6]
  · subst hr
    subst hi
    rw [if_neg hk, if_neg (by decide), if_pos rfl]
    simp only [Bool.false_eq_true, if_false]
    rw [insertBin_same, e2]

/-- C32: a register operand `rN` (not a symbol of the table) that is not paired
with another register, in an instruction that `EncodeInstruction` encodes
without error at `IC`: as the sole operand it is OR-ed as `N << 2` into
`Code[IC+1]`, the word after the opcode word; as the first of two operands with
a second that is not a register, as `N << 6` into `Code[IC+1]`; as the second of
two operands with a first that is not a register, as `N << 2` into the word
behind the words of the first operand, `Code[IC+1+w]` with `w` 2 for a matrix
and 1 otherwise. Over a zeroed word the word is `N << 2` or `N << 6` itself. -/
theorem C32_lone_register (line inst : CStr) (st st' : AsmState) (n : Nat)
    (hinst : deleteSpacesP (strtok line " \r\n".toList).1 = some inst)
    (hrun : EncodeInstruction line st = some st') (herr : st'.Error = false)
    (hn : n < 8) (hf : findLabel st.table (regName n) = -1) :
    (getNumOperand (getOpcode inst) = 1 → ∀ rest,
      deleteSpacesP (strtok (strtok line " \r\n".toList).2 "\r\n".toList).1 = some rest →
      deleteSpacesP (strtok rest "\r\n".toList).1 = some (regName n) →
      st'.Code (st.IC + 1) = st.Code (st.IC + 1) ||| n <<< 2 ∧ st'.IC = st.IC + 2) ∧
    (getNumOperand (getOpcode inst) = 2 → ∀ rest op2,
      deleteSpacesP (strtok (strtok line " \r\n".toList).2 "\r\n".toList).1 = some rest →
      deleteSpacesP (strtok rest ",\r\n".toList).1 = some (regName n) →
      deleteSpacesP (strtok (strtok rest ",\r\n".toList).2 "\r\n".toList).1 = some op2 →
      getAddressingMode op2 st.table ≠ 3 →
      st'.Code (st.IC + 1) = st.Code (st.IC + 1) ||| n <<< 6 ∧
        st'.IC = st.IC + 2 + operandWords (getAddressingMode op2 st.table)) ∧
    (getNumOperand (getOpcode inst) = 2 → ∀ rest op1,
      deleteSpacesP (strtok (strtok line " \r\n".toList).2 "\r\n".toList).1 = some rest →
      deleteSpacesP (strtok rest ",\r\n".toList).1 = some op1 →
      deleteSpacesP (strtok (strtok rest ",\r\n".toList).2 "\r\n".toList).1 = some (regName n) →
      getAddressingMode op1 st.table ≠ 3 →
      st'.Code (st.IC + 1 + operandWords (getAddressingMode op1 st.table)) =
        st.Code (st.IC + 1 + operandWords (getAddressingMode op1 st.table)) ||| n <<< 2 ∧
        st'.IC = st.IC + 1 + operandWords (getAddressingMode op1 st.table) + 1) := by
  obtain ⟨_, _, c1⟩ := EncodeInstruction_cases line inst st st' hinst hrun herr
  refine ⟨fun hk rest hr ho => ?_, fun hk rest op2 hr ho1 ho2 hm2 => ?_,
    fun hk rest op1 hr ho1 ho2 hm1 => ?_⟩
  · obtain ⟨rest0, hr0, hops⟩ := c1 (by omega)
    rw [hr] at hr0
    simp only [Option.some.injEq] at hr0
    subst hr0
    rw [hk] at hops
    obtain ⟨s1, he, rfl⟩ := (EncodeOperands_turns _ _ _ _ _ hops herr).1 rfl _ ho
    obtain ⟨hc, hw⟩ := encodeOperand_reg_true n hn _ _ _ _ _ _ hf he
    obtain ⟨f1, _⟩ := encodeRegisterOperand_facts (regName n)
      (insertBin (getOpcode inst * 64) st.Code st.IC) 1 1 st.IC false 1
    obtain ⟨g1, _⟩ := encodeRegisterOperand_word n hn
      (insertBin (getOpcode inst * 64) st.Code st.IC) 1 1 st.IC false 1
    refine ⟨?_, ?_⟩
    · rw [(closeOperands_facts _ _ _).2.1, hc, insertBin_other _ _ _ _ (by (try simp only [operandStart]); omega)]
      simp only [operandStart]
      rw [g1 rfl, insertBin_other _ _ _ _ (by omega)]
    · rw [closeOperands_IC, hw]
      simp only [operandStart]
      rw [(f1 rfl).1]
  · obtain ⟨rest0, hr0, hops⟩ := c1 (by omega)
    rw [hr] at hr0
    simp only [Option.some.injEq] at hr0
    subst hr0
    rw [hk] at hops
    have hadv := (operands_advance _ _ _ _ _ hops herr).2 rfl _ _ ho1 ho2
    obtain ⟨s1, s2, he1, he2, rfl⟩ := (EncodeOperands_turns _ _ _ _ _ hops herr).2 rfl _ _ ho1 ho2
    obtain ⟨hc, hw⟩ := encodeOperand_reg_true n hn _ _ _ _ _ _ hf he1
    obtain ⟨_, f2, _⟩ := encodeRegisterOperand_facts (regName n)
      (insertBin (getOpcode inst * 64) st.Code st.IC) 1 2 st.IC false 1
    obtain ⟨_, g2, _⟩ := encodeRegisterOperand_word n hn
      (insertBin (getOpcode inst * 64) st.Code st.IC) 1 2 st.IC false 1
    have hfr := encodeOperand_frame _ _ _ _ _ _ _ _ he1
    have hwc1 : s1.word_count = 2 := by
      rw [hw]
      exact (f2 (by decide) rfl).1
    have hmode : getAddressingMode op2 s1.table ≠ 3 := by
      rw [getAddressingMode_rel op2 _ _ hfr.1]
      exact hm2
    have hkeep := encodeOperand_writes _ _ _ _ _ _ _ he2 (by omega) (st.IC + 1) (by (try simp only [operandStart]); omega)
      (Or.inl ⟨by (try simp only [operandStart]); omega, Or.inr (Or.inl hmode)⟩)
    refine ⟨?_, ?_⟩
    · rw [(closeOperands_facts _ _ _).2.1, hkeep, hc, insertBin_other _ _ _ _ (by (try simp only [operandStart]); omega)]
      simp only [operandStart]
      rw [g2 (by decide) rfl, insertBin_other _ _ _ _ (by omega)]
    · rw [hadv]
      simp only []
      rw [getAddressingMode_reg n hn st.table hf, if_neg (fun hc => hm2 hc.2)]
      have e3 : operandWords 3 = 1 := rfl
      rw [e3]
      omega
  · obtain ⟨rest0, hr0, hops⟩ := c1 (by omega)
    rw [hr] at hr0
    simp only [Option.some.injEq] at hr0
    subst hr0
    rw [hk] at hops
    have hadv := (operands_advance _ _ _ _ _ hops herr).2 rfl _ _ ho1 ho2
    obtain ⟨s1, s2, he1, he2, rfl⟩ := (EncodeOperands_turns _ _ _ _ _ hops herr).2 rfl _ _ ho1 ho2
    have hfr := encodeOperand_frame _ _ _ _ _ _ _ _ he1
    have hw1 := (encodeOperand_words _ _ _ _ _ _ _ he1).1 hm1
    have hwc1 : s1.word_count = 1 + operandWords (getAddressingMode op1 st.table) := hw1.1
    have hreg1 : s1.is_reg = false := hw1.2
    have hf1 : findLabel s1.table (regName n) = -1 := by
      rw [tableRel_findLabel SameAddr sameAddr_name _ _ hfr.1]
      exact hf
    obtain ⟨hc, hw⟩ := encodeOperand_reg_true n hn _ _ _ _ _ _ hf1 he2
    obtain ⟨_, _, g3⟩ := encodeRegisterOperand_word n hn s1.Code 2 2 st.IC s1.is_reg s1.word_count
    have hkeep := encodeOperand_writes _ _ _ _ _ _ _ he1 (le_refl 1) (st.IC + s1.word_count)
      (by rw [hwc1]; (try simp only [operandStart]); omega) (Or.inr (le_refl _))
    refine ⟨?_, ?_⟩
    · rw [(closeOperands_facts _ _ _).2.1, hc, Nat.add_assoc, ← hwc1,
        insertBin_other _ _ _ _ (by rw [hwc1]; (try simp only [operandStart]); omega), g3 (by decide) rfl hreg1, hkeep]
      simp only [operandStart]
      rw [insertBin_other _ _ _ _ (by rw [hwc1]; omega)]
    · rw [hadv]
      simp only []
      rw [getAddressingMode_reg n hn st.table hf, if_neg (fun hc => hm1 hc.1)]
      have e3 : operandWords 3 = 1 := rfl
      rw [e3]
      omega

/-- C32, witness: `inc r3` puts `3 << 2` into `Code[1]` and ends with `IC = 2`;
`cmp r3, #5` puts `3 << 6` into `Code[1]`; `cmp #5, r3` puts `3 << 2` into
`Code[2]`, behind the word of the immediate. -/
theorem C32_lone_register_witness :
    (((EncodeInstruction "inc r3\n".toList emptyState).getD emptyState).Code 1 = 3 <<< 2 ∧
      ((EncodeInstruction "inc r3\n".toList emptyState).getD emptyState).IC = 2) ∧
    (((EncodeInstruction "cmp r3, #5\n".toList emptyState).getD emptyState).Code 1 = 3 <<< 6 ∧
      ((EncodeInstruction "cmp r3, #5\n".toList emptyState).getD emptyState).IC = 3) ∧
    (((EncodeInstruction "cmp #5, r3\n".toList emptyState).getD emptyState).Code 2 = 3 <<< 2 ∧
      ((EncodeInstruction "cmp #5, r3\n".toList emptyState).getD emptyState).IC = 3) :=
  ⟨(C32_lone_register "inc r3\n".toList "inc".toList emptyState
      ((EncodeInstruction "inc r3\n".toList emptyState).getD emptyState) 3
      (by decide) (isSome_getD _ _ (by decide!)) (by decide!) (by decide) (by decide)).1
      (by decide) "r3".toList (by decide) (by decide),
    (C32_lone_register "cmp r3, #5\n".toList "cmp".toList emptyState
      ((EncodeInstruction "cmp r3, #5\n".toList emptyState).getD emptyState) 3
      (by decide) (isSome_getD _ _ (by decide!)) (by decide!) (by decide) (by decide)).2.1
      (by decide) "r3, #5".toList "#5".toList (by decide) (by decide) (by decide) (by decide),
    (C32_lone_register "cmp #5, r3\n".toList "cmp".toList emptyState
      ((EncodeInstruction "cmp #5, r3\n".toList emptyState).getD emptyState) 3
      (by decide) (isSome_getD _ _ (by decide!)) (by decide!) (by decide) (by decide)).2.2
      (by decide) "#5, r3".toList "#5".toList (by decide) (by decide) (by decide) (by decide)⟩


/-! ## The matrix flag of operands -/

theorem label_operand_flag (op : CStr) (t : LabelTable) (Code : Mem) (IC wc : Nat)
    (t' : LabelTable) (c' : Mem) (wc' : Nat)
    (h : encodeLabelOperand op t Code IC wc = some (true, t', c', wc')) :
    ∃ cur, lookupLabel t op = some cur ∧ cur.mat = false := by
  unfold encodeLabelOperand at h
  simp only [] at h
  by_cases h1 : findLabel t op = -1
  · rw [if_pos h1] at h
    simp at h
  rw [if_neg h1] at h
  by_cases h2 : findLabel t op < 0
  · rw [if_pos h2] at h
    simp at h
  rw [if_neg h2] at h
  split at h
  · simp at h
  · rename_i cur hcur
    by_cases h3 : cur.mat = true
    · rw [if_pos h3] at h
      simp at h
    refine ⟨cur, ?_, by simpa using h3⟩
    unfold lookupLabel
    rw [if_neg h2]
    exact hcur

theorem matrix_parse_name (op : CStr) (t : LabelTable) (r0 r1 : Nat) (name : CStr)
    (h : ValidateAndParseMatrixOperand op t = some (some (r0, r1, name))) :
    deleteSpacesP (strtok op "[".toList).1 = some name := by
  unfold ValidateAndParseMatrixOperand at h
  simp only [] at h
  by_cases c1 : (!isLegalBrackets (some op)) = true
  · rw [if_pos c1] at h; simp at h
  rw [if_neg c1] at h
  split at h
  · simp at h
  · rename_i tmp htmp
    by_cases c2 : tmp = []
    · rw [if_pos c2] at h; simp at h
    rw [if_neg c2] at h
    by_cases c3 : findLabel t tmp = -1
    · rw [if_pos c3] at h; simp at h
    rw [if_neg c3] at h
    by_cases c4 : findLabel t tmp < 0
    · rw [if_pos c4] at h; simp at h
    rw [if_neg c4] at h
    by_cases c5 : ((t.Labels.getD (findLabel t tmp).toNat []).any
        (fun l => decide (l.name = tmp) && decide (l.mat = false))) = true
    · rw [if_pos c5] at h; simp at h
    rw [if_neg c5] at h
    have hname : tmp = name := by
      repeat' (first | split_ifs at h | split at h)
      all_goals (simp only [Option.some.injEq, Prod.mk.injEq, reduceCtorEq] at h)
      all_goals exact h.2.2
    rw [← hname]
    exact htmp

theorem matrix_operand_flag (op : CStr) (t : LabelTable) (Code : Mem) (IC wc : Nat)
    (t' : LabelTable) (c' : Mem) (wc' : Nat)
    (h : encodeMatrixOperand op t Code IC wc = some (true, t', c', wc')) :
    ∃ name cur, deleteSpacesP (strtok op "[".toList).1 = some name ∧
      lookupLabel t name = some cur ∧ cur.mat = true := by
  unfold encodeMatrixOperand at h
  split at h
  · simp at h
  · simp at h
  · rename_i r0 r1 name hparse
    simp only [] at h
    by_cases h2 : findLabel t name < 0
    · rw [if_pos h2] at h
      simp at h
    rw [if_neg h2] at h
    split at h
    · simp at h
    · rename_i cur hcur
      have hlook : lookupLabel t name = some cur := by
        unfold lookupLabel
        rw [if_neg h2]
        exact hcur
      refine ⟨name, cur, matrix_parse_name op t r0 r1 name hparse, hlook, ?_⟩
      have hany := matrix_parse_facts op t r0 r1 name hparse
      obtain ⟨hn, hm⟩ := find_some_name _ _ _ hcur
      by_contra hmat
      apply hany
      rw [List.any_eq_true]
      have hf : cur.mat = false := by simpa using hmat
      exact ⟨cur, hm, by simp [hn, hf]⟩

/-- A matrix operand whose name is a symbol with the matrix flag clear is
refused by `ValidateAndParseMatrixOperand`. -/
theorem matrix_parse_rejects (op name : CStr) (t : LabelTable) (lab : Label)
    (hname : deleteSpacesP (strtok op "[".toList).1 = some name)
    (hlook : lookupLabel t name = some lab) (hmat : lab.mat = false) :
    ValidateAndParseMatrixOperand op t = some none := by
  obtain ⟨hf0, hf1, hchain⟩ := lookupLabel_some t name lab hlook
  obtain ⟨hn, hm⟩ := find_some_name _ _ _ hchain
  have hany : ((t.Labels.getD (findLabel t name).toNat []).any
      (fun l => decide (l.name = name) && decide (l.mat = false))) = true := by
    rw [List.any_eq_true]
    exact ⟨lab, hm, by simp [hn, hmat]⟩
  unfold ValidateAndParseMatrixOperand
  simp only [hname]
  by_cases c1 : (!isLegalBrackets (some op)) = true
  · rw [if_pos c1]
  rw [if_neg c1]
  by_cases c2 : name = []
  · rw [if_pos c2]
  rw [if_neg c2, if_neg hf1, if_neg (not_lt.mpr hf0), if_pos hany]

/-- C39: a turn of the operand loop accepts a direct operand only when the symbol
found for it has the matrix flag clear, and a matrix operand only when the
symbol found for its name (the text before the first `[`) has the matrix flag
set; `ProcessExternDefinition` stores only symbols with the external flag set
and the matrix flag clear; so in a table whose external symbols have the matrix
flag clear, every matrix operand that names an external symbol ends the loop
with the error flag set. The last part is the two-line source `.extern X`,
`jmp X[r1][r2]`, which is assembled with the error flag set. -/
theorem C39_matrix_flag :
    (∀ op i k opc IC s s', encodeOperand op i k opc IC s = some (s', true) →
      getAddressingMode op s.table = 1 →
      ∃ lab, lookupLabel s.table op = some lab ∧ lab.mat = false) ∧
    (∀ op i k opc IC s s', encodeOperand op i k opc IC s = some (s', true) →
      getAddressingMode op s.table = 2 →
      ∃ name lab, deleteSpacesP (strtok op "[".toList).1 = some name ∧
        lookupLabel s.table name = some lab ∧ lab.mat = true) ∧
    (∀ line t e, WF t → ∀ l ∈ allLabels (ProcessExternDefinition line t e).1,
      l ∈ allLabels t ∨ (l.ext = true ∧ l.mat = false)) ∧
    (∀ op name lab i k opc IC s, getAddressingMode op s.table = 2 →
      deleteSpacesP (strtok op "[".toList).1 = some name →
      lookupLabel s.table name = some lab → lab.ext = true →
      (∀ l ∈ allLabels s.table, l.ext = true → l.mat = false) →
      encodeOperand op i k opc IC s = some ({ s with Error := true }, false)) ∧
    (assembleFile [".extern X\n".toList, "jmp X[r1][r2]\n".toList]).map
      (fun st => st.Error) = some true := by
  refine ⟨?_, ?_, ?_, ?_, by decide!⟩
  · intro op i k opc IC s s' h hm
    unfold encodeOperand at h
    simp only [hm, IMMEDIATE, LABEL] at h
    rw [if_neg (by decide), if_pos trivial] at h
    split at h
    · simp at h
    · simp at h
    · rename_i t c w heq
      exact label_operand_flag _ _ _ _ _ _ _ _ heq
  · intro op i k opc IC s s' h hm
    unfold encodeOperand at h
    simp only [hm, IMMEDIATE, LABEL, MATRIX] at h
    rw [if_neg (by decide), if_neg (by decide), if_pos trivial] at h
    split at h
    · simp at h
    · simp at h
    · rename_i t c w heq
      exact matrix_operand_flag _ _ _ _ _ _ _ _ heq
  · intro line t e hwf l hl
    unfold ProcessExternDefinition at hl
    simp only [] at hl
    split_ifs at hl
    · exact Or.inl hl
    · exact Or.inl hl
    · exact Or.inl hl
    · exact Or.inl hl
    · rcases List.mem_cons.mp ((addLabel_facts t _ true false hwf).2.subset hl) with h1 | h1
      · rw [h1]
        exact Or.inr ⟨rfl, rfl⟩
      · exact Or.inl h1
  · intro op name lab i k opc IC s hm hname hlook hext hinv
    have hmat := hinv lab (lookup_mem _ _ _ hlook).1 hext
    have hp := matrix_parse_rejects op name s.table lab hname hlook hmat
    have henc : encodeMatrixOperand op s.table s.Code IC s.word_count =
        some (false, s.table, s.Code, s.word_count) := by
      unfold encodeMatrixOperand
      rw [hp]
    unfold encodeOperand
    simp only [hm, IMMEDIATE, LABEL, MATRIX, henc]
    rw [if_neg (by decide), if_neg (by decide), if_pos trivial]


/-! ## `reallocateLabels` -/

theorem or_keeps_low_bits (a b : Nat) (hb : b % 4 = 0) : (a ||| b) % 4 = a % 4 := by
  have e : (4 : Nat) = 2 ^ 2 := rfl
  rw [e] at hb ⊢
  apply Nat.eq_of_testBit_eq
  intro i
  have h2 := congrArg (fun x => x.testBit i) hb
  simp only [Nat.testBit_mod_two_pow, Nat.zero_testBit] at h2 ⊢
  rw [Nat.testBit_or]
  cases hd : decide (i < 2) <;> simp_all

theorem unresolved_word (t : LabelTable) (Code : Mem) (hnd : (allRefs t).Nodup)
    (q : Nat) (hq : q ∉ allRefs t) : reallocateLabels t Code q = Code q := by
  unfold reallocateLabels
  rw [foldl_flatten_chains]
  exact (patch_labels (allLabels t) Code hnd).2 q hq

/-- C36, counterexample: in the source `M: .mat [128][128]`, `X: stop`, `jmp X`
the label `X` gets the address 16484 and position 2 is recorded for it over the
word 2; `reallocateLabels` leaves the word `2 | ((16484 << 2) mod 2^16) = 402`,
not `2 | (16484 << 2) = 65938`. For the one-label table with address 16384 and
position 0 the word stays 0, not `16384 << 2`. -/
theorem C36_high_address_cut :
    (assembleFile highAddressSource).map (fun st => (st.Error, st.IC, st.DC, st.Code 2)) =
      some (false, 3, 16384, 402) ∧
    (assembleFile highAddressSource).map (fun st =>
      (lookupLabel st.table "X".toList).map (fun l => l.address)) = some (some 16484) ∧
    (assembleFile highAddressSource).map (fun st =>
      (lookupLabel st.table "X".toList).map (fun l => l.ref)) = some (some [2]) ∧
    2 ||| 16484 <<< 2 = 65938 ∧
    (allRefs highAddressTable).Nodup ∧
    reallocateLabels highAddressTable zeroMem 0 = 0 ∧
    zeroMem 0 ||| 16384 <<< 2 = 65536 := by
  decide!

/-- C36, amended: for every table in which each position is recorded at most
once, `reallocateLabels` leaves a position `p` recorded for a symbol as the old
`Code[p]` OR `(address << 2) mod 2^16` (which is `address << 2` when the address
is below 16384), so bits 1..0 of the word are preserved, and it leaves every
word at an unrecorded position unchanged; the table is only read. -/
theorem C36_reallocate (t : LabelTable) (Code : Mem) (hnd : (allRefs t).Nodup) :
    (∀ l ∈ allLabels t, ∀ p ∈ l.ref,
      reallocateLabels t Code p = Code p ||| ((l.address <<< 2) % 65536) ∧
      reallocateLabels t Code p % 4 = Code p % 4 ∧
      (l.address < 16384 → reallocateLabels t Code p = Code p ||| l.address <<< 2)) ∧
    (∀ q, q ∉ allRefs t → reallocateLabels t Code q = Code q) := by
  refine ⟨fun l hl p hp => ?_, fun q hq => unresolved_word t Code hnd q hq⟩
  have h := resolved_word t Code hnd l hl p hp
  rw [Nat.shiftLeft_eq]
  have e : (2 : Nat) ^ 2 = 4 := rfl
  rw [e]
  refine ⟨h, ?_, fun hlt => ?_⟩
  · rw [h]
    exact or_keeps_low_bits _ _ (by omega)
  · rw [h, Nat.mod_eq_of_lt (by omega)]

/-- C36, witness: the table with the label `X` at address 103 and the recorded
position 2, over the word 2 at that position: the word becomes
`2 | (103 << 2) = 414`, and the word at position 1 stays. -/
theorem C36_reallocate_witness :
    reallocateLabels lowAddressTable (setWord zeroMem 2 2) 2 = 2 ||| 103 <<< 2 ∧
    reallocateLabels lowAddressTable (setWord zeroMem 2 2) 2 % 4 = 2 ∧
    reallocateLabels lowAddressTable (setWord zeroMem 2 2) 1 = 0 :=
  ⟨((C36_reallocate lowAddressTable (setWord zeroMem 2 2) (by decide)).1
      { name := "X".toList, ext := false, ent := false, mat := false, address := 103,
        ref := [2], dc := 0 } (by decide) 2 (by decide)).2.2 (by decide),
    ((C36_reallocate lowAddressTable (setWord zeroMem 2 2) (by decide)).1
      { name := "X".toList, ext := false, ent := false, mat := false, address := 103,
        ref := [2], dc := 0 } (by decide) 2 (by decide)).2.1,
    (C36_reallocate lowAddressTable (setWord zeroMem 2 2) (by decide)).2 1 (by decide)⟩


/-! ## Words outside the reserved ranges -/

/-- C37, failing input `.mat [1][1] 1,2,3` at `DC = 0`: the line reserves the one
word `Data[0]` (`DC` becomes 1) and sets no error, but `EncodeMatrixLine` stores
all three values, so it writes `Data[1]` and `Data[2]` outside `Data[0 .. 1)`; in
the source `M: .mat [1][1] 1,2,3`, `N: .data 4` the word of `N` is then OR-ed
onto `Data[1]`, which ends as `2 | 4 = 6`. -/
theorem C37_mat_list_overruns :
    (EncodeMatrixLine ".mat [1][1] 1,2,3\n".toList zeroMem 0 false).map
      (fun r => (r.2.1, r.2.2, r.1 0, r.1 1, r.1 2)) = some (1, false, 1, 2, 3) ∧
    (assembleFile longListSource).map
      (fun st => (st.Error, st.DC, st.Data 0, st.Data 1, st.Data 2)) =
      some (false, 2, 1, 6, 3) := by
  decide!

/-- C40, failing inputs: a source of 257 lines `stop` is assembled without error,
the last opcode word is written at index 256 and `IC` ends as 257; the source
`M: .mat [20][20]`, `N: .data 7` is assembled without error, the data word is
written at index 400 and `DC` ends as 401. -/
theorem C40_image_outgrows_arrays :
    MAX_LENGTH = 256 ∧
    (assembleFile (stopLines 257)).map (fun st => (st.Error, st.IC, st.Code 256)) =
      some (false, 257, 960) ∧
    (assembleFile farDataSource).map (fun st => (st.Error, st.DC, st.Data 400)) =
      some (false, 401, 7) := by
  decide!


/-! ## A table grown by `resizeLabelTable` alone -/

theorem resize_iterate (k : Nat) :
    WF (Nat.iterate resizeLabelTable k (create_LabelTable TABLE_SIZE)) ∧
    allLabels (Nat.iterate resizeLabelTable k (create_LabelTable TABLE_SIZE)) = [] ∧
    (Nat.iterate resizeLabelTable k (create_LabelTable TABLE_SIZE)).table_size = 2 ^ k * 10 ∧
    (Nat.iterate resizeLabelTable k (create_LabelTable TABLE_SIZE)).num_labels = 0 := by
  induction k with
  | zero =>
    refine ⟨WF_create TABLE_SIZE (by decide), ?_, rfl, rfl⟩
    simp [allLabels, create_LabelTable]
  | succ k ih =>
    obtain ⟨hwf, hall, hsize, hnum⟩ := ih
    obtain ⟨r1, r2, r3, r4⟩ := resize_facts _ hwf
    rw [Function.iterate_succ_apply']
    refine ⟨r1, ?_, ?_, ?_⟩
    · rw [hall] at r2
      exact List.Perm.eq_nil r2
    · rw [r3, hsize, pow_succ]
      omega
    · rw [r4, hnum]

theorem resizedTable_facts :
    WF resizedTable ∧ allLabels resizedTable = [] ∧ resizedTable.table_size = 81920 ∧
    resizedTable.num_labels = 0 := by
  obtain ⟨h1, h2, h3, h4⟩ := resize_iterate 13
  exact ⟨h1, h2, by rw [resizedTable, h3]; norm_num, h4⟩

theorem twice_not_nodup (ls : List Label) (c : Label) (h : ls.Perm [c, c]) :
    ¬ (ls.map (fun l => l.name)).Nodup := by
  intro hnd
  have h2 := (h.map (fun l => l.name)).nodup_iff.mp hnd
  simp at h2

/-- C38, failing sequence: `create_LabelTable(10)`, thirteen calls of
`resizeLabelTable` (81920 chains, no symbol), then two calls of
`ProcessExternDefinition` on `.extern NAME` with the name `nameOf 30720`, whose
hash is 65535 modulo 81920. The first call stores the name; in the second
`findLabel` returns `(short)65535 = -1`, the name is taken for new and stored
again with the error flag clear: the table holds two symbols of the same name.
Each symbol does sit in the chain of its hash (the table is well formed). -/
theorem C38_same_name_stored_twice :
    ∃ t1 t2, ProcessExternDefinition (externLine (nameOf 30720)) resizedTable false = (t1, false) ∧
      ProcessExternDefinition (externLine (nameOf 30720)) t1 false = (t2, false) ∧
      resizedTable.table_size = 81920 ∧ allLabels resizedTable = [] ∧
      hash (nameOf 30720) % 81920 = 65535 ∧ findLabel t1 (nameOf 30720) = -1 ∧
      (allLabels t2).Perm
        [createLabel (nameOf 30720) true false, createLabel (nameOf 30720) true false] ∧
      ¬ ((allLabels t2).map (fun l => l.name)).Nodup ∧ WF t2 := by
  obtain ⟨hwf, hall, hsize, hnum⟩ := resizedTable_facts
  have hv := validLabel_nameOf 30720
  have hh : hash (nameOf 30720) % 81920 = 65535 := by
    rw [hash_nameOf 30720 (by norm_num)]
  have hf0 : findLabel resizedTable (nameOf 30720) = -1 := by
    rw [findLabel_eq _ hwf, if_neg]
    rw [hall]
    simp
  obtain ⟨hwf1, hperm1⟩ := addLabel_facts resizedTable (nameOf 30720) true false hwf
  rw [hall] at hperm1
  have hsize1 : (addLabel resizedTable (nameOf 30720) true false).table_size = 81920 := by
    have h := (addLabel_num_size resizedTable (nameOf 30720) true false).2
    simp only [] at h
    rw [h, hsize, hnum, if_neg]
    split_ifs <;> omega
  have hf1 : findLabel (addLabel resizedTable (nameOf 30720) true false) (nameOf 30720) = -1 := by
    rw [findLabel_eq _ hwf1, if_pos, hsize1, hh]
    · decide
    · exact ⟨createLabel (nameOf 30720) true false,
        hperm1.symm.subset (List.mem_cons_self _ _), rfl⟩
  obtain ⟨hwf2, hperm2⟩ := addLabel_facts (addLabel resizedTable (nameOf 30720) true false)
    (nameOf 30720) true false hwf1
  have hperm : (allLabels (addLabel (addLabel resizedTable (nameOf 30720) true false)
      (nameOf 30720) true false)).Perm
      [createLabel (nameOf 30720) true false, createLabel (nameOf 30720) true false] :=
    hperm2.trans (List.Perm.cons _ hperm1)
  refine ⟨addLabel resizedTable (nameOf 30720) true false,
    addLabel (addLabel resizedTable (nameOf 30720) true false) (nameOf 30720) true false,
    ?_, ?_, hsize, hall, hh, hf1, hperm, ?_, hwf2⟩
  · rw [ProcessExternDefinition_valid _ _ _ hv, if_neg (not_not.mpr hf0)]
  · rw [ProcessExternDefinition_valid _ _ _ hv, if_neg (not_not.mpr hf1)]
  · exact twice_not_nodup _ _ hperm


end Assembler
